import Mathlib

/-!
# Semaphore protocols of `di-uoa-os`

A verification development for the two protocol families of the repository:

* `Rendezvous`: one writer and `READERS_COUNT` readers around a one-place exchange buffer
  (`onebuf_readers_writer/`), in the two variants `per_item_read_sem.c` and `swap_read_sem.c`;
* `SwapBuf`: producers and consumers around two swappable buffers
  (`swapbufs_consumers_producers/buffer.c`, `three_sem.c`);
* `Direct`: the functions of the one-file version `swap_conprod.c`.

Every C statement that touches shared memory or a semaphore is one atomic step of a thread;
a system state holds the shared variables, the program point of every thread and the list of
the visible events executed so far.  A blocked `sem_wait` is a step that is not enabled.
C `int` counters and indices are natural numbers: they are never decremented below zero and
the theorems bound them by the build constants.
-/

/-- POSIX `sem_wait` on a counter: takes one permit, or is not enabled (`none`) at zero. -/
def sem_wait (n : Nat) : Option Nat :=
  if 0 < n then some (n - 1) else none

/-- POSIX `sem_post` on a counter: adds one permit. -/
def sem_post (n : Nat) : Nat :=
  n + 1

namespace Rendezvous

/-- Which protocol file is linked in: `per_item_read_sem.c` or `swap_read_sem.c`. -/
inductive Variant
  | perItem
  | swap
  deriving DecidableEq, Repr

/-- Build constants of `main.h` and the contents of `protectedItemArray`. -/
structure Config where
  variant : Variant
  READERS_COUNT : Nat
  ITEM_COUNT : Nat
  protectedItemArray : Nat → Int

/-- Index of the read semaphore used for an item: `itemId` in `per_item_read_sem.c`
(`sharedSemMayReadPerItem[itemId]`), `itemId % 2` in `swap_read_sem.c`. -/
def readSemaphoreId : Variant → Nat → Nat
  | .perItem, itemId => itemId
  | .swap, itemId => itemId % 2

/-- Number of read semaphores: `ITEM_COUNT` in `per_item_read_sem.c`, 2 in `swap_read_sem.c`. -/
def readSemaphoreCount (cfg : Config) : Nat :=
  match cfg.variant with
  | .perItem => cfg.ITEM_COUNT
  | .swap => 2

/-- Function `itemArrayReadValue` of `item_array.c`. -/
def itemArrayReadValue (cfg : Config) (itemId : Nat) : Int :=
  cfg.protectedItemArray itemId

/-- Function `itemArrayIsValueCorrect` of `item_array.c`. -/
def itemArrayIsValueCorrect (cfg : Config) (itemId : Nat) (testItemValue : Int) : Bool :=
  testItemValue == cfg.protectedItemArray itemId

/-- The shared variables of `exchange_buffer.c` and of the protocol file. -/
structure Shared where
  sharedExchangeBufferValue : Int
  sharedFinishedReaderCount : Nat
  sharedSemMayWrite : Nat
  sharedSemMayRead : List Nat
  deriving DecidableEq, Repr

/-- Function `exchangeBufferReadValue`. -/
def exchangeBufferReadValue (sh : Shared) : Int :=
  sh.sharedExchangeBufferValue

/-- Function `exchangeBufferWriteValue`. -/
def exchangeBufferWriteValue (sh : Shared) (itemValue : Int) : Shared :=
  { sh with sharedExchangeBufferValue := itemValue }

/-- Functions `exchangeBufferInit` and `protocolInit`, run by `main` before any thread. -/
def protocolInit (cfg : Config) : Shared :=
  { sharedExchangeBufferValue := -1
    sharedFinishedReaderCount := 0
    sharedSemMayWrite := 1
    sharedSemMayRead := List.replicate (readSemaphoreCount cfg) 0 }

/-- A semaphore of the protocol. -/
inductive SemId
  | mayWrite
  | mayRead (idx : Nat)
  deriving DecidableEq, Repr

/-- Visible events: semaphore operations and accesses to the shared variables. -/
inductive Ev
  | semWait (s : SemId)
  | semPost (s : SemId)
  | write (itemId : Nat) (itemValue : Int)
  | read (itemId : Nat) (itemValue : Int)
  | incr (newCount : Nat)
  | reset
  deriving DecidableEq, Repr

/-- Thread names. -/
inductive Tid
  | writer
  | reader (t : Nat)
  deriving DecidableEq, Repr

/-- Program points of `readerThreadTask` (main.c) with `protocolReadValue` inlined.
`i` is the loop variable and `itemId`, `v` is the local `itemValue`. -/
inductive RPc
  /-- main.c:78, the loop test `i < ITEM_COUNT` -/
  | loop (i : Nat)
  /-- per_item_read_sem.c:45, swap_read_sem.c:47, `sem_wait` on the read semaphore -/
  | semWait (i : Nat)
  /-- per_item_read_sem.c:48, swap_read_sem.c:50, `itemValue = exchangeBufferReadValue(..)` -/
  | read (i : Nat)
  /-- per_item_read_sem.c:51, swap_read_sem.c:53, `sharedFinishedReaderCount++` -/
  | incr (i : Nat) (v : Int)
  /-- per_item_read_sem.c:53, swap_read_sem.c:55, `if (sharedFinishedReaderCount == READERS_COUNT)` -/
  | test (i : Nat) (v : Int)
  /-- per_item_read_sem.c:57, swap_read_sem.c:59, `sharedFinishedReaderCount = 0` -/
  | reset (i : Nat) (v : Int)
  /-- per_item_read_sem.c:62, swap_read_sem.c:64, `sem_post(&sharedSemMayWrite)` -/
  | postWrite (i : Nat) (v : Int)
  /-- per_item_read_sem.c:65, swap_read_sem.c:67, `sem_post` on the read semaphore -/
  | postRead (i : Nat) (v : Int)
  /-- The `return itemValue` of the protocol file, then main.c:81-90: the correctness check and `i++` -/
  | check (i : Nat) (v : Int)
  /-- main.c:97, after the loop -/
  | done
  deriving DecidableEq, Repr

/-- Local state of one reader thread: program point and `wrongReadCount`. -/
structure Reader where
  pc : RPc
  wrongReadCount : Nat
  deriving DecidableEq, Repr

/-- Program points of `writerThreadTask` (main.c) with `protocolWriteValue` inlined. -/
inductive WPc
  /-- main.c:41, the loop test `i < ITEM_COUNT` -/
  | loop (i : Nat)
  /-- per_item_read_sem.c:86, swap_read_sem.c:87, `sem_wait(&sharedSemMayWrite)` -/
  | semWait (i : Nat) (v : Int)
  /-- per_item_read_sem.c:89, swap_read_sem.c:90, `exchangeBufferWriteValue(.., itemValue)` -/
  | write (i : Nat) (v : Int)
  /-- per_item_read_sem.c:94, swap_read_sem.c:96, `sem_post` on the read semaphore -/
  | post (i : Nat) (v : Int)
  /-- main.c:45, after the loop -/
  | done
  deriving DecidableEq, Repr

/-- One step of the writer thread: new shared state, new program point, visible event. -/
def writerStep (cfg : Config) (sh : Shared) : WPc → Option (Shared × WPc × Option Ev)
  | .loop i =>
      if i < cfg.ITEM_COUNT then some (sh, .semWait i (itemArrayReadValue cfg i), none)
      else some (sh, .done, none)
  | .semWait i v =>
      match sem_wait sh.sharedSemMayWrite with
      | none => none
      | some c => some ({ sh with sharedSemMayWrite := c }, .write i v, some (.semWait .mayWrite))
  | .write i v => some (exchangeBufferWriteValue sh v, .post i v, some (.write i v))
  | .post i _ =>
      let k := readSemaphoreId cfg.variant i
      some ({ sh with sharedSemMayRead := sh.sharedSemMayRead.set k (sem_post (sh.sharedSemMayRead.getD k 0)) },
        .loop (i + 1), some (.semPost (.mayRead k)))
  | .done => none

/-- One step of a reader thread: new shared state, new local state, visible event. -/
def readerStep (cfg : Config) (sh : Shared) (r : Reader) : Option (Shared × Reader × Option Ev) :=
  match r.pc with
  | .loop i =>
      if i < cfg.ITEM_COUNT then some (sh, { r with pc := .semWait i }, none)
      else some (sh, { r with pc := .done }, none)
  | .semWait i =>
      let k := readSemaphoreId cfg.variant i
      match sem_wait (sh.sharedSemMayRead.getD k 0) with
      | none => none
      | some c =>
          some ({ sh with sharedSemMayRead := sh.sharedSemMayRead.set k c }, { r with pc := .read i },
            some (.semWait (.mayRead k)))
  | .read i =>
      some (sh, { r with pc := .incr i (exchangeBufferReadValue sh) }, some (.read i (exchangeBufferReadValue sh)))
  | .incr i v =>
      some ({ sh with sharedFinishedReaderCount := sh.sharedFinishedReaderCount + 1 }, { r with pc := .test i v },
        some (.incr (sh.sharedFinishedReaderCount + 1)))
  | .test i v =>
      if sh.sharedFinishedReaderCount = cfg.READERS_COUNT then some (sh, { r with pc := .reset i v }, none)
      else some (sh, { r with pc := .postRead i v }, none)
  | .reset i v =>
      some ({ sh with sharedFinishedReaderCount := 0 }, { r with pc := .postWrite i v }, some .reset)
  | .postWrite i v =>
      some ({ sh with sharedSemMayWrite := sem_post sh.sharedSemMayWrite }, { r with pc := .check i v },
        some (.semPost .mayWrite))
  | .postRead i v =>
      let k := readSemaphoreId cfg.variant i
      some ({ sh with sharedSemMayRead := sh.sharedSemMayRead.set k (sem_post (sh.sharedSemMayRead.getD k 0)) },
        { r with pc := .check i v }, some (.semPost (.mayRead k)))
  | .check i v =>
      if itemArrayIsValueCorrect cfg i v then some (sh, { r with pc := .loop (i + 1) }, none)
      else some (sh, { pc := .loop (i + 1), wrongReadCount := r.wrongReadCount + 1 }, none)
  | .done => none

/-- A system state: shared variables, every thread, and the visible events so far. -/
structure State where
  sh : Shared
  writer : WPc
  readers : List Reader
  trace : List (Tid × Ev)
  deriving DecidableEq, Repr

/-- State set up by `main` (main.c:118-131): initialised variables, all threads created. -/
def init (cfg : Config) : State :=
  { sh := protocolInit cfg
    writer := .loop 0
    readers := List.replicate cfg.READERS_COUNT { pc := .loop 0, wrongReadCount := 0 }
    trace := [] }

/-- Extend a trace by the event of a step, if the step is visible. -/
def logEv (tr : List (Tid × Ev)) (who : Tid) : Option Ev → List (Tid × Ev)
  | none => tr
  | some e => tr ++ [(who, e)]

/-- One scheduling step: the chosen thread executes its next statement. -/
def step (cfg : Config) (s : State) : Tid → Option State
  | .writer =>
      match writerStep cfg s.sh s.writer with
      | none => none
      | some (sh, w, e) => some { s with sh := sh, writer := w, trace := logEv s.trace .writer e }
  | .reader t =>
      match s.readers[t]? with
      | none => none
      | some r =>
          match readerStep cfg s.sh r with
          | none => none
          | some (sh, r1, e) =>
              some { s with sh := sh, readers := s.readers.set t r1, trace := logEv s.trace (.reader t) e }

/-- Run a schedule (the list of threads that move, in order) from a state. -/
def run (cfg : Config) : State → List Tid → Option State
  | s, [] => some s
  | s, a :: as => (step cfg s a).bind fun s1 => run cfg s1 as

/-- States reachable from `init` under some interleaving. -/
def Reachable (cfg : Config) (s : State) : Prop :=
  ∃ sched, run cfg (init cfg) sched = some s

/-- A reader is between a successful `sem_wait` and its `sem_post`. -/
def RPc.holds : RPc → Bool
  | .read _ => true
  | .incr _ _ => true
  | .test _ _ => true
  | .reset _ _ => true
  | .postWrite _ _ => true
  | .postRead _ _ => true
  | _ => false

/-- The writer is between its `sem_wait` and its `sem_post`. -/
def WPc.holds : WPc → Bool
  | .write _ _ => true
  | .post _ _ => true
  | _ => false

/-- Number of `exchangeBufferWriteValue` calls the writer has executed. -/
def WPc.stores (cfg : Config) : WPc → Nat
  | .loop i => i
  | .semWait i _ => i
  | .write i _ => i
  | .post i _ => i + 1
  | .done => cfg.ITEM_COUNT

/-- Number of `exchangeBufferReadValue` calls a reader has executed. -/
def RPc.loads (cfg : Config) : RPc → Nat
  | .loop i => i
  | .semWait i => i
  | .read i => i
  | .incr i _ => i + 1
  | .test i _ => i + 1
  | .reset i _ => i + 1
  | .postWrite i _ => i + 1
  | .postRead i _ => i + 1
  | .check i _ => i + 1
  | .done => cfg.ITEM_COUNT

/-- Reader program points possible while the write permit for item `i` is outstanding:
the reader is through with every item before `i`. -/
def RPc.atW (cfg : Config) (i : Nat) : RPc → Prop
  | .loop j => j = i
  | .semWait j => j = i ∧ i < cfg.ITEM_COUNT
  | .postWrite j v => j + 1 = i ∧ v = cfg.protectedItemArray j
  | .check j v => j + 1 = i ∧ v = cfg.protectedItemArray j
  | .done => i = cfg.ITEM_COUNT
  | _ => False

/-- Reader program points possible while the read permit of item `i` is outstanding. -/
def RPc.atR (cfg : Config) (i : Nat) : RPc → Prop
  | .loop j => j = i ∨ j = i + 1
  | .semWait j => (j = i ∨ j = i + 1) ∧ j < cfg.ITEM_COUNT
  | .read j => j = i
  | .incr j v => j = i ∧ v = cfg.protectedItemArray j
  | .test j v => j = i ∧ v = cfg.protectedItemArray j
  | .reset j v => j = i ∧ v = cfg.protectedItemArray j
  | .postRead j v => j = i ∧ v = cfg.protectedItemArray j
  | .check j v => (j + 1 = i ∨ j = i) ∧ v = cfg.protectedItemArray j
  | .postWrite _ _ => False
  | .done => i + 1 = cfg.ITEM_COUNT

/-- The reader has already added itself to `sharedFinishedReaderCount` for item `i`. -/
def RPc.credited (i : Nat) : RPc → Bool
  | .loop j => j == i + 1
  | .semWait j => j == i + 1
  | .read _ => false
  | .incr _ _ => false
  | .test _ _ => true
  | .reset _ _ => true
  | .postRead _ _ => true
  | .check j _ => j == i
  | .postWrite _ _ => false
  | .done => true

/-- Writer program points possible while the write permit for item `i` is outstanding. -/
def WPc.atW (cfg : Config) (i : Nat) (slot : Int) : WPc → Prop
  | .loop j => j = i
  | .semWait j v => j = i ∧ i < cfg.ITEM_COUNT ∧ v = cfg.protectedItemArray i
  | .write j v => j = i ∧ i < cfg.ITEM_COUNT ∧ v = cfg.protectedItemArray i
  | .post j v => j = i ∧ i < cfg.ITEM_COUNT ∧ v = cfg.protectedItemArray i ∧ slot = cfg.protectedItemArray i
  | .done => i = cfg.ITEM_COUNT

/-- Writer program points possible while the read permit of item `i` is outstanding. -/
def WPc.atR (cfg : Config) (i : Nat) : WPc → Prop
  | .loop j => j = i + 1
  | .semWait j v => j = i + 1 ∧ j < cfg.ITEM_COUNT ∧ v = cfg.protectedItemArray j
  | .done => i + 1 = cfg.ITEM_COUNT
  | _ => False

/-- Round `i` has not been published yet: the permit is with `sharedSemMayWrite`, with the
writer, or with the last reader of item `i - 1` on its way to post `sharedSemMayWrite`. -/
def WPhase (cfg : Config) (i : Nat) (s : State) : Prop :=
  i ≤ cfg.ITEM_COUNT ∧ s.sh.sharedFinishedReaderCount = 0 ∧ s.sh.sharedSemMayRead.sum = 0 ∧
  s.writer.atW cfg i s.sh.sharedExchangeBufferValue ∧ ∀ r ∈ s.readers, r.pc.atW cfg i

/-- Item `i` is published and being read: the permit is with a read semaphore or a reader. -/
def RPhase (cfg : Config) (i : Nat) (s : State) : Prop :=
  i < cfg.ITEM_COUNT ∧ s.sh.sharedSemMayWrite = 0 ∧ s.writer.atR cfg i ∧
  s.sh.sharedExchangeBufferValue = cfg.protectedItemArray i ∧
  (∀ r ∈ s.readers, r.pc.atR cfg i) ∧
  (∀ k x, s.sh.sharedSemMayRead[k]? = some x → x ≠ 0 → k = readSemaphoreId cfg.variant i) ∧
  s.sh.sharedFinishedReaderCount = s.readers.countP (fun r => r.pc.credited i) ∧
  (∀ r ∈ s.readers, ∀ j v, r.pc = .reset j v → s.sh.sharedFinishedReaderCount = cfg.READERS_COUNT)

/-- Total number of permits: semaphore counts plus threads between acquire and release. -/
def permits (s : State) : Nat :=
  s.sh.sharedSemMayWrite + s.sh.sharedSemMayRead.sum + (if s.writer.holds then 1 else 0) +
    s.readers.countP (fun r => r.pc.holds)

/-- Event is a store to the exchange buffer. -/
def isWrite : Tid × Ev → Bool
  | (_, .write _ _) => true
  | _ => false

/-- Event is a load from the exchange buffer. -/
def isRead : Tid × Ev → Bool
  | (_, .read _ _) => true
  | _ => false

/-- The invariant of the rendezvous protocol. -/
structure Inv (cfg : Config) (s : State) : Prop where
  nreaders : s.readers.length = cfg.READERS_COUNT
  nsems : s.sh.sharedSemMayRead.length = readSemaphoreCount cfg
  token : permits s = 1
  right : ∀ r ∈ s.readers, r.wrongReadCount = 0
  phase : (∃ i, WPhase cfg i s) ∨ (∃ i, RPhase cfg i s)
  nwrites : s.trace.countP isWrite = s.writer.stores cfg
  nreads : s.trace.countP isRead = (s.readers.map fun r => r.pc.loads cfg).sum

/-- What must hold of a visible event `x` given the events `pre` executed before it:
a load of item `i` sees the value of item `i` after exactly `i + 1` stores; the store of
item `i` comes after exactly `i` stores and `READERS_COUNT * i` loads; a post of
`sharedSemMayWrite` is done by a reader right after its own increment of
`sharedFinishedReaderCount` to `READERS_COUNT` and its reset. -/
def EvOK (cfg : Config) (pre : List (Tid × Ev)) : Tid × Ev → Prop
  | (_, .read i v) => v = cfg.protectedItemArray i ∧ pre.countP isWrite = i + 1
  | (_, .write i v) =>
      v = cfg.protectedItemArray i ∧ pre.countP isWrite = i ∧ pre.countP isRead = cfg.READERS_COUNT * i
  | (who, .semPost .mayWrite) =>
      ∃ t pre0, who = .reader t ∧ pre = pre0 ++ [(.reader t, .incr cfg.READERS_COUNT), (.reader t, .reset)]
  | _ => True

/-- Every event of a trace satisfies `EvOK` with respect to the events before it. -/
def TraceOK (cfg : Config) (tr : List (Tid × Ev)) : Prop :=
  ∀ pre post x, tr = pre ++ x :: post → EvOK cfg pre x

/-- The last events of the trace while reader `t` is between its increment of
`sharedFinishedReaderCount` and its post of `sharedSemMayWrite`. -/
def PendingAt (cfg : Config) (s : State) (t : Nat) (r : Reader) : Prop :=
  (∀ i v, r.pc = .test i v →
      ∃ pre0, s.trace = pre0 ++ [(.reader t, .incr s.sh.sharedFinishedReaderCount)]) ∧
    (∀ i v, r.pc = .reset i v → ∃ pre0, s.trace = pre0 ++ [(.reader t, .incr cfg.READERS_COUNT)]) ∧
    (∀ i v, r.pc = .postWrite i v →
      ∃ pre0, s.trace = pre0 ++ [(.reader t, .incr cfg.READERS_COUNT), (.reader t, .reset)])

/-- Clause `PendingAt` for every reader. -/
def PendingOK (cfg : Config) (s : State) : Prop :=
  ∀ t r, s.readers[t]? = some r → PendingAt cfg s t r

/-- Item of the `protocolReadValue` call a reader is inside of, if any. -/
def RPc.pendingItem : RPc → Option Nat
  | .semWait i => some i
  | .read i => some i
  | .incr i _ => some i
  | .test i _ => some i
  | .reset i _ => some i
  | .postWrite i _ => some i
  | .postRead i _ => some i
  | _ => none

/-- Item of the `protocolWriteValue` call the writer is inside of, if any. -/
def WPc.pendingItem : WPc → Option Nat
  | .semWait i _ => some i
  | .write i _ => some i
  | .post i _ => some i
  | _ => none

/-- Configuration running `per_item_read_sem.c`. -/
def perItemConfig (readers items : Nat) (values : Nat → Int) : Config :=
  { variant := .perItem, READERS_COUNT := readers, ITEM_COUNT := items, protectedItemArray := values }

/-- Configuration running `swap_read_sem.c`. -/
def swapConfig (readers items : Nat) (values : Nat → Int) : Config :=
  { variant := .swap, READERS_COUNT := readers, ITEM_COUNT := items, protectedItemArray := values }

/-- Two readers, two items with the values 40 and 41. -/
def demoValues : Nat → Int
  | 0 => 40
  | _ => 41

/-- A schedule: the writer publishes item 0, reader 0 and then reader 1 read it, the writer
publishes item 1. -/
def demoSchedule : List Tid :=
  [.writer, .writer, .writer, .writer,
   .reader 0, .reader 0, .reader 0, .reader 0, .reader 0, .reader 0,
   .reader 1, .reader 1, .reader 1, .reader 1, .reader 1, .reader 1, .reader 1, .reader 1,
   .writer, .writer, .writer, .writer]

/-- The state `demoSchedule` leads to in both variants with two items: read semaphore 1
holds the permit of item 1. -/
def demoState : State :=
  { sh := { sharedExchangeBufferValue := 41, sharedFinishedReaderCount := 0, sharedSemMayWrite := 0,
            sharedSemMayRead := [0, 1] }
    writer := .loop 2
    readers := [{ pc := .check 0 40, wrongReadCount := 0 }, { pc := .loop 1, wrongReadCount := 0 }]
    trace := [(.writer, .semWait .mayWrite), (.writer, .write 0 40), (.writer, .semPost (.mayRead 0)),
      (.reader 0, .semWait (.mayRead 0)), (.reader 0, .read 0 40), (.reader 0, .incr 1),
      (.reader 0, .semPost (.mayRead 0)),
      (.reader 1, .semWait (.mayRead 0)), (.reader 1, .read 0 40), (.reader 1, .incr 2),
      (.reader 1, .reset), (.reader 1, .semPost .mayWrite),
      (.writer, .semWait .mayWrite), (.writer, .write 1 41), (.writer, .semPost (.mayRead 1))] }

/-- What keeps the protocol going: a reader on its way to re-post the read semaphore, and
a read semaphore holding the permit, mean that not all readers have been counted yet. -/
def Live (cfg : Config) (s : State) : Prop :=
  (∀ r ∈ s.readers, ∀ j v, r.pc = .postRead j v →
    s.sh.sharedFinishedReaderCount ≠ cfg.READERS_COUNT) ∧
  (s.sh.sharedSemMayRead.sum ≠ 0 → s.sh.sharedFinishedReaderCount ≠ cfg.READERS_COUNT)

/-- Number of statements the writer still has to execute, at most. -/
def WPc.rank (cfg : Config) : WPc → Nat
  | .loop i => 4 * (cfg.ITEM_COUNT - i) + 4
  | .semWait i _ => 4 * (cfg.ITEM_COUNT - i) + 3
  | .write i _ => 4 * (cfg.ITEM_COUNT - i) + 2
  | .post i _ => 4 * (cfg.ITEM_COUNT - i) + 1
  | .done => 0

/-- Number of statements a reader still has to execute, at most. -/
def RPc.rank (cfg : Config) : RPc → Nat
  | .loop i => 10 * (cfg.ITEM_COUNT - i) + 10
  | .semWait i => 10 * (cfg.ITEM_COUNT - i) + 9
  | .read i => 10 * (cfg.ITEM_COUNT - i) + 8
  | .incr i _ => 10 * (cfg.ITEM_COUNT - i) + 7
  | .test i _ => 10 * (cfg.ITEM_COUNT - i) + 6
  | .reset i _ => 10 * (cfg.ITEM_COUNT - i) + 5
  | .postWrite i _ => 10 * (cfg.ITEM_COUNT - i) + 4
  | .postRead i _ => 10 * (cfg.ITEM_COUNT - i) + 4
  | .check i _ => 10 * (cfg.ITEM_COUNT - i) + 3
  | .done => 0

/-- Bound on the number of steps left in a state. -/
def stepsLeft (cfg : Config) (s : State) : Nat :=
  s.writer.rank cfg + (s.readers.map fun r => r.pc.rank cfg).sum

/-- Every thread has left its loop. -/
def Final (s : State) : Prop :=
  s.writer = .done ∧ ∀ r ∈ s.readers, r.pc = .done

/-- Forget which read semaphore an event names. -/
def eraseSem : Tid × Ev → Tid × Ev
  | (t, .semWait (.mayRead _)) => (t, .semWait (.mayRead 0))
  | (t, .semPost (.mayRead _)) => (t, .semPost (.mayRead 0))
  | e => e

/-- What the two variants have in common: a state without the read semaphores. -/
def view (s : State) : State :=
  { sh := { sharedExchangeBufferValue := s.sh.sharedExchangeBufferValue
            sharedFinishedReaderCount := s.sh.sharedFinishedReaderCount
            sharedSemMayWrite := s.sh.sharedSemMayWrite
            sharedSemMayRead := [] }
    writer := s.writer
    readers := s.readers
    trace := s.trace.map eraseSem }

/-- The visible events of one thread, in order. -/
def eventsOf (who : Tid) (tr : List (Tid × Ev)) : List Ev :=
  (tr.filter fun x => x.1 == who).map fun x => x.2

/-- Event is a load from the exchange buffer by reader `t`. -/
def isReadBy (t : Nat) : Tid × Ev → Bool
  | (.reader u, .read _ _) => u == t
  | _ => false

/-- Contribution of a step to the number of loads: 1 for a load event. -/
def loadTick : Option Ev → Nat
  | some (.read _ _) => 1
  | _ => 0

/-- The loads of every reader are counted by its program point. -/
def LoadsOK (cfg : Config) (s : State) : Prop :=
  ∀ t r, s.readers[t]? = some r → s.trace.countP (isReadBy t) = r.pc.loads cfg

/-- No thread can execute a statement. -/
def Stuck (cfg : Config) (s : State) : Prop :=
  ∀ a, step cfg s a = none

/-- Scenario with `per_item_read_sem.c`: two readers, one item with the value 42. -/
def scenarioConfig : Config :=
  perItemConfig 2 1 fun _ => 42

/-- The writer runs its loop test and `protocolWriteValue(0, 42)`. -/
def scenarioWrite : List Tid :=
  List.replicate 4 .writer

/-- Reader `a` runs its loop test and `protocolReadValue(0)` on the path that re-posts the
read semaphore: 6 statements. -/
def scenarioFirstRead (a : Nat) : List Tid :=
  List.replicate 6 (.reader a)

/-- Reader `b` runs its loop test and `protocolReadValue(0)` on the path that resets the
counter and posts `sharedSemMayWrite`: 7 statements. -/
def scenarioSecondRead (b : Nat) : List Tid :=
  List.replicate 7 (.reader b)

/-- The scenario after the writer has published item 0 and reader 0 has taken the permit
of read semaphore 0: reader 0 is inside `protocolReadValue(0)`. -/
def scenarioReading : State :=
  { sh := { sharedExchangeBufferValue := 42, sharedFinishedReaderCount := 0, sharedSemMayWrite := 0,
            sharedSemMayRead := [0] }
    writer := .loop 1
    readers := [{ pc := .read 0, wrongReadCount := 0 }, { pc := .loop 0, wrongReadCount := 0 }]
    trace := [(.writer, .semWait .mayWrite), (.writer, .write 0 42), (.writer, .semPost (.mayRead 0)),
      (.reader 0, .semWait (.mayRead 0))] }

/-- The scenario after reader 0 has completed `protocolReadValue(0)` and reader 1 has loaded
the value and raised the counter to 2: reader 1 is at its test of the counter. -/
def scenarioTesting : State :=
  { sh := { sharedExchangeBufferValue := 42, sharedFinishedReaderCount := 2, sharedSemMayWrite := 0,
            sharedSemMayRead := [0] }
    writer := .loop 1
    readers := [{ pc := .check 0 42, wrongReadCount := 0 }, { pc := .test 0 42, wrongReadCount := 0 }]
    trace := [(.writer, .semWait .mayWrite), (.writer, .write 0 42), (.writer, .semPost (.mayRead 0)),
      (.reader 0, .semWait (.mayRead 0)), (.reader 0, .read 0 42), (.reader 0, .incr 1),
      (.reader 0, .semPost (.mayRead 0)),
      (.reader 1, .semWait (.mayRead 0)), (.reader 1, .read 0 42), (.reader 1, .incr 2)] }

/-- A call `protocolWriteValue(itemId, itemValue)` (per_item_read_sem.c:81-95) up to the
statement before its `sem_post`: the `sem_wait` on `sharedSemMayWrite` and the store. -/
def protocolWriteValueHead (cfg : Config) (sh : Shared) (itemId : Nat) (itemValue : Int) :
    Option (Shared × WPc) :=
  match writerStep cfg sh (.semWait itemId itemValue) with
  | none => none
  | some (sh1, pc1, _) =>
      match writerStep cfg sh1 pc1 with
      | none => none
      | some (sh2, pc2, _) => some (sh2, pc2)

end Rendezvous

namespace SwapBuf

/-- The shared variables of `buffer.c`; C arrays are lists, `a[i]` is `a.getD i 0` and
`a[i] = v` is `a.set i v`. -/
structure Buffer where
  sharedConsumeBufferId : Nat
  sharedProduceBufferId : Nat
  sharedBufferPos : List Nat
  sharedBuffers : List (List Int)
  deriving DecidableEq, Repr

/-- Function `bufferSwap` of `buffer.c`. -/
def bufferSwap (b : Buffer) : Buffer :=
  let swapBufferId := b.sharedConsumeBufferId
  let b1 := { b with sharedConsumeBufferId := b.sharedProduceBufferId }
  let b2 := { b1 with sharedProduceBufferId := swapBufferId }
  let b3 := { b2 with sharedBufferPos := b2.sharedBufferPos.set b2.sharedConsumeBufferId 0 }
  { b3 with sharedBufferPos := b3.sharedBufferPos.set b3.sharedProduceBufferId 0 }

/-- Function `bufferProduceData` of `buffer.c`. -/
def bufferProduceData (b : Buffer) (data : Int) : Buffer :=
  let seekPos := b.sharedBufferPos.getD b.sharedProduceBufferId 0
  let row := (b.sharedBuffers.getD b.sharedProduceBufferId []).set seekPos data
  let b1 := { b with sharedBuffers := b.sharedBuffers.set b.sharedProduceBufferId row }
  let next := b1.sharedBufferPos.getD b1.sharedProduceBufferId 0 + 1
  { b1 with sharedBufferPos := b1.sharedBufferPos.set b1.sharedProduceBufferId next }

/-- Function `bufferConsumeData` of `buffer.c`: the value read and the new state. -/
def bufferConsumeData (b : Buffer) : Int × Buffer :=
  let seekPos := b.sharedBufferPos.getD b.sharedConsumeBufferId 0
  let data := (b.sharedBuffers.getD b.sharedConsumeBufferId []).getD seekPos 0
  let next := b.sharedBufferPos.getD b.sharedConsumeBufferId 0 + 1
  (data, { b with sharedBufferPos := b.sharedBufferPos.set b.sharedConsumeBufferId next })

/-- Function `bufferConsumeIsExhausted` of `buffer.c`. -/
def bufferConsumeIsExhausted (BUFFER_SIZE : Nat) (b : Buffer) : Bool :=
  b.sharedBufferPos.getD b.sharedConsumeBufferId 0 == BUFFER_SIZE

/-- Function `bufferProduceIsExhausted` of `buffer.c`. -/
def bufferProduceIsExhausted (BUFFER_SIZE : Nat) (b : Buffer) : Bool :=
  b.sharedBufferPos.getD b.sharedProduceBufferId 0 == BUFFER_SIZE

/-- Function `bufferInit` of `buffer.c`, run on the zero-initialised static variables. -/
def bufferInit (BUFFER_SIZE : Nat) : Buffer :=
  let b0 : Buffer :=
    { sharedConsumeBufferId := 0, sharedProduceBufferId := 0, sharedBufferPos := [0, 0],
      sharedBuffers := [List.replicate BUFFER_SIZE 0, List.replicate BUFFER_SIZE 0] }
  let b1 := { b0 with sharedConsumeBufferId := 0 }
  let b2 := { b1 with sharedProduceBufferId := 1 }
  let b3 := { b2 with sharedBufferPos := b2.sharedBufferPos.set b2.sharedConsumeBufferId BUFFER_SIZE }
  { b3 with sharedBufferPos := b3.sharedBufferPos.set b3.sharedProduceBufferId 0 }

/-- The shared variables of `buffer.c` and `three_sem.c`. -/
structure Shared where
  buf : Buffer
  sharedSemMutex : Nat
  sharedSemMayProduce : Nat
  sharedSemMayConsume : Nat
  deriving DecidableEq, Repr

/-- Functions `bufferInit` and `protocolInit`, run by `main` before any thread. -/
def protocolInit (BUFFER_SIZE : Nat) : Shared :=
  { buf := bufferInit BUFFER_SIZE
    sharedSemMutex := 1
    sharedSemMayProduce := 1
    sharedSemMayConsume := 0 }

/-- A semaphore of `three_sem.c`. -/
inductive SemId
  | mutex
  | mayProduce
  | mayConsume
  deriving DecidableEq, Repr

/-- Visible events: semaphore operations and calls into `buffer.c`. -/
inductive Ev
  | semWait (s : SemId)
  | semPost (s : SemId)
  | produce (data : Int)
  | consume (data : Int)
  | swap
  deriving DecidableEq, Repr

/-- Thread names. -/
inductive Tid
  | producer (t : Nat)
  | consumer (t : Nat)
  deriving DecidableEq, Repr

/-- Program points of `producerThreadTask` with `protocolProduceData` inlined. -/
inductive PPc
  /-- main.c:36-38, the loop head where `data` is drawn -/
  | idle
  /-- three_sem.c:39, `sem_wait(&sharedSemMayProduce)` -/
  | waitMayProduce (data : Int)
  /-- three_sem.c:44, `sem_wait(&sharedSemMutex)` -/
  | waitMutex (data : Int)
  /-- three_sem.c:49, `bufferProduceData(threadName, data)` -/
  | produce (data : Int)
  /-- three_sem.c:52, `if (bufferProduceIsExhausted())` -/
  | testProduce
  /-- three_sem.c:56, `if (bufferConsumeIsExhausted())` -/
  | testConsume
  /-- three_sem.c:60, `bufferSwap(threadName)` -/
  | swap
  /-- three_sem.c:65, `sem_post(&sharedSemMayConsume)` -/
  | postMayConsume
  /-- three_sem.c:66, `sem_post(&sharedSemMayProduce)` after the swap -/
  | postMayProduceSwap
  /-- three_sem.c:74, `sem_post(&sharedSemMayProduce)` while room remains -/
  | postMayProduce
  /-- three_sem.c:78, `sem_post(&sharedSemMutex)` -/
  | postMutex
  deriving DecidableEq, Repr

/-- Program points of `consumerThreadTask` with `protocolConsumeData` inlined;
`data` is the local variable returned at three_sem.c:140. -/
inductive CPc
  /-- main.c:63, the loop head -/
  | idle
  /-- three_sem.c:96, `sem_wait(&sharedSemMayConsume)` -/
  | waitMayConsume
  /-- three_sem.c:101, `sem_wait(&sharedSemMutex)` -/
  | waitMutex
  /-- three_sem.c:106, `data = bufferConsumeData(threadName)` -/
  | consume
  /-- three_sem.c:109, `if (bufferConsumeIsExhausted())` -/
  | testConsume (data : Int)
  /-- three_sem.c:113, `if (bufferProduceIsExhausted())` -/
  | testProduce (data : Int)
  /-- three_sem.c:117, `bufferSwap(threadName)` -/
  | swap (data : Int)
  /-- three_sem.c:122, `sem_post(&sharedSemMayConsume)` after the swap -/
  | postMayConsumeSwap (data : Int)
  /-- three_sem.c:123, `sem_post(&sharedSemMayProduce)` -/
  | postMayProduce (data : Int)
  /-- three_sem.c:132, `sem_post(&sharedSemMayConsume)` while items remain -/
  | postMayConsume (data : Int)
  /-- three_sem.c:136, `sem_post(&sharedSemMutex)`, then `return data` -/
  | postMutex (data : Int)
  deriving DecidableEq, Repr

/-- One statement of a producer thread; `rand` is the value drawn at the loop head. -/
def producerStep (BUFFER_SIZE : Nat) (sh : Shared) (rand : Int) : PPc → Option (Shared × PPc × Option Ev)
  | .idle => some (sh, .waitMayProduce rand, none)
  | .waitMayProduce d =>
      match sem_wait sh.sharedSemMayProduce with
      | none => none
      | some c => some ({ sh with sharedSemMayProduce := c }, .waitMutex d, some (.semWait .mayProduce))
  | .waitMutex d =>
      match sem_wait sh.sharedSemMutex with
      | none => none
      | some c => some ({ sh with sharedSemMutex := c }, .produce d, some (.semWait .mutex))
  | .produce d => some ({ sh with buf := bufferProduceData sh.buf d }, .testProduce, some (.produce d))
  | .testProduce =>
      if bufferProduceIsExhausted BUFFER_SIZE sh.buf then some (sh, .testConsume, none)
      else some (sh, .postMayProduce, none)
  | .testConsume =>
      if bufferConsumeIsExhausted BUFFER_SIZE sh.buf then some (sh, .swap, none)
      else some (sh, .postMutex, none)
  | .swap => some ({ sh with buf := bufferSwap sh.buf }, .postMayConsume, some .swap)
  | .postMayConsume =>
      some ({ sh with sharedSemMayConsume := sem_post sh.sharedSemMayConsume }, .postMayProduceSwap,
        some (.semPost .mayConsume))
  | .postMayProduceSwap =>
      some ({ sh with sharedSemMayProduce := sem_post sh.sharedSemMayProduce }, .postMutex,
        some (.semPost .mayProduce))
  | .postMayProduce =>
      some ({ sh with sharedSemMayProduce := sem_post sh.sharedSemMayProduce }, .postMutex,
        some (.semPost .mayProduce))
  | .postMutex =>
      some ({ sh with sharedSemMutex := sem_post sh.sharedSemMutex }, .idle, some (.semPost .mutex))

/-- One statement of a consumer thread. -/
def consumerStep (BUFFER_SIZE : Nat) (sh : Shared) : CPc → Option (Shared × CPc × Option Ev)
  | .idle => some (sh, .waitMayConsume, none)
  | .waitMayConsume =>
      match sem_wait sh.sharedSemMayConsume with
      | none => none
      | some c => some ({ sh with sharedSemMayConsume := c }, .waitMutex, some (.semWait .mayConsume))
  | .waitMutex =>
      match sem_wait sh.sharedSemMutex with
      | none => none
      | some c => some ({ sh with sharedSemMutex := c }, .consume, some (.semWait .mutex))
  | .consume =>
      some ({ sh with buf := (bufferConsumeData sh.buf).2 }, .testConsume (bufferConsumeData sh.buf).1,
        some (.consume (bufferConsumeData sh.buf).1))
  | .testConsume d =>
      if bufferConsumeIsExhausted BUFFER_SIZE sh.buf then some (sh, .testProduce d, none)
      else some (sh, .postMayConsume d, none)
  | .testProduce d =>
      if bufferProduceIsExhausted BUFFER_SIZE sh.buf then some (sh, .swap d, none)
      else some (sh, .postMutex d, none)
  | .swap d => some ({ sh with buf := bufferSwap sh.buf }, .postMayConsumeSwap d, some .swap)
  | .postMayConsumeSwap d =>
      some ({ sh with sharedSemMayConsume := sem_post sh.sharedSemMayConsume }, .postMayProduce d,
        some (.semPost .mayConsume))
  | .postMayProduce d =>
      some ({ sh with sharedSemMayProduce := sem_post sh.sharedSemMayProduce }, .postMutex d,
        some (.semPost .mayProduce))
  | .postMayConsume d =>
      some ({ sh with sharedSemMayConsume := sem_post sh.sharedSemMayConsume }, .postMutex d,
        some (.semPost .mayConsume))
  | .postMutex _ =>
      some ({ sh with sharedSemMutex := sem_post sh.sharedSemMutex }, .idle, some (.semPost .mutex))

/-- A system state: shared variables, every thread, and the visible events so far. -/
structure State where
  sh : Shared
  producers : List PPc
  consumers : List CPc
  trace : List (Tid × Ev)
  deriving DecidableEq, Repr

/-- State set up by `main`: initialised variables, all threads created. -/
def init (BUFFER_SIZE PRODUCERS_COUNT CONSUMERS_COUNT : Nat) : State :=
  { sh := protocolInit BUFFER_SIZE
    producers := List.replicate PRODUCERS_COUNT .idle
    consumers := List.replicate CONSUMERS_COUNT .idle
    trace := [] }

/-- A scheduling choice: which thread moves, and for a producer the value `rand()` gives
should the thread be at its loop head. -/
inductive Action
  | producer (t : Nat) (rand : Int)
  | consumer (t : Nat)
  deriving DecidableEq, Repr

/-- Extend a trace by the event of a step, if the step is visible. -/
def logEv (tr : List (Tid × Ev)) (who : Tid) : Option Ev → List (Tid × Ev)
  | none => tr
  | some e => tr ++ [(who, e)]

/-- One scheduling step: the chosen thread executes its next statement. -/
def step (BUFFER_SIZE : Nat) (s : State) : Action → Option State
  | .producer t rand =>
      match s.producers[t]? with
      | none => none
      | some pc =>
          match producerStep BUFFER_SIZE s.sh rand pc with
          | none => none
          | some (sh, pc1, e) =>
              some { s with sh := sh, producers := s.producers.set t pc1,
                            trace := logEv s.trace (.producer t) e }
  | .consumer t =>
      match s.consumers[t]? with
      | none => none
      | some pc =>
          match consumerStep BUFFER_SIZE s.sh pc with
          | none => none
          | some (sh, pc1, e) =>
              some { s with sh := sh, consumers := s.consumers.set t pc1,
                            trace := logEv s.trace (.consumer t) e }

/-- Run a schedule from a state. -/
def run (BUFFER_SIZE : Nat) : State → List Action → Option State
  | s, [] => some s
  | s, a :: as => (step BUFFER_SIZE s a).bind fun s1 => run BUFFER_SIZE s1 as

/-- States reachable from `init` under some interleaving. -/
def Reachable (BUFFER_SIZE PRODUCERS_COUNT CONSUMERS_COUNT : Nat) (s : State) : Prop :=
  ∃ sched, run BUFFER_SIZE (init BUFFER_SIZE PRODUCERS_COUNT CONSUMERS_COUNT) sched = some s

/-- Execute one producer thread alone, from a program point up to its return to the loop
head, collecting its events; `none` when it blocks or the fuel runs out. -/
def runProducer (BUFFER_SIZE : Nat) : Nat → Shared → PPc → List Ev → Option (Shared × List Ev)
  | 0, _, _, _ => none
  | fuel + 1, sh, pc, evs =>
      match producerStep BUFFER_SIZE sh 0 pc with
      | none => none
      | some (sh1, .idle, e) => some (sh1, evs ++ e.toList)
      | some (sh1, pc1, e) => runProducer BUFFER_SIZE fuel sh1 pc1 (evs ++ e.toList)

/-- Cursor of the produce array, `sharedBufferPos[sharedProduceBufferId]`. -/
def Buffer.pp (b : Buffer) : Nat :=
  b.sharedBufferPos.getD b.sharedProduceBufferId 0

/-- Cursor of the consume array, `sharedBufferPos[sharedConsumeBufferId]`. -/
def Buffer.cp (b : Buffer) : Nat :=
  b.sharedBufferPos.getD b.sharedConsumeBufferId 0

/-- Shape of the buffer variables: two cursors, two arrays of `BUFFER_SIZE` cells, and the
two role ids are 0 and 1 in some order. -/
def Buffer.WF (BUFFER_SIZE : Nat) (b : Buffer) : Prop :=
  b.sharedBufferPos.length = 2 ∧ b.sharedBuffers.length = 2 ∧
  (∀ row ∈ b.sharedBuffers, row.length = BUFFER_SIZE) ∧
  ((b.sharedProduceBufferId = 0 ∧ b.sharedConsumeBufferId = 1) ∨
   (b.sharedProduceBufferId = 1 ∧ b.sharedConsumeBufferId = 0))

/-- Values stored and not yet read: the rest of the consume array, then the filled part of
the produce array. -/
def Buffer.pending (b : Buffer) : List Int :=
  (b.sharedBuffers.getD b.sharedConsumeBufferId []).drop b.cp ++
    (b.sharedBuffers.getD b.sharedProduceBufferId []).take b.pp

/-- A producer holds a `sharedSemMayProduce` permit it has not used yet. -/
def PPc.permit : PPc → Bool
  | .waitMutex _ => true
  | .produce _ => true
  | _ => false

/-- A producer holds the mutex. -/
def PPc.inCS : PPc → Bool
  | .produce _ => true
  | .testProduce => true
  | .testConsume => true
  | .swap => true
  | .postMayConsume => true
  | .postMayProduceSwap => true
  | .postMayProduce => true
  | .postMutex => true
  | _ => false

/-- A producer is between its `bufferProduceData` and its last permit post. -/
def PPc.mid : PPc → Bool
  | .testProduce => true
  | .testConsume => true
  | .swap => true
  | .postMayConsume => true
  | .postMayProduceSwap => true
  | .postMayProduce => true
  | _ => false

/-- A consumer holds a `sharedSemMayConsume` permit it has not used yet. -/
def CPc.permit : CPc → Bool
  | .waitMutex => true
  | .consume => true
  | _ => false

/-- A consumer holds the mutex. -/
def CPc.inCS : CPc → Bool
  | .consume => true
  | .testConsume _ => true
  | .testProduce _ => true
  | .swap _ => true
  | .postMayConsumeSwap _ => true
  | .postMayProduce _ => true
  | .postMayConsume _ => true
  | .postMutex _ => true
  | _ => false

/-- A consumer is between its `bufferConsumeData` and its last permit post. -/
def CPc.mid : CPc → Bool
  | .testConsume _ => true
  | .testProduce _ => true
  | .swap _ => true
  | .postMayConsumeSwap _ => true
  | .postMayProduce _ => true
  | .postMayConsume _ => true
  | _ => false

/-- Outstanding `sharedSemMayProduce` permits: the counter plus the unused ones held. -/
def nP (s : State) : Nat :=
  s.sh.sharedSemMayProduce + s.producers.countP PPc.permit

/-- Outstanding `sharedSemMayConsume` permits. -/
def nC (s : State) : Nat :=
  s.sh.sharedSemMayConsume + s.consumers.countP CPc.permit

/-- Permits and cursors while no thread is in the middle of its critical section. -/
def Quiet (C np nc pp cp : Nat) : Prop :=
  np = (if pp < C then 1 else 0) ∧ nc = (if cp < C then 1 else 0) ∧ pp ≤ C ∧ cp ≤ C ∧
  ¬ (pp = C ∧ cp = C)

/-- Permits and cursors while a producer is at a program point inside its critical section. -/
def PFacts (C np nc pp cp : Nat) : PPc → Prop
  | .testProduce => np = 0 ∧ 1 ≤ pp ∧ pp ≤ C ∧ cp ≤ C ∧ nc = (if cp < C then 1 else 0)
  | .testConsume => np = 0 ∧ pp = C ∧ cp ≤ C ∧ nc = (if cp < C then 1 else 0)
  | .swap => np = 0 ∧ nc = 0 ∧ pp = C ∧ cp = C
  | .postMayConsume => np = 0 ∧ nc = 0 ∧ pp = 0 ∧ cp = 0
  | .postMayProduceSwap => np = 0 ∧ nc = 1 ∧ pp = 0 ∧ cp = 0
  | .postMayProduce => np = 0 ∧ pp < C ∧ cp ≤ C ∧ nc = (if cp < C then 1 else 0)
  | _ => True

/-- Permits and cursors while a consumer is at a program point inside its critical section. -/
def CFacts (C np nc pp cp : Nat) : CPc → Prop
  | .testConsume _ => nc = 0 ∧ 1 ≤ cp ∧ cp ≤ C ∧ pp ≤ C ∧ np = (if pp < C then 1 else 0)
  | .testProduce _ => nc = 0 ∧ cp = C ∧ pp ≤ C ∧ np = (if pp < C then 1 else 0)
  | .swap _ => np = 0 ∧ nc = 0 ∧ pp = C ∧ cp = C
  | .postMayConsumeSwap _ => np = 0 ∧ nc = 0 ∧ pp = 0 ∧ cp = 0
  | .postMayProduce _ => np = 0 ∧ nc = 1 ∧ pp = 0 ∧ cp = 0
  | .postMayConsume _ => nc = 0 ∧ cp < C ∧ pp ≤ C ∧ np = (if pp < C then 1 else 0)
  | _ => True

/-- The argument `data` of the `protocolProduceData` call a producer is inside of, until
it is handed to `bufferProduceData`. -/
def PPc.data : PPc → Option Int
  | .waitMayProduce d => some d
  | .waitMutex d => some d
  | .produce d => some d
  | _ => none

/-- The local `data` of a consumer once `bufferConsumeData` has returned: the value
`protocolConsumeData` returns. -/
def CPc.data : CPc → Option Int
  | .testConsume d => some d
  | .testProduce d => some d
  | .swap d => some d
  | .postMayConsumeSwap d => some d
  | .postMayProduce d => some d
  | .postMayConsume d => some d
  | .postMutex d => some d
  | _ => none

/-- Values passed to `bufferProduceData`, in the order of the calls. -/
def produced : List (Tid × Ev) → List Int
  | [] => []
  | (_, .produce d) :: tr => d :: produced tr
  | _ :: tr => produced tr

/-- Values returned by `bufferConsumeData`, in the order of the calls. -/
def consumed : List (Tid × Ev) → List Int
  | [] => []
  | (_, .consume d) :: tr => d :: consumed tr
  | _ :: tr => consumed tr

/-- The invariant of the swap protocol. -/
structure Inv (C : Nat) (s : State) : Prop where
  wf : s.sh.buf.WF C
  mutex : s.sh.sharedSemMutex + s.producers.countP PPc.inCS + s.consumers.countP CPc.inCS = 1
  pfacts : ∀ p ∈ s.producers, PFacts C (nP s) (nC s) s.sh.buf.pp s.sh.buf.cp p
  cfacts : ∀ c ∈ s.consumers, CFacts C (nP s) (nC s) s.sh.buf.pp s.sh.buf.cp c
  quiet : (∀ p ∈ s.producers, p.mid = false) → (∀ c ∈ s.consumers, c.mid = false) →
    Quiet C (nP s) (nC s) s.sh.buf.pp s.sh.buf.cp
  data : produced s.trace = consumed s.trace ++ s.sh.buf.pending

end SwapBuf

namespace Direct

/-- The shared variables of `swap_conprod.c`. -/
structure State where
  sharedConsumeBufferId : Nat
  sharedProduceBufferId : Nat
  sharedConsumePos : Nat
  sharedProducePos : Nat
  sharedBuffers : List (List Int)
  sharedSemMutex : Nat
  sharedSemMayProduce : Nat
  sharedSemMayConsume : Nat
  deriving DecidableEq, Repr

/-- Function `safeSwapBuffers` of `swap_conprod.c`. -/
def safeSwapBuffers (s : State) : State :=
  let swapBufferId := s.sharedConsumeBufferId
  let s1 := { s with sharedConsumeBufferId := s.sharedProduceBufferId }
  let s2 := { s1 with sharedProduceBufferId := swapBufferId }
  let s3 := { s2 with sharedConsumePos := 0 }
  let s4 := { s3 with sharedProducePos := 0 }
  let s5 := { s4 with sharedSemMayConsume := sem_post s4.sharedSemMayConsume }
  { s5 with sharedSemMayProduce := sem_post s5.sharedSemMayProduce }

/-- Function `safeProduce` of `swap_conprod.c`, run without interference from other
threads; `none` when one of its two `sem_wait` calls blocks. -/
def safeProduce (BUFFER_SIZE : Nat) (s : State) (data : Int) : Option State :=
  match sem_wait s.sharedSemMayProduce with
  | none => none
  | some c =>
    let s1 := { s with sharedSemMayProduce := c }
    match sem_wait s1.sharedSemMutex with
    | none => none
    | some m =>
      let s2 := { s1 with sharedSemMutex := m }
      let row := (s2.sharedBuffers.getD s2.sharedProduceBufferId []).set s2.sharedProducePos data
      let s3 := { s2 with sharedBuffers := s2.sharedBuffers.set s2.sharedProduceBufferId row }
      let s4 := { s3 with sharedProducePos := s3.sharedProducePos + 1 }
      let s5 :=
        if s4.sharedProducePos = BUFFER_SIZE then
          if s4.sharedConsumePos = BUFFER_SIZE then safeSwapBuffers s4 else s4
        else { s4 with sharedSemMayProduce := sem_post s4.sharedSemMayProduce }
      some { s5 with sharedSemMutex := sem_post s5.sharedSemMutex }

/-- State set up by `main` of `swap_conprod.c` before the threads start. -/
def init (BUFFER_SIZE : Nat) : State :=
  { sharedConsumeBufferId := 0
    sharedProduceBufferId := 1
    sharedConsumePos := BUFFER_SIZE
    sharedProducePos := 0
    sharedBuffers := [List.replicate BUFFER_SIZE 0, List.replicate BUFFER_SIZE 0]
    sharedSemMutex := 1
    sharedSemMayProduce := 1
    sharedSemMayConsume := 0 }

end Direct

namespace SwapBuf

/-- A schedule for one producer and one consumer: the producer stores 7 and 3, which fills
the produce array of size 2 and swaps, then the consumer takes one value. -/
def demoSchedule : List Action :=
  [.producer 0 7] ++ List.replicate 6 (.producer 0 0) ++
  [.producer 0 3] ++ List.replicate 9 (.producer 0 0) ++
  List.replicate 7 (.consumer 0)

/-- The events of `demoSchedule` up to the second `sem_wait` on the mutex. -/
def demoTraceHead : List (Tid × Ev) :=
  [(.producer 0, .semWait .mayProduce), (.producer 0, .semWait .mutex), (.producer 0, .produce 7),
   (.producer 0, .semPost .mayProduce), (.producer 0, .semPost .mutex),
   (.producer 0, .semWait .mayProduce), (.producer 0, .semWait .mutex)]

/-- The state after the first ten steps of `demoSchedule`: the producer is about to store 3. -/
def demoStateProduce : State :=
  { sh := { buf := { sharedConsumeBufferId := 0, sharedProduceBufferId := 1, sharedBufferPos := [2, 1],
                     sharedBuffers := [[0, 0], [7, 0]] },
            sharedSemMutex := 0, sharedSemMayProduce := 0, sharedSemMayConsume := 0 }
    producers := [.produce 3]
    consumers := [.idle]
    trace := demoTraceHead }

/-- The state after the first eleven steps of `demoSchedule`: the producer has stored 3 and
is at its first test. -/
def demoStateTest : State :=
  { sh := { buf := { sharedConsumeBufferId := 0, sharedProduceBufferId := 1, sharedBufferPos := [2, 2],
                     sharedBuffers := [[0, 0], [7, 3]] },
            sharedSemMutex := 0, sharedSemMayProduce := 0, sharedSemMayConsume := 0 }
    producers := [.testProduce]
    consumers := [.idle]
    trace := demoTraceHead ++ [(.producer 0, .produce 3)] }

/-- The state at the end of `demoSchedule`: both values stored, one swap, 7 consumed. -/
def demoStateEnd : State :=
  { sh := { buf := { sharedConsumeBufferId := 1, sharedProduceBufferId := 0, sharedBufferPos := [0, 1],
                     sharedBuffers := [[0, 0], [7, 3]] },
            sharedSemMutex := 1, sharedSemMayProduce := 1, sharedSemMayConsume := 1 }
    producers := [.idle]
    consumers := [.idle]
    trace := demoTraceHead ++
      [(.producer 0, .produce 3), (.producer 0, .swap), (.producer 0, .semPost .mayConsume),
       (.producer 0, .semPost .mayProduce), (.producer 0, .semPost .mutex),
       (.consumer 0, .semWait .mayConsume), (.consumer 0, .semWait .mutex), (.consumer 0, .consume 7),
       (.consumer 0, .semPost .mayConsume), (.consumer 0, .semPost .mutex)] }

/-- Execute one consumer thread alone, from a program point up to its return to the loop
head: the value returned, the new shared state and the events; `none` when it blocks or
the fuel runs out. -/
def runConsumer (BUFFER_SIZE : Nat) : Nat → Shared → CPc → List Ev → Option (Int × Shared × List Ev)
  | 0, _, _, _ => none
  | fuel + 1, sh, pc, evs =>
      match pc, consumerStep BUFFER_SIZE sh pc with
      | _, none => none
      | .postMutex d, some (sh1, _, e) => some (d, sh1, evs ++ e.toList)
      | _, some (sh1, pc1, e) => runConsumer BUFFER_SIZE fuel sh1 pc1 (evs ++ e.toList)

/-- A call `protocolProduceData(data)` run to its return without interference. -/
def protocolProduceData (BUFFER_SIZE : Nat) (sh : Shared) (data : Int) : Option (Shared × List Ev) :=
  runProducer BUFFER_SIZE 9 sh (.waitMayProduce data) []

/-- A call `protocolConsumeData()` run to its return without interference. -/
def protocolConsumeData (BUFFER_SIZE : Nat) (sh : Shared) : Option (Int × Shared × List Ev) :=
  runConsumer BUFFER_SIZE 9 sh .waitMayConsume []

/-- An operation requested by a thread. -/
inductive Op
  | produce (data : Int)
  | consume
  deriving DecidableEq, Repr

/-- What an operation shows to the outside: the value returned by a consume operation and
whether the operation swapped the buffers. -/
structure Outcome where
  value : Option Int
  swapped : Bool
  deriving DecidableEq, Repr

/-- One operation of the layered version. -/
def applyOp (BUFFER_SIZE : Nat) (sh : Shared) : Op → Option (Shared × Outcome)
  | .produce d =>
      match protocolProduceData BUFFER_SIZE sh d with
      | none => none
      | some (sh1, evs) => some (sh1, { value := none, swapped := evs.contains .swap })
  | .consume =>
      match protocolConsumeData BUFFER_SIZE sh with
      | none => none
      | some (d, sh1, evs) => some (sh1, { value := some d, swapped := evs.contains .swap })

/-- A sequence of operations of the layered version: the state and the outcome after each
operation, `none` when an operation blocks. -/
def runOps (BUFFER_SIZE : Nat) : Shared → List Op → Option (List (Shared × Outcome))
  | _, [] => some []
  | sh, op :: ops =>
      match applyOp BUFFER_SIZE sh op with
      | none => none
      | some (sh1, o) =>
          match runOps BUFFER_SIZE sh1 ops with
          | none => none
          | some rest => some ((sh1, o) :: rest)

/-- Event is a call of `bufferSwap`. -/
def isSwap : Tid × Ev → Bool
  | (_, .swap) => true
  | _ => false

/-- Number of `bufferSwap` calls executed. -/
def swaps (tr : List (Tid × Ev)) : Nat :=
  tr.countP isSwap

/-- Event ends a `protocolProduceData` call: a producer posts the mutex. -/
def isProduceDone : Tid × Ev → Bool
  | (.producer _, .semPost .mutex) => true
  | _ => false

/-- Event ends a `protocolConsumeData` call: a consumer posts the mutex. -/
def isConsumeDone : Tid × Ev → Bool
  | (.consumer _, .semPost .mutex) => true
  | _ => false

/-- Number of completed `protocolProduceData` calls. -/
def completedProduces (tr : List (Tid × Ev)) : Nat :=
  tr.countP isProduceDone

/-- Number of completed `protocolConsumeData` calls. -/
def completedConsumes (tr : List (Tid × Ev)) : Nat :=
  tr.countP isConsumeDone

/-- A producer has stored its value and not yet released the mutex. -/
def PPc.stored : PPc → Bool
  | .testProduce => true
  | .testConsume => true
  | .swap => true
  | .postMayConsume => true
  | .postMayProduceSwap => true
  | .postMayProduce => true
  | .postMutex => true
  | _ => false

/-- A consumer has read its value and not yet released the mutex. -/
def CPc.loaded : CPc → Bool
  | .testConsume _ => true
  | .testProduce _ => true
  | .swap _ => true
  | .postMayConsumeSwap _ => true
  | .postMayProduce _ => true
  | .postMayConsume _ => true
  | .postMutex _ => true
  | _ => false

/-- No thread is inside an operation: every thread is at its loop head. -/
def AtRest (s : State) : Prop :=
  (∀ p ∈ s.producers, p = .idle) ∧ ∀ c ∈ s.consumers, c = .idle

/-- How the counts of stores, loads and swaps determine the cursors and the roles of the
two arrays, and how they relate to the completed calls. -/
structure Counts (C : Nat) (s : State) : Prop where
  stored : (produced s.trace).length = swaps s.trace * C + s.sh.buf.pp
  loaded : (consumed s.trace).length + C = swaps s.trace * C + s.sh.buf.cp
  consumeId : s.sh.buf.sharedConsumeBufferId = swaps s.trace % 2
  produceId : s.sh.buf.sharedProduceBufferId = (swaps s.trace + 1) % 2
  producesDone : (produced s.trace).length = completedProduces s.trace + s.producers.countP PPc.stored
  consumesDone : (consumed s.trace).length = completedConsumes s.trace + s.consumers.countP CPc.loaded

/-- Successive calls of `bufferProduceData`, one for each value of a list. -/
def produceAll (b : Buffer) : List Int → Buffer
  | [] => b
  | d :: ds => produceAll (bufferProduceData b d) ds

/-- Successive calls of `bufferConsumeData`: the values returned, in order, and the state
after the last call. -/
def consumeAll : Nat → Buffer → List Int × Buffer
  | 0, b => ([], b)
  | n + 1, b =>
      let r := bufferConsumeData b
      let rest := consumeAll n r.2
      (r.1 :: rest.1, rest.2)

/-- A cell of one of the two arrays. -/
def Buffer.cell (b : Buffer) (i j : Nat) : Int :=
  (b.sharedBuffers.getD i []).getD j 0

/-- A complete `protocolProduceData(d)` call of producer `t` that does not swap: seven
statements, counting the loop head. -/
def produceCall (t : Nat) (d : Int) : List Action :=
  .producer t d :: List.replicate 6 (.producer t 0)

/-- A complete `protocolProduceData(d)` call of producer `t` that swaps: ten statements. -/
def produceSwapCall (t : Nat) (d : Int) : List Action :=
  .producer t d :: List.replicate 9 (.producer t 0)

/-- A complete `protocolConsumeData()` call of consumer `t` that does not swap: seven
statements. -/
def consumeCall (t : Nat) : List Action :=
  List.replicate 7 (.consumer t)

/-- A complete `protocolConsumeData()` call of consumer `t` that swaps: ten statements. -/
def consumeSwapCall (t : Nat) : List Action :=
  List.replicate 10 (.consumer t)

/-- A schedule repeated `k` times. -/
def repeatSched : Nat → List Action → List Action
  | 0, _ => []
  | k + 1, l => l ++ repeatSched k l

/-- Producer 0 fills a produce array of size 4 in four calls and swaps in the last one. -/
def fillSwap4 : List Action :=
  produceCall 0 0 ++ produceCall 0 0 ++ produceCall 0 0 ++ produceSwapCall 0 0

/-- Producer 0 fills a produce array of size 4 in four calls, none of which swaps. -/
def fill4 : List Action :=
  produceCall 0 0 ++ produceCall 0 0 ++ produceCall 0 0 ++ produceCall 0 0

/-- Consumer 0 drains a consume array of size 4 in four calls and swaps in the last one. -/
def drainSwap4 : List Action :=
  consumeCall 0 ++ consumeCall 0 ++ consumeCall 0 ++ consumeSwapCall 0

/-- Two rounds of filling and draining: sixteen operations, two swaps. -/
def twoRounds4 : List Action :=
  fill4 ++ drainSwap4 ++ fill4 ++ drainSwap4

/-- A schedule of 1000 operations, 4 + 62 * 16 + 4: the first fill with its swap, 124 rounds
of filling and draining, and a last fill. -/
def thousandOps : List Action :=
  fillSwap4 ++ repeatSched 62 twoRounds4 ++ fill4

/-- Shared variables with `BUFFER_SIZE = 4` after an odd number of swaps when only zeros
are produced: both cursors at 0, one permit on each semaphore. -/
def swappedShared4 : Shared :=
  { buf := { sharedConsumeBufferId := 1, sharedProduceBufferId := 0, sharedBufferPos := [0, 0],
             sharedBuffers := [[0, 0, 0, 0], [0, 0, 0, 0]] },
    sharedSemMutex := 1, sharedSemMayProduce := 1, sharedSemMayConsume := 1 }

/-- Shared variables with `BUFFER_SIZE = 4` when the produce array has been filled again
and nothing of the consume array is consumed. -/
def fullShared4 : Shared :=
  { buf := { sharedConsumeBufferId := 1, sharedProduceBufferId := 0, sharedBufferPos := [4, 0],
             sharedBuffers := [[0, 0, 0, 0], [0, 0, 0, 0]] },
    sharedSemMutex := 1, sharedSemMayProduce := 0, sharedSemMayConsume := 1 }

/-- Two producers and two consumers at rest. -/
def restState4 (sh : Shared) (tr : List (Tid × Ev)) : State :=
  { sh := sh, producers := [.idle, .idle], consumers := [.idle, .idle], trace := tr }

/-- The state after the first seventeen steps of `demoSchedule`: both values stored, the
producer has swapped and returned, nothing is consumed yet. -/
def demoStateSwapped : State :=
  { sh := { buf := { sharedConsumeBufferId := 1, sharedProduceBufferId := 0, sharedBufferPos := [0, 0],
                     sharedBuffers := [[0, 0], [7, 3]] },
            sharedSemMutex := 1, sharedSemMayProduce := 1, sharedSemMayConsume := 1 }
    producers := [.idle]
    consumers := [.idle]
    trace := demoTraceHead ++
      [(.producer 0, .produce 3), (.producer 0, .swap), (.producer 0, .semPost .mayConsume),
       (.producer 0, .semPost .mayProduce), (.producer 0, .semPost .mutex)] }

end SwapBuf

namespace Direct

/-- Function `safeProduce` of `swap_conprod.c`, run without interference, with a record of
whether it called `safeSwapBuffers`. -/
def safeProduceLogged (BUFFER_SIZE : Nat) (s : State) (data : Int) : Option (State × Bool) :=
  match sem_wait s.sharedSemMayProduce with
  | none => none
  | some c =>
    let s1 := { s with sharedSemMayProduce := c }
    match sem_wait s1.sharedSemMutex with
    | none => none
    | some m =>
      let s2 := { s1 with sharedSemMutex := m }
      let row := (s2.sharedBuffers.getD s2.sharedProduceBufferId []).set s2.sharedProducePos data
      let s3 := { s2 with sharedBuffers := s2.sharedBuffers.set s2.sharedProduceBufferId row }
      let s4 := { s3 with sharedProducePos := s3.sharedProducePos + 1 }
      let r : State × Bool :=
        if s4.sharedProducePos = BUFFER_SIZE then
          if s4.sharedConsumePos = BUFFER_SIZE then (safeSwapBuffers s4, true) else (s4, false)
        else ({ s4 with sharedSemMayProduce := sem_post s4.sharedSemMayProduce }, false)
      some ({ r.1 with sharedSemMutex := sem_post r.1.sharedSemMutex }, r.2)

/-- Function `safeConsume` of `swap_conprod.c`, run without interference: the value
returned, the new state and whether it called `safeSwapBuffers`; `none` when one of its two
`sem_wait` calls blocks. -/
def safeConsume (BUFFER_SIZE : Nat) (s : State) : Option (Int × State × Bool) :=
  match sem_wait s.sharedSemMayConsume with
  | none => none
  | some c =>
    let s1 := { s with sharedSemMayConsume := c }
    match sem_wait s1.sharedSemMutex with
    | none => none
    | some m =>
      let s2 := { s1 with sharedSemMutex := m }
      let data := (s2.sharedBuffers.getD s2.sharedConsumeBufferId []).getD s2.sharedConsumePos 0
      let s3 := { s2 with sharedConsumePos := s2.sharedConsumePos + 1 }
      let r : State × Bool :=
        if s3.sharedConsumePos = BUFFER_SIZE then
          if s3.sharedProducePos = BUFFER_SIZE then (safeSwapBuffers s3, true) else (s3, false)
        else ({ s3 with sharedSemMayConsume := sem_post s3.sharedSemMayConsume }, false)
      some (data, { r.1 with sharedSemMutex := sem_post r.1.sharedSemMutex }, r.2)

/-- One operation of the direct version. -/
def applyOp (BUFFER_SIZE : Nat) (s : State) : SwapBuf.Op → Option (State × SwapBuf.Outcome)
  | .produce d =>
      match safeProduceLogged BUFFER_SIZE s d with
      | none => none
      | some (s1, w) => some (s1, { value := none, swapped := w })
  | .consume =>
      match safeConsume BUFFER_SIZE s with
      | none => none
      | some (d, s1, w) => some (s1, { value := some d, swapped := w })

/-- A sequence of operations of the direct version: the state and the outcome after each
operation, `none` when an operation blocks. -/
def runOps (BUFFER_SIZE : Nat) : State → List SwapBuf.Op → Option (List (State × SwapBuf.Outcome))
  | _, [] => some []
  | s, op :: ops =>
      match applyOp BUFFER_SIZE s op with
      | none => none
      | some (s1, o) =>
          match runOps BUFFER_SIZE s1 ops with
          | none => none
          | some rest => some ((s1, o) :: rest)

/-- The state of the direct version that corresponds to a state of the layered version:
same role ids, the two cursors of the layered version read through the role ids, same
arrays, same semaphore counts. -/
def ofLayered (sh : SwapBuf.Shared) : State :=
  { sharedConsumeBufferId := sh.buf.sharedConsumeBufferId
    sharedProduceBufferId := sh.buf.sharedProduceBufferId
    sharedConsumePos := sh.buf.sharedBufferPos.getD sh.buf.sharedConsumeBufferId 0
    sharedProducePos := sh.buf.sharedBufferPos.getD sh.buf.sharedProduceBufferId 0
    sharedBuffers := sh.buf.sharedBuffers
    sharedSemMutex := sh.sharedSemMutex
    sharedSemMayProduce := sh.sharedSemMayProduce
    sharedSemMayConsume := sh.sharedSemMayConsume }

end Direct

/-! ## Lemmas and theorems -/

/-! ### Lists used as C arrays: updating one cell -/

theorem countP_set_some {α : Type} (p : α → Bool) (l : List α) (t : Nat) (x y : α)
    (h : l[t]? = some x) :
    (l.set t y).countP p + (if p x then 1 else 0) = l.countP p + (if p y then 1 else 0) := by
  induction l generalizing t with
  | nil => simp at h
  | cons a l ih =>
    cases t with
    | zero =>
      simp at h
      subst h
      simp [List.countP_cons]
      omega
    | succ t =>
      simp at h
      have := ih t h
      simp [List.countP_cons]
      omega

theorem sum_set_some (l : List Nat) (t x y : Nat) (h : l[t]? = some x) :
    (l.set t y).sum + x = l.sum + y := by
  induction l generalizing t with
  | nil => simp at h
  | cons a l ih =>
    cases t with
    | zero =>
      simp at h
      subst h
      simp
      omega
    | succ t =>
      simp at h
      have := ih t h
      simp
      omega

theorem sum_map_set_some {α : Type} (f : α → Nat) (l : List α) (t : Nat) (x y : α)
    (h : l[t]? = some x) :
    ((l.set t y).map f).sum + f x = (l.map f).sum + f y := by
  rw [List.map_set]
  apply sum_set_some
  simp [h]

theorem getElem?_zero_of_sum_zero (l : List Nat) (h : l.sum = 0) (k x : Nat)
    (hk : l[k]? = some x) : x = 0 := by
  have hx : x ∈ l := List.getElem?_mem hk
  have := List.le_sum_of_mem hx
  omega

theorem forall_mem_set {α : Type} {P : α → Prop} (l : List α) (t : Nat) (y : α)
    (h : ∀ r ∈ l, P r) (hy : P y) : ∀ r ∈ l.set t y, P r := by
  intro r hr
  rcases List.mem_or_eq_of_mem_set hr with h1 | h1
  · exact h r h1
  · exact h1 ▸ hy

theorem sum_map_const_of_forall {α : Type} (f : α → Nat) (l : List α) (c : Nat)
    (h : ∀ r ∈ l, f r = c) : (l.map f).sum = l.length * c := by
  induction l with
  | nil => simp
  | cons a l ih =>
    simp at h
    simp [ih h.2, h.1]
    ring

theorem snoc_eq_append_cons {α : Type} (tr pre post : List α) (e x : α)
    (h : tr ++ [e] = pre ++ x :: post) :
    (post = [] ∧ pre = tr ∧ x = e) ∨ (∃ post0, post = post0 ++ [e] ∧ tr = pre ++ x :: post0) := by
  rcases List.eq_nil_or_concat post with hp | ⟨post0, z, hp⟩
  · subst hp
    left
    have h2 : tr ++ [e] = pre ++ [x] := h
    have := List.append_inj' h2 rfl
    simp at this
    exact ⟨rfl, this.1.symm, this.2.symm⟩
  · subst hp
    right
    have h2 : tr ++ [e] = (pre ++ x :: post0) ++ [z] := by simp [h]
    have := List.append_inj' h2 rfl
    simp at this
    exact ⟨post0, by simp [this.2], this.1⟩

theorem countP_set_w {α : Type} (p : α → Bool) (l : List α) (t : Nat) (x y : α)
    (h : l[t]? = some x) (wx wy : Nat) (hx : (if p x then 1 else 0) = wx)
    (hy : (if p y then 1 else 0) = wy) :
    (l.set t y).countP p + wx = l.countP p + wy := by
  subst hx hy
  exact countP_set_some p l t x y h

theorem sum_map_set_w {α : Type} (f : α → Nat) (l : List α) (t : Nat) (x y : α)
    (h : l[t]? = some x) (fx fy : Nat) (hx : f x = fx) (hy : f y = fy) :
    ((l.set t y).map f).sum + fx = (l.map f).sum + fy := by
  subst hx hy
  exact sum_map_set_some f l t x y h

theorem unique_of_countP_le_one {α : Type} (p : α → Bool) (l : List α) (h : l.countP p ≤ 1)
    (x y : α) (hx : x ∈ l) (hy : y ∈ l) (px : p x = true) (py : p y = true) : x = y := by
  induction l with
  | nil => simp at hx
  | cons a l ih =>
    simp only [List.countP_cons] at h
    simp only [List.mem_cons] at hx hy
    by_cases pa : p a = true
    · simp only [pa, if_true] at h
      have h0 : l.countP p = 0 := by omega
      rw [List.countP_eq_zero] at h0
      rcases hx with hx | hx
      · rcases hy with hy | hy
        · rw [hx, hy]
        · exact absurd py (h0 y hy)
      · exact absurd px (h0 x hx)
    · rcases hx with hx | hx
      · rw [hx] at px
        exact absurd px pa
      · rcases hy with hy | hy
        · rw [hy] at py
          exact absurd py pa
        · simp only [pa] at h
          exact ih (by simpa using h) hx hy

theorem mem_set_cases {α : Type} (l : List α) (t : Nat) (y r : α) (h : r ∈ l.set t y) :
    r = y ∨ ∃ k, k ≠ t ∧ l[k]? = some r := by
  obtain ⟨k, hk⟩ := List.getElem?_of_mem h
  rw [List.getElem?_set] at hk
  by_cases htk : t = k
  · rw [if_pos htk] at hk
    split at hk
    · left
      exact (Option.some.inj hk).symm
    · cases hk
  · rw [if_neg htk] at hk
    exact Or.inr ⟨k, fun e => htk e.symm, hk⟩

theorem index_unique_of_countP_le_one {α : Type} (p : α → Bool) (l : List α)
    (h : l.countP p ≤ 1) (t k : Nat) (x z : α) (hx : l[t]? = some x) (hz : l[k]? = some z)
    (px : p x = true) (pz : p z = true) : t = k := by
  induction l generalizing t k with
  | nil => simp at hx
  | cons a l ih =>
    simp only [List.countP_cons] at h
    cases t with
    | zero =>
      cases k with
      | zero => rfl
      | succ k =>
        simp at hx hz
        subst hx
        simp only [px, if_true] at h
        have h0 : l.countP p = 0 := by omega
        rw [List.countP_eq_zero] at h0
        exact absurd pz (h0 z (List.getElem?_mem hz))
    | succ t =>
      cases k with
      | zero =>
        simp at hx hz
        subst hz
        simp only [pz, if_true] at h
        have h0 : l.countP p = 0 := by omega
        rw [List.countP_eq_zero] at h0
        exact absurd px (h0 x (List.getElem?_mem hx))
      | succ k =>
        simp at hx hz
        have := ih (by omega) t k hx hz
        omega

theorem take_set_self {α : Type} (l : List α) (n : Nat) (a : α) :
    (l.set n a).take n = l.take n := by
  rw [List.set_take]
  exact List.set_eq_of_length_le (by simp)

theorem exists_nonzero_of_sum_ne_zero (l : List Nat) (h : l.sum ≠ 0) :
    ∃ (k : Nat) (x : Nat), l[k]? = some x ∧ x ≠ 0 := by
  induction l with
  | nil => simp at h
  | cons a l ih =>
    by_cases ha : a = 0
    · subst ha
      simp at h
      obtain ⟨k, x, hk, hx⟩ := ih (by simpa using h)
      exact ⟨k + 1, x, by simpa using hk, hx⟩
    · exact ⟨0, a, by simp, ha⟩

namespace Rendezvous

theorem readSemaphoreId_lt (cfg : Config) (i : Nat) (h : i < cfg.ITEM_COUNT) :
    readSemaphoreId cfg.variant i < readSemaphoreCount cfg := by
  unfold readSemaphoreId readSemaphoreCount
  cases cfg.variant <;> simp <;> omega

theorem readSemaphoreId_succ_ne (v : Variant) (i : Nat) :
    readSemaphoreId v (i + 1) ≠ readSemaphoreId v i := by
  unfold readSemaphoreId
  cases v <;> simp <;> omega

theorem inv_init (cfg : Config) : Inv cfg (init cfg) := by
  refine ⟨by simp [init], by simp [init, protocolInit], ?_, ?_, ?_, by simp [init, WPc.stores], ?_⟩
  · simp [permits, init, protocolInit, WPc.holds, RPc.holds, List.countP_replicate]
  · intro r hr
    simp [init] at hr
    rw [hr.2]
  · left
    refine ⟨0, by simp, by simp [init, protocolInit], by simp [init, protocolInit], by simp [init, WPc.atW], ?_⟩
    intro r hr
    simp [init] at hr
    rw [hr.2]
    simp [RPc.atW]
  · simp [init, RPc.loads]

theorem inv_writer (cfg : Config) (s s1 : State) (h : Inv cfg s)
    (hs : step cfg s .writer = some s1) : Inv cfg s1 := by
  obtain ⟨⟨slot, fin, mw, mr⟩, w, rs, tr⟩ := s
  obtain ⟨hn, hm, htok, hright, hphase, hnw, hnr⟩ := h
  simp only [permits] at htok
  simp only at hn hm htok hright hnw hnr
  cases w with
  | loop i =>
    by_cases hi : i < cfg.ITEM_COUNT
    · simp [step, writerStep, hi, logEv] at hs
      subst hs
      refine ⟨hn, hm, by simpa [permits, WPc.holds] using htok, hright, ?_, by simpa [WPc.stores] using hnw, hnr⟩
      rcases hphase with ⟨j, hj⟩ | ⟨j, hj⟩
      · left
        refine ⟨j, ?_⟩
        simp only [WPhase, WPc.atW] at hj ⊢
        obtain ⟨h1, h2, h3, h4, h5⟩ := hj
        subst h4
        exact ⟨h1, h2, h3, ⟨rfl, hi, rfl⟩, h5⟩
      · right
        refine ⟨j, ?_⟩
        simp only [RPhase, WPc.atR] at hj ⊢
        obtain ⟨h1, h2, h3, h4, h5⟩ := hj
        subst h3
        exact ⟨h1, h2, ⟨rfl, hi, rfl⟩, h4, h5⟩
    · simp [step, writerStep, hi, logEv] at hs
      subst hs
      have hstores : i = cfg.ITEM_COUNT := by
        rcases hphase with ⟨j, hj⟩ | ⟨j, hj⟩
        · simp only [WPhase, WPc.atW] at hj
          omega
        · simp only [RPhase, WPc.atR] at hj
          omega
      refine ⟨hn, hm, by simpa [permits, WPc.holds] using htok, hright, ?_, by simpa [WPc.stores, hstores] using hnw, hnr⟩
      rcases hphase with ⟨j, hj⟩ | ⟨j, hj⟩
      · left
        refine ⟨j, ?_⟩
        simp only [WPhase, WPc.atW] at hj ⊢
        obtain ⟨h1, h2, h3, h4, h5⟩ := hj
        exact ⟨h1, h2, h3, by omega, h5⟩
      · right
        refine ⟨j, ?_⟩
        simp only [RPhase, WPc.atR] at hj ⊢
        obtain ⟨h1, h2, h3, h4, h5⟩ := hj
        exact ⟨h1, h2, by omega, h4, h5⟩
  | semWait i v =>
    cases mw with
    | zero => simp [step, writerStep, sem_wait] at hs
    | succ mw =>
      simp [step, writerStep, sem_wait, logEv] at hs
      subst hs
      simp [WPc.holds] at htok
      refine ⟨hn, hm, by simp [permits, WPc.holds]; omega, hright, ?_, by simpa [WPc.stores, isWrite] using hnw, by simpa [isRead] using hnr⟩
      rcases hphase with ⟨j, hj⟩ | ⟨j, hj⟩
      · left
        refine ⟨j, ?_⟩
        simp only [WPhase, WPc.atW] at hj ⊢
        exact hj
      · simp [RPhase] at hj
  | write i v =>
    simp [step, writerStep, exchangeBufferWriteValue, logEv] at hs
    subst hs
    refine ⟨hn, hm, by simpa [permits, WPc.holds] using htok, hright, ?_, by simpa [WPc.stores, isWrite] using hnw, by simpa [isRead] using hnr⟩
    rcases hphase with ⟨j, hj⟩ | ⟨j, hj⟩
    · left
      refine ⟨j, ?_⟩
      simp only [WPhase, WPc.atW] at hj ⊢
      obtain ⟨h1, h2, h3, ⟨h4, h6, h7⟩, h5⟩ := hj
      exact ⟨h1, h2, h3, ⟨h4, h6, h7, h7⟩, h5⟩
    · simp [RPhase, WPc.atR] at hj
  | post i v =>
    simp [step, writerStep, logEv] at hs
    subst hs
    rcases hphase with ⟨j, hj⟩ | ⟨j, hj⟩
    · simp only [WPhase, WPc.atW] at hj
      obtain ⟨h1, h2, h3, ⟨h4, h6, h7, h8⟩, h5⟩ := hj
      subst h4
      simp [WPc.holds] at htok
      have hlt := readSemaphoreId_lt cfg i h6
      rw [← hm] at hlt
      have hget : mr[readSemaphoreId cfg.variant i]? = some 0 := by
        rw [List.getElem?_eq_getElem hlt]
        congr 1
        exact getElem?_zero_of_sum_zero mr h3 _ _ (List.getElem?_eq_getElem hlt)
      have hsum := sum_set_some mr _ 0 (sem_post 0) hget
      have hnohold : ∀ r ∈ rs, r.pc.holds = false := by
        have : List.countP (fun r => r.pc.holds) rs = 0 := by omega
        simpa using this
      refine ⟨hn, by simpa using hm, ?_, hright, ?_, by simpa [WPc.stores, isWrite] using hnw, by simpa [isRead] using hnr⟩
      · simp [permits, WPc.holds, hget]
        simp [sem_post] at hsum ⊢
        omega
      · right
        refine ⟨i, h6, (by show mw = 0; omega), by simp [WPc.atR], h8, ?_, ?_, ?_, ?_⟩
        · intro r hr
          have ha := h5 r hr
          have hh := hnohold r hr
          revert ha hh
          cases r.pc <;> simp [RPc.atW, RPc.atR, RPc.holds] <;> omega
        · intro k x hk hx
          simp [List.getElem?_set] at hk
          by_cases hki : readSemaphoreId cfg.variant i = k
          · exact hki.symm
          · simp [hki] at hk
            exact absurd (getElem?_zero_of_sum_zero mr h3 _ _ hk) hx
        · simp only [h2]
          symm
          rw [List.countP_eq_zero]
          intro r hr
          have ha := h5 r hr
          have hh := hnohold r hr
          revert ha hh
          cases r.pc <;> simp [RPc.atW, RPc.credited, RPc.holds] <;> omega
        · intro r hr j v hpc
          have hh := hnohold r hr
          rw [hpc] at hh
          simp [RPc.holds] at hh
    · simp [RPhase, WPc.atR] at hj
  | done => simp [step, writerStep] at hs

set_option maxHeartbeats 1600000 in
theorem inv_reader (cfg : Config) (s s1 : State) (t : Nat) (h : Inv cfg s)
    (hs : step cfg s (.reader t) = some s1) : Inv cfg s1 := by
  obtain ⟨⟨slot, fin, mw, mr⟩, w, rs, tr⟩ := s
  obtain ⟨hn, hm, htok, hright, hphase, hnw, hnr⟩ := h
  simp only [permits] at htok
  simp only at hn hm htok hright hnw hnr
  cases hr : rs[t]? with
  | none => simp [step, hr] at hs
  | some r =>
  obtain ⟨pc, wc⟩ := r
  have hmem := List.getElem?_mem hr
  have hwc : wc = 0 := hright _ hmem
  subst hwc
  have hH := fun y => countP_set_w (fun r : Reader => r.pc.holds) rs t _ y hr
  have hL := fun y => sum_map_set_w (fun r : Reader => r.pc.loads cfg) rs t _ y hr
  have hC := fun i y => countP_set_w (fun r : Reader => r.pc.credited i) rs t _ y hr
  have hU := fun y hy => unique_of_countP_le_one (fun r : Reader => r.pc.holds) rs (by omega) _ y hmem hy
  have hI := fun k z hz => index_unique_of_countP_le_one (fun r : Reader => r.pc.holds) rs (by omega) t k _ z hr hz
  have hge : pc.holds = true → 1 ≤ List.countP (fun r : Reader => r.pc.holds) rs := fun hp =>
    List.countP_pos_iff.mpr ⟨_, hmem, hp⟩
  cases pc with
  | loop j =>
    by_cases hj : j < cfg.ITEM_COUNT
    · simp [step, hr, readerStep, hj, logEv] at hs
      subst hs
      have hH1 := hH ⟨.semWait j, 0⟩ 0 0 rfl rfl
      have hL1 := hL ⟨.semWait j, 0⟩ j j rfl rfl
      refine ⟨by simpa using hn, hm, by simp only [permits]; omega,
        forall_mem_set _ _ _ hright rfl, ?_, hnw, by dsimp only; omega⟩
      rcases hphase with ⟨i, hi⟩ | ⟨i, hi⟩
      · left
        refine ⟨i, ?_⟩
        obtain ⟨h1, h2, h3, h4, h5⟩ := hi
        refine ⟨h1, h2, h3, h4, forall_mem_set _ _ _ h5 ?_⟩
        have := h5 _ hmem
        simp [RPc.atW] at this ⊢
        omega
      · right
        refine ⟨i, ?_⟩
        obtain ⟨h1, h2, h3, h4, h5, h6, h7, h8⟩ := hi
        refine ⟨h1, h2, h3, h4, forall_mem_set _ _ _ h5 ?_, h6, ?_, forall_mem_set _ _ _ h8 (by simp)⟩
        · have := h5 _ hmem
          simp [RPc.atR] at this ⊢
          omega
        · have := hC i ⟨.semWait j, 0⟩ (if j == i + 1 then 1 else 0) (if j == i + 1 then 1 else 0) rfl rfl
          dsimp only at h7 ⊢
          omega
    · simp [step, hr, readerStep, hj, logEv] at hs
      subst hs
      have hjN : j = cfg.ITEM_COUNT := by
        rcases hphase with ⟨i, hi⟩ | ⟨i, hi⟩
        · have := hi.2.2.2.2 _ hmem
          have := hi.1
          simp [RPc.atW] at *
          omega
        · have := hi.2.2.2.2.1 _ hmem
          have := hi.1
          simp [RPc.atR] at *
          omega
      have hH1 := hH ⟨.done, 0⟩ 0 0 rfl rfl
      have hL1 := hL ⟨.done, 0⟩ j cfg.ITEM_COUNT rfl rfl
      refine ⟨by simpa using hn, hm, by simp only [permits]; omega,
        forall_mem_set _ _ _ hright rfl, ?_, hnw, by dsimp only; omega⟩
      rcases hphase with ⟨i, hi⟩ | ⟨i, hi⟩
      · left
        refine ⟨i, ?_⟩
        obtain ⟨h1, h2, h3, h4, h5⟩ := hi
        refine ⟨h1, h2, h3, h4, forall_mem_set _ _ _ h5 ?_⟩
        have := h5 _ hmem
        simp [RPc.atW] at this ⊢
        omega
      · right
        refine ⟨i, ?_⟩
        obtain ⟨h1, h2, h3, h4, h5, h6, h7, h8⟩ := hi
        have hji := h5 _ hmem
        simp [RPc.atR] at hji
        refine ⟨h1, h2, h3, h4, forall_mem_set _ _ _ h5 ?_, h6, ?_, forall_mem_set _ _ _ h8 (by simp)⟩
        · simp [RPc.atR]
          omega
        · have := hC i ⟨.done, 0⟩ 1 1 (by simp [RPc.credited]; omega) rfl
          dsimp only at h7 ⊢
          omega
  | semWait j =>
    cases hk : mr[readSemaphoreId cfg.variant j]? with
    | none => simp [step, hr, readerStep, hk, sem_wait] at hs
    | some x =>
    cases x with
    | zero => simp [step, hr, readerStep, hk, sem_wait] at hs
    | succ x =>
    simp [step, hr, readerStep, hk, sem_wait, logEv] at hs
    subst hs
    have hsum := sum_set_some mr _ _ x hk
    have hH1 := hH ⟨.read j, 0⟩ 0 1 rfl rfl
    have hL1 := hL ⟨.read j, 0⟩ j j rfl rfl
    refine ⟨by simpa using hn, by simpa using hm, by simp only [permits]; omega,
        forall_mem_set _ _ _ hright rfl, ?_, by simpa [isWrite] using hnw,
        by simp [isRead]; simp at hL1; omega⟩
    rcases hphase with ⟨i, hi⟩ | ⟨i, hi⟩
    · have := getElem?_zero_of_sum_zero mr hi.2.2.1 _ _ hk
      omega
    · right
      refine ⟨i, ?_⟩
      obtain ⟨h1, h2, h3, h4, h5, h6, h7, h8⟩ := hi
      have hji := h5 _ hmem
      simp [RPc.atR] at hji
      have hsel := h6 _ _ hk (by omega)
      have hj : j = i := by
        rcases hji.1 with e | e
        · exact e
        · rw [e] at hsel
          exact absurd hsel (readSemaphoreId_succ_ne _ _)
      subst hj
      refine ⟨h1, h2, h3, h4, forall_mem_set _ _ _ h5 (by simp [RPc.atR]), ?_, ?_, forall_mem_set _ _ _ h8 (by simp)⟩
      · intro k y hy hy0
        dsimp only at hy
        rw [List.getElem?_set] at hy
        by_cases hkk : readSemaphoreId cfg.variant j = k
        · exact hkk.symm
        · simp [hkk] at hy
          exact h6 k y hy hy0
      · have := hC j ⟨.read j, 0⟩ 0 0 (by simp [RPc.credited]) rfl
        dsimp only at h7 ⊢
        omega
  | read j =>
    simp [step, hr, readerStep, logEv, exchangeBufferReadValue] at hs
    subst hs
    have hH1 := hH ⟨.incr j slot, 0⟩ 1 1 rfl rfl
    have hL1 := hL ⟨.incr j slot, 0⟩ j (j + 1) rfl rfl
    refine ⟨by simpa using hn, hm, by simp only [permits]; omega,
        forall_mem_set _ _ _ hright rfl, ?_, by simpa [isWrite] using hnw,
        by simp [isRead]; simp at hL1; omega⟩
    rcases hphase with ⟨i, hi⟩ | ⟨i, hi⟩
    · have := hi.2.2.2.2 _ hmem
      simp [RPc.atW] at this
    · right
      refine ⟨i, ?_⟩
      obtain ⟨h1, h2, h3, h4, h5, h6, h7, h8⟩ := hi
      have hji := h5 _ hmem
      simp [RPc.atR] at hji
      subst hji
      refine ⟨h1, h2, h3, h4, forall_mem_set _ _ _ h5 (by simpa [RPc.atR] using h4), h6, ?_, forall_mem_set _ _ _ h8 (by simp)⟩
      have := hC j ⟨.incr j slot, 0⟩ 0 0 rfl rfl
      dsimp only at h7 ⊢
      omega
  | incr j v =>
    simp [step, hr, readerStep, logEv] at hs
    subst hs
    have hH1 := hH ⟨.test j v, 0⟩ 1 1 rfl rfl
    have hL1 := hL ⟨.test j v, 0⟩ (j + 1) (j + 1) rfl rfl
    refine ⟨by simpa using hn, hm, by simp only [permits]; omega,
        forall_mem_set _ _ _ hright rfl, ?_, by simpa [isWrite] using hnw,
        by simp [isRead]; simp at hL1; omega⟩
    rcases hphase with ⟨i, hi⟩ | ⟨i, hi⟩
    · have := hi.2.2.2.2 _ hmem
      simp [RPc.atW] at this
    · right
      refine ⟨i, ?_⟩
      obtain ⟨h1, h2, h3, h4, h5, h6, h7, h8⟩ := hi
      have hji := h5 _ hmem
      simp [RPc.atR] at hji
      refine ⟨h1, h2, h3, h4, forall_mem_set _ _ _ h5 (by simpa [RPc.atR] using hji), h6, ?_, ?_⟩
      · have := hC i ⟨.test j v, 0⟩ 0 1 rfl rfl
        dsimp only at h7 ⊢
        omega
      · intro r hr2 j2 v2 hpc
        rcases List.mem_or_eq_of_mem_set hr2 with h9 | h9
        · have := hU r h9 rfl (by simp [hpc, RPc.holds])
          rw [← this] at hpc
          simp at hpc
        · rw [h9] at hpc
          simp at hpc
  | test j v =>
    by_cases hfin : fin = cfg.READERS_COUNT
    · subst hfin
      simp [step, hr, readerStep, logEv] at hs
      subst hs
      have hH1 := hH ⟨.reset j v, 0⟩ 1 1 rfl rfl
      have hL1 := hL ⟨.reset j v, 0⟩ (j + 1) (j + 1) rfl rfl
      refine ⟨by simpa using hn, hm, by simp only [permits]; omega,
          forall_mem_set _ _ _ hright rfl, ?_, hnw, by dsimp only; omega⟩
      rcases hphase with ⟨i, hi⟩ | ⟨i, hi⟩
      · have := hi.2.2.2.2 _ hmem
        simp [RPc.atW] at this
      · right
        refine ⟨i, ?_⟩
        obtain ⟨h1, h2, h3, h4, h5, h6, h7, h8⟩ := hi
        have hji := h5 _ hmem
        simp [RPc.atR] at hji
        refine ⟨h1, h2, h3, h4, forall_mem_set _ _ _ h5 (by simpa [RPc.atR] using hji), h6, ?_,
          forall_mem_set _ _ _ h8 (fun _ _ _ => rfl)⟩
        have := hC i ⟨.reset j v, 0⟩ 1 1 rfl rfl
        dsimp only at h7 ⊢
        omega
    · simp [step, hr, readerStep, logEv, hfin] at hs
      subst hs
      have hH1 := hH ⟨.postRead j v, 0⟩ 1 1 rfl rfl
      have hL1 := hL ⟨.postRead j v, 0⟩ (j + 1) (j + 1) rfl rfl
      refine ⟨by simpa using hn, hm, by simp only [permits]; omega,
          forall_mem_set _ _ _ hright rfl, ?_, hnw, by dsimp only; omega⟩
      rcases hphase with ⟨i, hi⟩ | ⟨i, hi⟩
      · have := hi.2.2.2.2 _ hmem
        simp [RPc.atW] at this
      · right
        refine ⟨i, ?_⟩
        obtain ⟨h1, h2, h3, h4, h5, h6, h7, h8⟩ := hi
        have hji := h5 _ hmem
        simp [RPc.atR] at hji
        refine ⟨h1, h2, h3, h4, forall_mem_set _ _ _ h5 (by simpa [RPc.atR] using hji), h6, ?_,
          forall_mem_set _ _ _ h8 (by simp)⟩
        have := hC i ⟨.postRead j v, 0⟩ 1 1 rfl rfl
        dsimp only at h7 ⊢
        omega
  | reset j v =>
    simp [step, hr, readerStep, logEv] at hs
    subst hs
    have hH1 := hH ⟨.postWrite j v, 0⟩ 1 1 rfl rfl
    have hL1 := hL ⟨.postWrite j v, 0⟩ (j + 1) (j + 1) rfl rfl
    refine ⟨by simpa using hn, hm, by simp only [permits]; omega,
        forall_mem_set _ _ _ hright rfl, ?_, by simpa [isWrite] using hnw,
        by simp [isRead]; simp at hL1; omega⟩
    rcases hphase with ⟨i, hi⟩ | ⟨i, hi⟩
    · have := hi.2.2.2.2 _ hmem
      simp [RPc.atW] at this
    · left
      refine ⟨i + 1, ?_⟩
      obtain ⟨h1, h2, h3, h4, h5, h6, h7, h8⟩ := hi
      have hji := h5 _ hmem
      simp [RPc.atR] at hji
      obtain ⟨hji, hv⟩ := hji
      subst hji
      have hfin := h8 _ hmem j v rfl
      dsimp only at hfin h7
      have hall : ∀ r ∈ rs, r.pc.credited j = true := by
        have : List.countP (fun r : Reader => r.pc.credited j) rs = rs.length := by omega
        rw [List.countP_eq_length] at this
        exact this
      have hge1 := hge rfl
      refine ⟨h1, rfl, by dsimp only; omega, ?_, ?_⟩
      · dsimp only
        revert h3
        cases w <;> simp only [WPc.atR, WPc.atW] <;> intro h3 <;>
          first
          | exact h3
          | exact h3.elim
          | (obtain ⟨rfl, h, rfl⟩ := h3; exact ⟨rfl, h, rfl⟩)
      · intro r hr2
        rcases mem_set_cases _ _ _ _ hr2 with h9 | ⟨k, hkt, h9⟩
        · rw [h9]
          simp [RPc.atW, hv]
        · have h10 := List.getElem?_mem h9
          have ha := h5 r h10
          have hc := hall r h10
          by_cases hh : r.pc.holds = true
          · exact absurd (hI k r h9 rfl hh).symm hkt
          · revert ha hc hh
            cases r.pc <;> simp [RPc.atW, RPc.atR, RPc.credited, RPc.holds] <;> omega
  | postWrite j v =>
    simp [step, hr, readerStep, logEv] at hs
    subst hs
    have hH1 := hH ⟨.check j v, 0⟩ 1 0 rfl rfl
    have hL1 := hL ⟨.check j v, 0⟩ (j + 1) (j + 1) rfl rfl
    refine ⟨by simpa using hn, hm, by simp only [permits, sem_post]; omega,
        forall_mem_set _ _ _ hright rfl, ?_, by simpa [isWrite] using hnw,
        by simp [isRead]; simp at hL1; omega⟩
    rcases hphase with ⟨i, hi⟩ | ⟨i, hi⟩
    · left
      refine ⟨i, ?_⟩
      obtain ⟨h1, h2, h3, h4, h5⟩ := hi
      refine ⟨h1, h2, h3, ?_, forall_mem_set _ _ _ h5 ?_⟩
      · exact h4
      · have := h5 _ hmem
        simpa [RPc.atW] using this
    · have := hi.2.2.2.2.1 _ hmem
      simp [RPc.atR] at this
  | postRead j v =>
    rcases hphase with ⟨i, hi⟩ | ⟨i, hi⟩
    · have := hi.2.2.2.2 _ hmem
      simp [RPc.atW] at this
    · obtain ⟨h1, h2, h3, h4, h5, h6, h7, h8⟩ := hi
      have hji := h5 _ hmem
      simp [RPc.atR] at hji
      obtain ⟨hji, hv⟩ := hji
      subst hji
      have hlt := readSemaphoreId_lt cfg j h1
      rw [← hm] at hlt
      have hk : mr[readSemaphoreId cfg.variant j]? = some (mr[readSemaphoreId cfg.variant j]) :=
        List.getElem?_eq_getElem hlt
      simp [step, hr, readerStep, logEv, hk] at hs
      subst hs
      have hsum := sum_set_some mr _ _ (sem_post mr[readSemaphoreId cfg.variant j]) hk
      have hsp : sem_post mr[readSemaphoreId cfg.variant j] = mr[readSemaphoreId cfg.variant j] + 1 := rfl
      have hH1 := hH ⟨.check j v, 0⟩ 1 0 rfl rfl
      have hL1 := hL ⟨.check j v, 0⟩ (j + 1) (j + 1) rfl rfl
      refine ⟨by simpa using hn, by simpa using hm, by simp only [permits]; omega,
          forall_mem_set _ _ _ hright rfl, ?_, by simpa [isWrite] using hnw,
          by simp [isRead]; simp at hL1; omega⟩
      right
      refine ⟨j, ?_⟩
      refine ⟨h1, h2, h3, h4, forall_mem_set _ _ _ h5 (by simp [RPc.atR, hv]), ?_, ?_, forall_mem_set _ _ _ h8 (by simp)⟩
      · intro k y hy hy0
        dsimp only at hy
        rw [List.getElem?_set] at hy
        by_cases hkk : readSemaphoreId cfg.variant j = k
        · exact hkk.symm
        · simp [hkk] at hy
          exact h6 k y hy hy0
      · have := hC j ⟨.check j v, 0⟩ 1 1 rfl (by simp [RPc.credited])
        dsimp only at h7 ⊢
        omega
  | check j v =>
    have hv : v = cfg.protectedItemArray j := by
      rcases hphase with ⟨i, hi⟩ | ⟨i, hi⟩
      · have := hi.2.2.2.2 _ hmem
        simp [RPc.atW] at this
        exact this.2
      · have := hi.2.2.2.2.1 _ hmem
        simp [RPc.atR] at this
        exact this.2
    simp [step, hr, readerStep, logEv, itemArrayIsValueCorrect, hv] at hs
    subst hs
    have hH1 := hH ⟨.loop (j + 1), 0⟩ 0 0 rfl rfl
    have hL1 := hL ⟨.loop (j + 1), 0⟩ (j + 1) (j + 1) rfl rfl
    refine ⟨by simpa using hn, hm, by simp only [permits]; omega,
        forall_mem_set _ _ _ hright rfl, ?_, hnw, by dsimp only; omega⟩
    rcases hphase with ⟨i, hi⟩ | ⟨i, hi⟩
    · left
      refine ⟨i, ?_⟩
      obtain ⟨h1, h2, h3, h4, h5⟩ := hi
      refine ⟨h1, h2, h3, h4, forall_mem_set _ _ _ h5 ?_⟩
      have := h5 _ hmem
      simp [RPc.atW] at this ⊢
      omega
    · right
      refine ⟨i, ?_⟩
      obtain ⟨h1, h2, h3, h4, h5, h6, h7, h8⟩ := hi
      refine ⟨h1, h2, h3, h4, forall_mem_set _ _ _ h5 ?_, h6, ?_, forall_mem_set _ _ _ h8 (by simp)⟩
      · have := h5 _ hmem
        simp [RPc.atR] at this ⊢
        omega
      · have := hC i ⟨.loop (j + 1), 0⟩ (if j == i then 1 else 0) (if j == i then 1 else 0) rfl
          (by simp [RPc.credited])
        dsimp only at h7 ⊢
        omega
  | done => simp [step, hr, readerStep] at hs

theorem traceOK_nil (cfg : Config) : TraceOK cfg [] := by
  intro pre post x h
  simp at h

theorem traceOK_snoc (cfg : Config) (tr : List (Tid × Ev)) (e : Tid × Ev)
    (h : TraceOK cfg tr) (he : EvOK cfg tr e) : TraceOK cfg (tr ++ [e]) := by
  intro pre post x hx
  rcases snoc_eq_append_cons tr pre post e x hx with ⟨_, h2, h3⟩ | ⟨post0, _, h2⟩
  · rw [h2, h3]
    exact he
  · exact h pre post0 x h2

theorem pendingAt_of_not_holds (cfg : Config) (s : State) (t : Nat) (r : Reader)
    (h : r.pc.holds = false) : PendingAt cfg s t r := by
  refine ⟨?_, ?_, ?_⟩ <;> intro i v hpc <;> rw [hpc] at h <;> simp [RPc.holds] at h

theorem pending_of_no_holder (cfg : Config) (s : State)
    (h : ∀ r ∈ s.readers, r.pc.holds = false) : PendingOK cfg s := by
  intro t r hr
  exact pendingAt_of_not_holds cfg s t r (h r (List.getElem?_mem hr))

theorem no_holder_of_countP (rs : List Reader)
    (h : List.countP (fun r : Reader => r.pc.holds) rs = 0) : ∀ r ∈ rs, r.pc.holds = false := by
  simpa using h

theorem trace_writer (cfg : Config) (s s1 : State) (h : Inv cfg s)
    (htr : TraceOK cfg s.trace) (hp : PendingOK cfg s)
    (hs : step cfg s .writer = some s1) : TraceOK cfg s1.trace ∧ PendingOK cfg s1 := by
  obtain ⟨⟨slot, fin, mw, mr⟩, w, rs, tr⟩ := s
  obtain ⟨hn, hm, htok, hright, hphase, hnw, hnr⟩ := h
  simp only [permits] at htok
  simp only at hn hm htok hright hnw hnr htr
  cases w with
  | loop i =>
    by_cases hi : i < cfg.ITEM_COUNT
    · simp [step, writerStep, hi, logEv] at hs
      subst hs
      exact ⟨htr, hp⟩
    · simp [step, writerStep, hi, logEv] at hs
      subst hs
      exact ⟨htr, hp⟩
  | semWait i v =>
    cases mw with
    | zero => simp [step, writerStep, sem_wait] at hs
    | succ mw =>
      simp [step, writerStep, sem_wait, logEv] at hs
      subst hs
      refine ⟨traceOK_snoc cfg tr _ htr (by simp [EvOK]), pending_of_no_holder cfg _ ?_⟩
      exact no_holder_of_countP rs (by omega)
  | write i v =>
    simp [step, writerStep, exchangeBufferWriteValue, logEv] at hs
    subst hs
    simp [WPc.holds] at htok
    refine ⟨traceOK_snoc cfg tr _ htr ?_, pending_of_no_holder cfg _ (no_holder_of_countP rs (by omega))⟩
    rcases hphase with ⟨j, hj⟩ | ⟨j, hj⟩
    · obtain ⟨h1, h2, h3, h4, h5⟩ := hj
      simp only [WPc.atW] at h4
      obtain ⟨h4, h6, h7⟩ := h4
      subst h4
      refine ⟨h7, hnw, ?_⟩
      rw [hnr, ← hn]
      apply sum_map_const_of_forall
      intro r hr
      have := h5 r hr
      revert this
      cases r.pc <;> simp [RPc.atW, RPc.loads] <;> omega
    · simp [RPhase, WPc.atR] at hj
  | post i v =>
    simp [step, writerStep, logEv] at hs
    subst hs
    simp [WPc.holds] at htok
    exact ⟨traceOK_snoc cfg tr _ htr (by simp [EvOK]),
      pending_of_no_holder cfg _ (no_holder_of_countP rs (by omega))⟩
  | done => simp [step, writerStep] at hs

set_option maxHeartbeats 1600000 in
theorem trace_reader (cfg : Config) (s s1 : State) (t : Nat) (h : Inv cfg s)
    (htr : TraceOK cfg s.trace) (hp : PendingOK cfg s)
    (hs : step cfg s (.reader t) = some s1) : TraceOK cfg s1.trace ∧ PendingOK cfg s1 := by
  obtain ⟨⟨slot, fin, mw, mr⟩, w, rs, tr⟩ := s
  obtain ⟨hn, hm, htok, hright, hphase, hnw, hnr⟩ := h
  simp only [permits] at htok
  simp only at hn hm htok hright hnw hnr htr
  cases hr : rs[t]? with
  | none => simp [step, hr] at hs
  | some r =>
  obtain ⟨pc, wc⟩ := r
  have hmem := List.getElem?_mem hr
  have hpt := hp t _ hr
  have hI := fun k z hz => index_unique_of_countP_le_one (fun r : Reader => r.pc.holds) rs (by omega) t k _ z hr hz
  -- readers other than the mover are unchanged
  have hother : ∀ (y : Reader) (k : Nat) (z : Reader), (rs.set t y)[k]? = some z → k ≠ t → rs[k]? = some z := by
    intro y k z hz hk
    rw [List.getElem?_set] at hz
    rw [if_neg (fun e => hk e.symm)] at hz
    exact hz
  have hself : ∀ (y : Reader) (z : Reader), (rs.set t y)[t]? = some z → z = y := by
    intro y z hz
    rw [List.getElem?_set] at hz
    simp at hz
    exact hz.2.symm
  -- a visible step of a permit holder: nobody else is between increment and post
  have hvis : pc.holds = true → ∀ (y : Reader) (s2 : State), s2.readers = rs.set t y →
      PendingAt cfg s2 t y → PendingOK cfg s2 := by
    intro hh y s2 hrs hy k z hz
    rw [hrs] at hz
    by_cases hk : k = t
    · subst hk
      rw [hself y z hz]
      exact hy
    · have hz1 := hother y k z hz hk
      apply pendingAt_of_not_holds
      by_contra hc
      simp at hc
      exact hk (hI k z hz1 hh hc).symm
  -- an invisible step: trace and counter unchanged
  have htau : ∀ (y : Reader) (s2 : State), s2.readers = rs.set t y → s2.trace = tr →
      s2.sh.sharedFinishedReaderCount = fin → PendingAt cfg s2 t y → PendingOK cfg s2 := by
    intro y s2 hrs htr2 hfin2 hy k z hz
    rw [hrs] at hz
    by_cases hk : k = t
    · subst hk
      rw [hself y z hz]
      exact hy
    · have hz1 := hother y k z hz hk
      have := hp k z hz1
      simp only [PendingAt] at this ⊢
      rw [htr2, hfin2]
      exact this
  cases pc with
  | loop j =>
    by_cases hj : j < cfg.ITEM_COUNT
    · simp [step, hr, readerStep, hj, logEv] at hs
      subst hs
      exact ⟨htr, htau _ _ rfl rfl rfl (pendingAt_of_not_holds _ _ _ _ rfl)⟩
    · simp [step, hr, readerStep, hj, logEv] at hs
      subst hs
      exact ⟨htr, htau _ _ rfl rfl rfl (pendingAt_of_not_holds _ _ _ _ rfl)⟩
  | semWait j =>
    cases hk : mr[readSemaphoreId cfg.variant j]? with
    | none => simp [step, hr, readerStep, hk, sem_wait] at hs
    | some x =>
    cases x with
    | zero => simp [step, hr, readerStep, hk, sem_wait] at hs
    | succ x =>
    simp [step, hr, readerStep, hk, sem_wait, logEv] at hs
    subst hs
    refine ⟨traceOK_snoc cfg tr _ htr (by simp [EvOK]), ?_⟩
    have hle := List.le_sum_of_mem (List.getElem?_mem hk)
    have hnone := no_holder_of_countP rs (by omega)
    intro k z hz
    by_cases hkt : k = t
    · subst hkt
      rw [hself _ z hz]
      refine ⟨?_, ?_, ?_⟩ <;> intro i v hpc <;> simp at hpc
    · exact pendingAt_of_not_holds _ _ _ _ (hnone z (List.getElem?_mem (hother _ k z hz hkt)))
  | read j =>
    simp [step, hr, readerStep, logEv, exchangeBufferReadValue] at hs
    subst hs
    refine ⟨traceOK_snoc cfg tr _ htr ?_, hvis rfl _ _ rfl ?_⟩
    · rcases hphase with ⟨i, hi⟩ | ⟨i, hi⟩
      · have := hi.2.2.2.2 _ hmem
        simp [RPc.atW] at this
      · obtain ⟨h1, h2, h3, h4, h5, h6, h7, h8⟩ := hi
        have hji := h5 _ hmem
        simp [RPc.atR] at hji
        subst hji
        refine ⟨h4, ?_⟩
        rw [hnw]
        dsimp only at h3 ⊢
        revert h3
        cases w <;> simp [WPc.atR, WPc.stores] <;> omega
    · refine ⟨?_, ?_, ?_⟩ <;> intro i v hpc <;> simp at hpc
  | incr j v =>
    simp [step, hr, readerStep, logEv] at hs
    subst hs
    refine ⟨traceOK_snoc cfg tr _ htr (by simp [EvOK]), hvis rfl _ _ rfl ?_⟩
    refine ⟨?_, ?_, ?_⟩ <;> intro i v hpc <;> simp at hpc
    exact ⟨tr, rfl⟩
  | test j v =>
    by_cases hfin : fin = cfg.READERS_COUNT
    · subst hfin
      simp [step, hr, readerStep, logEv] at hs
      subst hs
      refine ⟨htr, htau _ _ rfl rfl rfl ?_⟩
      refine ⟨?_, ?_, ?_⟩ <;> intro i v hpc <;> simp at hpc
      exact hpt.1 _ _ rfl
    · simp [step, hr, readerStep, logEv, hfin] at hs
      subst hs
      refine ⟨htr, htau _ _ rfl rfl rfl ?_⟩
      refine ⟨?_, ?_, ?_⟩ <;> intro i v hpc <;> simp at hpc
  | reset j v =>
    simp [step, hr, readerStep, logEv] at hs
    subst hs
    refine ⟨traceOK_snoc cfg tr _ htr (by simp [EvOK]), hvis rfl _ _ rfl ?_⟩
    refine ⟨?_, ?_, ?_⟩ <;> intro i v hpc <;> simp at hpc
    obtain ⟨pre0, h0⟩ := hpt.2.1 _ _ rfl
    exact ⟨pre0, by simp at h0; simp [h0]⟩
  | postWrite j v =>
    simp [step, hr, readerStep, logEv] at hs
    subst hs
    refine ⟨traceOK_snoc cfg tr _ htr ?_, hvis rfl _ _ rfl ?_⟩
    · obtain ⟨pre0, h0⟩ := hpt.2.2 _ _ rfl
      exact ⟨t, pre0, rfl, h0⟩
    · refine ⟨?_, ?_, ?_⟩ <;> intro i v hpc <;> simp at hpc
  | postRead j v =>
    simp [step, hr, readerStep, logEv] at hs
    subst hs
    refine ⟨traceOK_snoc cfg tr _ htr (by simp [EvOK]), hvis rfl _ _ rfl ?_⟩
    refine ⟨?_, ?_, ?_⟩ <;> intro i v hpc <;> simp at hpc
  | check j v =>
    by_cases hv : itemArrayIsValueCorrect cfg j v = true
    · simp [step, hr, readerStep, logEv, hv] at hs
      subst hs
      exact ⟨htr, htau _ _ rfl rfl rfl (pendingAt_of_not_holds _ _ _ _ rfl)⟩
    · simp [step, hr, readerStep, logEv, hv] at hs
      subst hs
      exact ⟨htr, htau _ _ rfl rfl rfl (pendingAt_of_not_holds _ _ _ _ rfl)⟩
  | done => simp [step, hr, readerStep] at hs

theorem inv_step (cfg : Config) (s s1 : State) (a : Tid) (h : Inv cfg s)
    (hs : step cfg s a = some s1) : Inv cfg s1 := by
  cases a with
  | writer => exact inv_writer cfg s s1 h hs
  | reader t => exact inv_reader cfg s s1 t h hs

theorem trace_step (cfg : Config) (s s1 : State) (a : Tid) (h : Inv cfg s)
    (htr : TraceOK cfg s.trace) (hp : PendingOK cfg s)
    (hs : step cfg s a = some s1) : TraceOK cfg s1.trace ∧ PendingOK cfg s1 := by
  cases a with
  | writer => exact trace_writer cfg s s1 h htr hp hs
  | reader t => exact trace_reader cfg s s1 t h htr hp hs

theorem good_run (cfg : Config) (sched : List Tid) :
    ∀ s s1 : State, Inv cfg s → TraceOK cfg s.trace → PendingOK cfg s →
      run cfg s sched = some s1 → Inv cfg s1 ∧ TraceOK cfg s1.trace ∧ PendingOK cfg s1 := by
  induction sched with
  | nil =>
    intro s s1 h1 h2 h3 hr
    simp [run] at hr
    subst hr
    exact ⟨h1, h2, h3⟩
  | cons a as ih =>
    intro s s1 h1 h2 h3 hr
    simp only [run] at hr
    cases hst : step cfg s a with
    | none => simp [hst] at hr
    | some s2 =>
      simp [hst] at hr
      have h4 := trace_step cfg s s2 a h1 h2 h3 hst
      exact ih s2 s1 (inv_step cfg s s2 a h1 hst) h4.1 h4.2 hr

theorem good_reachable (cfg : Config) (s : State) (h : Reachable cfg s) :
    Inv cfg s ∧ TraceOK cfg s.trace ∧ PendingOK cfg s := by
  obtain ⟨sched, hs⟩ := h
  refine good_run cfg sched (init cfg) s (inv_init cfg) (traceOK_nil cfg) ?_ hs
  apply pending_of_no_holder
  intro r hr
  simp [init] at hr
  rw [hr.2]
  rfl

theorem demo_reachable_perItem : Reachable (perItemConfig 2 2 demoValues) demoState :=
  ⟨demoSchedule, by decide⟩

theorem demo_reachable_swap : Reachable (swapConfig 2 2 demoValues) demoState :=
  ⟨demoSchedule, by decide⟩

/-- Safety of the reads in both variants, from the invariant. -/
theorem reads_correct (cfg : Config) (s : State) (h : Reachable cfg s) :
    (∀ pre post t i v, s.trace = pre ++ (t, Ev.read i v) :: post →
        v = cfg.protectedItemArray i ∧ pre.countP isWrite = i + 1) ∧
    (∀ pre post t i v, s.trace = pre ++ (t, Ev.write i v) :: post →
        v = cfg.protectedItemArray i ∧ pre.countP isWrite = i) ∧
    (∀ r ∈ s.readers, ∀ i, r.pc = .read i →
        s.sh.sharedExchangeBufferValue = cfg.protectedItemArray i ∧
        (s.writer = .loop (i + 1) ∨ s.writer = .semWait (i + 1) (cfg.protectedItemArray (i + 1)) ∨
          s.writer = .done)) ∧
    (∀ r ∈ s.readers, ∀ i v, r.pc = .check i v → v = cfg.protectedItemArray i) ∧
    (∀ r ∈ s.readers, r.wrongReadCount = 0) := by
  obtain ⟨hinv, htr, _⟩ := good_reachable cfg s h
  refine ⟨?_, ?_, ?_, ?_, hinv.right⟩
  · intro pre post t i v hsplit
    exact htr pre post _ hsplit
  · intro pre post t i v hsplit
    have := htr pre post _ hsplit
    exact ⟨this.1, this.2.1⟩
  · intro r hr i hpc
    rcases hinv.phase with ⟨j, hj⟩ | ⟨j, hj⟩
    · have := hj.2.2.2.2 r hr
      rw [hpc] at this
      exact this.elim
    · obtain ⟨h1, h2, h3, h4, h5, _⟩ := hj
      have := h5 r hr
      rw [hpc] at this
      simp only [RPc.atR] at this
      subst this
      refine ⟨h4, ?_⟩
      cases hw : s.writer with
      | loop k =>
        rw [hw] at h3
        simp only [WPc.atR] at h3
        left
        rw [h3]
      | semWait k v =>
        rw [hw] at h3
        obtain ⟨e1, _, e2⟩ := h3
        subst e1 e2
        right
        left
        rfl
      | write k v =>
        rw [hw] at h3
        exact h3.elim
      | post k v =>
        rw [hw] at h3
        exact h3.elim
      | done =>
        right
        right
        rfl
  · intro r hr i v hpc
    rcases hinv.phase with ⟨j, hj⟩ | ⟨j, hj⟩
    · have := hj.2.2.2.2 r hr
      rw [hpc] at this
      exact this.2
    · have := hj.2.2.2.2.1 r hr
      rw [hpc] at this
      exact this.2

/-- Round structure of a reachable trace and state. -/
theorem round_core (cfg : Config) (s : State) (h : Reachable cfg s) :
    (∀ pre post who, s.trace = pre ++ (who, Ev.semPost SemId.mayWrite) :: post →
        ∃ t pre0, who = Tid.reader t ∧
          pre = pre0 ++ [(Tid.reader t, Ev.incr cfg.READERS_COUNT), (Tid.reader t, Ev.reset)]) ∧
    (∀ pre mid post e1 e2, s.trace = pre ++ e1 :: (mid ++ e2 :: post) →
        isWrite e1 = true → isWrite e2 = true → mid.countP isWrite = 0 →
        mid.countP isRead = cfg.READERS_COUNT) ∧
    (∀ r ∈ s.readers, ∀ i v, r.pc = .reset i v ∨ r.pc = .postWrite i v →
        ∀ r2 ∈ s.readers, r2.pc.loads cfg = i + 1) ∧
    (s.sh.sharedSemMayWrite ≠ 0 →
        s.sh.sharedFinishedReaderCount = 0 ∧ ∀ r ∈ s.readers, r.pc.loads cfg = s.writer.stores cfg) ∧
    (0 < cfg.READERS_COUNT → s.sh.sharedFinishedReaderCount = cfg.READERS_COUNT →
        ∀ r ∈ s.readers, r.pc.loads cfg = s.writer.stores cfg) := by
  obtain ⟨hinv, htr, _⟩ := good_reachable cfg s h
  refine ⟨?_, ?_, ?_, ?_, ?_⟩
  · intro pre post who hsplit
    exact htr pre post _ hsplit
  · intro pre mid post e1 e2 hsplit h1 h2 hmid
    obtain ⟨t1, ev1⟩ := e1
    obtain ⟨t2, ev2⟩ := e2
    cases ev1 <;> simp [isWrite] at h1
    cases ev2 <;> simp [isWrite] at h2
    rename_i i1 v1 i2 v2
    have ha := htr pre (mid ++ (t2, Ev.write i2 v2) :: post) _ hsplit
    have hb := htr (pre ++ (t1, Ev.write i1 v1) :: mid) post (t2, Ev.write i2 v2) (by simp [hsplit])
    simp only [EvOK] at ha hb
    simp [List.countP_cons, isWrite, isRead, hmid] at hb
    obtain ⟨_, ha2, ha3⟩ := ha
    obtain ⟨_, hb2, hb3⟩ := hb
    rw [ha2] at hb2
    rw [ha3, ← hb2] at hb3
    have : cfg.READERS_COUNT * (i1 + 1) = cfg.READERS_COUNT * i1 + cfg.READERS_COUNT := by ring
    omega
  · intro r hr i v hpc r2 hr2
    have hU := unique_of_countP_le_one (fun r : Reader => r.pc.holds) s.readers
      (by have := hinv.token; simp only [permits] at this; omega) r r2 hr hr2
      (by rcases hpc with e | e <;> simp [e, RPc.holds])
    rcases hinv.phase with ⟨j, hj⟩ | ⟨j, hj⟩
    · have h1 := hj.2.2.2.2 r hr
      have h2 := hj.2.2.2.2 r2 hr2
      have hji : j = i + 1 := by
        rcases hpc with e | e <;> rw [e] at h1 <;> simp [RPc.atW] at h1
        omega
      subst hji
      have := hj.1
      revert h2
      cases r2.pc <;> simp [RPc.atW, RPc.loads] <;> omega
    · obtain ⟨h1, h2, h3, h4, h5, h6, h7, h8⟩ := hj
      have ha := h5 r hr
      rcases hpc with e | e
      · have hfin := h8 r hr i v e
        rw [e] at ha
        simp only [RPc.atR] at ha
        have hji := ha.1
        subst hji
        have hall : ∀ r ∈ s.readers, r.pc.credited i = true := by
          have : List.countP (fun r : Reader => r.pc.credited i) s.readers = s.readers.length := by
            rw [← h7, hfin, hinv.nreaders]
          rw [List.countP_eq_length] at this
          exact this
        have hb := h5 r2 hr2
        have hc := hall r2 hr2
        revert hb hc
        cases r2.pc <;> simp [RPc.atR, RPc.credited, RPc.loads] <;> omega
      · rw [e] at ha
        exact ha.elim
  · intro hmw
    rcases hinv.phase with ⟨j, hj⟩ | ⟨j, hj⟩
    · obtain ⟨h1, h2, h3, h4, h5⟩ := hj
      refine ⟨h2, ?_⟩
      have htok := hinv.token
      simp only [permits] at htok
      have hw : s.writer.holds = false := by
        by_contra hc
        simp at hc
        simp [hc] at htok
        omega
      have hst : s.writer.stores cfg = j := by
        revert h4 hw
        cases s.writer <;> simp [WPc.atW, WPc.stores, WPc.holds] <;> omega
      intro r hr
      rw [hst]
      have := h5 r hr
      revert this
      cases r.pc <;> simp [RPc.atW, RPc.loads] <;> omega
    · exact absurd hj.2.1 hmw
  · intro hR hfin
    rcases hinv.phase with ⟨j, hj⟩ | ⟨j, hj⟩
    · have := hj.2.1
      omega
    · obtain ⟨h1, h2, h3, h4, h5, h6, h7, h8⟩ := hj
      have hall : ∀ r ∈ s.readers, r.pc.credited j = true := by
        have : List.countP (fun r : Reader => r.pc.credited j) s.readers = s.readers.length := by
          rw [← h7, hfin, hinv.nreaders]
        rw [List.countP_eq_length] at this
        exact this
      have hst : s.writer.stores cfg = j + 1 := by
        revert h3
        cases s.writer <;> simp [WPc.atR, WPc.stores] <;> omega
      intro r hr
      rw [hst]
      have hb := h5 r hr
      have hc := hall r hr
      revert hb hc
      cases r.pc <;> simp [RPc.atR, RPc.credited, RPc.loads] <;> omega

/-- The counter under the invariant. -/
theorem counter_core (cfg : Config) (s : State) (hinv : Inv cfg s) :
    s.sh.sharedFinishedReaderCount ≤ cfg.READERS_COUNT ∧
    (s.writer.holds = true → s.sh.sharedFinishedReaderCount = 0) := by
  rcases hinv.phase with ⟨j, hj⟩ | ⟨j, hj⟩
  · rw [hj.2.1]
    exact ⟨Nat.zero_le _, fun _ => rfl⟩
  · obtain ⟨h1, h2, h3, h4, h5, h6, h7, h8⟩ := hj
    refine ⟨?_, ?_⟩
    · rw [h7, ← hinv.nreaders]
      exact List.countP_le_length _
    · intro hw
      revert h3 hw
      cases s.writer <;> simp [WPc.atR, WPc.holds]

/-- All calls in flight concern two consecutive items at most. -/
theorem pending_window (cfg : Config) (s : State) (hinv : Inv cfg s) :
    ∃ m, (∀ j, s.writer.pendingItem = some j → j = m ∨ j = m + 1) ∧
      ∀ r ∈ s.readers, ∀ j, r.pc.pendingItem = some j → j = m ∨ j = m + 1 := by
  rcases hinv.phase with ⟨i, hi⟩ | ⟨i, hi⟩
  · obtain ⟨h1, h2, h3, h4, h5⟩ := hi
    refine ⟨i - 1, ?_, ?_⟩
    · intro j hj
      revert h4 hj
      cases s.writer <;> simp [WPc.atW, WPc.pendingItem] <;> omega
    · intro r hr j hj
      have := h5 r hr
      revert this hj
      cases r.pc <;> simp [RPc.atW, RPc.pendingItem] <;> omega
  · obtain ⟨h1, h2, h3, h4, h5, _⟩ := hi
    refine ⟨i, ?_, ?_⟩
    · intro j hj
      revert h3 hj
      cases s.writer <;> simp [WPc.atR, WPc.pendingItem] <;> omega
    · intro r hr j hj
      have := h5 r hr
      revert this hj
      cases r.pc <;> simp [RPc.atR, RPc.pendingItem] <;> omega

/-- What the writer finds when it is about to post the read semaphore of item `i`. -/
theorem writer_post_core (cfg : Config) (s : State) (hinv : Inv cfg s) (i : Nat) (v : Int)
    (hw : s.writer = .post i v) :
    (∀ k, s.sh.sharedSemMayRead.getD k 0 = 0) ∧
    (∀ r ∈ s.readers, ∀ j, r.pc.pendingItem = some j → j = i) := by
  have htok := hinv.token
  simp only [permits, hw, WPc.holds] at htok
  rcases hinv.phase with ⟨m, hm⟩ | ⟨m, hm⟩
  · obtain ⟨h1, h2, h3, h4, h5⟩ := hm
    rw [hw] at h4
    simp only [WPc.atW] at h4
    obtain ⟨h4, _⟩ := h4
    subst h4
    refine ⟨?_, ?_⟩
    · intro k
      rw [List.getD_eq_getElem?_getD]
      cases hk : s.sh.sharedSemMayRead[k]? with
      | none => rfl
      | some x => exact getElem?_zero_of_sum_zero _ h3 k x hk
    · intro r hr j hj
      have ha := h5 r hr
      have hh : r.pc.holds = false := no_holder_of_countP s.readers (by simp at htok; omega) r hr
      revert ha hj hh
      cases r.pc <;> simp [RPc.atW, RPc.pendingItem, RPc.holds] <;> omega
  · have := hm.2.2.1
    rw [hw] at this
    exact this.elim

/-- A permit on a read semaphore belongs to the item stored last. -/
theorem read_permit_core (cfg : Config) (s : State) (hinv : Inv cfg s) (k x : Nat)
    (hk : s.sh.sharedSemMayRead[k]? = some x) (hx : x ≠ 0) :
    ∃ i, k = readSemaphoreId cfg.variant i ∧ s.writer.stores cfg = i + 1 ∧
      s.sh.sharedExchangeBufferValue = cfg.protectedItemArray i ∧
      ∀ r ∈ s.readers, ∀ j, r.pc.pendingItem = some j → j = i ∨ j = i + 1 := by
  rcases hinv.phase with ⟨i, hi⟩ | ⟨i, hi⟩
  · exact absurd (getElem?_zero_of_sum_zero _ hi.2.2.1 k x hk) hx
  · obtain ⟨h1, h2, h3, h4, h5, h6, _⟩ := hi
    refine ⟨i, h6 k x hk hx, ?_, h4, ?_⟩
    · revert h3
      cases s.writer <;> simp [WPc.atR, WPc.stores] <;> omega
    · intro r hr j hj
      have := h5 r hr
      revert this hj
      cases r.pc <;> simp [RPc.atR, RPc.pendingItem] <;> omega

/-- While the permit is on the read side the round is open. -/
theorem round_open_phase (cfg : Config) (s : State) (hinv : Inv cfg s)
    (hmw : s.sh.sharedSemMayWrite = 0) (hw : s.writer.holds = false)
    (hpw : ∀ r ∈ s.readers, ∀ i v, r.pc ≠ .postWrite i v) : ∃ i, RPhase cfg i s := by
  rcases hinv.phase with ⟨j, hj⟩ | ⟨j, hj⟩
  · exfalso
    obtain ⟨h1, h2, h3, h4, h5⟩ := hj
    have htok := hinv.token
    simp only [permits, hmw, h3, hw] at htok
    have hpos : 0 < s.readers.countP (fun r => r.pc.holds) := by
      simp at htok
      omega
    obtain ⟨r, hr, hh⟩ := List.countP_pos_iff.mp hpos
    have ha := h5 r hr
    have hn := hpw r hr
    revert ha hh hn
    cases r.pc <;> simp [RPc.atW, RPc.holds]
  · exact ⟨j, hj⟩

/-- In an open round the counter is the number of readers that have counted themselves for
the current item. -/
theorem round_open_count (cfg : Config) (s : State) (hinv : Inv cfg s) (i : Nat)
    (hj : RPhase cfg i s) :
    s.writer.stores cfg = i + 1 ∧
    s.sh.sharedFinishedReaderCount = s.readers.countP (fun r => r.pc.credited i) ∧
    (s.sh.sharedFinishedReaderCount = cfg.READERS_COUNT ↔
      ∀ r ∈ s.readers, r.pc.credited i = true) ∧
    (∀ r ∈ s.readers, r.pc.credited i = true → r.pc.loads cfg = i + 1) := by
  obtain ⟨h1, h2, h3, h4, h5, h6, h7, h8⟩ := hj
  refine ⟨?_, h7, ?_, ?_⟩
  · revert h3
    cases s.writer <;> simp [WPc.atR, WPc.stores] <;> omega
  · rw [h7, ← hinv.nreaders]
    exact List.countP_eq_length
  · intro r hr hc
    have ha := h5 r hr
    revert ha hc
    cases r.pc <;> simp [RPc.atR, RPc.credited, RPc.loads] <;> omega

/-- Once the permit is back on the write side the counter is 0. -/
theorem round_closed_count (cfg : Config) (s : State) (hinv : Inv cfg s)
    (h : s.sh.sharedSemMayWrite ≠ 0 ∨ s.writer.holds = true ∨
      ∃ r ∈ s.readers, ∃ i v, r.pc = .postWrite i v) :
    s.sh.sharedFinishedReaderCount = 0 := by
  rcases hinv.phase with ⟨j, hj⟩ | ⟨j, hj⟩
  · exact hj.2.1
  · exfalso
    obtain ⟨h1, h2, h3, h4, h5, _⟩ := hj
    rcases h with h | h | ⟨r, hr, i, v, e⟩
    · exact h h2
    · revert h3 h
      cases s.writer <;> simp [WPc.atR, WPc.holds]
    · have := h5 r hr
      rw [e] at this
      exact this

/-- What a reader finds when it tests the counter, and what it does next. -/
theorem round_test_core (cfg : Config) (s : State) (hinv : Inv cfg s) (t : Nat) (r : Reader)
    (i : Nat) (v : Int) (hr : s.readers[t]? = some r) (hpc : r.pc = .test i v) :
    s.writer.stores cfg = i + 1 ∧
    (s.sh.sharedFinishedReaderCount = cfg.READERS_COUNT ↔
      ∀ r2 ∈ s.readers, r2.pc.loads cfg = i + 1) ∧
    ∃ s1 r1, step cfg s (.reader t) = some s1 ∧ s1.readers[t]? = some r1 ∧ s1.sh = s.sh ∧
      s1.trace = s.trace ∧
      (r1.pc = .reset i v ↔ s.sh.sharedFinishedReaderCount = cfg.READERS_COUNT) ∧
      (r1.pc = .postRead i v ↔ s.sh.sharedFinishedReaderCount ≠ cfg.READERS_COUNT) := by
  have hmem := List.getElem?_mem hr
  have hlt := (List.getElem?_eq_some_iff.mp hr).1
  have hph : RPhase cfg i s := by
    rcases hinv.phase with ⟨j, hj⟩ | ⟨j, hj⟩
    · have := hj.2.2.2.2 r hmem
      rw [hpc] at this
      exact this.elim
    · have := hj.2.2.2.2.1 r hmem
      rw [hpc] at this
      simp only [RPc.atR] at this
      rw [this.1]
      exact hj
  obtain ⟨c1, c2, c3, c4⟩ := round_open_count cfg s hinv i hph
  refine ⟨c1, ?_, ?_⟩
  · rw [c3]
    constructor
    · intro hall r2 hr2
      exact c4 r2 hr2 (hall r2 hr2)
    · intro hall r2 hr2
      have hl := hall r2 hr2
      have ha := hph.2.2.2.2.1 r2 hr2
      by_cases hh : r2.pc.holds = true
      · have hU := unique_of_countP_le_one (fun r : Reader => r.pc.holds) s.readers
          (by have := hinv.token; simp only [permits] at this; omega) r r2 hmem hr2
          (by simp [hpc, RPc.holds]) hh
        rw [← hU, hpc]
        rfl
      · revert ha hl hh
        cases r2.pc <;> simp [RPc.atR, RPc.credited, RPc.loads, RPc.holds] <;> omega
  · obtain ⟨pc, wc⟩ := r
    simp only at hpc
    subst hpc
    by_cases hf : s.sh.sharedFinishedReaderCount = cfg.READERS_COUNT
    · refine ⟨{ s with readers := s.readers.set t ⟨.reset i v, wc⟩ }, ⟨.reset i v, wc⟩,
        by simp [step, hr, readerStep, hf, logEv], ?_, rfl, rfl, ?_, ?_⟩
      · simp [List.getElem?_set_self hlt]
      · simp [hf]
      · simp [hf]
    · refine ⟨{ s with readers := s.readers.set t ⟨.postRead i v, wc⟩ }, ⟨.postRead i v, wc⟩,
        by simp [step, hr, readerStep, hf, logEv], ?_, rfl, rfl, ?_, ?_⟩
      · simp [List.getElem?_set_self hlt]
      · simp [hf]
      · simp [hf]

/-- The rest of the call after the test: with the counter at `READERS_COUNT` the reader
resets it and posts `sharedSemMayWrite`, otherwise it posts the read semaphore again. -/
theorem round_release_core (cfg : Config) (s : State) (t : Nat) (r : Reader)
    (i : Nat) (v : Int) (hr : s.readers[t]? = some r) (hpc : r.pc = .test i v) :
    (s.sh.sharedFinishedReaderCount = cfg.READERS_COUNT →
      ∃ s3, run cfg s [.reader t, .reader t, .reader t] = some s3 ∧
        s3.trace = s.trace ++ [(.reader t, .reset), (.reader t, .semPost .mayWrite)] ∧
        s3.sh.sharedFinishedReaderCount = 0 ∧
        s3.sh.sharedSemMayWrite = s.sh.sharedSemMayWrite + 1 ∧
        s3.sh.sharedSemMayRead = s.sh.sharedSemMayRead ∧
        s3.readers[t]? = some { r with pc := .check i v }) ∧
    (s.sh.sharedFinishedReaderCount ≠ cfg.READERS_COUNT →
      ∃ s2, run cfg s [.reader t, .reader t] = some s2 ∧
        s2.trace = s.trace ++
          [(.reader t, .semPost (.mayRead (readSemaphoreId cfg.variant i)))] ∧
        s2.sh.sharedFinishedReaderCount = s.sh.sharedFinishedReaderCount ∧
        s2.sh.sharedSemMayWrite = s.sh.sharedSemMayWrite ∧
        s2.readers[t]? = some { r with pc := .check i v }) := by
  have hlt := (List.getElem?_eq_some_iff.mp hr).1
  obtain ⟨pc, wc⟩ := r
  simp only at hpc
  subst hpc
  obtain ⟨sh, w, rs, tr⟩ := s
  simp only at hr hlt
  constructor
  · intro hf
    simp only at hf
    refine ⟨⟨⟨sh.sharedExchangeBufferValue, 0, sh.sharedSemMayWrite + 1, sh.sharedSemMayRead⟩,
      w, rs.set t ⟨.check i v, wc⟩, tr ++ [(.reader t, .reset), (.reader t, .semPost .mayWrite)]⟩,
      ?_, rfl, rfl, rfl, rfl, ?_⟩
    · simp [run, step, hr, readerStep, hf, logEv, hlt, sem_post]
    · simp [hlt]
  · intro hf
    simp only at hf
    refine ⟨⟨⟨sh.sharedExchangeBufferValue, sh.sharedFinishedReaderCount, sh.sharedSemMayWrite,
        sh.sharedSemMayRead.set (readSemaphoreId cfg.variant i)
          (sem_post (sh.sharedSemMayRead.getD (readSemaphoreId cfg.variant i) 0))⟩,
      w, rs.set t ⟨.check i v, wc⟩,
      tr ++ [(.reader t, .semPost (.mayRead (readSemaphoreId cfg.variant i)))]⟩,
      ?_, rfl, rfl, rfl, ?_⟩
    · simp [run, step, hr, readerStep, hf, logEv, hlt]
    · simp [hlt]

theorem live_init (cfg : Config) (hR : 0 < cfg.READERS_COUNT) : Live cfg (init cfg) := by
  constructor
  · intro r hr j v hpc
    simp [init] at hr
    rw [hr.2] at hpc
    simp at hpc
  · intro _
    simp [init, protocolInit]
    omega

theorem live_writer (cfg : Config) (hR : 0 < cfg.READERS_COUNT) (s s1 : State) (h : Inv cfg s)
    (hl : Live cfg s) (hs : step cfg s .writer = some s1) : Live cfg s1 := by
  obtain ⟨⟨slot, fin, mw, mr⟩, w, rs, tr⟩ := s
  obtain ⟨l1, l2⟩ := hl
  simp only at l1 l2
  cases w with
  | loop i =>
    by_cases hi : i < cfg.ITEM_COUNT
    · simp [step, writerStep, hi, logEv] at hs
      subst hs
      exact ⟨l1, l2⟩
    · simp [step, writerStep, hi, logEv] at hs
      subst hs
      exact ⟨l1, l2⟩
  | semWait i v =>
    cases mw with
    | zero => simp [step, writerStep, sem_wait] at hs
    | succ mw =>
      simp [step, writerStep, sem_wait, logEv] at hs
      subst hs
      exact ⟨l1, l2⟩
  | write i v =>
    simp [step, writerStep, exchangeBufferWriteValue, logEv] at hs
    subst hs
    exact ⟨l1, l2⟩
  | post i v =>
    simp [step, writerStep, logEv] at hs
    subst hs
    have hfin := (counter_core cfg _ h).2 rfl
    simp only at hfin
    subst hfin
    exact ⟨l1, fun _ => by dsimp only; omega⟩
  | done => simp [step, writerStep] at hs

set_option maxHeartbeats 1600000 in
theorem live_reader (cfg : Config) (s s1 : State) (t : Nat) (h : Inv cfg s)
    (hl : Live cfg s) (hs : step cfg s (.reader t) = some s1) : Live cfg s1 := by
  obtain ⟨⟨slot, fin, mw, mr⟩, w, rs, tr⟩ := s
  obtain ⟨l1, l2⟩ := hl
  have htok := h.token
  simp only [permits] at htok
  simp only at l1 l2 htok
  cases hr : rs[t]? with
  | none => simp [step, hr] at hs
  | some r =>
  obtain ⟨pc, wc⟩ := r
  have hmem := List.getElem?_mem hr
  have hI := fun k z hz => index_unique_of_countP_le_one (fun r : Reader => r.pc.holds) rs (by omega) t k _ z hr hz
  have hge : pc.holds = true → 1 ≤ List.countP (fun r : Reader => r.pc.holds) rs := fun hp =>
    List.countP_pos_iff.mpr ⟨_, hmem, hp⟩
  -- while the mover holds the permit no other reader is about to post
  have hnone : pc.holds = true → ∀ (y : Reader) (n : Nat), (∀ j v, y.pc ≠ .postRead j v) →
      ∀ r ∈ rs.set t y, ∀ j v, r.pc = .postRead j v → n ≠ cfg.READERS_COUNT := by
    intro hh y n hy r hr2 j v hpc
    rcases mem_set_cases rs t y r hr2 with e | ⟨k, hkt, hk⟩
    · rw [e] at hpc
      exact absurd hpc (hy j v)
    · exact absurd (hI k r hk hh (by rw [hpc]; rfl)).symm hkt
  cases pc with
  | loop j =>
    by_cases hj : j < cfg.ITEM_COUNT
    · simp [step, hr, readerStep, hj, logEv] at hs
      subst hs
      exact ⟨forall_mem_set _ _ _ l1 (by simp), l2⟩
    · simp [step, hr, readerStep, hj, logEv] at hs
      subst hs
      exact ⟨forall_mem_set _ _ _ l1 (by simp), l2⟩
  | semWait j =>
    cases hk : mr[readSemaphoreId cfg.variant j]? with
    | none => simp [step, hr, readerStep, hk, sem_wait] at hs
    | some x =>
    cases x with
    | zero => simp [step, hr, readerStep, hk, sem_wait] at hs
    | succ x =>
    simp [step, hr, readerStep, hk, sem_wait, logEv] at hs
    subst hs
    have hle := List.le_sum_of_mem (List.getElem?_mem hk)
    exact ⟨forall_mem_set _ _ _ l1 (by simp), fun _ => l2 (by omega)⟩
  | read j =>
    simp [step, hr, readerStep, logEv, exchangeBufferReadValue] at hs
    subst hs
    exact ⟨forall_mem_set _ _ _ l1 (by simp), l2⟩
  | incr j v =>
    simp [step, hr, readerStep, logEv] at hs
    subst hs
    have := hge rfl
    exact ⟨hnone rfl _ _ (by simp), fun hsum => absurd hsum (by dsimp only; omega)⟩
  | test j v =>
    by_cases hfin : fin = cfg.READERS_COUNT
    · subst hfin
      simp [step, hr, readerStep, logEv] at hs
      subst hs
      exact ⟨forall_mem_set _ _ _ l1 (by simp), l2⟩
    · simp [step, hr, readerStep, logEv, hfin] at hs
      subst hs
      exact ⟨forall_mem_set _ _ _ l1 (fun _ _ _ => hfin), l2⟩
  | reset j v =>
    simp [step, hr, readerStep, logEv] at hs
    subst hs
    have := hge rfl
    exact ⟨hnone rfl _ _ (by simp), fun hsum => absurd hsum (by dsimp only; omega)⟩
  | postWrite j v =>
    simp [step, hr, readerStep, logEv] at hs
    subst hs
    exact ⟨forall_mem_set _ _ _ l1 (by simp), l2⟩
  | postRead j v =>
    simp [step, hr, readerStep, logEv] at hs
    subst hs
    have := l1 _ hmem j v rfl
    exact ⟨forall_mem_set _ _ _ l1 (by simp), fun _ => this⟩
  | check j v =>
    by_cases hv : itemArrayIsValueCorrect cfg j v = true
    · simp [step, hr, readerStep, logEv, hv] at hs
      subst hs
      exact ⟨forall_mem_set _ _ _ l1 (by simp), l2⟩
    · simp [step, hr, readerStep, logEv, hv] at hs
      subst hs
      exact ⟨forall_mem_set _ _ _ l1 (by simp), l2⟩
  | done => simp [step, hr, readerStep] at hs

theorem stepsLeft_writer (cfg : Config) (s s1 : State) (h : Inv cfg s)
    (hs : step cfg s .writer = some s1) : stepsLeft cfg s1 < stepsLeft cfg s := by
  obtain ⟨⟨slot, fin, mw, mr⟩, w, rs, tr⟩ := s
  have hphase := h.phase
  cases w with
  | loop i =>
    by_cases hi : i < cfg.ITEM_COUNT
    · simp [step, writerStep, hi, logEv] at hs
      subst hs
      simp only [stepsLeft, WPc.rank]
      omega
    · simp [step, writerStep, hi, logEv] at hs
      subst hs
      simp only [stepsLeft, WPc.rank]
      omega
  | semWait i v =>
    cases mw with
    | zero => simp [step, writerStep, sem_wait] at hs
    | succ mw =>
      simp [step, writerStep, sem_wait, logEv] at hs
      subst hs
      simp only [stepsLeft, WPc.rank]
      omega
  | write i v =>
    simp [step, writerStep, exchangeBufferWriteValue, logEv] at hs
    subst hs
    simp only [stepsLeft, WPc.rank]
    omega
  | post i v =>
    simp [step, writerStep, logEv] at hs
    subst hs
    have hi : i < cfg.ITEM_COUNT := by
      rcases hphase with ⟨j, hj⟩ | ⟨j, hj⟩
      · have := hj.2.2.2.1
        simp only [WPc.atW] at this
        omega
      · have := hj.2.2.1
        simp only [WPc.atR] at this
    simp only [stepsLeft, WPc.rank]
    omega
  | done => simp [step, writerStep] at hs

set_option maxHeartbeats 1600000 in
theorem stepsLeft_reader (cfg : Config) (s s1 : State) (t : Nat) (h : Inv cfg s)
    (hs : step cfg s (.reader t) = some s1) : stepsLeft cfg s1 < stepsLeft cfg s := by
  obtain ⟨⟨slot, fin, mw, mr⟩, w, rs, tr⟩ := s
  have hphase := h.phase
  cases hr : rs[t]? with
  | none => simp [step, hr] at hs
  | some r =>
  obtain ⟨pc, wc⟩ := r
  have hmem := List.getElem?_mem hr
  have hL := fun y => sum_map_set_w (fun r : Reader => r.pc.rank cfg) rs t _ y hr
  cases pc with
  | loop j =>
    by_cases hj : j < cfg.ITEM_COUNT
    · simp [step, hr, readerStep, hj, logEv] at hs
      subst hs
      have := hL ⟨.semWait j, wc⟩ _ _ rfl rfl
      simp only [stepsLeft, RPc.rank] at this ⊢
      omega
    · simp [step, hr, readerStep, hj, logEv] at hs
      subst hs
      have := hL ⟨.done, wc⟩ _ _ rfl rfl
      simp only [stepsLeft, RPc.rank] at this ⊢
      omega
  | semWait j =>
    cases hk : mr[readSemaphoreId cfg.variant j]? with
    | none => simp [step, hr, readerStep, hk, sem_wait] at hs
    | some x =>
    cases x with
    | zero => simp [step, hr, readerStep, hk, sem_wait] at hs
    | succ x =>
    simp [step, hr, readerStep, hk, sem_wait, logEv] at hs
    subst hs
    have := hL ⟨.read j, wc⟩ _ _ rfl rfl
    simp only [stepsLeft, RPc.rank] at this ⊢
    omega
  | read j =>
    simp [step, hr, readerStep, logEv, exchangeBufferReadValue] at hs
    subst hs
    have := hL ⟨.incr j slot, wc⟩ _ _ rfl rfl
    simp only [stepsLeft, RPc.rank] at this ⊢
    omega
  | incr j v =>
    simp [step, hr, readerStep, logEv] at hs
    subst hs
    have := hL ⟨.test j v, wc⟩ _ _ rfl rfl
    simp only [stepsLeft, RPc.rank] at this ⊢
    omega
  | test j v =>
    by_cases hfin : fin = cfg.READERS_COUNT
    · subst hfin
      simp [step, hr, readerStep, logEv] at hs
      subst hs
      have := hL ⟨.reset j v, wc⟩ _ _ rfl rfl
      simp only [stepsLeft, RPc.rank] at this ⊢
      omega
    · simp [step, hr, readerStep, logEv, hfin] at hs
      subst hs
      have := hL ⟨.postRead j v, wc⟩ _ _ rfl rfl
      simp only [stepsLeft, RPc.rank] at this ⊢
      omega
  | reset j v =>
    simp [step, hr, readerStep, logEv] at hs
    subst hs
    have := hL ⟨.postWrite j v, wc⟩ _ _ rfl rfl
    simp only [stepsLeft, RPc.rank] at this ⊢
    omega
  | postWrite j v =>
    simp [step, hr, readerStep, logEv] at hs
    subst hs
    have := hL ⟨.check j v, wc⟩ _ _ rfl rfl
    simp only [stepsLeft, RPc.rank] at this ⊢
    omega
  | postRead j v =>
    simp [step, hr, readerStep, logEv] at hs
    subst hs
    have := hL ⟨.check j v, wc⟩ _ _ rfl rfl
    simp only [stepsLeft, RPc.rank] at this ⊢
    omega
  | check j v =>
    have hj : j < cfg.ITEM_COUNT := by
      rcases hphase with ⟨i, hi⟩ | ⟨i, hi⟩
      · have := hi.2.2.2.2 _ hmem
        have := hi.1
        simp only [RPc.atW] at *
        omega
      · have := hi.2.2.2.2.1 _ hmem
        have := hi.1
        simp only [RPc.atR] at *
        omega
    by_cases hv : itemArrayIsValueCorrect cfg j v = true
    · simp [step, hr, readerStep, logEv, hv] at hs
      subst hs
      have := hL ⟨.loop (j + 1), wc⟩ _ _ rfl rfl
      simp only [stepsLeft, RPc.rank] at this ⊢
      omega
    · simp [step, hr, readerStep, logEv, hv] at hs
      subst hs
      have := hL ⟨.loop (j + 1), wc + 1⟩ _ _ rfl rfl
      simp only [stepsLeft, RPc.rank] at this ⊢
      omega
  | done => simp [step, hr, readerStep] at hs

theorem reader_enabled (cfg : Config) (s : State) (t : Nat) (r : Reader)
    (hr : s.readers[t]? = some r) (hdone : r.pc ≠ .done)
    (hsem : ∀ j, r.pc = .semWait j →
      ∃ x, s.sh.sharedSemMayRead[readSemaphoreId cfg.variant j]? = some (x + 1)) :
    ∃ s1, step cfg s (.reader t) = some s1 := by
  obtain ⟨pc, wc⟩ := r
  cases pc with
  | loop j =>
    by_cases hj : j < cfg.ITEM_COUNT
    · exact ⟨_, by simp [step, hr, readerStep, hj]; rfl⟩
    · exact ⟨_, by simp [step, hr, readerStep, hj]; rfl⟩
  | semWait j =>
    obtain ⟨x, hx⟩ := hsem j rfl
    exact ⟨_, by simp [step, hr, readerStep, hx, sem_wait]; rfl⟩
  | read j => exact ⟨_, by simp [step, hr, readerStep]; rfl⟩
  | incr j v => exact ⟨_, by simp [step, hr, readerStep]; rfl⟩
  | test j v =>
    by_cases hf : s.sh.sharedFinishedReaderCount = cfg.READERS_COUNT
    · exact ⟨_, by simp [step, hr, readerStep, hf]; rfl⟩
    · exact ⟨_, by simp [step, hr, readerStep, hf]; rfl⟩
  | reset j v => exact ⟨_, by simp [step, hr, readerStep]; rfl⟩
  | postWrite j v => exact ⟨_, by simp [step, hr, readerStep]; rfl⟩
  | postRead j v => exact ⟨_, by simp [step, hr, readerStep]; rfl⟩
  | check j v =>
    by_cases hv : itemArrayIsValueCorrect cfg j v = true
    · exact ⟨_, by simp [step, hr, readerStep, hv]; rfl⟩
    · exact ⟨_, by simp [step, hr, readerStep, hv]; rfl⟩
  | done => exact absurd rfl hdone

theorem writer_enabled (cfg : Config) (s : State) (hdone : s.writer ≠ .done)
    (hsem : ∀ i v, s.writer = .semWait i v → 0 < s.sh.sharedSemMayWrite) :
    ∃ s1, step cfg s .writer = some s1 := by
  cases hw : s.writer with
  | loop i =>
    by_cases hi : i < cfg.ITEM_COUNT
    · exact ⟨_, by simp [step, hw, writerStep, hi]; rfl⟩
    · exact ⟨_, by simp [step, hw, writerStep, hi]; rfl⟩
  | semWait i v =>
    have := hsem i v hw
    obtain ⟨k, hk⟩ : ∃ k, s.sh.sharedSemMayWrite = k + 1 := ⟨s.sh.sharedSemMayWrite - 1, by omega⟩
    exact ⟨_, by simp [step, hw, writerStep, sem_wait, hk]; rfl⟩
  | write i v => exact ⟨_, by simp [step, hw, writerStep]; rfl⟩
  | post i v => exact ⟨_, by simp [step, hw, writerStep]; rfl⟩
  | done => exact absurd hw hdone

/-- No deadlock: in a state satisfying the invariants, unless every thread has left its loop,
some thread can execute its next statement. -/
theorem deadlock_free (cfg : Config) (s : State) (h : Inv cfg s)
    (hl : Live cfg s) (hnf : ¬ Final s) : ∃ a s1, step cfg s a = some s1 := by
  have htok := h.token
  simp only [permits] at htok
  by_cases hw : s.writer.holds = true
  · refine ⟨.writer, writer_enabled cfg s ?_ ?_⟩
    · intro e
      rw [e] at hw
      cases hw
    · intro i v e
      rw [e] at hw
      cases hw
  by_cases hc : ∃ r ∈ s.readers, r.pc.holds = true
  · obtain ⟨r, hr, hh⟩ := hc
    obtain ⟨t, ht⟩ := List.getElem?_of_mem hr
    refine ⟨.reader t, reader_enabled cfg s t r ht ?_ ?_⟩
    · intro e
      rw [e] at hh
      cases hh
    · intro j e
      rw [e] at hh
      cases hh
  have hnoh : ∀ r ∈ s.readers, r.pc.holds = false := by
    intro r hr
    by_contra hx
    exact hc ⟨r, hr, by simpa using hx⟩
  have hch : List.countP (fun r : Reader => r.pc.holds) s.readers = 0 := by
    rw [List.countP_eq_zero]
    intro r hr
    simp [hnoh r hr]
  have hwh : (if s.writer.holds = true then 1 else 0) = 0 := by simp [hw]
  rw [hwh, hch] at htok
  rcases h.phase with ⟨i, hi⟩ | ⟨i, hi⟩
  · obtain ⟨h1, h2, h3, h4, h5⟩ := hi
    by_cases hwd : s.writer = .done
    · have hiN : i = cfg.ITEM_COUNT := by
        rw [hwd] at h4
        exact h4
      have hex : ∃ r ∈ s.readers, r.pc ≠ .done := by
        by_contra hx
        apply hnf
        refine ⟨hwd, fun r hr => ?_⟩
        by_contra hy
        exact hx ⟨r, hr, hy⟩
      obtain ⟨r, hr, hrd⟩ := hex
      obtain ⟨t, ht⟩ := List.getElem?_of_mem hr
      refine ⟨.reader t, reader_enabled cfg s t r ht hrd ?_⟩
      intro j e
      have ha := h5 r hr
      rw [e] at ha
      simp only [RPc.atW] at ha
      omega
    · refine ⟨.writer, writer_enabled cfg s hwd ?_⟩
      intro _ _ _
      omega
  · obtain ⟨h1, h2, h3, h4, h5, h6, h7, h8⟩ := hi
    have hsum : s.sh.sharedSemMayRead.sum ≠ 0 := by omega
    have hfin := hl.2 hsum
    have hex : ∃ r ∈ s.readers, r.pc.credited i = false := by
      by_contra hx
      apply hfin
      rw [h7, ← h.nreaders, List.countP_eq_length]
      intro r hr
      by_contra hy
      exact hx ⟨r, hr, by simpa using hy⟩
    obtain ⟨r, hr, hcr⟩ := hex
    obtain ⟨t, ht⟩ := List.getElem?_of_mem hr
    obtain ⟨k, x, hk, hx⟩ := exists_nonzero_of_sum_ne_zero _ hsum
    have hki := h6 k x hk hx
    refine ⟨.reader t, reader_enabled cfg s t r ht ?_ ?_⟩
    · intro e
      rw [e] at hcr
      cases hcr
    · intro j e
      have ha := h5 r hr
      rw [e] at ha hcr
      simp only [RPc.atR] at ha
      simp [RPc.credited] at hcr
      have hji : j = i := by omega
      subst hji
      obtain ⟨y, hy⟩ : ∃ y, x = y + 1 := ⟨x - 1, by omega⟩
      exact ⟨y, by rw [← hki, hk, hy]⟩

theorem run_append (cfg : Config) (a b : List Tid) :
    ∀ s : State, run cfg s (a ++ b) = (run cfg s a).bind fun s1 => run cfg s1 b := by
  induction a with
  | nil => intro s; rfl
  | cons x a ih =>
    intro s
    simp only [List.cons_append, run]
    cases step cfg s x with
    | none => rfl
    | some s1 => simpa using ih s1

theorem live_step (cfg : Config) (hR : 0 < cfg.READERS_COUNT) (s s1 : State) (a : Tid)
    (h : Inv cfg s) (hl : Live cfg s) (hs : step cfg s a = some s1) : Live cfg s1 := by
  cases a with
  | writer => exact live_writer cfg hR s s1 h hl hs
  | reader t => exact live_reader cfg s s1 t h hl hs

theorem live_run (cfg : Config) (hR : 0 < cfg.READERS_COUNT) (sched : List Tid) :
    ∀ s s1 : State, Inv cfg s → Live cfg s → run cfg s sched = some s1 → Live cfg s1 := by
  induction sched with
  | nil =>
    intro s s1 _ h2 hr
    simp [run] at hr
    subst hr
    exact h2
  | cons a as ih =>
    intro s s1 h1 h2 hr
    simp only [run] at hr
    cases hst : step cfg s a with
    | none => simp [hst] at hr
    | some s2 =>
      simp [hst] at hr
      exact ih s2 s1 (inv_step cfg s s2 a h1 hst) (live_step cfg hR s s2 a h1 h2 hst) hr

theorem stepsLeft_step (cfg : Config) (s s1 : State) (a : Tid) (h : Inv cfg s)
    (hs : step cfg s a = some s1) : stepsLeft cfg s1 < stepsLeft cfg s := by
  cases a with
  | writer => exact stepsLeft_writer cfg s s1 h hs
  | reader t => exact stepsLeft_reader cfg s s1 t h hs

/-- Every schedule is shorter than the bound of its first state: no execution is infinite. -/
theorem run_length_le (cfg : Config) (sched : List Tid) :
    ∀ s s1 : State, Inv cfg s → run cfg s sched = some s1 →
      sched.length + stepsLeft cfg s1 ≤ stepsLeft cfg s := by
  induction sched with
  | nil =>
    intro s s1 _ hr
    simp [run] at hr
    subst hr
    simp
  | cons a as ih =>
    intro s s1 h1 hr
    simp only [run] at hr
    cases hst : step cfg s a with
    | none => simp [hst] at hr
    | some s2 =>
      simp [hst] at hr
      have := ih s2 s1 (inv_step cfg s s2 a h1 hst) hr
      have := stepsLeft_step cfg s s2 a h1 hst
      simp only [List.length_cons]
      omega

/-- From a state satisfying the invariants some schedule runs every thread to its end. -/
theorem completes (cfg : Config) (hR : 0 < cfg.READERS_COUNT) :
    ∀ (n : Nat) (s : State), Inv cfg s → Live cfg s → stepsLeft cfg s ≤ n →
      ∃ sched s1, run cfg s sched = some s1 ∧ Final s1 := by
  intro n
  induction n with
  | zero =>
    intro s h hl hn
    by_cases hf : Final s
    · exact ⟨[], s, rfl, hf⟩
    · obtain ⟨a, s1, hs⟩ := deadlock_free cfg s h hl hf
      have := stepsLeft_step cfg s s1 a h hs
      omega
  | succ n ih =>
    intro s h hl hn
    by_cases hf : Final s
    · exact ⟨[], s, rfl, hf⟩
    · obtain ⟨a, s1, hs⟩ := deadlock_free cfg s h hl hf
      have hlt := stepsLeft_step cfg s s1 a h hs
      obtain ⟨sched, s2, hr, hf2⟩ := ih s1 (inv_step cfg s s1 a h hs) (live_step cfg hR s s1 a h hl hs)
        (by omega)
      exact ⟨a :: sched, s2, by simp [run, hs, hr], hf2⟩

theorem reachable_run (cfg : Config) (s s1 : State) (sched : List Tid) (h : Reachable cfg s)
    (hr : run cfg s sched = some s1) : Reachable cfg s1 := by
  obtain ⟨sched0, h0⟩ := h
  exact ⟨sched0 ++ sched, by rw [run_append, h0]; exact hr⟩

theorem live_reachable (cfg : Config) (hR : 0 < cfg.READERS_COUNT) (s : State)
    (h : Reachable cfg s) : Live cfg s := by
  obtain ⟨sched, hs⟩ := h
  exact live_run cfg hR sched _ s (inv_init cfg) (live_init cfg hR) hs

/-- Progress from a reachable state: unless all threads are done a step is enabled, no
schedule is longer than `stepsLeft`, and some schedule reaches a state where the writer
and every reader have left their loops with all items stored and loaded. -/
theorem progress_core (cfg : Config) (hR : 0 < cfg.READERS_COUNT) (s : State)
    (h : Reachable cfg s) :
    (¬ Final s → ∃ a s1, step cfg s a = some s1) ∧
    (∀ sched s1, run cfg s sched = some s1 → sched.length ≤ stepsLeft cfg s) ∧
    (∃ sched s1, run cfg s sched = some s1 ∧ Final s1 ∧
      s1.trace.countP isWrite = cfg.ITEM_COUNT ∧
      s1.trace.countP isRead = cfg.READERS_COUNT * cfg.ITEM_COUNT ∧
      ∀ r ∈ s1.readers, r.wrongReadCount = 0) := by
  obtain ⟨hinv, _, _⟩ := good_reachable cfg s h
  have hl := live_reachable cfg hR s h
  refine ⟨fun hf => deadlock_free cfg s hinv hl hf, ?_, ?_⟩
  · intro sched s1 hr
    have := run_length_le cfg sched s s1 hinv hr
    omega
  · obtain ⟨sched, s1, hr, hf⟩ := completes cfg hR _ s hinv hl (Nat.le_refl _)
    obtain ⟨hinv1, _, _⟩ := good_reachable cfg s1 (reachable_run cfg s s1 sched h hr)
    refine ⟨sched, s1, hr, hf, ?_, ?_, hinv1.right⟩
    · rw [hinv1.nwrites, hf.1]
      rfl
    · rw [hinv1.nreads, ← hinv1.nreaders, mul_comm]
      rw [sum_map_const_of_forall (fun r : Reader => r.pc.loads cfg) s1.readers cfg.ITEM_COUNT]
      · ring
      · intro r hr2
        rw [hf.2 r hr2]
        rfl

/-- When a reader waiting for item `j` can take its read permit, in terms of the part of
the state both variants share. -/
theorem semWait_enabled_iff (cfg : Config) (s : State) (h : Inv cfg s) (r : Reader)
    (hr : r ∈ s.readers) (j : Nat) (hpc : r.pc = .semWait j) :
    (∃ x, s.sh.sharedSemMayRead[readSemaphoreId cfg.variant j]? = some (x + 1)) ↔
    (s.sh.sharedSemMayWrite = 0 ∧ s.writer.holds = false ∧
      List.countP (fun r : Reader => r.pc.holds) s.readers = 0 ∧
      s.writer.stores cfg = j + 1) := by
  have htok := h.token
  simp only [permits] at htok
  constructor
  · rintro ⟨x, hx⟩
    have hle := List.le_sum_of_mem (List.getElem?_mem hx)
    have hwh : s.writer.holds = false := by
      by_contra hc
      simp at hc
      simp [hc] at htok
      omega
    refine ⟨by omega, hwh, by omega, ?_⟩
    rcases h.phase with ⟨i, hi⟩ | ⟨i, hi⟩
    · have := hi.2.2.1
      omega
    · obtain ⟨h1, h2, h3, h4, h5, h6, _⟩ := hi
      have hsel := h6 _ _ hx (by omega)
      have ha := h5 r hr
      rw [hpc] at ha
      simp only [RPc.atR] at ha
      have hji : j = i := by
        rcases ha.1 with e | e
        · exact e
        · rw [e] at hsel
          exact absurd hsel (readSemaphoreId_succ_ne _ _)
      subst hji
      revert h3
      cases s.writer <;> simp [WPc.atR, WPc.stores] <;> omega
  · rintro ⟨hmw, hwh, hch, hst⟩
    simp [hwh] at htok
    have hsum : s.sh.sharedSemMayRead.sum ≠ 0 := by omega
    rcases h.phase with ⟨i, hi⟩ | ⟨i, hi⟩
    · exact absurd hi.2.2.1 hsum
    · obtain ⟨h1, h2, h3, h4, h5, h6, _⟩ := hi
      have hst2 : s.writer.stores cfg = i + 1 := by
        revert h3
        cases s.writer <;> simp [WPc.atR, WPc.stores] <;> omega
      have hji : j = i := by omega
      subst hji
      obtain ⟨k, x, hk, hx⟩ := exists_nonzero_of_sum_ne_zero _ hsum
      have hki := h6 k x hk hx
      obtain ⟨y, hy⟩ : ∃ y, x = y + 1 := ⟨x - 1, by omega⟩
      exact ⟨y, by rw [← hki, hk, hy]⟩

theorem semWait_blocked (cfg : Config) (s : State) (t j : Nat) (wc : Nat)
    (hr : s.readers[t]? = some ⟨.semWait j, wc⟩)
    (hno : ¬ ∃ x, s.sh.sharedSemMayRead[readSemaphoreId cfg.variant j]? = some (x + 1)) :
    step cfg s (.reader t) = none := by
  cases hk : s.sh.sharedSemMayRead[readSemaphoreId cfg.variant j]? with
  | none => simp [step, hr, readerStep, hk, sem_wait]
  | some x =>
    cases x with
    | zero => simp [step, hr, readerStep, hk, sem_wait]
    | succ x => exact absurd ⟨x, hk⟩ hno

theorem semWait_taken (cfg : Config) (s : State) (t j : Nat) (wc x : Nat)
    (hr : s.readers[t]? = some ⟨.semWait j, wc⟩)
    (hx : s.sh.sharedSemMayRead[readSemaphoreId cfg.variant j]? = some (x + 1)) :
    step cfg s (.reader t) = some
      { sh := { s.sh with sharedSemMayRead := s.sh.sharedSemMayRead.set (readSemaphoreId cfg.variant j) x }
        writer := s.writer
        readers := s.readers.set t ⟨.read j, wc⟩
        trace := s.trace ++ [(.reader t, .semWait (.mayRead (readSemaphoreId cfg.variant j)))] } := by
  simp [step, hr, readerStep, hx, sem_wait, logEv]

theorem stores_variant (readers items : Nat) (values : Nat → Int) (w : WPc) :
    w.stores (swapConfig readers items values) = w.stores (perItemConfig readers items values) := by
  cases w <;> rfl

set_option maxHeartbeats 3200000 in
/-- One step of the swap variant and of the per-item variant from states with the same view:
either both are blocked or both move, to states with the same view. -/
theorem step_view (readers items : Nat) (values : Nat → Int) (s1 s2 : State) (a : Tid)
    (h1 : Inv (swapConfig readers items values) s1)
    (h2 : Inv (perItemConfig readers items values) s2) (hv : view s1 = view s2) :
    (step (swapConfig readers items values) s1 a).map view =
      (step (perItemConfig readers items values) s2 a).map view := by
  obtain ⟨⟨slot, fin, mw, mr1⟩, w, rs, tr1⟩ := s1
  obtain ⟨⟨slot2, fin2, mw2, mr2⟩, w2, rs2, tr2⟩ := s2
  simp only [view, State.mk.injEq, Shared.mk.injEq] at hv
  obtain ⟨⟨e1, e2, e3, _⟩, e4, e5, htr⟩ := hv
  subst e1 e2 e3 e4 e5
  cases a with
  | writer =>
    cases w with
    | loop i =>
      by_cases hi : i < items
      · simp [step, writerStep, hi, logEv, view, swapConfig, perItemConfig, htr, itemArrayReadValue]
      · simp [step, writerStep, hi, logEv, view, swapConfig, perItemConfig, htr]
    | semWait i v =>
      cases mw with
      | zero => simp [step, writerStep, sem_wait]
      | succ mw => simp [step, writerStep, sem_wait, logEv, view, htr, eraseSem]
    | write i v => simp [step, writerStep, exchangeBufferWriteValue, logEv, view, htr, eraseSem]
    | post i v => simp [step, writerStep, logEv, view, htr, eraseSem]
    | done => simp [step, writerStep]
  | reader t =>
    cases hr : rs[t]? with
    | none => simp [step, hr]
    | some r =>
    obtain ⟨pc, wc⟩ := r
    have hmem := List.getElem?_mem hr
    cases pc with
    | loop j =>
      by_cases hj : j < items
      · simp [step, hr, readerStep, hj, logEv, view, swapConfig, perItemConfig, htr]
      · simp [step, hr, readerStep, hj, logEv, view, swapConfig, perItemConfig, htr]
    | semWait j =>
      have i1 := semWait_enabled_iff _ _ h1 _ hmem j rfl
      have i2 := semWait_enabled_iff _ _ h2 _ hmem j rfl
      rw [stores_variant] at i1
      by_cases hen : ∃ x, mr1[readSemaphoreId (swapConfig readers items values).variant j]? = some (x + 1)
      · obtain ⟨y, hy⟩ := i2.mpr (i1.mp hen)
        obtain ⟨x, hx⟩ := hen
        rw [semWait_taken _ _ t j wc x hr hx, semWait_taken _ _ t j wc y hr hy]
        simp [view, htr, eraseSem]
      · have hen2 : ¬ ∃ x, mr2[readSemaphoreId (perItemConfig readers items values).variant j]? = some (x + 1) :=
          fun hc => hen (i1.mpr (i2.mp hc))
        rw [semWait_blocked _ _ t j wc hr hen, semWait_blocked _ _ t j wc hr hen2]
    | read j => simp [step, hr, readerStep, logEv, view, htr, eraseSem, exchangeBufferReadValue]
    | incr j v => simp [step, hr, readerStep, logEv, view, htr, eraseSem]
    | test j v =>
      by_cases hf : fin = readers
      · simp [step, hr, readerStep, logEv, view, htr, hf, swapConfig, perItemConfig]
      · simp [step, hr, readerStep, logEv, view, htr, hf, swapConfig, perItemConfig]
    | reset j v => simp [step, hr, readerStep, logEv, view, htr, eraseSem]
    | postWrite j v => simp [step, hr, readerStep, logEv, view, htr, eraseSem]
    | postRead j v => simp [step, hr, readerStep, logEv, view, htr, eraseSem]
    | check j v =>
      by_cases hc : v = values j
      · simp [step, hr, readerStep, logEv, view, htr, itemArrayIsValueCorrect, swapConfig, perItemConfig, hc]
      · simp [step, hr, readerStep, logEv, view, htr, itemArrayIsValueCorrect, swapConfig, perItemConfig, hc]
    | done => simp [step, hr, readerStep]

theorem run_view (readers items : Nat) (values : Nat → Int) (sched : List Tid) :
    ∀ s1 s2 : State, Inv (swapConfig readers items values) s1 →
      Inv (perItemConfig readers items values) s2 → view s1 = view s2 →
      (run (swapConfig readers items values) s1 sched).map view =
        (run (perItemConfig readers items values) s2 sched).map view := by
  induction sched with
  | nil =>
    intro s1 s2 _ _ hv
    simp [run, hv]
  | cons a as ih =>
    intro s1 s2 h1 h2 hv
    have hst := step_view readers items values s1 s2 a h1 h2 hv
    simp only [run]
    cases hs1 : step (swapConfig readers items values) s1 a with
    | none =>
      cases hs2 : step (perItemConfig readers items values) s2 a with
      | none => rfl
      | some t2 => simp [hs1, hs2] at hst
    | some t1 =>
      cases hs2 : step (perItemConfig readers items values) s2 a with
      | none => simp [hs1, hs2] at hst
      | some t2 =>
        simp [hs1, hs2] at hst
        simpa using ih t1 t2 (inv_step _ s1 t1 a h1 hs1) (inv_step _ s2 t2 a h2 hs2) hst

/-- The two variants are indistinguishable: every schedule is either blocked in both or
runs in both, and leads to the same writer, readers, exchange buffer, counter,
`sharedSemMayWrite` and events up to the index of the read semaphore used. -/
theorem variants_agree (readers items : Nat) (values : Nat → Int) (sched : List Tid) :
    (run (swapConfig readers items values) (init (swapConfig readers items values)) sched).map view =
      (run (perItemConfig readers items values) (init (perItemConfig readers items values)) sched).map
        view :=
  run_view readers items values sched _ _ (inv_init _) (inv_init _)
    (by simp [view, init, protocolInit, swapConfig, perItemConfig])

/-- C1: per-item-semaphore variant, writer and readers running the loops of `main.c`.  In
every reachable state: every load of item `i` recorded in the trace returned the value of
item `i` and came after exactly `i + 1` stores (after the store of item `i`, before the store
of item `i + 1`); the `k`-th store is the store of item `k`; a reader about to load item `i`
finds the value of item `i` in the exchange buffer while the writer is outside
`protocolWriteValue` or blocked at the `sem_wait` for item `i + 1`; the value a
`protocolReadValue(i)` call returns is the value of item `i`; no reader has counted a
wrong read; and, with at least one reader, the calls do return: unless every thread has left
its loop some thread can move, and some schedule leads on to a state where the writer and
all readers have left their loops after `ITEM_COUNT` stores and
`READERS_COUNT * ITEM_COUNT` loads, no read counted wrong. -/
theorem perItem_reads_return_written_values (readers items : Nat) (values : Nat → Int) (s : State)
    (h : Reachable (perItemConfig readers items values) s) :
    (∀ pre post t i v, s.trace = pre ++ (t, Ev.read i v) :: post →
        v = values i ∧ pre.countP isWrite = i + 1) ∧
    (∀ pre post t i v, s.trace = pre ++ (t, Ev.write i v) :: post →
        v = values i ∧ pre.countP isWrite = i) ∧
    (∀ r ∈ s.readers, ∀ i, r.pc = .read i →
        s.sh.sharedExchangeBufferValue = values i ∧
        (s.writer = .loop (i + 1) ∨ s.writer = .semWait (i + 1) (values (i + 1)) ∨
          s.writer = .done)) ∧
    (∀ r ∈ s.readers, ∀ i v, r.pc = .check i v →
        v = values i ∧ itemArrayIsValueCorrect (perItemConfig readers items values) i v = true) ∧
    (∀ r ∈ s.readers, r.wrongReadCount = 0) ∧
    (0 < readers →
      (¬ Final s → ∃ a s1, step (perItemConfig readers items values) s a = some s1) ∧
      ∃ sched s1, run (perItemConfig readers items values) s sched = some s1 ∧ Final s1 ∧
        s1.trace.countP isWrite = items ∧ s1.trace.countP isRead = readers * items ∧
        ∀ r ∈ s1.readers, r.wrongReadCount = 0) := by
  obtain ⟨h1, h2, h3, h4, h5⟩ := reads_correct _ s h
  refine ⟨h1, h2, h3, ?_, h5, ?_⟩
  · intro r hr i v hpc
    have := h4 r hr i v hpc
    exact ⟨this, by simp [itemArrayIsValueCorrect, this, perItemConfig]⟩
  · intro hR
    obtain ⟨p1, _, p3⟩ := progress_core (perItemConfig readers items values) hR s h
    exact ⟨p1, p3⟩

theorem perItem_reads_return_written_values_witness :
    Reachable (perItemConfig 2 2 demoValues) demoState ∧
    (∀ r ∈ demoState.readers, ∀ i v, r.pc = .check i v →
        v = demoValues i ∧ itemArrayIsValueCorrect (perItemConfig 2 2 demoValues) i v = true) :=
  ⟨demo_reachable_perItem,
    (perItem_reads_return_written_values 2 2 demoValues _ demo_reachable_perItem).2.2.2.1⟩

/-- C2: swap-semaphore variant, writer and readers using the item ids 0, 1, 2, ... in order
(the loops of `main.c`).  In every reachable state: all calls in flight, of the writer and of
the readers, concern at most two consecutive items, so items `i` and `i + 2` are never in
flight together; when the writer is about to post `sharedSemMayReadSwap[i % 2]` for item `i`,
both read semaphores are at 0 and every reader call in flight is for item `i`; a permit on
read semaphore `k` belongs to the item `i` stored last, with `k = i % 2`, the exchange buffer
holds the value of item `i` and every reader call in flight is for item `i` or `i + 1`; the
reads return the written values and the calls return, as stated for the per-item variant;
and the two variants agree on every schedule: it is blocked in both or runs in both, to
states with the same writer, readers, exchange buffer, counter, `sharedSemMayWrite` and
events up to the index of the read semaphore. -/
theorem swap_reads_return_written_values (readers items : Nat) (values : Nat → Int) (s : State)
    (h : Reachable (swapConfig readers items values) s) :
    (∃ m, (∀ j, s.writer.pendingItem = some j → j = m ∨ j = m + 1) ∧
      ∀ r ∈ s.readers, ∀ j, r.pc.pendingItem = some j → j = m ∨ j = m + 1) ∧
    (∀ i v, s.writer = .post i v →
      s.sh.sharedSemMayRead.getD (i % 2) 0 = 0 ∧ (∀ k, s.sh.sharedSemMayRead.getD k 0 = 0) ∧
      ∀ r ∈ s.readers, ∀ j, r.pc.pendingItem = some j → j = i) ∧
    (∀ k x, s.sh.sharedSemMayRead[k]? = some x → x ≠ 0 →
      ∃ i, k = i % 2 ∧ s.writer.stores (swapConfig readers items values) = i + 1 ∧
        s.sh.sharedExchangeBufferValue = values i ∧
        ∀ r ∈ s.readers, ∀ j, r.pc.pendingItem = some j → j = i ∨ j = i + 1) ∧
    (∀ pre post t i v, s.trace = pre ++ (t, Ev.read i v) :: post →
        v = values i ∧ pre.countP isWrite = i + 1) ∧
    (∀ pre post t i v, s.trace = pre ++ (t, Ev.write i v) :: post →
        v = values i ∧ pre.countP isWrite = i) ∧
    (∀ r ∈ s.readers, ∀ i, r.pc = .read i →
        s.sh.sharedExchangeBufferValue = values i ∧
        (s.writer = .loop (i + 1) ∨ s.writer = .semWait (i + 1) (values (i + 1)) ∨
          s.writer = .done)) ∧
    (∀ r ∈ s.readers, ∀ i v, r.pc = .check i v →
        v = values i ∧ itemArrayIsValueCorrect (swapConfig readers items values) i v = true) ∧
    (∀ r ∈ s.readers, r.wrongReadCount = 0) ∧
    (0 < readers →
      (¬ Final s → ∃ a s1, step (swapConfig readers items values) s a = some s1) ∧
      ∃ sched s1, run (swapConfig readers items values) s sched = some s1 ∧ Final s1 ∧
        s1.trace.countP isWrite = items ∧ s1.trace.countP isRead = readers * items ∧
        ∀ r ∈ s1.readers, r.wrongReadCount = 0) ∧
    (∀ sched,
      (run (swapConfig readers items values) (init (swapConfig readers items values)) sched).map view =
      (run (perItemConfig readers items values) (init (perItemConfig readers items values)) sched).map
        view) := by
  obtain ⟨hinv, _, _⟩ := good_reachable _ s h
  obtain ⟨h1, h2, h3, h4, h5⟩ := reads_correct _ s h
  refine ⟨pending_window _ s hinv, ?_, ?_, h1, h2, h3, ?_, h5, ?_, variants_agree readers items values⟩
  · intro i v hw
    obtain ⟨a, b⟩ := writer_post_core _ s hinv i v hw
    exact ⟨a _, a, b⟩
  · intro k x hk hx
    exact read_permit_core _ s hinv k x hk hx
  · intro r hr i v hpc
    have := h4 r hr i v hpc
    exact ⟨this, by simp [itemArrayIsValueCorrect, this, swapConfig]⟩
  · intro hR
    obtain ⟨p1, _, p3⟩ := progress_core (swapConfig readers items values) hR s h
    exact ⟨p1, p3⟩

theorem swap_reads_return_written_values_witness :
    Reachable (swapConfig 2 2 demoValues) demoState ∧
    (∀ k x, demoState.sh.sharedSemMayRead[k]? = some x → x ≠ 0 →
      ∃ i, k = i % 2 ∧ demoState.writer.stores (swapConfig 2 2 demoValues) = i + 1 ∧
        demoState.sh.sharedExchangeBufferValue = demoValues i ∧
        ∀ r ∈ demoState.readers, ∀ j, r.pc.pendingItem = some j → j = i ∨ j = i + 1) :=
  ⟨demo_reachable_swap,
    (swap_reads_return_written_values 2 2 demoValues _ demo_reachable_swap).2.2.1⟩

/-- C6: round completion, in both variants.  In every reachable state: every post of
`sharedSemMayWrite` in the trace was executed by a reader immediately after that reader
raised `sharedFinishedReaderCount` to `READERS_COUNT` and reset it; between two consecutive
stores of the writer exactly `READERS_COUNT` loads took place; a reader that found the
counter equal to `READERS_COUNT` is there after every reader has loaded the current item;
while `sharedSemMayWrite` holds a permit the counter is 0 and every reader has loaded
every item stored so far; and whenever the counter equals `READERS_COUNT` every reader has
loaded every item stored so far.  The counter counts the readers of the round: while the
permit is on the read side (not in `sharedSemMayWrite`, not with the writer, not with a
reader on its way to post `sharedSemMayWrite`) the counter is the number of readers that
have loaded the current item and added themselves, and it equals `READERS_COUNT` exactly
when all readers have; once the permit is back on the write side the counter is 0.  At its
test of the counter a reader finds `READERS_COUNT` exactly when every reader has loaded
the current item, and exactly then the rest of its call resets the counter and posts
`sharedSemMayWrite`; otherwise it posts the read semaphore and leaves both as they are.
A read is taken as the access to the exchange buffer under the permit; the `return` of the
call may come later. -/
theorem round_complete_iff_all_read (cfg : Config) (s : State) (h : Reachable cfg s) :
    (∀ pre post who, s.trace = pre ++ (who, Ev.semPost SemId.mayWrite) :: post →
        ∃ t pre0, who = Tid.reader t ∧
          pre = pre0 ++ [(Tid.reader t, Ev.incr cfg.READERS_COUNT), (Tid.reader t, Ev.reset)]) ∧
    (∀ pre mid post e1 e2, s.trace = pre ++ e1 :: (mid ++ e2 :: post) →
        isWrite e1 = true → isWrite e2 = true → mid.countP isWrite = 0 →
        mid.countP isRead = cfg.READERS_COUNT) ∧
    (∀ r ∈ s.readers, ∀ i v, r.pc = .reset i v ∨ r.pc = .postWrite i v →
        ∀ r2 ∈ s.readers, r2.pc.loads cfg = i + 1) ∧
    (s.sh.sharedSemMayWrite ≠ 0 →
        s.sh.sharedFinishedReaderCount = 0 ∧ ∀ r ∈ s.readers, r.pc.loads cfg = s.writer.stores cfg) ∧
    (0 < cfg.READERS_COUNT → s.sh.sharedFinishedReaderCount = cfg.READERS_COUNT →
        ∀ r ∈ s.readers, r.pc.loads cfg = s.writer.stores cfg) ∧
    (s.sh.sharedSemMayWrite = 0 → s.writer.holds = false →
      (∀ r ∈ s.readers, ∀ i v, r.pc ≠ .postWrite i v) →
        ∃ i, s.writer.stores cfg = i + 1 ∧
          s.sh.sharedFinishedReaderCount = s.readers.countP (fun r => r.pc.credited i) ∧
          (s.sh.sharedFinishedReaderCount = cfg.READERS_COUNT ↔
            ∀ r ∈ s.readers, r.pc.credited i = true) ∧
          (∀ r ∈ s.readers, r.pc.credited i = true → r.pc.loads cfg = i + 1)) ∧
    ((s.sh.sharedSemMayWrite ≠ 0 ∨ s.writer.holds = true ∨
        ∃ r ∈ s.readers, ∃ i v, r.pc = .postWrite i v) →
      s.sh.sharedFinishedReaderCount = 0) ∧
    (∀ (t : Nat) (r : Reader) (i : Nat) (v : Int), s.readers[t]? = some r → r.pc = .test i v →
      s.writer.stores cfg = i + 1 ∧
      (s.sh.sharedFinishedReaderCount = cfg.READERS_COUNT ↔
        ∀ r2 ∈ s.readers, r2.pc.loads cfg = i + 1) ∧
      (s.sh.sharedFinishedReaderCount = cfg.READERS_COUNT →
        ∃ s3, run cfg s [.reader t, .reader t, .reader t] = some s3 ∧
          s3.trace = s.trace ++ [(.reader t, .reset), (.reader t, .semPost .mayWrite)] ∧
          s3.sh.sharedFinishedReaderCount = 0 ∧
          s3.sh.sharedSemMayWrite = s.sh.sharedSemMayWrite + 1 ∧
          s3.sh.sharedSemMayRead = s.sh.sharedSemMayRead ∧
          s3.readers[t]? = some { r with pc := .check i v }) ∧
      (s.sh.sharedFinishedReaderCount ≠ cfg.READERS_COUNT →
        ∃ s2, run cfg s [.reader t, .reader t] = some s2 ∧
          s2.trace = s.trace ++
            [(.reader t, .semPost (.mayRead (readSemaphoreId cfg.variant i)))] ∧
          s2.sh.sharedFinishedReaderCount = s.sh.sharedFinishedReaderCount ∧
          s2.sh.sharedSemMayWrite = s.sh.sharedSemMayWrite ∧
          s2.readers[t]? = some { r with pc := .check i v })) := by
  obtain ⟨a, b, c, d, e⟩ := round_core cfg s h
  obtain ⟨hinv, _, _⟩ := good_reachable cfg s h
  refine ⟨a, b, c, d, e, ?_, round_closed_count cfg s hinv, ?_⟩
  · intro hmw hw hpw
    obtain ⟨i, hi⟩ := round_open_phase cfg s hinv hmw hw hpw
    exact ⟨i, round_open_count cfg s hinv i hi⟩
  · intro t r i v hr hpc
    obtain ⟨t1, t2, _⟩ := round_test_core cfg s hinv t r i v hr hpc
    obtain ⟨u1, u2⟩ := round_release_core cfg s t r i v hr hpc
    exact ⟨t1, t2, u1, u2⟩

theorem scenario_testing_reachable : Reachable (perItemConfig 2 1 fun _ => 42) scenarioTesting :=
  ⟨scenarioWrite ++ scenarioFirstRead 0 ++ [.reader 1, .reader 1, .reader 1, .reader 1], by decide⟩

theorem round_complete_iff_all_read_witness :
    Reachable (swapConfig 2 2 demoValues) demoState ∧
    (∀ pre mid post e1 e2, demoState.trace = pre ++ e1 :: (mid ++ e2 :: post) →
        isWrite e1 = true → isWrite e2 = true → mid.countP isWrite = 0 →
        mid.countP isRead = 2) ∧
    Reachable (perItemConfig 2 1 fun _ => 42) scenarioTesting ∧
    scenarioTesting.readers[1]? = some { pc := .test 0 42, wrongReadCount := 0 } ∧
    (scenarioTesting.sh.sharedFinishedReaderCount = 2 ↔
      ∀ r2 ∈ scenarioTesting.readers, r2.pc.loads (perItemConfig 2 1 fun _ => 42) = 0 + 1) :=
  ⟨demo_reachable_swap, (round_complete_iff_all_read _ _ demo_reachable_swap).2.1,
    scenario_testing_reachable, rfl,
    ((round_complete_iff_all_read _ _ scenario_testing_reachable).2.2.2.2.2.2.2
      1 { pc := .test 0 42, wrongReadCount := 0 } 0 42 rfl rfl).2.1⟩

/-- C7: in every reachable state of either variant `sharedFinishedReaderCount` is at most
`READERS_COUNT`; it is 0 while the writer is between its `sem_wait` and its `sem_post`; and
the state right after a successful `sem_wait(&sharedSemMayWrite)` of the writer has the
counter at 0. -/
theorem finished_count_bounded (cfg : Config) (s : State) (h : Reachable cfg s) :
    s.sh.sharedFinishedReaderCount ≤ cfg.READERS_COUNT ∧
    (∀ i v, s.writer = .write i v ∨ s.writer = .post i v → s.sh.sharedFinishedReaderCount = 0) ∧
    (∀ i v s1, s.writer = .semWait i v → step cfg s .writer = some s1 →
      s1.writer = .write i v ∧ s1.sh.sharedFinishedReaderCount = 0) := by
  obtain ⟨hinv, _, _⟩ := good_reachable cfg s h
  obtain ⟨h1, h2⟩ := counter_core cfg s hinv
  refine ⟨h1, ?_, ?_⟩
  · intro i v hw
    apply h2
    rcases hw with e | e <;> rw [e] <;> rfl
  · intro i v s1 hw hs
    have hinv1 := inv_step cfg s s1 .writer hinv hs
    have hw1 : s1.writer = .write i v := by
      simp only [step, hw, writerStep] at hs
      cases hsem : sem_wait s.sh.sharedSemMayWrite with
      | none => simp [hsem] at hs
      | some c =>
        simp [hsem] at hs
        rw [← hs]
    refine ⟨hw1, (counter_core cfg s1 hinv1).2 ?_⟩
    rw [hw1]
    rfl

theorem finished_count_bounded_witness :
    Reachable (perItemConfig 2 2 demoValues) demoState ∧
    demoState.sh.sharedFinishedReaderCount ≤ 2 :=
  ⟨demo_reachable_perItem, (finished_count_bounded _ _ demo_reachable_perItem).1⟩

/-- C8: one permit in total, in both variants.  In every reachable state the counts of
`sharedSemMayWrite` and of all read semaphores plus the number of threads between a
successful `sem_wait` and their `sem_post` add up to exactly 1; hence if the writer is in
that section no reader is, and two readers in that section are the same thread.  The
accesses to the exchange buffer and to `sharedFinishedReaderCount` all lie in that
section. -/
theorem one_permit_in_total (cfg : Config) (s : State) (h : Reachable cfg s) :
    s.sh.sharedSemMayWrite + s.sh.sharedSemMayRead.sum + (if s.writer.holds then 1 else 0) +
      s.readers.countP (fun r => r.pc.holds) = 1 ∧
    (s.writer.holds = true → ∀ r ∈ s.readers, r.pc.holds = false) ∧
    (∀ (t1 t2 : Nat) (r1 r2 : Reader), s.readers[t1]? = some r1 → s.readers[t2]? = some r2 →
      r1.pc.holds = true → r2.pc.holds = true → t1 = t2) ∧
    (∀ i v, s.writer = .write i v → s.writer.holds = true) ∧
    (∀ r : Reader, (∃ i, r.pc = .read i) ∨ (∃ i v, r.pc = .incr i v) ∨ (∃ i v, r.pc = .test i v) ∨
      (∃ i v, r.pc = .reset i v) → r.pc.holds = true) := by
  obtain ⟨hinv, _, _⟩ := good_reachable cfg s h
  have htok := hinv.token
  simp only [permits] at htok
  refine ⟨htok, ?_, ?_, ?_, ?_⟩
  · intro hw
    rw [hw] at htok
    exact no_holder_of_countP s.readers (by simp at htok; omega)
  · intro t1 t2 r1 r2 h1 h2 p1 p2
    exact index_unique_of_countP_le_one (fun r : Reader => r.pc.holds) s.readers (by omega)
      t1 t2 r1 r2 h1 h2 p1 p2
  · intro i v hw
    rw [hw]
    rfl
  · intro r hr
    rcases hr with ⟨i, e⟩ | ⟨i, v, e⟩ | ⟨i, v, e⟩ | ⟨i, v, e⟩ <;> rw [e] <;> rfl

theorem one_permit_in_total_witness :
    Reachable (swapConfig 2 2 demoValues) demoState ∧
    demoState.sh.sharedSemMayWrite + demoState.sh.sharedSemMayRead.sum +
      (if demoState.writer.holds then 1 else 0) +
      demoState.readers.countP (fun r => r.pc.holds) = 1 :=
  ⟨demo_reachable_swap, (one_permit_in_total _ _ demo_reachable_swap).1⟩

/-- C15: the scenario of two readers and the value 42 with `per_item_read_sem.c`.  After
`protocolInit` the writer stores 42 for item 0 and posts read semaphore 0.  Whichever of the
two readers `a` takes the permit first loads 42, raises `sharedFinishedReaderCount` to 1 and
posts read semaphore 0 again; the other reader `b` then loads 42, raises the counter to 2,
resets it and posts `sharedSemMayWrite` and not the read semaphore.  The final state has
`sharedSemMayWrite = 1`, read semaphore 0 at 0 and the counter at 0. -/
theorem scenario_two_readers (a b : Nat) (ha : a < 2) (hb : b < 2) (hab : a ≠ b) :
    ∃ s1 s2 s3,
      run scenarioConfig (init scenarioConfig) scenarioWrite = some s1 ∧
      eventsOf .writer s1.trace = [.semWait .mayWrite, .write 0 42, .semPost (.mayRead 0)] ∧
      s1.sh.sharedExchangeBufferValue = 42 ∧ s1.sh.sharedSemMayRead = [1] ∧
      run scenarioConfig s1 (scenarioFirstRead a) = some s2 ∧
      eventsOf (.reader a) s2.trace =
        [.semWait (.mayRead 0), .read 0 42, .incr 1, .semPost (.mayRead 0)] ∧
      s2.sh.sharedFinishedReaderCount = 1 ∧ s2.sh.sharedSemMayRead = [1] ∧
      s2.sh.sharedSemMayWrite = 0 ∧
      run scenarioConfig s2 (scenarioSecondRead b) = some s3 ∧
      eventsOf (.reader b) s3.trace =
        [.semWait (.mayRead 0), .read 0 42, .incr 2, .reset, .semPost .mayWrite] ∧
      s3.sh.sharedSemMayWrite = 1 ∧ s3.sh.sharedSemMayRead = [0] ∧
      s3.sh.sharedFinishedReaderCount = 0 ∧ s3.sh.sharedExchangeBufferValue = 42 := by
  have h : (a = 0 ∧ b = 1) ∨ (a = 1 ∧ b = 0) := by omega
  rcases h with ⟨rfl, rfl⟩ | ⟨rfl, rfl⟩
  · exact ⟨_, _, _, rfl, by decide, rfl, rfl, rfl, by decide, rfl, rfl, rfl, rfl, by decide,
      rfl, rfl, rfl, rfl⟩
  · exact ⟨_, _, _, rfl, by decide, rfl, rfl, rfl, by decide, rfl, rfl, rfl, rfl, by decide,
      rfl, rfl, rfl, rfl⟩

theorem scenario_two_readers_witness :
    ∃ s1 s2 s3,
      run scenarioConfig (init scenarioConfig) scenarioWrite = some s1 ∧
      eventsOf .writer s1.trace = [.semWait .mayWrite, .write 0 42, .semPost (.mayRead 0)] ∧
      s1.sh.sharedExchangeBufferValue = 42 ∧ s1.sh.sharedSemMayRead = [1] ∧
      run scenarioConfig s1 (scenarioFirstRead 1) = some s2 ∧
      eventsOf (.reader 1) s2.trace =
        [.semWait (.mayRead 0), .read 0 42, .incr 1, .semPost (.mayRead 0)] ∧
      s2.sh.sharedFinishedReaderCount = 1 ∧ s2.sh.sharedSemMayRead = [1] ∧
      s2.sh.sharedSemMayWrite = 0 ∧
      run scenarioConfig s2 (scenarioSecondRead 0) = some s3 ∧
      eventsOf (.reader 0) s3.trace =
        [.semWait (.mayRead 0), .read 0 42, .incr 2, .reset, .semPost .mayWrite] ∧
      s3.sh.sharedSemMayWrite = 1 ∧ s3.sh.sharedSemMayRead = [0] ∧
      s3.sh.sharedFinishedReaderCount = 0 ∧ s3.sh.sharedExchangeBufferValue = 42 :=
  scenario_two_readers 1 0 (by decide) (by decide) (by decide)

theorem countP_isReadBy_writer (t : Nat) (tr : List (Tid × Ev)) (e : Option Ev) :
    (logEv tr .writer e).countP (isReadBy t) = tr.countP (isReadBy t) := by
  cases e with
  | none => rfl
  | some e => simp [logEv, List.countP_append, isReadBy]

theorem countP_isReadBy_other (t u : Nat) (h : u ≠ t) (tr : List (Tid × Ev)) (e : Option Ev) :
    (logEv tr (.reader u) e).countP (isReadBy t) = tr.countP (isReadBy t) := by
  cases e with
  | none => rfl
  | some e => cases e <;> simp [logEv, List.countP_append, isReadBy, h]

theorem countP_isReadBy_self (t : Nat) (tr : List (Tid × Ev)) (e : Option Ev) :
    (logEv tr (.reader t) e).countP (isReadBy t) = tr.countP (isReadBy t) + loadTick e := by
  cases e with
  | none => rfl
  | some e => cases e <;> simp [logEv, List.countP_append, isReadBy, loadTick]

theorem loop_index_le (cfg : Config) (s : State) (h : Inv cfg s) (r : Reader) (hr : r ∈ s.readers)
    (j : Nat) (hj : r.pc = .loop j) : j ≤ cfg.ITEM_COUNT := by
  rcases h.phase with ⟨i, hi⟩ | ⟨i, hi⟩
  · have h1 := hi.2.2.2.2 r hr
    rw [hj] at h1
    simp only [RPc.atW] at h1
    have := hi.1
    omega
  · have h1 := hi.2.2.2.2.1 r hr
    rw [hj] at h1
    simp only [RPc.atR] at h1
    have := hi.1
    omega

theorem readerStep_loads (cfg : Config) (sh sh1 : Shared) (r r1 : Reader) (e : Option Ev)
    (hl : ∀ j, r.pc = .loop j → j ≤ cfg.ITEM_COUNT)
    (hs : readerStep cfg sh r = some (sh1, r1, e)) :
    r1.pc.loads cfg = r.pc.loads cfg + loadTick e := by
  obtain ⟨pc, wc⟩ := r
  cases pc with
  | loop j =>
    have := hl j rfl
    by_cases hj : j < cfg.ITEM_COUNT
    · simp [readerStep, hj] at hs
      obtain ⟨_, rfl, rfl⟩ := hs
      rfl
    · simp [readerStep, hj] at hs
      obtain ⟨_, rfl, rfl⟩ := hs
      simp only [RPc.loads, loadTick]
      omega
  | semWait j =>
    simp only [readerStep] at hs
    cases hw : sem_wait (sh.sharedSemMayRead.getD (readSemaphoreId cfg.variant j) 0) with
    | none =>
      rw [hw] at hs
      simp at hs
    | some c =>
      rw [hw] at hs
      simp at hs
      obtain ⟨_, rfl, rfl⟩ := hs
      rfl
  | read j =>
    simp [readerStep] at hs
    obtain ⟨_, rfl, rfl⟩ := hs
    rfl
  | incr j v =>
    simp [readerStep] at hs
    obtain ⟨_, rfl, rfl⟩ := hs
    rfl
  | test j v =>
    by_cases hf : sh.sharedFinishedReaderCount = cfg.READERS_COUNT
    · simp [readerStep, hf] at hs
      obtain ⟨_, rfl, rfl⟩ := hs
      rfl
    · simp [readerStep, hf] at hs
      obtain ⟨_, rfl, rfl⟩ := hs
      rfl
  | reset j v =>
    simp [readerStep] at hs
    obtain ⟨_, rfl, rfl⟩ := hs
    rfl
  | postWrite j v =>
    simp [readerStep] at hs
    obtain ⟨_, rfl, rfl⟩ := hs
    rfl
  | postRead j v =>
    simp [readerStep] at hs
    obtain ⟨_, rfl, rfl⟩ := hs
    rfl
  | check j v =>
    by_cases hv : itemArrayIsValueCorrect cfg j v = true
    · simp [readerStep, hv] at hs
      obtain ⟨_, rfl, rfl⟩ := hs
      rfl
    · simp [readerStep, hv] at hs
      obtain ⟨_, rfl, rfl⟩ := hs
      rfl
  | done => simp [readerStep] at hs

theorem loadsOK_init (cfg : Config) : LoadsOK cfg (init cfg) := by
  intro t r hr
  have hm := List.getElem?_mem hr
  simp only [init, List.mem_replicate] at hm
  rw [hm.2]
  rfl

theorem loadsOK_step (cfg : Config) (s s1 : State) (a : Tid) (h : Inv cfg s)
    (hl : LoadsOK cfg s) (hs : step cfg s a = some s1) : LoadsOK cfg s1 := by
  cases a with
  | writer =>
    simp only [step] at hs
    cases hw : writerStep cfg s.sh s.writer with
    | none => simp [hw] at hs
    | some x =>
      obtain ⟨sh, w, e⟩ := x
      simp [hw] at hs
      subst hs
      intro t r hr
      simp only [countP_isReadBy_writer]
      exact hl t r hr
  | reader u =>
    simp only [step] at hs
    cases hu : s.readers[u]? with
    | none => simp [hu] at hs
    | some r0 =>
      cases hw : readerStep cfg s.sh r0 with
      | none => simp [hu, hw] at hs
      | some x =>
        obtain ⟨sh, r1, e⟩ := x
        simp [hu, hw] at hs
        subst hs
        intro t r hr
        by_cases htu : u = t
        · subst htu
          have hlt : u < s.readers.length := by
            rcases List.getElem?_eq_some_iff.mp hu with ⟨hlt, _⟩
            exact hlt
          simp only [List.getElem?_set_self hlt, Option.some.injEq] at hr
          subst hr
          rw [countP_isReadBy_self, hl u r0 hu]
          exact (readerStep_loads cfg s.sh sh r0 r1 e
            (fun j hj => loop_index_le cfg s h r0 (List.getElem?_mem hu) j hj) hw).symm
        · simp only [List.getElem?_set_ne htu] at hr
          rw [countP_isReadBy_other t u htu]
          exact hl t r hr

theorem loadsOK_run (cfg : Config) (sched : List Tid) :
    ∀ s s1 : State, Inv cfg s → LoadsOK cfg s → run cfg s sched = some s1 → LoadsOK cfg s1 := by
  induction sched with
  | nil =>
    intro s s1 _ hl hr
    simp [run] at hr
    subst hr
    exact hl
  | cons a as ih =>
    intro s s1 h1 hl hr
    simp only [run] at hr
    cases hst : step cfg s a with
    | none => simp [hst] at hr
    | some s2 =>
      simp [hst] at hr
      exact ih s2 s1 (inv_step cfg s s2 a h1 hst) (loadsOK_step cfg s s2 a h1 hl hst) hr

theorem loadsOK_reachable (cfg : Config) (s : State) (h : Reachable cfg s) : LoadsOK cfg s := by
  obtain ⟨sched, hs⟩ := h
  exact loadsOK_run cfg sched _ s (inv_init cfg) (loadsOK_init cfg) hs

theorem stuck_of_final (cfg : Config) (s : State) (hf : Final s) : Stuck cfg s := by
  intro a
  cases a with
  | writer => simp [step, hf.1, writerStep]
  | reader t =>
    cases ht : s.readers[t]? with
    | none => simp [step, ht]
    | some r =>
      have := hf.2 r (List.getElem?_mem ht)
      simp [step, ht, readerStep, this]

/-- C16: termination without deadlock for three readers and five items, in both variants.
In every reachable state in which some thread has not finished, some thread has an enabled
step; no execution has more steps than `stepsLeft` allows (204 from the start); a state in
which no step is enabled is a state in which every thread has left its loop, and there the
writer has stored exactly 5 items and each of the three readers has loaded exactly 5 items;
some schedule leads to such a state. -/
theorem rendezvous_three_readers_five_items (cfg : Config) (hR : cfg.READERS_COUNT = 3)
    (hN : cfg.ITEM_COUNT = 5) (s : State) (h : Reachable cfg s) :
    s.readers.length = 3 ∧
    (¬ Final s → ∃ a s1, step cfg s a = some s1) ∧
    stepsLeft cfg (init cfg) = 204 ∧
    (∀ sched s1, run cfg s sched = some s1 → sched.length ≤ stepsLeft cfg s) ∧
    (Stuck cfg s ↔ Final s) ∧
    (Stuck cfg s → s.trace.countP isWrite = 5 ∧ s.trace.countP isRead = 15 ∧
      ∀ t, t < 3 → s.trace.countP (isReadBy t) = 5) ∧
    (∃ sched s1, run cfg s sched = some s1 ∧ Stuck cfg s1) := by
  have hR0 : 0 < cfg.READERS_COUNT := by omega
  obtain ⟨hinv, _, _⟩ := good_reachable cfg s h
  obtain ⟨hdl, hlen, sched, s1, hrun, hfin, _⟩ := progress_core cfg hR0 s h
  have hsf : Stuck cfg s → Final s := by
    intro hst
    by_contra hnf
    obtain ⟨a, s2, hs2⟩ := hdl hnf
    rw [hst a] at hs2
    cases hs2
  refine ⟨by rw [hinv.nreaders, hR], hdl, ?_, hlen, ⟨hsf, stuck_of_final cfg s⟩, ?_,
    ⟨sched, s1, hrun, stuck_of_final cfg s1 hfin⟩⟩
  · simp [stepsLeft, init, WPc.rank, RPc.rank, hR, hN]
  · intro hst
    have hf := hsf hst
    refine ⟨?_, ?_, ?_⟩
    · rw [hinv.nwrites, hf.1]
      exact hN
    · rw [hinv.nreads,
        sum_map_const_of_forall (fun r : Reader => r.pc.loads cfg) s.readers cfg.ITEM_COUNT,
        hinv.nreaders, hR, hN]
      intro r hr
      rw [hf.2 r hr]
      rfl
    · intro t ht
      have hlt : t < s.readers.length := by rw [hinv.nreaders, hR]; exact ht
      have hget : s.readers[t]? = some s.readers[t] := List.getElem?_eq_getElem hlt
      rw [loadsOK_reachable cfg s h t _ hget, hf.2 _ (List.getElem?_mem hget)]
      exact hN

theorem rendezvous_three_readers_five_items_witness :
    (swapConfig 3 5 demoValues).READERS_COUNT = 3 ∧ (swapConfig 3 5 demoValues).ITEM_COUNT = 5 ∧
    Reachable (swapConfig 3 5 demoValues) (init (swapConfig 3 5 demoValues)) ∧
    stepsLeft (swapConfig 3 5 demoValues) (init (swapConfig 3 5 demoValues)) = 204 ∧
    ∃ sched s1, run (swapConfig 3 5 demoValues) (init (swapConfig 3 5 demoValues)) sched = some s1 ∧
      Stuck (swapConfig 3 5 demoValues) s1 :=
  ⟨rfl, rfl, ⟨[], rfl⟩,
    (rendezvous_three_readers_five_items (swapConfig 3 5 demoValues) rfl rfl
      (init (swapConfig 3 5 demoValues)) ⟨[], rfl⟩).2.2.1,
    (rendezvous_three_readers_five_items (swapConfig 3 5 demoValues) rfl rfl
      (init (swapConfig 3 5 demoValues)) ⟨[], rfl⟩).2.2.2.2.2.2⟩

/-- Every call in flight is for an item of the array. -/
theorem pending_in_range (cfg : Config) (s : State) (hinv : Inv cfg s) :
    (∀ j, s.writer.pendingItem = some j → j < cfg.ITEM_COUNT) ∧
    ∀ r ∈ s.readers, ∀ j, r.pc.pendingItem = some j → j < cfg.ITEM_COUNT := by
  rcases hinv.phase with ⟨i, hi⟩ | ⟨i, hi⟩
  · obtain ⟨h1, h2, h3, h4, h5⟩ := hi
    refine ⟨?_, ?_⟩
    · intro j hj
      revert h4 hj
      cases s.writer <;> simp [WPc.atW, WPc.pendingItem] <;> omega
    · intro r hr j hj
      have := h5 r hr
      revert this hj
      cases r.pc <;> simp [RPc.atW, RPc.pendingItem] <;> omega
  · obtain ⟨h1, h2, h3, h4, h5, _⟩ := hi
    refine ⟨?_, ?_⟩
    · intro j hj
      revert h3 hj
      cases s.writer <;> simp [WPc.atR, WPc.pendingItem]
      omega
    · intro r hr j hj
      have := h5 r hr
      revert this hj
      cases r.pc <;> simp [RPc.atR, RPc.pendingItem] <;> omega

/-- C17, the claim fails: with one item, `protocolWriteValue(1, 99)` called in the state
after `protocolInit` is not rejected.  Its `sem_wait` takes the permit of
`sharedSemMayWrite` (1 before, 0 after) and its store overwrites the exchange slot (-1
before, 99 after); the call then stands before its `sem_post` on a semaphore outside the
array. -/
theorem out_of_range_write_not_rejected :
    ¬ (1 < scenarioConfig.ITEM_COUNT) ∧
    (protocolInit scenarioConfig).sharedExchangeBufferValue = -1 ∧
    (protocolInit scenarioConfig).sharedSemMayWrite = 1 ∧
    protocolWriteValueHead scenarioConfig (protocolInit scenarioConfig) 1 99 =
      some ({ sharedExchangeBufferValue := 99, sharedFinishedReaderCount := 0,
              sharedSemMayWrite := 0, sharedSemMayRead := [0] }, .post 1 99) ∧
    ¬ (∀ sh1 pc1, protocolWriteValueHead scenarioConfig (protocolInit scenarioConfig) 1 99 =
        some (sh1, pc1) → sh1 = protocolInit scenarioConfig) := by
  refine ⟨by decide, by decide, by decide, by decide, ?_⟩
  intro h
  have := h ⟨99, 0, 0, [0]⟩ (.post 1 99) (by decide)
  revert this
  decide

/-- C17 as amended, for `per_item_read_sem.c`: the item index is not checked by the protocol
functions, it is kept in range by their callers.  In every reachable state of the program
every `protocolWriteValue` and `protocolReadValue` call in flight has an index below
`ITEM_COUNT`, which is also the number of read semaphores.  The functions themselves do not
look at the index before they act: for any index, in range or not, a `protocolWriteValue`
call that finds a permit on `sharedSemMayWrite` takes it and stores its value in the
exchange slot. -/
theorem item_index_kept_in_range_by_callers (readers items : Nat) (values : Nat → Int)
    (s : State) (h : Reachable (perItemConfig readers items values) s) :
    s.sh.sharedSemMayRead.length = items ∧
    (∀ j, s.writer.pendingItem = some j → j < items) ∧
    (∀ r ∈ s.readers, ∀ j, r.pc.pendingItem = some j → j < items) ∧
    (∀ (sh : Shared) (itemId : Nat) (itemValue : Int), 0 < sh.sharedSemMayWrite →
      protocolWriteValueHead (perItemConfig readers items values) sh itemId itemValue =
        some ({ sh with sharedExchangeBufferValue := itemValue
                        sharedSemMayWrite := sh.sharedSemMayWrite - 1 }, .post itemId itemValue)) ∧
    (∀ (sh : Shared) (itemId : Nat) (itemValue : Int), sh.sharedSemMayWrite = 0 →
      protocolWriteValueHead (perItemConfig readers items values) sh itemId itemValue = none) := by
  obtain ⟨hinv, _, _⟩ := good_reachable _ s h
  have hp := pending_in_range _ s hinv
  refine ⟨hinv.nsems, hp.1, hp.2, ?_, ?_⟩
  · intro sh itemId itemValue hpos
    obtain ⟨k, hk⟩ : ∃ k, sh.sharedSemMayWrite = k + 1 := ⟨sh.sharedSemMayWrite - 1, by omega⟩
    simp [protocolWriteValueHead, writerStep, sem_wait, hk, exchangeBufferWriteValue]
  · intro sh itemId itemValue h0
    simp [protocolWriteValueHead, writerStep, sem_wait, h0]

theorem scenario_reading_reachable : Reachable (perItemConfig 2 1 fun _ => 42) scenarioReading :=
  ⟨scenarioWrite ++ [.reader 0, .reader 0], by decide⟩

theorem item_index_kept_in_range_by_callers_witness :
    Reachable (perItemConfig 2 1 fun _ => 42) scenarioReading ∧
    scenarioReading.sh.sharedSemMayRead.length = 1 ∧
    (∀ r ∈ scenarioReading.readers, ∀ j, r.pc.pendingItem = some j → j < 1) :=
  ⟨scenario_reading_reachable,
    (item_index_kept_in_range_by_callers 2 1 (fun _ => 42) scenarioReading
      scenario_reading_reachable).1,
    (item_index_kept_in_range_by_callers 2 1 (fun _ => 42) scenarioReading
      scenario_reading_reachable).2.2.1⟩

end Rendezvous

namespace SwapBuf

theorem wf_shape (C : Nat) (b : Buffer) (h : b.WF C) :
    ∃ a c r0 r1, b.sharedBufferPos = [a, c] ∧ b.sharedBuffers = [r0, r1] ∧
      r0.length = C ∧ r1.length = C := by
  obtain ⟨h1, h2, h3, _⟩ := h
  match hp : b.sharedBufferPos, hb : b.sharedBuffers with
  | [a, c], [r0, r1] =>
    refine ⟨a, c, r0, r1, rfl, rfl, ?_, ?_⟩
    · exact h3 r0 (by simp [hb])
    · exact h3 r1 (by simp [hb])
  | [], _ => simp [hp] at h1
  | [_], _ => simp [hp] at h1
  | _ :: _ :: _ :: _, _ => simp [hp] at h1
  | _, [] => simp [hb] at h2
  | _, [_] => simp [hb] at h2
  | _, _ :: _ :: _ :: _ => simp [hb] at h2

theorem produce_facts (C : Nat) (b : Buffer) (d : Int) (h : b.WF C) :
    (bufferProduceData b d).WF C ∧ (bufferProduceData b d).pp = b.pp + 1 ∧
    (bufferProduceData b d).cp = b.cp ∧
    (b.pp < C → (bufferProduceData b d).pending = b.pending ++ [d]) := by
  obtain ⟨a, c, r0, r1, hp, hb, hr0, hr1⟩ := wf_shape C b h
  obtain ⟨cid, pid, pos, bufs⟩ := b
  simp only at hp hb
  subst hp hb
  rcases h.2.2.2 with ⟨e1, e2⟩ | ⟨e1, e2⟩ <;> simp only at e1 e2 <;> subst e1 e2
  · refine ⟨?_, ?_, ?_, ?_⟩
    · simp [Buffer.WF, bufferProduceData, hr0, hr1]
    · simp [Buffer.pp, bufferProduceData]
    · simp [Buffer.cp, bufferProduceData]
    · intro hlt
      simp [Buffer.pp] at hlt
      simp [Buffer.pending, Buffer.pp, Buffer.cp, bufferProduceData]
      rw [List.take_succ]
      simp [take_set_self, hlt, hr0]
  · refine ⟨?_, ?_, ?_, ?_⟩
    · simp [Buffer.WF, bufferProduceData, hr0, hr1]
    · simp [Buffer.pp, bufferProduceData]
    · simp [Buffer.cp, bufferProduceData]
    · intro hlt
      simp [Buffer.pp] at hlt
      simp [Buffer.pending, Buffer.pp, Buffer.cp, bufferProduceData]
      rw [List.take_succ]
      simp [take_set_self, hlt, hr1]

theorem consume_facts (C : Nat) (b : Buffer) (h : b.WF C) :
    (bufferConsumeData b).2.WF C ∧ (bufferConsumeData b).2.pp = b.pp ∧
    (bufferConsumeData b).2.cp = b.cp + 1 ∧
    (b.cp < C → b.pending = (bufferConsumeData b).1 :: (bufferConsumeData b).2.pending) := by
  obtain ⟨a, c, r0, r1, hp, hb, hr0, hr1⟩ := wf_shape C b h
  obtain ⟨cid, pid, pos, bufs⟩ := b
  simp only at hp hb
  subst hp hb
  rcases h.2.2.2 with ⟨e1, e2⟩ | ⟨e1, e2⟩ <;> simp only at e1 e2 <;> subst e1 e2
  · refine ⟨?_, ?_, ?_, ?_⟩
    · simp [Buffer.WF, bufferConsumeData, hr0, hr1]
    · simp [Buffer.pp, bufferConsumeData]
    · simp [Buffer.cp, bufferConsumeData]
    · intro hlt
      simp [Buffer.cp] at hlt
      simp [Buffer.pending, Buffer.pp, Buffer.cp, bufferConsumeData]
      have e : List.drop c r1 = r1[c] :: List.drop (c + 1) r1 := List.drop_eq_getElem_cons (by omega)
      rw [e, List.cons_append]
      simp [List.getElem?_eq_getElem, hr0, hr1, hlt]
  · refine ⟨?_, ?_, ?_, ?_⟩
    · simp [Buffer.WF, bufferConsumeData, hr0, hr1]
    · simp [Buffer.pp, bufferConsumeData]
    · simp [Buffer.cp, bufferConsumeData]
    · intro hlt
      simp [Buffer.cp] at hlt
      simp [Buffer.pending, Buffer.pp, Buffer.cp, bufferConsumeData]
      have e : List.drop a r0 = r0[a] :: List.drop (a + 1) r0 := List.drop_eq_getElem_cons (by omega)
      rw [e, List.cons_append]
      simp [List.getElem?_eq_getElem, hr0, hr1, hlt]

theorem swap_facts (C : Nat) (b : Buffer) (h : b.WF C) :
    (bufferSwap b).WF C ∧ (bufferSwap b).pp = 0 ∧ (bufferSwap b).cp = 0 ∧
    (b.pp = C → b.cp = C → (bufferSwap b).pending = b.pending) := by
  obtain ⟨a, c, r0, r1, hp, hb, hr0, hr1⟩ := wf_shape C b h
  obtain ⟨cid, pid, pos, bufs⟩ := b
  simp only at hp hb
  subst hp hb
  rcases h.2.2.2 with ⟨e1, e2⟩ | ⟨e1, e2⟩ <;> simp only at e1 e2 <;> subst e1 e2
  · refine ⟨?_, ?_, ?_, ?_⟩
    · simp [Buffer.WF, bufferSwap, hr0, hr1]
    · simp [Buffer.pp, bufferSwap]
    · simp [Buffer.cp, bufferSwap]
    · intro h1 h2
      simp [Buffer.pp] at h1
      simp [Buffer.cp] at h2
      subst h1
      simp [Buffer.pending, Buffer.pp, Buffer.cp, bufferSwap, h2, hr0, hr1]
      have e1 : List.drop a r1 = [] := List.drop_eq_nil_of_le (by omega)
      have e2 : List.take a r0 = r0 := List.take_of_length_le (by omega)
      rw [e1, e2]
      rfl
  · refine ⟨?_, ?_, ?_, ?_⟩
    · simp [Buffer.WF, bufferSwap, hr0, hr1]
    · simp [Buffer.pp, bufferSwap]
    · simp [Buffer.cp, bufferSwap]
    · intro h1 h2
      simp [Buffer.pp] at h1
      simp [Buffer.cp] at h2
      subst h1
      simp [Buffer.pending, Buffer.pp, Buffer.cp, bufferSwap, h2, hr0, hr1]
      have e1 : List.drop c r0 = [] := List.drop_eq_nil_of_le (by omega)
      have e2 : List.take c r1 = r1 := List.take_of_length_le (by omega)
      rw [e1, e2]
      rfl

theorem produceExhausted_iff (C : Nat) (b : Buffer) :
    bufferProduceIsExhausted C b = true ↔ b.pp = C := by
  simp [bufferProduceIsExhausted, Buffer.pp]

theorem consumeExhausted_iff (C : Nat) (b : Buffer) :
    bufferConsumeIsExhausted C b = true ↔ b.cp = C := by
  simp [bufferConsumeIsExhausted, Buffer.cp]

theorem producer_inCS_of_mid (p : PPc) (h : p.mid = true) : p.inCS = true := by
  cases p <;> simp [PPc.mid] at h <;> rfl

theorem consumer_inCS_of_mid (c : CPc) (h : c.mid = true) : c.inCS = true := by
  cases c <;> simp [CPc.mid] at h <;> rfl

theorem producer_mid_of_not_inCS (p : PPc) (h : p.inCS = false) : p.mid = false := by
  cases p <;> simp [PPc.inCS] at h <;> rfl

theorem consumer_mid_of_not_inCS (c : CPc) (h : c.inCS = false) : c.mid = false := by
  cases c <;> simp [CPc.inCS] at h <;> rfl

theorem pfacts_of_not_mid (C np nc pp cp : Nat) (p : PPc) (h : p.mid = false) :
    PFacts C np nc pp cp p := by
  cases p <;> simp [PPc.mid] at h <;> simp [PFacts]

theorem cfacts_of_not_mid (C np nc pp cp : Nat) (c : CPc) (h : c.mid = false) :
    CFacts C np nc pp cp c := by
  cases c <;> simp [CPc.mid] at h <;> simp [CFacts]

theorem produced_append (a b : List (Tid × Ev)) : produced (a ++ b) = produced a ++ produced b := by
  induction a with
  | nil => rfl
  | cons x a ih =>
    obtain ⟨t, e⟩ := x
    cases e <;> simp [produced, ih]

theorem consumed_append (a b : List (Tid × Ev)) : consumed (a ++ b) = consumed a ++ consumed b := by
  induction a with
  | nil => rfl
  | cons x a ih =>
    obtain ⟨t, e⟩ := x
    cases e <;> simp [consumed, ih]

theorem init_wf (C : Nat) : (bufferInit C).WF C := by
  simp [Buffer.WF, bufferInit]

theorem swap_inv_init (C np nc : Nat) (hC : 0 < C) : Inv C (init C np nc) := by
  refine ⟨init_wf C, ?_, ?_, ?_, ?_, ?_⟩
  · simp [init, protocolInit, List.countP_replicate, PPc.inCS, CPc.inCS]
  · intro p hp
    simp [init] at hp
    rw [hp.2]
    trivial
  · intro c hc
    simp [init] at hc
    rw [hc.2]
    trivial
  · intro _ _
    simp [Quiet, nP, nC, init, protocolInit, bufferInit, Buffer.pp, Buffer.cp, List.countP_replicate,
      PPc.permit, CPc.permit, hC]
    omega
  · simp [init, produced, consumed, Buffer.pending, protocolInit, bufferInit, Buffer.pp, Buffer.cp]

set_option maxHeartbeats 1600000 in
theorem inv_producer (C : Nat) (hC : 0 < C) (s s1 : State) (t : Nat) (rand : Int) (h : Inv C s)
    (hs : step C s (.producer t rand) = some s1) : Inv C s1 := by
  obtain ⟨⟨buf, mx, mp, mc⟩, ps, cs, tr⟩ := s
  obtain ⟨hwf, hM, hpf, hcf, hq, hdata⟩ := h
  simp only [nP, nC] at hpf hcf hq
  simp only at hwf hM hpf hcf hq hdata
  cases hr : ps[t]? with
  | none => simp [step, hr] at hs
  | some pc =>
  have hmem := List.getElem?_mem hr
  have hIn := fun y => countP_set_w PPc.inCS ps t pc y hr
  have hPm := fun y => countP_set_w PPc.permit ps t pc y hr
  have hpc := hpf pc hmem
  -- when the mover holds the mutex or can take it, nobody else is in its critical section
  have hothers : pc.inCS = true ∨ 0 < mx →
      (∀ k p, ps[k]? = some p → k ≠ t → p.inCS = false) ∧ (∀ c ∈ cs, c.inCS = false) := by
    intro hcase
    have h1 : 1 ≤ List.countP PPc.inCS ps ∨ 0 < mx := by
      rcases hcase with hc | hc
      · left
        exact List.countP_pos_iff.mpr ⟨pc, hmem, hc⟩
      · right
        exact hc
    constructor
    · intro k p hk hkt
      by_contra hp
      simp at hp
      rcases hcase with hc | hc
      · exact hkt (index_unique_of_countP_le_one PPc.inCS ps (by omega) t k pc p hr hk hc hp).symm
      · have : List.countP PPc.inCS ps = 0 := by omega
        rw [List.countP_eq_zero] at this
        exact this p (List.getElem?_mem hk) hp
    · have : List.countP CPc.inCS cs = 0 := by omega
      simpa using this
  have hquiet : pc.mid = false → (pc.inCS = true ∨ 0 < mx) →
      Quiet C (mp + List.countP PPc.permit ps) (mc + List.countP CPc.permit cs) buf.pp buf.cp := by
    intro hmid hcase
    obtain ⟨ho1, ho2⟩ := hothers hcase
    apply hq
    · intro p hp
      obtain ⟨k, hk⟩ := List.getElem?_of_mem hp
      by_cases hkt : k = t
      · subst hkt
        rw [hr] at hk
        cases hk
        exact hmid
      · exact producer_mid_of_not_inCS p (ho1 k p hk hkt)
    · intro c hc
      exact consumer_mid_of_not_inCS c (ho2 c hc)
  -- a step of the mutex holder, or the step that takes the mutex
  have hold : pc.inCS = true ∨ 0 < mx → ∀ (y : PPc) (sh1 : Shared) (tr1 : List (Tid × Ev)),
      sh1.buf.WF C →
      sh1.sharedSemMutex + List.countP PPc.inCS (ps.set t y) + List.countP CPc.inCS cs = 1 →
      PFacts C (sh1.sharedSemMayProduce + List.countP PPc.permit (ps.set t y))
        (sh1.sharedSemMayConsume + List.countP CPc.permit cs) sh1.buf.pp sh1.buf.cp y →
      (y.mid = false → Quiet C (sh1.sharedSemMayProduce + List.countP PPc.permit (ps.set t y))
        (sh1.sharedSemMayConsume + List.countP CPc.permit cs) sh1.buf.pp sh1.buf.cp) →
      produced tr1 = consumed tr1 ++ sh1.buf.pending →
      Inv C { sh := sh1, producers := ps.set t y, consumers := cs, trace := tr1 } := by
    intro hcase y sh1 tr1 h1 h2 h3 h4 h5
    obtain ⟨ho1, ho2⟩ := hothers hcase
    refine ⟨h1, h2, ?_, ?_, ?_, h5⟩
    · intro p hp
      rcases mem_set_cases ps t y p hp with e | ⟨k, hkt, hk⟩
      · rw [e]
        exact h3
      · exact pfacts_of_not_mid _ _ _ _ _ p (producer_mid_of_not_inCS p (ho1 k p hk hkt))
    · intro c hc
      exact cfacts_of_not_mid _ _ _ _ _ c (consumer_mid_of_not_inCS c (ho2 c hc))
    · intro hp _
      apply h4
      apply hp
      apply List.mem_iff_getElem?.mpr
      refine ⟨t, ?_⟩
      rw [List.getElem?_set]
      simp
      exact (List.getElem?_eq_some_iff.mp hr).1
  -- a step outside the critical section that leaves the outstanding permits unchanged
  have hout : pc.inCS = false → ∀ (y : PPc) (mp1 : Nat) (tr1 : List (Tid × Ev)), y.inCS = false →
      mp1 + List.countP PPc.permit (ps.set t y) = mp + List.countP PPc.permit ps →
      produced tr1 = produced tr → consumed tr1 = consumed tr →
      Inv C { sh := { buf := buf, sharedSemMutex := mx, sharedSemMayProduce := mp1,
                      sharedSemMayConsume := mc },
              producers := ps.set t y, consumers := cs, trace := tr1 } := by
    intro hpcs y mp1 tr1 hy hnp htp htc
    have hIn1 := hIn y 0 0 (by simp [hpcs]) (by simp [hy])
    refine ⟨hwf, by dsimp only; omega, ?_, ?_, ?_, by dsimp only; rw [htp, htc]; exact hdata⟩
    · intro p hp
      simp only [nP, nC]
      rw [hnp]
      rcases mem_set_cases ps t y p hp with e | ⟨k, hkt, hk⟩
      · rw [e]
        exact pfacts_of_not_mid _ _ _ _ _ y (producer_mid_of_not_inCS y hy)
      · exact hpf p (List.getElem?_mem hk)
    · intro c hc
      simp only [nP, nC]
      rw [hnp]
      exact hcf c hc
    · intro hp hc
      simp only [nP, nC]
      rw [hnp]
      apply hq _ hc
      intro p hp2
      obtain ⟨k, hk⟩ := List.getElem?_of_mem hp2
      by_cases hkt : k = t
      · subst hkt
        rw [hr] at hk
        cases hk
        exact producer_mid_of_not_inCS _ hpcs
      · apply hp
        apply List.mem_iff_getElem?.mpr
        refine ⟨k, ?_⟩
        rw [List.getElem?_set, if_neg (fun e => hkt e.symm)]
        exact hk
  cases pc with
  | idle =>
    simp [step, hr, producerStep, logEv] at hs
    subst hs
    have := hPm (.waitMayProduce rand) 0 0 rfl rfl
    exact hout rfl _ mp tr rfl (by omega) rfl rfl
  | waitMayProduce d =>
    cases mp with
    | zero => simp [step, hr, producerStep, sem_wait] at hs
    | succ mp =>
      simp [step, hr, producerStep, sem_wait, logEv] at hs
      subst hs
      have := hPm (.waitMutex d) 0 1 rfl rfl
      exact hout rfl _ mp _ rfl (by omega) (by simp [produced_append, produced])
        (by simp [consumed_append, consumed])
  | waitMutex d =>
    cases mx with
    | zero => simp [step, hr, producerStep, sem_wait] at hs
    | succ mx =>
      simp [step, hr, producerStep, sem_wait, logEv] at hs
      subst hs
      have h1 := hPm (.produce d) 1 1 rfl rfl
      have h2 := hIn (.produce d) 0 1 rfl rfl
      have hQ := hquiet rfl (Or.inr (by omega))
      refine hold (Or.inr (by omega)) _ _ _ hwf (by dsimp only; omega) trivial ?_ ?_
      · intro _
        dsimp only
        rw [show mp + List.countP PPc.permit (ps.set t (PPc.produce d)) = mp + List.countP PPc.permit ps by omega]
        exact hQ
      · simpa [produced_append, produced, consumed_append, consumed] using hdata
  | produce d =>
    simp [step, hr, producerStep, logEv] at hs
    subst hs
    have h1 := hPm .testProduce 1 0 rfl rfl
    have h2 := hIn .testProduce 1 1 rfl rfl
    obtain ⟨q1, q2, q3, q4, q5⟩ := hquiet rfl (Or.inl rfl)
    obtain ⟨f1, f2, f3, f4⟩ := produce_facts C buf d hwf
    have hlt : buf.pp < C := by
      by_contra hc
      rw [if_neg hc] at q1
      omega
    refine hold (Or.inl rfl) _ _ _ f1 (by dsimp only; omega) ?_ (by simp [PPc.mid]) ?_
    · dsimp only
      rw [f2, f3]
      rw [if_pos hlt] at q1
      exact ⟨by omega, by omega, by omega, q4, q2⟩
    · dsimp only
      rw [f4 hlt]
      simp [produced_append, produced, consumed_append, consumed, hdata]
  | testProduce =>
    simp only [PFacts] at hpc
    obtain ⟨g1, g2, g3, g4, g5⟩ := hpc
    by_cases hex : bufferProduceIsExhausted C buf = true
    · simp [step, hr, producerStep, logEv, hex] at hs
      subst hs
      have h1 := hPm .testConsume 0 0 rfl rfl
      have h2 := hIn .testConsume 1 1 rfl rfl
      rw [produceExhausted_iff] at hex
      refine hold (Or.inl rfl) _ _ _ hwf (by dsimp only; omega) ?_ (by simp [PPc.mid]) hdata
      dsimp only
      exact ⟨by omega, hex, g4, g5⟩
    · simp [step, hr, producerStep, logEv, hex] at hs
      subst hs
      have h1 := hPm .postMayProduce 0 0 rfl rfl
      have h2 := hIn .postMayProduce 1 1 rfl rfl
      rw [produceExhausted_iff] at hex
      refine hold (Or.inl rfl) _ _ _ hwf (by dsimp only; omega) ?_ (by simp [PPc.mid]) hdata
      dsimp only
      exact ⟨by omega, by omega, g4, g5⟩
  | testConsume =>
    simp only [PFacts] at hpc
    obtain ⟨g1, g2, g3, g4⟩ := hpc
    by_cases hex : bufferConsumeIsExhausted C buf = true
    · simp [step, hr, producerStep, logEv, hex] at hs
      subst hs
      have h1 := hPm .swap 0 0 rfl rfl
      have h2 := hIn .swap 1 1 rfl rfl
      rw [consumeExhausted_iff] at hex
      refine hold (Or.inl rfl) _ _ _ hwf (by dsimp only; omega) ?_ (by simp [PPc.mid]) hdata
      dsimp only
      rw [hex, if_neg (Nat.lt_irrefl _)] at g4
      exact ⟨by omega, g4, g2, hex⟩
    · simp [step, hr, producerStep, logEv, hex] at hs
      subst hs
      have h1 := hPm .postMutex 0 0 rfl rfl
      have h2 := hIn .postMutex 1 1 rfl rfl
      rw [consumeExhausted_iff] at hex
      refine hold (Or.inl rfl) _ _ _ hwf (by dsimp only; omega) trivial ?_ hdata
      intro _
      dsimp only
      refine ⟨?_, ?_, by omega, g3, fun hc => hex hc.2⟩
      · rw [if_neg (by omega)]
        omega
      · omega
  | swap =>
    simp only [PFacts] at hpc
    obtain ⟨g1, g2, g3, g4⟩ := hpc
    simp [step, hr, producerStep, logEv] at hs
    subst hs
    have h1 := hPm .postMayConsume 0 0 rfl rfl
    have h2 := hIn .postMayConsume 1 1 rfl rfl
    obtain ⟨f1, f2, f3, f4⟩ := swap_facts C buf hwf
    refine hold (Or.inl rfl) _ _ _ f1 (by dsimp only; omega) ?_ (by simp [PPc.mid]) ?_
    · dsimp only
      exact ⟨by omega, g2, f2, f3⟩
    · dsimp only
      rw [f4 g3 g4]
      simpa [produced_append, produced, consumed_append, consumed] using hdata
  | postMayConsume =>
    simp only [PFacts] at hpc
    obtain ⟨g1, g2, g3, g4⟩ := hpc
    simp [step, hr, producerStep, logEv, sem_post] at hs
    subst hs
    have h1 := hPm .postMayProduceSwap 0 0 rfl rfl
    have h2 := hIn .postMayProduceSwap 1 1 rfl rfl
    refine hold (Or.inl rfl) _ _ _ hwf (by dsimp only; omega) ?_ (by simp [PPc.mid]) ?_
    · dsimp only
      exact ⟨by omega, by omega, g3, g4⟩
    · simpa [produced_append, produced, consumed_append, consumed] using hdata
  | postMayProduceSwap =>
    simp only [PFacts] at hpc
    obtain ⟨g1, g2, g3, g4⟩ := hpc
    simp [step, hr, producerStep, logEv, sem_post] at hs
    subst hs
    have h1 := hPm .postMutex 0 0 rfl rfl
    have h2 := hIn .postMutex 1 1 rfl rfl
    refine hold (Or.inl rfl) _ _ _ hwf (by dsimp only; omega) trivial ?_ ?_
    · intro _
      dsimp only
      rw [g3, g4]
      refine ⟨?_, ?_, by omega, by omega, by omega⟩
      · rw [if_pos hC]
        omega
      · rw [if_pos hC]
        omega
    · simpa [produced_append, produced, consumed_append, consumed] using hdata
  | postMayProduce =>
    simp only [PFacts] at hpc
    obtain ⟨g1, g2, g3, g4⟩ := hpc
    simp [step, hr, producerStep, logEv, sem_post] at hs
    subst hs
    have h1 := hPm .postMutex 0 0 rfl rfl
    have h2 := hIn .postMutex 1 1 rfl rfl
    refine hold (Or.inl rfl) _ _ _ hwf (by dsimp only; omega) trivial ?_ ?_
    · intro _
      dsimp only
      refine ⟨?_, g4, by omega, g3, by omega⟩
      rw [if_pos g2]
      omega
    · simpa [produced_append, produced, consumed_append, consumed] using hdata
  | postMutex =>
    simp [step, hr, producerStep, logEv, sem_post] at hs
    subst hs
    have h1 := hPm .idle 0 0 rfl rfl
    have h2 := hIn .idle 1 0 rfl rfl
    have hQ := hquiet rfl (Or.inl rfl)
    refine hold (Or.inl rfl) _ _ _ hwf (by dsimp only; omega) trivial ?_ ?_
    · intro _
      dsimp only
      rw [show mp + List.countP PPc.permit (ps.set t PPc.idle) = mp + List.countP PPc.permit ps by omega]
      exact hQ
    · simpa [produced_append, produced, consumed_append, consumed] using hdata

set_option maxHeartbeats 1600000 in
theorem inv_consumer (C : Nat) (hC : 0 < C) (s s1 : State) (t : Nat) (h : Inv C s)
    (hs : step C s (.consumer t) = some s1) : Inv C s1 := by
  obtain ⟨⟨buf, mx, mp, mc⟩, ps, cs, tr⟩ := s
  obtain ⟨hwf, hM, hpf, hcf, hq, hdata⟩ := h
  simp only [nP, nC] at hpf hcf hq
  simp only at hwf hM hpf hcf hq hdata
  cases hr : cs[t]? with
  | none => simp [step, hr] at hs
  | some pc =>
  have hmem := List.getElem?_mem hr
  have hIn := fun y => countP_set_w CPc.inCS cs t pc y hr
  have hPm := fun y => countP_set_w CPc.permit cs t pc y hr
  have hpc := hcf pc hmem
  have hothers : pc.inCS = true ∨ 0 < mx →
      (∀ k c, cs[k]? = some c → k ≠ t → c.inCS = false) ∧ (∀ p ∈ ps, p.inCS = false) := by
    intro hcase
    have h1 : 1 ≤ List.countP CPc.inCS cs ∨ 0 < mx := by
      rcases hcase with hc | hc
      · left
        exact List.countP_pos_iff.mpr ⟨pc, hmem, hc⟩
      · right
        exact hc
    constructor
    · intro k c hk hkt
      by_contra hp
      simp at hp
      rcases hcase with hc | hc
      · exact hkt (index_unique_of_countP_le_one CPc.inCS cs (by omega) t k pc c hr hk hc hp).symm
      · have : List.countP CPc.inCS cs = 0 := by omega
        rw [List.countP_eq_zero] at this
        exact this c (List.getElem?_mem hk) hp
    · have : List.countP PPc.inCS ps = 0 := by omega
      simpa using this
  have hquiet : pc.mid = false → (pc.inCS = true ∨ 0 < mx) →
      Quiet C (mp + List.countP PPc.permit ps) (mc + List.countP CPc.permit cs) buf.pp buf.cp := by
    intro hmid hcase
    obtain ⟨ho1, ho2⟩ := hothers hcase
    apply hq
    · intro p hp
      exact producer_mid_of_not_inCS p (ho2 p hp)
    · intro c hc
      obtain ⟨k, hk⟩ := List.getElem?_of_mem hc
      by_cases hkt : k = t
      · subst hkt
        rw [hr] at hk
        cases hk
        exact hmid
      · exact consumer_mid_of_not_inCS c (ho1 k c hk hkt)
  have hold : pc.inCS = true ∨ 0 < mx → ∀ (y : CPc) (sh1 : Shared) (tr1 : List (Tid × Ev)),
      sh1.buf.WF C →
      sh1.sharedSemMutex + List.countP PPc.inCS ps + List.countP CPc.inCS (cs.set t y) = 1 →
      CFacts C (sh1.sharedSemMayProduce + List.countP PPc.permit ps)
        (sh1.sharedSemMayConsume + List.countP CPc.permit (cs.set t y)) sh1.buf.pp sh1.buf.cp y →
      (y.mid = false → Quiet C (sh1.sharedSemMayProduce + List.countP PPc.permit ps)
        (sh1.sharedSemMayConsume + List.countP CPc.permit (cs.set t y)) sh1.buf.pp sh1.buf.cp) →
      produced tr1 = consumed tr1 ++ sh1.buf.pending →
      Inv C { sh := sh1, producers := ps, consumers := cs.set t y, trace := tr1 } := by
    intro hcase y sh1 tr1 h1 h2 h3 h4 h5
    obtain ⟨ho1, ho2⟩ := hothers hcase
    refine ⟨h1, h2, ?_, ?_, ?_, h5⟩
    · intro p hp
      exact pfacts_of_not_mid _ _ _ _ _ p (producer_mid_of_not_inCS p (ho2 p hp))
    · intro c hc
      rcases mem_set_cases cs t y c hc with e | ⟨k, hkt, hk⟩
      · rw [e]
        exact h3
      · exact cfacts_of_not_mid _ _ _ _ _ c (consumer_mid_of_not_inCS c (ho1 k c hk hkt))
    · intro _ hc
      apply h4
      apply hc
      apply List.mem_iff_getElem?.mpr
      refine ⟨t, ?_⟩
      rw [List.getElem?_set]
      simp
      exact (List.getElem?_eq_some_iff.mp hr).1
  have hout : pc.inCS = false → ∀ (y : CPc) (mc1 : Nat) (tr1 : List (Tid × Ev)), y.inCS = false →
      mc1 + List.countP CPc.permit (cs.set t y) = mc + List.countP CPc.permit cs →
      produced tr1 = produced tr → consumed tr1 = consumed tr →
      Inv C { sh := { buf := buf, sharedSemMutex := mx, sharedSemMayProduce := mp,
                      sharedSemMayConsume := mc1 },
              producers := ps, consumers := cs.set t y, trace := tr1 } := by
    intro hpcs y mc1 tr1 hy hnp htp htc
    have hIn1 := hIn y 0 0 (by simp [hpcs]) (by simp [hy])
    refine ⟨hwf, by dsimp only; omega, ?_, ?_, ?_, by dsimp only; rw [htp, htc]; exact hdata⟩
    · intro p hp
      simp only [nP, nC]
      rw [hnp]
      exact hpf p hp
    · intro c hc
      simp only [nP, nC]
      rw [hnp]
      rcases mem_set_cases cs t y c hc with e | ⟨k, hkt, hk⟩
      · rw [e]
        exact cfacts_of_not_mid _ _ _ _ _ y (consumer_mid_of_not_inCS y hy)
      · exact hcf c (List.getElem?_mem hk)
    · intro hp hc
      simp only [nP, nC]
      rw [hnp]
      apply hq hp
      intro c hc2
      obtain ⟨k, hk⟩ := List.getElem?_of_mem hc2
      by_cases hkt : k = t
      · subst hkt
        rw [hr] at hk
        cases hk
        exact consumer_mid_of_not_inCS _ hpcs
      · apply hc
        apply List.mem_iff_getElem?.mpr
        refine ⟨k, ?_⟩
        rw [List.getElem?_set, if_neg (fun e => hkt e.symm)]
        exact hk
  cases pc with
  | idle =>
    simp [step, hr, consumerStep, logEv] at hs
    subst hs
    have := hPm .waitMayConsume 0 0 rfl rfl
    exact hout rfl _ mc tr rfl (by omega) rfl rfl
  | waitMayConsume =>
    cases mc with
    | zero => simp [step, hr, consumerStep, sem_wait] at hs
    | succ mc =>
      simp [step, hr, consumerStep, sem_wait, logEv] at hs
      subst hs
      have := hPm .waitMutex 0 1 rfl rfl
      exact hout rfl _ mc _ rfl (by omega) (by simp [produced_append, produced])
        (by simp [consumed_append, consumed])
  | waitMutex =>
    cases mx with
    | zero => simp [step, hr, consumerStep, sem_wait] at hs
    | succ mx =>
      simp [step, hr, consumerStep, sem_wait, logEv] at hs
      subst hs
      have h1 := hPm .consume 1 1 rfl rfl
      have h2 := hIn .consume 0 1 rfl rfl
      have hQ := hquiet rfl (Or.inr (by omega))
      refine hold (Or.inr (by omega)) _ _ _ hwf (by dsimp only; omega) trivial ?_ ?_
      · intro _
        dsimp only
        rw [show mc + List.countP CPc.permit (cs.set t CPc.consume) = mc + List.countP CPc.permit cs by omega]
        exact hQ
      · simpa [produced_append, produced, consumed_append, consumed] using hdata
  | consume =>
    simp [step, hr, consumerStep, logEv] at hs
    subst hs
    have h1 := hPm (.testConsume (bufferConsumeData buf).1) 1 0 rfl rfl
    have h2 := hIn (.testConsume (bufferConsumeData buf).1) 1 1 rfl rfl
    obtain ⟨q1, q2, q3, q4, q5⟩ := hquiet rfl (Or.inl rfl)
    obtain ⟨f1, f2, f3, f4⟩ := consume_facts C buf hwf
    have hlt : buf.cp < C := by
      by_contra hc
      rw [if_neg hc] at q2
      omega
    refine hold (Or.inl rfl) _ _ _ f1 (by dsimp only; omega) ?_ (by simp [CPc.mid]) ?_
    · dsimp only
      rw [f2, f3]
      rw [if_pos hlt] at q2
      exact ⟨by omega, by omega, by omega, q3, q1⟩
    · dsimp only
      simp only [produced_append, produced, consumed_append, consumed, List.append_nil]
      rw [hdata, f4 hlt]
      simp
  | testConsume d =>
    simp only [CFacts] at hpc
    obtain ⟨g1, g2, g3, g4, g5⟩ := hpc
    by_cases hex : bufferConsumeIsExhausted C buf = true
    · simp [step, hr, consumerStep, logEv, hex] at hs
      subst hs
      have h1 := hPm (.testProduce d) 0 0 rfl rfl
      have h2 := hIn (.testProduce d) 1 1 rfl rfl
      rw [consumeExhausted_iff] at hex
      refine hold (Or.inl rfl) _ _ _ hwf (by dsimp only; omega) ?_ (by simp [CPc.mid]) hdata
      dsimp only
      exact ⟨by omega, hex, g4, g5⟩
    · simp [step, hr, consumerStep, logEv, hex] at hs
      subst hs
      have h1 := hPm (.postMayConsume d) 0 0 rfl rfl
      have h2 := hIn (.postMayConsume d) 1 1 rfl rfl
      rw [consumeExhausted_iff] at hex
      refine hold (Or.inl rfl) _ _ _ hwf (by dsimp only; omega) ?_ (by simp [CPc.mid]) hdata
      dsimp only
      exact ⟨by omega, by omega, g4, g5⟩
  | testProduce d =>
    simp only [CFacts] at hpc
    obtain ⟨g1, g2, g3, g4⟩ := hpc
    by_cases hex : bufferProduceIsExhausted C buf = true
    · simp [step, hr, consumerStep, logEv, hex] at hs
      subst hs
      have h1 := hPm (.swap d) 0 0 rfl rfl
      have h2 := hIn (.swap d) 1 1 rfl rfl
      rw [produceExhausted_iff] at hex
      refine hold (Or.inl rfl) _ _ _ hwf (by dsimp only; omega) ?_ (by simp [CPc.mid]) hdata
      dsimp only
      rw [hex, if_neg (Nat.lt_irrefl _)] at g4
      exact ⟨g4, by omega, hex, g2⟩
    · simp [step, hr, consumerStep, logEv, hex] at hs
      subst hs
      have h1 := hPm (.postMutex d) 0 0 rfl rfl
      have h2 := hIn (.postMutex d) 1 1 rfl rfl
      rw [produceExhausted_iff] at hex
      refine hold (Or.inl rfl) _ _ _ hwf (by dsimp only; omega) trivial ?_ hdata
      intro _
      dsimp only
      refine ⟨g4, ?_, g3, by omega, fun hc => hex hc.1⟩
      rw [if_neg (by omega)]
      omega
  | swap d =>
    simp only [CFacts] at hpc
    obtain ⟨g1, g2, g3, g4⟩ := hpc
    simp [step, hr, consumerStep, logEv] at hs
    subst hs
    have h1 := hPm (.postMayConsumeSwap d) 0 0 rfl rfl
    have h2 := hIn (.postMayConsumeSwap d) 1 1 rfl rfl
    obtain ⟨f1, f2, f3, f4⟩ := swap_facts C buf hwf
    refine hold (Or.inl rfl) _ _ _ f1 (by dsimp only; omega) ?_ (by simp [CPc.mid]) ?_
    · dsimp only
      exact ⟨g1, by omega, f2, f3⟩
    · dsimp only
      rw [f4 g3 g4]
      simpa [produced_append, produced, consumed_append, consumed] using hdata
  | postMayConsumeSwap d =>
    simp only [CFacts] at hpc
    obtain ⟨g1, g2, g3, g4⟩ := hpc
    simp [step, hr, consumerStep, logEv, sem_post] at hs
    subst hs
    have h1 := hPm (.postMayProduce d) 0 0 rfl rfl
    have h2 := hIn (.postMayProduce d) 1 1 rfl rfl
    refine hold (Or.inl rfl) _ _ _ hwf (by dsimp only; omega) ?_ (by simp [CPc.mid]) ?_
    · dsimp only
      exact ⟨by omega, by omega, g3, g4⟩
    · simpa [produced_append, produced, consumed_append, consumed] using hdata
  | postMayProduce d =>
    simp only [CFacts] at hpc
    obtain ⟨g1, g2, g3, g4⟩ := hpc
    simp [step, hr, consumerStep, logEv, sem_post] at hs
    subst hs
    have h1 := hPm (.postMutex d) 0 0 rfl rfl
    have h2 := hIn (.postMutex d) 1 1 rfl rfl
    refine hold (Or.inl rfl) _ _ _ hwf (by dsimp only; omega) trivial ?_ ?_
    · intro _
      dsimp only
      rw [g3, g4]
      refine ⟨?_, ?_, by omega, by omega, by omega⟩
      · rw [if_pos hC]
        omega
      · rw [if_pos hC]
        omega
    · simpa [produced_append, produced, consumed_append, consumed] using hdata
  | postMayConsume d =>
    simp only [CFacts] at hpc
    obtain ⟨g1, g2, g3, g4⟩ := hpc
    simp [step, hr, consumerStep, logEv, sem_post] at hs
    subst hs
    have h1 := hPm (.postMutex d) 0 0 rfl rfl
    have h2 := hIn (.postMutex d) 1 1 rfl rfl
    refine hold (Or.inl rfl) _ _ _ hwf (by dsimp only; omega) trivial ?_ ?_
    · intro _
      dsimp only
      refine ⟨g4, ?_, g3, by omega, by omega⟩
      rw [if_pos g2]
      omega
    · simpa [produced_append, produced, consumed_append, consumed] using hdata
  | postMutex d =>
    simp [step, hr, consumerStep, logEv, sem_post] at hs
    subst hs
    have h1 := hPm .idle 0 0 rfl rfl
    have h2 := hIn .idle 1 0 rfl rfl
    have hQ := hquiet rfl (Or.inl rfl)
    refine hold (Or.inl rfl) _ _ _ hwf (by dsimp only; omega) trivial ?_ ?_
    · intro _
      dsimp only
      rw [show mc + List.countP CPc.permit (cs.set t CPc.idle) = mc + List.countP CPc.permit cs by omega]
      exact hQ
    · simpa [produced_append, produced, consumed_append, consumed] using hdata

theorem swap_inv_step (C : Nat) (hC : 0 < C) (s s1 : State) (a : Action) (h : Inv C s)
    (hs : step C s a = some s1) : Inv C s1 := by
  cases a with
  | producer t rand => exact inv_producer C hC s s1 t rand h hs
  | consumer t => exact inv_consumer C hC s s1 t h hs

theorem swap_inv_run (C : Nat) (hC : 0 < C) (sched : List Action) :
    ∀ s s1 : State, Inv C s → run C s sched = some s1 → Inv C s1 := by
  induction sched with
  | nil =>
    intro s s1 h1 hr
    simp [run] at hr
    subst hr
    exact h1
  | cons a as ih =>
    intro s s1 h1 hr
    simp only [run] at hr
    cases hst : step C s a with
    | none => simp [hst] at hr
    | some s2 =>
      simp [hst] at hr
      exact ih s2 s1 (swap_inv_step C hC s s2 a h1 hst) hr

theorem swap_inv_reachable (C np nc : Nat) (hC : 0 < C) (s : State) (h : Reachable C np nc s) :
    Inv C s := by
  obtain ⟨sched, hs⟩ := h
  exact swap_inv_run C hC sched _ s (swap_inv_init C np nc hC) hs

/-- In a reachable state either no thread is in the middle of its critical section and the
quiet relation holds, or the cursors are as the thread in the middle sees them. -/
theorem cursors_le (C : Nat) (s : State) (h : Inv C s) : s.sh.buf.pp ≤ C ∧ s.sh.buf.cp ≤ C := by
  by_cases hp : ∀ p ∈ s.producers, p.mid = false
  · by_cases hc : ∀ c ∈ s.consumers, c.mid = false
    · have := h.quiet hp hc
      exact ⟨this.2.2.1, this.2.2.2.1⟩
    · simp only [not_forall] at hc
      obtain ⟨c, hc1, hc2⟩ := hc
      have := h.cfacts c hc1
      revert this hc2
      cases c <;> simp [CFacts, CPc.mid] <;> omega
  · simp only [not_forall] at hp
    obtain ⟨p, hp1, hp2⟩ := hp
    have := h.pfacts p hp1
    revert this hp2
    cases p <;> simp [PFacts, PPc.mid] <;> omega

theorem quiet_of_holder_P (C : Nat) (s : State) (h : Inv C s) (p : PPc) (hp : p ∈ s.producers)
    (hcs : p.inCS = true) (hmid : p.mid = false) :
    Quiet C (nP s) (nC s) s.sh.buf.pp s.sh.buf.cp := by
  have hM := h.mutex
  have h1 : 1 ≤ List.countP PPc.inCS s.producers := List.countP_pos_iff.mpr ⟨p, hp, hcs⟩
  apply h.quiet
  · intro q hq
    by_contra hc
    simp at hc
    have := unique_of_countP_le_one PPc.inCS s.producers (by omega) p q hp hq hcs (producer_inCS_of_mid q hc)
    rw [this] at hmid
    rw [hmid] at hc
    cases hc
  · intro c hc
    have : List.countP CPc.inCS s.consumers = 0 := by omega
    rw [List.countP_eq_zero] at this
    apply consumer_mid_of_not_inCS
    simpa using this c hc

theorem quiet_of_holder_C (C : Nat) (s : State) (h : Inv C s) (c : CPc) (hc : c ∈ s.consumers)
    (hcs : c.inCS = true) (hmid : c.mid = false) :
    Quiet C (nP s) (nC s) s.sh.buf.pp s.sh.buf.cp := by
  have hM := h.mutex
  have h1 : 1 ≤ List.countP CPc.inCS s.consumers := List.countP_pos_iff.mpr ⟨c, hc, hcs⟩
  apply h.quiet
  · intro p hp
    have : List.countP PPc.inCS s.producers = 0 := by omega
    rw [List.countP_eq_zero] at this
    apply producer_mid_of_not_inCS
    simpa using this p hp
  · intro q hq
    by_contra hc2
    simp at hc2
    have := unique_of_countP_le_one CPc.inCS s.consumers (by omega) c q hc hq hcs (consumer_inCS_of_mid q hc2)
    rw [this] at hmid
    rw [hmid] at hc2
    cases hc2

theorem getElem?_set_self_of_some {α : Type} (l : List α) (t : Nat) (x y : α) (h : l[t]? = some x) :
    (l.set t y)[t]? = some y := by
  rw [List.getElem?_set]
  simp [(List.getElem?_eq_some_iff.mp h).1]

theorem producer_decision (C : Nat) (s : State) (t : Nat)
    (hr : s.producers[t]? = some .testProduce) :
    ∃ s2, run C s [.producer t 0, .producer t 0] = some s2 ∧
      (s2.producers[t]? = some .swap ↔ (s.sh.buf.pp = C ∧ s.sh.buf.cp = C)) := by
  have hlt := (List.getElem?_eq_some_iff.mp hr).1
  by_cases h1 : bufferProduceIsExhausted C s.sh.buf = true
  · by_cases h2 : bufferConsumeIsExhausted C s.sh.buf = true
    · refine ⟨_, by simp [run, step, hr, producerStep, h1, h2, logEv, hlt]; rfl, ?_⟩
      rw [produceExhausted_iff] at h1
      rw [consumeExhausted_iff] at h2
      simp [h1, h2, hlt]
    · refine ⟨_, by simp [run, step, hr, producerStep, h1, h2, logEv, hlt]; rfl, ?_⟩
      rw [produceExhausted_iff] at h1
      rw [consumeExhausted_iff] at h2
      simp [h1, h2, hlt]
  · refine ⟨_, by simp [run, step, hr, producerStep, h1, logEv, hlt]; rfl, ?_⟩
    rw [produceExhausted_iff] at h1
    simp [h1, hlt]

theorem consumer_decision (C : Nat) (s : State) (t : Nat) (d : Int)
    (hr : s.consumers[t]? = some (.testConsume d)) :
    ∃ s2, run C s [.consumer t, .consumer t] = some s2 ∧
      (s2.consumers[t]? = some (.swap d) ↔ (s.sh.buf.pp = C ∧ s.sh.buf.cp = C)) := by
  have hlt := (List.getElem?_eq_some_iff.mp hr).1
  by_cases h1 : bufferConsumeIsExhausted C s.sh.buf = true
  · by_cases h2 : bufferProduceIsExhausted C s.sh.buf = true
    · refine ⟨_, by simp [run, step, hr, consumerStep, h1, h2, logEv, hlt]; rfl, ?_⟩
      rw [produceExhausted_iff] at h2
      rw [consumeExhausted_iff] at h1
      simp [h1, h2, hlt]
    · refine ⟨_, by simp [run, step, hr, consumerStep, h1, h2, logEv, hlt]; rfl, ?_⟩
      rw [produceExhausted_iff] at h2
      rw [consumeExhausted_iff] at h1
      simp [h1, h2, hlt]
  · refine ⟨_, by simp [run, step, hr, consumerStep, h1, logEv, hlt]; rfl, ?_⟩
    rw [consumeExhausted_iff] at h1
    simp [h1, hlt]

theorem demo_reachable_produce : Reachable 2 1 1 demoStateProduce :=
  ⟨demoSchedule.take 10, by decide⟩

theorem demo_reachable_test : Reachable 2 1 1 demoStateTest :=
  ⟨demoSchedule.take 11, by decide⟩

theorem demo_reachable_end : Reachable 2 1 1 demoStateEnd :=
  ⟨demoSchedule, by decide⟩

/-- C3: a swap occurs exactly when both cursors equal `BUFFER_SIZE`.  In every reachable
state, a producer that has just appended (program point `testProduce`) reaches the call of
`bufferSwap` with its next two statements if and only if both cursors equal `BUFFER_SIZE`
now, and likewise a consumer that has just read; a thread at the call of `bufferSwap` sees
both cursors at `BUFFER_SIZE` and its step applies `bufferSwap`; and whenever no thread is
between its buffer access and its last permit post, the cursors are not both `BUFFER_SIZE`. -/
theorem swap_iff_both_exhausted (C np nc : Nat) (hC : 0 < C) (s : State)
    (h : Reachable C np nc s) :
    (∀ t, s.producers[t]? = some .testProduce →
      ∃ s2, run C s [.producer t 0, .producer t 0] = some s2 ∧
        (s2.producers[t]? = some .swap ↔ (s.sh.buf.pp = C ∧ s.sh.buf.cp = C))) ∧
    (∀ t d, s.consumers[t]? = some (.testConsume d) →
      ∃ s2, run C s [.consumer t, .consumer t] = some s2 ∧
        (s2.consumers[t]? = some (.swap d) ↔ (s.sh.buf.pp = C ∧ s.sh.buf.cp = C))) ∧
    (∀ t, s.producers[t]? = some .swap →
      s.sh.buf.pp = C ∧ s.sh.buf.cp = C ∧
      ∃ s1, step C s (.producer t 0) = some s1 ∧ s1.sh.buf = bufferSwap s.sh.buf) ∧
    (∀ t d, s.consumers[t]? = some (.swap d) →
      s.sh.buf.pp = C ∧ s.sh.buf.cp = C ∧
      ∃ s1, step C s (.consumer t) = some s1 ∧ s1.sh.buf = bufferSwap s.sh.buf) ∧
    ((∀ p ∈ s.producers, p.mid = false) → (∀ c ∈ s.consumers, c.mid = false) →
      ¬ (s.sh.buf.pp = C ∧ s.sh.buf.cp = C)) := by
  have hinv := swap_inv_reachable C np nc hC s h
  refine ⟨fun t hr => producer_decision C s t hr, fun t d hr => consumer_decision C s t d hr,
    ?_, ?_, ?_⟩
  · intro t hr
    have := hinv.pfacts _ (List.getElem?_mem hr)
    simp only [PFacts] at this
    exact ⟨this.2.2.1, this.2.2.2, _, by simp [step, hr, producerStep]; rfl, rfl⟩
  · intro t d hr
    have := hinv.cfacts _ (List.getElem?_mem hr)
    simp only [CFacts] at this
    exact ⟨this.2.2.1, this.2.2.2, _, by simp [step, hr, consumerStep]; rfl, rfl⟩
  · intro hp hc
    exact (hinv.quiet hp hc).2.2.2.2

theorem swap_iff_both_exhausted_witness :
    0 < 2 ∧ Reachable 2 1 1 demoStateTest ∧
    ∃ s2, run 2 demoStateTest [.producer 0 0, .producer 0 0] = some s2 ∧
      (s2.producers[0]? = some .swap ↔
        (demoStateTest.sh.buf.pp = 2 ∧ demoStateTest.sh.buf.cp = 2)) :=
  ⟨by decide, demo_reachable_test,
    (swap_iff_both_exhausted 2 1 1 (by decide) demoStateTest demo_reachable_test).1 0 rfl⟩

/-- C4: in every reachable state both cursors are at most `BUFFER_SIZE`, the arrays have
`BUFFER_SIZE` cells, and whenever a thread is about to execute `bufferProduceData` or
`bufferConsumeData` the cursor used as index is strictly below `BUFFER_SIZE`. -/
theorem cursors_in_bounds (C np nc : Nat) (hC : 0 < C) (s : State) (h : Reachable C np nc s) :
    s.sh.buf.sharedBufferPos.getD s.sh.buf.sharedProduceBufferId 0 ≤ C ∧
    s.sh.buf.sharedBufferPos.getD s.sh.buf.sharedConsumeBufferId 0 ≤ C ∧
    (∀ row ∈ s.sh.buf.sharedBuffers, row.length = C) ∧
    (∀ p ∈ s.producers, ∀ d, p = .produce d →
      s.sh.buf.sharedBufferPos.getD s.sh.buf.sharedProduceBufferId 0 < C) ∧
    (∀ c ∈ s.consumers, c = .consume →
      s.sh.buf.sharedBufferPos.getD s.sh.buf.sharedConsumeBufferId 0 < C) := by
  have hinv := swap_inv_reachable C np nc hC s h
  have hle := cursors_le C s hinv
  refine ⟨hle.1, hle.2, hinv.wf.2.2.1, ?_, ?_⟩
  · intro p hp d hpd
    subst hpd
    obtain ⟨q1, _⟩ := quiet_of_holder_P C s hinv _ hp rfl rfl
    have : 1 ≤ List.countP PPc.permit s.producers := List.countP_pos_iff.mpr ⟨_, hp, rfl⟩
    by_contra hc
    have hc2 : ¬ s.sh.buf.pp < C := hc
    rw [if_neg hc2] at q1
    simp only [nP] at q1
    omega
  · intro c hc hcd
    subst hcd
    obtain ⟨_, q2, _⟩ := quiet_of_holder_C C s hinv _ hc rfl rfl
    have : 1 ≤ List.countP CPc.permit s.consumers := List.countP_pos_iff.mpr ⟨_, hc, rfl⟩
    by_contra hc1
    have hc2 : ¬ s.sh.buf.cp < C := hc1
    rw [if_neg hc2] at q2
    simp only [nC] at q2
    omega

theorem cursors_in_bounds_witness :
    0 < 2 ∧ Reachable 2 1 1 demoStateProduce ∧
    demoStateProduce.sh.buf.sharedBufferPos.getD demoStateProduce.sh.buf.sharedProduceBufferId 0 < 2 :=
  ⟨by decide, demo_reachable_produce,
    (cursors_in_bounds 2 1 1 (by decide) demoStateProduce demo_reachable_produce).2.2.2.1
      (.produce 3) (by decide) 3 rfl⟩

/-- C5: in every reachable state the values returned by `bufferConsumeData`, in the order of
the critical sections, are an initial segment of the values passed to `bufferProduceData`
in the order of the critical sections: the `k`-th consume delivers the `k`-th produced
value, and what is produced and not yet consumed is exactly what the arrays hold.  The
value passed to `bufferProduceData` is the argument of the `protocolProduceData` call, and
the value `bufferConsumeData` returned stays in the local `data` until
`protocolConsumeData` returns it. -/
theorem consumed_follow_produced (C np nc : Nat) (hC : 0 < C) (s : State)
    (h : Reachable C np nc s) :
    produced s.trace = consumed s.trace ++ s.sh.buf.pending ∧
    (consumed s.trace).length ≤ (produced s.trace).length ∧
    (∀ (k : Nat) (d : Int), (consumed s.trace)[k]? = some d → (produced s.trace)[k]? = some d) ∧
    (∀ sh rand pc sh1 pc1 e d, producerStep C sh rand pc = some (sh1, pc1, e) → pc.data = some d →
      pc1.data = some d ∨ (pc = .produce d ∧ e = some (.produce d))) ∧
    (∀ sh pc sh1 pc1 e, consumerStep C sh pc = some (sh1, pc1, e) → pc = .consume →
      ∃ d, pc1 = .testConsume d ∧ e = some (.consume d)) ∧
    (∀ sh pc sh1 pc1 e d, consumerStep C sh pc = some (sh1, pc1, e) → pc.data = some d →
      pc1.data = some d ∨ (pc = .postMutex d ∧ pc1 = .idle)) := by
  have hinv := swap_inv_reachable C np nc hC s h
  refine ⟨hinv.data, ?_, ?_, ?_, ?_, ?_⟩
  · rw [hinv.data]
    simp
  · intro k d hk
    rw [hinv.data]
    have hlt := (List.getElem?_eq_some_iff.mp hk).1
    rw [List.getElem?_append_left hlt]
    exact hk
  · intro sh rand pc sh1 pc1 e d hstep hd
    cases pc <;> simp [PPc.data] at hd <;> subst hd
    · simp only [producerStep] at hstep
      cases hw : sem_wait sh.sharedSemMayProduce with
      | none => simp [hw] at hstep
      | some c =>
        simp [hw] at hstep
        left
        rw [← hstep.2.1]
        rfl
    · simp only [producerStep] at hstep
      cases hw : sem_wait sh.sharedSemMutex with
      | none => simp [hw] at hstep
      | some c =>
        simp [hw] at hstep
        left
        rw [← hstep.2.1]
        rfl
    · simp [producerStep] at hstep
      right
      exact ⟨rfl, hstep.2.2.symm⟩
  · intro sh pc sh1 pc1 e hstep hpc
    subst hpc
    simp [consumerStep] at hstep
    exact ⟨_, hstep.2.1.symm, hstep.2.2.symm⟩
  · intro sh pc sh1 pc1 e d hstep hd
    cases pc <;> simp [CPc.data] at hd <;> subst hd
    · simp only [consumerStep] at hstep
      split at hstep <;> simp at hstep <;> left <;> rw [← hstep.2.1] <;> rfl
    · simp only [consumerStep] at hstep
      split at hstep <;> simp at hstep <;> left <;> rw [← hstep.2.1] <;> rfl
    · simp [consumerStep] at hstep
      left
      rw [← hstep.2.1]
      rfl
    · simp [consumerStep] at hstep
      left
      rw [← hstep.2.1]
      rfl
    · simp [consumerStep] at hstep
      left
      rw [← hstep.2.1]
      rfl
    · simp [consumerStep] at hstep
      left
      rw [← hstep.2.1]
      rfl
    · simp [consumerStep] at hstep
      right
      exact ⟨rfl, hstep.2.1.symm⟩

theorem consumed_follow_produced_witness :
    0 < 2 ∧ Reachable 2 1 1 demoStateEnd ∧
    produced demoStateEnd.trace = [7, 3] ∧ consumed demoStateEnd.trace = [7] ∧
    produced demoStateEnd.trace = consumed demoStateEnd.trace ++ demoStateEnd.sh.buf.pending :=
  ⟨by decide, demo_reachable_end, by decide, by decide,
    (consumed_follow_produced 2 1 1 (by decide) demoStateEnd demo_reachable_end).1⟩

/-- C9: `bufferSwap` exchanges the two role ids, leaves the cursor of the new produce array
and of the new consume array at 0, keeps the ids different and leaves both arrays as they
were; `safeSwapBuffers` of `swap_conprod.c` does the same on its two cursor variables. -/
theorem bufferSwap_postcondition (b : Buffer) (hlen : b.sharedBufferPos.length = 2)
    (hid : (b.sharedProduceBufferId = 0 ∧ b.sharedConsumeBufferId = 1) ∨
           (b.sharedProduceBufferId = 1 ∧ b.sharedConsumeBufferId = 0)) :
    ((bufferSwap b).sharedProduceBufferId = b.sharedConsumeBufferId ∧
     (bufferSwap b).sharedConsumeBufferId = b.sharedProduceBufferId ∧
     (bufferSwap b).sharedBufferPos.getD (bufferSwap b).sharedProduceBufferId 0 = 0 ∧
     (bufferSwap b).sharedBufferPos.getD (bufferSwap b).sharedConsumeBufferId 0 = 0 ∧
     (bufferSwap b).sharedProduceBufferId ≠ (bufferSwap b).sharedConsumeBufferId ∧
     (bufferSwap b).sharedBuffers = b.sharedBuffers) ∧
    (∀ s : Direct.State, s.sharedProduceBufferId ≠ s.sharedConsumeBufferId →
     (Direct.safeSwapBuffers s).sharedProduceBufferId = s.sharedConsumeBufferId ∧
     (Direct.safeSwapBuffers s).sharedConsumeBufferId = s.sharedProduceBufferId ∧
     (Direct.safeSwapBuffers s).sharedProducePos = 0 ∧
     (Direct.safeSwapBuffers s).sharedConsumePos = 0 ∧
     (Direct.safeSwapBuffers s).sharedProduceBufferId ≠ (Direct.safeSwapBuffers s).sharedConsumeBufferId ∧
     (Direct.safeSwapBuffers s).sharedBuffers = s.sharedBuffers) := by
  constructor
  · obtain ⟨cid, pid, pos, bufs⟩ := b
    simp only at hlen hid
    match pos, hlen with
    | [a, c], _ =>
      rcases hid with ⟨e1, e2⟩ | ⟨e1, e2⟩ <;> subst e1 e2 <;> simp [bufferSwap]
  · intro s hne
    refine ⟨rfl, rfl, rfl, rfl, ?_, rfl⟩
    exact fun e => hne e.symm

theorem bufferSwap_postcondition_witness :
    (bufferInit 2).sharedBufferPos.length = 2 ∧
    (bufferSwap (bufferInit 2)).sharedProduceBufferId = 0 ∧
    (bufferSwap (bufferInit 2)).sharedConsumeBufferId = 1 ∧
    (bufferSwap (bufferInit 2)).sharedBufferPos = [0, 0] ∧
    (bufferSwap (bufferInit 2)).sharedBufferPos.getD (bufferSwap (bufferInit 2)).sharedProduceBufferId 0 = 0 :=
  ⟨by decide, by decide, by decide, by decide,
    (bufferSwap_postcondition (bufferInit 2) (by decide) (by decide)).1.2.2.1⟩

/-- C10: permit accounting of `protocolProduceData`, run alone from a state where a
`sharedSemMayProduce` permit and the mutex are available.  It returns in all three cases,
having taken one `sharedSemMayProduce` permit and the mutex and appended the value:
(a) room remains: it posts `sharedSemMayProduce` once and the mutex once, nothing else;
(b) produce and consume array both exhausted: it swaps, then posts `sharedSemMayConsume`,
`sharedSemMayProduce` and the mutex once each;
(c) produce array exhausted, consume array not: it posts the mutex only.
Function `safeProduce` of `swap_conprod.c` leaves the same semaphore counts. -/
theorem protocolProduceData_permit_accounting (C : Nat) (sh : Shared) (d : Int) (fuel : Nat)
    (hf : 9 ≤ fuel) (hp : 0 < sh.sharedSemMayProduce) (hm : 0 < sh.sharedSemMutex) :
    (bufferProduceIsExhausted C (bufferProduceData sh.buf d) = false →
      runProducer C fuel sh (.waitMayProduce d) [] =
        some ({ buf := bufferProduceData sh.buf d, sharedSemMutex := sh.sharedSemMutex,
                sharedSemMayProduce := sh.sharedSemMayProduce,
                sharedSemMayConsume := sh.sharedSemMayConsume },
              [.semWait .mayProduce, .semWait .mutex, .produce d, .semPost .mayProduce,
               .semPost .mutex])) ∧
    (bufferProduceIsExhausted C (bufferProduceData sh.buf d) = true →
      bufferConsumeIsExhausted C (bufferProduceData sh.buf d) = true →
      runProducer C fuel sh (.waitMayProduce d) [] =
        some ({ buf := bufferSwap (bufferProduceData sh.buf d), sharedSemMutex := sh.sharedSemMutex,
                sharedSemMayProduce := sh.sharedSemMayProduce,
                sharedSemMayConsume := sh.sharedSemMayConsume + 1 },
              [.semWait .mayProduce, .semWait .mutex, .produce d, .swap, .semPost .mayConsume,
               .semPost .mayProduce, .semPost .mutex])) ∧
    (bufferProduceIsExhausted C (bufferProduceData sh.buf d) = true →
      bufferConsumeIsExhausted C (bufferProduceData sh.buf d) = false →
      runProducer C fuel sh (.waitMayProduce d) [] =
        some ({ buf := bufferProduceData sh.buf d, sharedSemMutex := sh.sharedSemMutex,
                sharedSemMayProduce := sh.sharedSemMayProduce - 1,
                sharedSemMayConsume := sh.sharedSemMayConsume },
              [.semWait .mayProduce, .semWait .mutex, .produce d, .semPost .mutex])) ∧
    (∀ s : Direct.State, 0 < s.sharedSemMayProduce → 0 < s.sharedSemMutex →
      ∃ s1, Direct.safeProduce C s d = some s1 ∧ s1.sharedSemMutex = s.sharedSemMutex ∧
        (s.sharedProducePos + 1 ≠ C →
          s1.sharedSemMayProduce = s.sharedSemMayProduce ∧
          s1.sharedSemMayConsume = s.sharedSemMayConsume) ∧
        (s.sharedProducePos + 1 = C → s.sharedConsumePos = C →
          s1.sharedSemMayProduce = s.sharedSemMayProduce ∧
          s1.sharedSemMayConsume = s.sharedSemMayConsume + 1) ∧
        (s.sharedProducePos + 1 = C → s.sharedConsumePos ≠ C →
          s1.sharedSemMayProduce = s.sharedSemMayProduce - 1 ∧
          s1.sharedSemMayConsume = s.sharedSemMayConsume)) := by
  obtain ⟨n, rfl⟩ : ∃ n, fuel = n + 9 := ⟨fuel - 9, by omega⟩
  obtain ⟨buf, mx, mp, mc⟩ := sh
  simp only at hp hm
  obtain ⟨mp, rfl⟩ : ∃ k, mp = k + 1 := ⟨mp - 1, by omega⟩
  obtain ⟨mx, rfl⟩ : ∃ k, mx = k + 1 := ⟨mx - 1, by omega⟩
  refine ⟨?_, ?_, ?_, ?_⟩
  · intro h1
    simp [runProducer, producerStep, sem_wait, sem_post, h1]
  · intro h1 h2
    simp [runProducer, producerStep, sem_wait, sem_post, h1, h2]
  · intro h1 h2
    simp [runProducer, producerStep, sem_wait, sem_post, h1, h2]
  · intro s hp2 hm2
    obtain ⟨cid, pid, cpos, ppos, bufs, smx, smp, smc⟩ := s
    simp only at hp2 hm2
    obtain ⟨smp, rfl⟩ : ∃ k, smp = k + 1 := ⟨smp - 1, by omega⟩
    obtain ⟨smx, rfl⟩ : ∃ k, smx = k + 1 := ⟨smx - 1, by omega⟩
    by_cases h1 : ppos + 1 = C
    · by_cases h2 : cpos = C
      · refine ⟨_, by simp [Direct.safeProduce, sem_wait, h1, h2]; rfl, ?_⟩
        simp [Direct.safeSwapBuffers, sem_post, h1, h2]
      · refine ⟨_, by simp [Direct.safeProduce, sem_wait, h1, h2]; rfl, ?_⟩
        simp [sem_post, h1, h2]
    · refine ⟨_, by simp [Direct.safeProduce, sem_wait, h1]; rfl, ?_⟩
      simp [sem_post, h1]

theorem protocolProduceData_permit_accounting_witness :
    9 ≤ 9 ∧ 0 < (protocolInit 2).sharedSemMayProduce ∧ 0 < (protocolInit 2).sharedSemMutex ∧
    runProducer 2 9 (protocolInit 2) (.waitMayProduce 7) [] =
      some ({ buf := bufferProduceData (protocolInit 2).buf 7, sharedSemMutex := 1,
              sharedSemMayProduce := 1, sharedSemMayConsume := 0 },
            [.semWait .mayProduce, .semWait .mutex, .produce 7, .semPost .mayProduce,
             .semPost .mutex]) :=
  ⟨by decide, by decide, by decide,
    (protocolProduceData_permit_accounting 2 (protocolInit 2) 7 9 (by decide) (by decide)
      (by decide)).1 (by decide)⟩

/-- What one call of `bufferProduceData` changes: the cell at the produce cursor. -/
theorem produce_shape (C : Nat) (b : Buffer) (d : Int) (h : b.WF C) :
    (bufferProduceData b d).sharedBuffers.getD b.sharedProduceBufferId [] =
      (b.sharedBuffers.getD b.sharedProduceBufferId []).set b.pp d ∧
    (bufferProduceData b d).sharedBuffers.getD b.sharedConsumeBufferId [] =
      b.sharedBuffers.getD b.sharedConsumeBufferId [] ∧
    (∀ i j, ¬ (i = b.sharedProduceBufferId ∧ j = b.pp) →
      (bufferProduceData b d).cell i j = b.cell i j) ∧
    (b.pp < C → (bufferProduceData b d).cell b.sharedProduceBufferId b.pp = d) := by
  obtain ⟨a, c, r0, r1, hp, hb, hr0, hr1⟩ := wf_shape C b h
  obtain ⟨cid, pid, pos, bufs⟩ := b
  simp only at hp hb
  subst hp hb
  rcases h.2.2.2 with ⟨e1, e2⟩ | ⟨e1, e2⟩ <;> simp only at e1 e2 <;> subst e1 e2
  · refine ⟨by simp [bufferProduceData, Buffer.pp], by simp [bufferProduceData], ?_, ?_⟩
    · intro i j hij
      simp only [Buffer.pp, List.getD_cons_zero] at hij
      rcases i with _ | _ | i
      · by_cases hj : a = j
        · exact absurd ⟨rfl, hj.symm⟩ hij
        · simp [Buffer.cell, bufferProduceData, List.getD_eq_getElem?_getD, List.getElem?_set_ne hj]
      · simp [Buffer.cell, bufferProduceData]
      · simp [Buffer.cell, bufferProduceData]
    · intro hlt
      simp only [Buffer.pp, List.getD_cons_zero] at hlt
      simp [Buffer.cell, bufferProduceData, Buffer.pp, List.getD_eq_getElem?_getD,
        List.getElem?_set_self (hr0 ▸ hlt)]
  · refine ⟨by simp [bufferProduceData, Buffer.pp], by simp [bufferProduceData], ?_, ?_⟩
    · intro i j hij
      simp only [Buffer.pp, List.getD_cons_succ, List.getD_cons_zero] at hij
      rcases i with _ | _ | i
      · simp [Buffer.cell, bufferProduceData]
      · by_cases hj : c = j
        · exact absurd ⟨rfl, hj.symm⟩ hij
        · simp [Buffer.cell, bufferProduceData, List.getD_eq_getElem?_getD, List.getElem?_set_ne hj]
      · simp [Buffer.cell, bufferProduceData]
    · intro hlt
      simp only [Buffer.pp, List.getD_cons_succ, List.getD_cons_zero] at hlt
      simp [Buffer.cell, bufferProduceData, Buffer.pp, List.getD_eq_getElem?_getD,
        List.getElem?_set_self (hr1 ▸ hlt)]

theorem produce_row_length (C : Nat) (b : Buffer) (h : b.WF C) :
    (b.sharedBuffers.getD b.sharedProduceBufferId []).length = C ∧
    (b.sharedBuffers.getD b.sharedConsumeBufferId []).length = C := by
  obtain ⟨a, c, r0, r1, hp, hb, hr0, hr1⟩ := wf_shape C b h
  rcases h.2.2.2 with ⟨e1, e2⟩ | ⟨e1, e2⟩ <;> simp [e1, e2, hb, hr0, hr1]

/-- Successive calls of `bufferProduceData` fill the produce array from the cursor on. -/
theorem produceAll_facts (C : Nat) (vals : List Int) :
    ∀ b : Buffer, b.WF C → b.pp + vals.length ≤ C →
      (produceAll b vals).WF C ∧
      (produceAll b vals).sharedConsumeBufferId = b.sharedConsumeBufferId ∧
      (produceAll b vals).sharedProduceBufferId = b.sharedProduceBufferId ∧
      (produceAll b vals).pp = b.pp + vals.length ∧
      (produceAll b vals).cp = b.cp ∧
      (produceAll b vals).sharedBuffers.getD b.sharedConsumeBufferId [] =
        b.sharedBuffers.getD b.sharedConsumeBufferId [] ∧
      ∀ j : Nat, ((produceAll b vals).sharedBuffers.getD b.sharedProduceBufferId [])[j]? =
        if b.pp ≤ j ∧ j < b.pp + vals.length then vals[j - b.pp]?
        else (b.sharedBuffers.getD b.sharedProduceBufferId [])[j]? := by
  induction vals with
  | nil =>
    intro b h _
    refine ⟨h, rfl, rfl, rfl, rfl, rfl, ?_⟩
    intro j
    have : ¬ (b.pp ≤ j ∧ j < b.pp + 0) := by omega
    simp only [produceAll, List.length_nil]
    rw [if_neg this]
  | cons d ds ih =>
    intro b h hle
    simp only [List.length_cons] at hle
    obtain ⟨f1, f2, f3, _⟩ := produce_facts C b d h
    obtain ⟨g1, g2, _, _⟩ := produce_shape C b d h
    have hlen := (produce_row_length C b h).1
    have hpid : (bufferProduceData b d).sharedProduceBufferId = b.sharedProduceBufferId := rfl
    have hcid : (bufferProduceData b d).sharedConsumeBufferId = b.sharedConsumeBufferId := rfl
    obtain ⟨i1, i2, i3, i4, i5, i6, i7⟩ := ih (bufferProduceData b d) f1 (by rw [f2]; omega)
    rw [hpid] at i3 i7
    rw [hcid] at i2 i6
    simp only [produceAll, List.length_cons]
    refine ⟨i1, i2, i3, by rw [i4, f2]; omega, by rw [i5, f3], by rw [i6, g2], ?_⟩
    intro j
    rw [i7 j, f2, g1]
    by_cases hj : j = b.pp
    · subst hj
      have h1 : ¬ (b.pp + 1 ≤ b.pp ∧ b.pp < b.pp + 1 + ds.length) := by omega
      have h2 : b.pp ≤ b.pp ∧ b.pp < b.pp + (ds.length + 1) := by omega
      rw [if_neg h1, if_pos h2, List.getElem?_set_self (by omega)]
      simp
    · by_cases hin : b.pp + 1 ≤ j ∧ j < b.pp + 1 + ds.length
      · have h2 : b.pp ≤ j ∧ j < b.pp + (ds.length + 1) := by omega
        rw [if_pos hin, if_pos h2]
        obtain ⟨k, hk⟩ : ∃ k, j - b.pp = k + 1 := ⟨j - b.pp - 1, by omega⟩
        rw [hk, List.getElem?_cons_succ]
        congr 1
        omega
      · have h2 : ¬ (b.pp ≤ j ∧ j < b.pp + (ds.length + 1)) := by omega
        rw [if_neg hin, if_neg h2, List.getElem?_set_ne (fun e => hj e.symm)]

/-- Successive calls of `bufferConsumeData` return the consume array from the cursor on and
change no cell. -/
theorem consumeAll_facts (C : Nat) (n : Nat) :
    ∀ b : Buffer, b.WF C → b.cp + n ≤ C →
      (consumeAll n b).2.WF C ∧
      (consumeAll n b).2.sharedConsumeBufferId = b.sharedConsumeBufferId ∧
      (consumeAll n b).2.sharedProduceBufferId = b.sharedProduceBufferId ∧
      (consumeAll n b).2.sharedBuffers = b.sharedBuffers ∧
      (consumeAll n b).2.cp = b.cp + n ∧
      (consumeAll n b).2.pp = b.pp ∧
      (consumeAll n b).1 = ((b.sharedBuffers.getD b.sharedConsumeBufferId []).drop b.cp).take n := by
  induction n with
  | zero =>
    intro b h _
    exact ⟨h, rfl, rfl, rfl, rfl, rfl, by simp [consumeAll]⟩
  | succ n ih =>
    intro b h hle
    obtain ⟨f1, f2, f3, _⟩ := consume_facts C b h
    have hlen := (produce_row_length C b h).2
    obtain ⟨i1, i2, i3, i4, i5, i6, i7⟩ := ih (bufferConsumeData b).2 f1 (by rw [f3]; omega)
    have hcid : (bufferConsumeData b).2.sharedConsumeBufferId = b.sharedConsumeBufferId := rfl
    have hpid : (bufferConsumeData b).2.sharedProduceBufferId = b.sharedProduceBufferId := rfl
    have hbufs : (bufferConsumeData b).2.sharedBuffers = b.sharedBuffers := rfl
    have hval : (bufferConsumeData b).1 =
        (b.sharedBuffers.getD b.sharedConsumeBufferId []).getD b.cp 0 := rfl
    simp only [consumeAll]
    refine ⟨i1, by rw [i2, hcid], by rw [i3, hpid], by rw [i4, hbufs], by rw [i5, f3]; omega,
      by rw [i6, f2], ?_⟩
    rw [i7, hcid, hbufs, f3, hval]
    have hlt : b.cp < (b.sharedBuffers.getD b.sharedConsumeBufferId []).length := by omega
    rw [List.drop_eq_getElem_cons hlt, List.take_succ_cons, List.getD_eq_getElem _ _ hlt]

/-- C18: data movement through the two arrays.  Each call of `bufferProduceData` writes
only the cell at the produce cursor and advances only that cursor, by one.  From a buffer
state whose produce cursor is 0, `BUFFER_SIZE` calls with the values of a list store the
list at positions 0 to `BUFFER_SIZE - 1` of the produce array, leave the other array as it
was and make `bufferProduceIsExhausted` true (it is false after fewer calls).  After
`bufferSwap`, `BUFFER_SIZE` calls of `bufferConsumeData` return exactly those values in the
same order, change no cell, and make `bufferConsumeIsExhausted` true (false after fewer
calls). -/
theorem buffer_round_trip (C : Nat) (b : Buffer) (vals : List Int) (h : b.WF C)
    (hp : b.pp = 0) (hl : vals.length = C) :
    (∀ (b0 : Buffer) (d : Int), b0.WF C →
      (∀ i j, ¬ (i = b0.sharedProduceBufferId ∧ j = b0.pp) →
        (bufferProduceData b0 d).cell i j = b0.cell i j) ∧
      (b0.pp < C → (bufferProduceData b0 d).cell b0.sharedProduceBufferId b0.pp = d) ∧
      (bufferProduceData b0 d).pp = b0.pp + 1 ∧ (bufferProduceData b0 d).cp = b0.cp) ∧
    (produceAll b vals).sharedBuffers.getD b.sharedProduceBufferId [] = vals ∧
    (∀ j, j < C → (produceAll b vals).cell b.sharedProduceBufferId j = vals.getD j 0) ∧
    (produceAll b vals).sharedBuffers.getD b.sharedConsumeBufferId [] =
      b.sharedBuffers.getD b.sharedConsumeBufferId [] ∧
    (produceAll b vals).cp = b.cp ∧
    bufferProduceIsExhausted C (produceAll b vals) = true ∧
    (∀ k, k < C → bufferProduceIsExhausted C (produceAll b (vals.take k)) = false) ∧
    (consumeAll C (bufferSwap (produceAll b vals))).1 = vals ∧
    (consumeAll C (bufferSwap (produceAll b vals))).2.sharedBuffers =
      (produceAll b vals).sharedBuffers ∧
    bufferConsumeIsExhausted C (consumeAll C (bufferSwap (produceAll b vals))).2 = true ∧
    (∀ k, k < C →
      bufferConsumeIsExhausted C (consumeAll k (bufferSwap (produceAll b vals))).2 = false) := by
  obtain ⟨p1, p2, p3, p4, p5, p6, p7⟩ := produceAll_facts C vals b h (by omega)
  have hrow : (produceAll b vals).sharedBuffers.getD b.sharedProduceBufferId [] = vals := by
    apply List.ext_getElem?
    intro j
    rw [p7 j]
    by_cases hj : j < C
    · rw [if_pos (by omega), hp]
      rfl
    · rw [if_neg (by omega), List.getElem?_eq_none (by rw [(produce_row_length C b h).1]; omega),
        List.getElem?_eq_none (by omega)]
  obtain ⟨s1, s2, s3, _⟩ := swap_facts C (produceAll b vals) p1
  have hsc : (bufferSwap (produceAll b vals)).sharedConsumeBufferId = b.sharedProduceBufferId := p3
  have hsb : (bufferSwap (produceAll b vals)).sharedBuffers = (produceAll b vals).sharedBuffers := rfl
  refine ⟨?_, hrow, ?_, p6, p5, ?_, ?_, ?_, ?_, ?_, ?_⟩
  · intro b0 d h0
    obtain ⟨_, _, g3, g4⟩ := produce_shape C b0 d h0
    obtain ⟨_, f2, f3, _⟩ := produce_facts C b0 d h0
    exact ⟨g3, g4, f2, f3⟩
  · intro j _
    simp only [Buffer.cell]
    rw [hrow]
  · rw [produceExhausted_iff, p4]
    omega
  · intro k hk
    obtain ⟨_, _, _, q4, _⟩ := produceAll_facts C (vals.take k) b h
      (by rw [List.length_take]; omega)
    have hne : ¬ (produceAll b (vals.take k)).pp = C := by
      rw [q4, List.length_take]
      omega
    rw [← produceExhausted_iff] at hne
    simpa using hne
  · obtain ⟨_, _, _, _, _, _, c7⟩ := consumeAll_facts C C (bufferSwap (produceAll b vals)) s1
      (by omega)
    rw [c7, hsc, hsb, hrow, s3]
    simp [← hl]
  · obtain ⟨_, _, _, c4, _⟩ := consumeAll_facts C C (bufferSwap (produceAll b vals)) s1
      (by omega)
    rw [c4, hsb]
  · obtain ⟨_, _, _, _, c5, _⟩ := consumeAll_facts C C (bufferSwap (produceAll b vals)) s1
      (by omega)
    rw [consumeExhausted_iff, c5]
    omega
  · intro k hk
    obtain ⟨_, _, _, _, c5, _⟩ := consumeAll_facts C k (bufferSwap (produceAll b vals)) s1
      (by omega)
    have hne : ¬ (consumeAll k (bufferSwap (produceAll b vals))).2.cp = C := by
      rw [c5]
      omega
    rw [← consumeExhausted_iff] at hne
    simpa using hne

theorem buffer_round_trip_witness :
    (bufferInit 2).WF 2 ∧ (bufferInit 2).pp = 0 ∧ [7, 3].length = 2 ∧
    (produceAll (bufferInit 2) [7, 3]).sharedBuffers.getD (bufferInit 2).sharedProduceBufferId [] =
      [7, 3] ∧
    (consumeAll 2 (bufferSwap (produceAll (bufferInit 2) [7, 3]))).1 = [7, 3] :=
  ⟨init_wf 2, by decide, by decide,
    (buffer_round_trip 2 (bufferInit 2) [7, 3] (init_wf 2) (by decide) (by decide)).2.1,
    (buffer_round_trip 2 (bufferInit 2) [7, 3] (init_wf 2) (by decide) (by decide)).2.2.2.2.2.2.2.1⟩

theorem swaps_append (a b : List (Tid × Ev)) : swaps (a ++ b) = swaps a + swaps b := by
  simp [swaps, List.countP_append]

theorem swaps_single (x : Tid × Ev) : swaps [x] = if isSwap x then 1 else 0 := by
  simp [swaps, List.countP_cons]

theorem completedProduces_append (a b : List (Tid × Ev)) :
    completedProduces (a ++ b) = completedProduces a + completedProduces b := by
  simp [completedProduces, List.countP_append]

theorem completedProduces_single (x : Tid × Ev) :
    completedProduces [x] = if isProduceDone x then 1 else 0 := by
  simp [completedProduces, List.countP_cons]

theorem completedConsumes_append (a b : List (Tid × Ev)) :
    completedConsumes (a ++ b) = completedConsumes a + completedConsumes b := by
  simp [completedConsumes, List.countP_append]

theorem completedConsumes_single (x : Tid × Ev) :
    completedConsumes [x] = if isConsumeDone x then 1 else 0 := by
  simp [completedConsumes, List.countP_cons]

theorem counts_init (C np nc : Nat) : Counts C (init C np nc) := by
  refine ⟨?_, ?_, ?_, ?_, ?_, ?_⟩ <;>
    simp [init, protocolInit, bufferInit, produced, consumed, swaps, completedProduces,
      completedConsumes, Buffer.pp, Buffer.cp, List.countP_replicate, PPc.stored, CPc.loaded]

set_option maxHeartbeats 1600000 in
theorem counts_producer (C : Nat) (s s1 : State) (t : Nat) (rand : Int) (h : Inv C s)
    (hc : Counts C s) (hs : step C s (.producer t rand) = some s1) : Counts C s1 := by
  obtain ⟨⟨buf, mx, mp, mc⟩, ps, cs, tr⟩ := s
  obtain ⟨c1, c2, c3, c4, c5, c6⟩ := hc
  simp only at c1 c2 c3 c4 c5 c6
  cases hr : ps[t]? with
  | none => simp [step, hr] at hs
  | some pc =>
  have hSt := fun y => countP_set_w PPc.stored ps t pc y hr
  have hpc := h.pfacts pc (List.getElem?_mem hr)
  simp only [nP, nC] at hpc
  have hwf := h.wf
  simp only at hwf hpc
  have hmul : (swaps tr + 1) * C = swaps tr * C + C := by ring
  cases pc with
  | idle =>
    simp [step, hr, producerStep, logEv] at hs
    subst hs
    have := hSt (.waitMayProduce rand) 0 0 rfl rfl
    exact ⟨c1, c2, c3, c4, by dsimp only; omega, c6⟩
  | waitMayProduce d =>
    cases mp with
    | zero => simp [step, hr, producerStep, sem_wait] at hs
    | succ mp =>
      simp [step, hr, producerStep, sem_wait, logEv] at hs
      subst hs
      have := hSt (.waitMutex d) 0 0 rfl rfl
      refine ⟨?_, ?_, ?_, ?_, ?_, ?_⟩ <;>
        simp [produced_append, consumed_append, swaps_append, swaps_single, isSwap,
          completedProduces_append, completedProduces_single, isProduceDone,
          completedConsumes_append, completedConsumes_single, isConsumeDone, produced, consumed] <;>
        omega
  | waitMutex d =>
    cases mx with
    | zero => simp [step, hr, producerStep, sem_wait] at hs
    | succ mx =>
      simp [step, hr, producerStep, sem_wait, logEv] at hs
      subst hs
      have := hSt (.produce d) 0 0 rfl rfl
      refine ⟨?_, ?_, ?_, ?_, ?_, ?_⟩ <;>
        simp [produced_append, consumed_append, swaps_append, swaps_single, isSwap,
          completedProduces_append, completedProduces_single, isProduceDone,
          completedConsumes_append, completedConsumes_single, isConsumeDone, produced, consumed] <;>
        omega
  | produce d =>
    simp [step, hr, producerStep, logEv] at hs
    subst hs
    have := hSt .testProduce 0 1 rfl rfl
    obtain ⟨_, f2, f3, _⟩ := produce_facts C buf d hwf
    have f4 : (bufferProduceData buf d).sharedConsumeBufferId = buf.sharedConsumeBufferId := rfl
    have f5 : (bufferProduceData buf d).sharedProduceBufferId = buf.sharedProduceBufferId := rfl
    refine ⟨?_, ?_, ?_, ?_, ?_, ?_⟩ <;>
      simp [produced_append, consumed_append, swaps_append, swaps_single, isSwap,
        completedProduces_append, completedProduces_single, isProduceDone,
        completedConsumes_append, completedConsumes_single, isConsumeDone, produced, consumed,
        f2, f3, f4, f5] <;>
      omega
  | testProduce =>
    by_cases hx : bufferProduceIsExhausted C buf = true
    · simp [step, hr, producerStep, hx, logEv] at hs
      subst hs
      have := hSt .testConsume 1 1 rfl rfl
      exact ⟨c1, c2, c3, c4, by dsimp only; omega, c6⟩
    · simp [step, hr, producerStep, hx, logEv] at hs
      subst hs
      have := hSt .postMayProduce 1 1 rfl rfl
      exact ⟨c1, c2, c3, c4, by dsimp only; omega, c6⟩
  | testConsume =>
    by_cases hx : bufferConsumeIsExhausted C buf = true
    · simp [step, hr, producerStep, hx, logEv] at hs
      subst hs
      have := hSt .swap 1 1 rfl rfl
      exact ⟨c1, c2, c3, c4, by dsimp only; omega, c6⟩
    · simp [step, hr, producerStep, hx, logEv] at hs
      subst hs
      have := hSt .postMutex 1 1 rfl rfl
      exact ⟨c1, c2, c3, c4, by dsimp only; omega, c6⟩
  | swap =>
    simp [step, hr, producerStep, logEv] at hs
    subst hs
    have := hSt .postMayConsume 1 1 rfl rfl
    obtain ⟨_, f2, f3, _⟩ := swap_facts C buf hwf
    have f4 : (bufferSwap buf).sharedConsumeBufferId = buf.sharedProduceBufferId := rfl
    have f5 : (bufferSwap buf).sharedProduceBufferId = buf.sharedConsumeBufferId := rfl
    simp only [PFacts] at hpc
    refine ⟨?_, ?_, ?_, ?_, ?_, ?_⟩ <;>
      simp [produced_append, consumed_append, swaps_append, swaps_single, isSwap,
        completedProduces_append, completedProduces_single, isProduceDone,
        completedConsumes_append, completedConsumes_single, isConsumeDone, produced, consumed,
        f2, f3, f4, f5] <;>
      omega
  | postMayConsume =>
    simp [step, hr, producerStep, logEv] at hs
    subst hs
    have := hSt .postMayProduceSwap 1 1 rfl rfl
    refine ⟨?_, ?_, ?_, ?_, ?_, ?_⟩ <;>
      simp [produced_append, consumed_append, swaps_append, swaps_single, isSwap,
        completedProduces_append, completedProduces_single, isProduceDone,
        completedConsumes_append, completedConsumes_single, isConsumeDone, produced, consumed] <;>
      omega
  | postMayProduceSwap =>
    simp [step, hr, producerStep, logEv] at hs
    subst hs
    have := hSt .postMutex 1 1 rfl rfl
    refine ⟨?_, ?_, ?_, ?_, ?_, ?_⟩ <;>
      simp [produced_append, consumed_append, swaps_append, swaps_single, isSwap,
        completedProduces_append, completedProduces_single, isProduceDone,
        completedConsumes_append, completedConsumes_single, isConsumeDone, produced, consumed] <;>
      omega
  | postMayProduce =>
    simp [step, hr, producerStep, logEv] at hs
    subst hs
    have := hSt .postMutex 1 1 rfl rfl
    refine ⟨?_, ?_, ?_, ?_, ?_, ?_⟩ <;>
      simp [produced_append, consumed_append, swaps_append, swaps_single, isSwap,
        completedProduces_append, completedProduces_single, isProduceDone,
        completedConsumes_append, completedConsumes_single, isConsumeDone, produced, consumed] <;>
      omega
  | postMutex =>
    simp [step, hr, producerStep, logEv] at hs
    subst hs
    have := hSt .idle 1 0 rfl rfl
    refine ⟨?_, ?_, ?_, ?_, ?_, ?_⟩ <;>
      simp [produced_append, consumed_append, swaps_append, swaps_single, isSwap,
        completedProduces_append, completedProduces_single, isProduceDone,
        completedConsumes_append, completedConsumes_single, isConsumeDone, produced, consumed] <;>
      omega

set_option maxHeartbeats 1600000 in
theorem counts_consumer (C : Nat) (s s1 : State) (t : Nat) (h : Inv C s)
    (hc : Counts C s) (hs : step C s (.consumer t) = some s1) : Counts C s1 := by
  obtain ⟨⟨buf, mx, mp, mc⟩, ps, cs, tr⟩ := s
  obtain ⟨c1, c2, c3, c4, c5, c6⟩ := hc
  simp only at c1 c2 c3 c4 c5 c6
  cases hr : cs[t]? with
  | none => simp [step, hr] at hs
  | some pc =>
  have hSt := fun y => countP_set_w CPc.loaded cs t pc y hr
  have hpc := h.cfacts pc (List.getElem?_mem hr)
  simp only [nP, nC] at hpc
  have hwf := h.wf
  simp only at hwf hpc
  have hmul : (swaps tr + 1) * C = swaps tr * C + C := by ring
  cases pc with
  | idle =>
    simp [step, hr, consumerStep, logEv] at hs
    subst hs
    have := hSt .waitMayConsume 0 0 rfl rfl
    exact ⟨c1, c2, c3, c4, c5, by dsimp only; omega⟩
  | waitMayConsume =>
    cases mc with
    | zero => simp [step, hr, consumerStep, sem_wait] at hs
    | succ mc =>
      simp [step, hr, consumerStep, sem_wait, logEv] at hs
      subst hs
      have := hSt .waitMutex 0 0 rfl rfl
      refine ⟨?_, ?_, ?_, ?_, ?_, ?_⟩ <;>
        simp [produced_append, consumed_append, swaps_append, swaps_single, isSwap,
          completedProduces_append, completedProduces_single, isProduceDone,
          completedConsumes_append, completedConsumes_single, isConsumeDone, produced, consumed] <;>
        omega
  | waitMutex =>
    cases mx with
    | zero => simp [step, hr, consumerStep, sem_wait] at hs
    | succ mx =>
      simp [step, hr, consumerStep, sem_wait, logEv] at hs
      subst hs
      have := hSt .consume 0 0 rfl rfl
      refine ⟨?_, ?_, ?_, ?_, ?_, ?_⟩ <;>
        simp [produced_append, consumed_append, swaps_append, swaps_single, isSwap,
          completedProduces_append, completedProduces_single, isProduceDone,
          completedConsumes_append, completedConsumes_single, isConsumeDone, produced, consumed] <;>
        omega
  | consume =>
    simp [step, hr, consumerStep, logEv] at hs
    subst hs
    have := hSt (.testConsume (bufferConsumeData buf).1) 0 1 rfl rfl
    obtain ⟨_, f2, f3, _⟩ := consume_facts C buf hwf
    have f4 : (bufferConsumeData buf).2.sharedConsumeBufferId = buf.sharedConsumeBufferId := rfl
    have f5 : (bufferConsumeData buf).2.sharedProduceBufferId = buf.sharedProduceBufferId := rfl
    refine ⟨?_, ?_, ?_, ?_, ?_, ?_⟩ <;>
      simp [produced_append, consumed_append, swaps_append, swaps_single, isSwap,
        completedProduces_append, completedProduces_single, isProduceDone,
        completedConsumes_append, completedConsumes_single, isConsumeDone, produced, consumed,
        f2, f3, f4, f5] <;>
      omega
  | testConsume d =>
    by_cases hx : bufferConsumeIsExhausted C buf = true
    · simp [step, hr, consumerStep, hx, logEv] at hs
      subst hs
      have := hSt (.testProduce d) 1 1 rfl rfl
      exact ⟨c1, c2, c3, c4, c5, by dsimp only; omega⟩
    · simp [step, hr, consumerStep, hx, logEv] at hs
      subst hs
      have := hSt (.postMayConsume d) 1 1 rfl rfl
      exact ⟨c1, c2, c3, c4, c5, by dsimp only; omega⟩
  | testProduce d =>
    by_cases hx : bufferProduceIsExhausted C buf = true
    · simp [step, hr, consumerStep, hx, logEv] at hs
      subst hs
      have := hSt (.swap d) 1 1 rfl rfl
      exact ⟨c1, c2, c3, c4, c5, by dsimp only; omega⟩
    · simp [step, hr, consumerStep, hx, logEv] at hs
      subst hs
      have := hSt (.postMutex d) 1 1 rfl rfl
      exact ⟨c1, c2, c3, c4, c5, by dsimp only; omega⟩
  | swap d =>
    simp [step, hr, consumerStep, logEv] at hs
    subst hs
    have := hSt (.postMayConsumeSwap d) 1 1 rfl rfl
    obtain ⟨_, f2, f3, _⟩ := swap_facts C buf hwf
    have f4 : (bufferSwap buf).sharedConsumeBufferId = buf.sharedProduceBufferId := rfl
    have f5 : (bufferSwap buf).sharedProduceBufferId = buf.sharedConsumeBufferId := rfl
    simp only [CFacts] at hpc
    refine ⟨?_, ?_, ?_, ?_, ?_, ?_⟩ <;>
      simp [produced_append, consumed_append, swaps_append, swaps_single, isSwap,
        completedProduces_append, completedProduces_single, isProduceDone,
        completedConsumes_append, completedConsumes_single, isConsumeDone, produced, consumed,
        f2, f3, f4, f5] <;>
      omega
  | postMayConsumeSwap d =>
    simp [step, hr, consumerStep, logEv] at hs
    subst hs
    have := hSt (.postMayProduce d) 1 1 rfl rfl
    refine ⟨?_, ?_, ?_, ?_, ?_, ?_⟩ <;>
      simp [produced_append, consumed_append, swaps_append, swaps_single, isSwap,
        completedProduces_append, completedProduces_single, isProduceDone,
        completedConsumes_append, completedConsumes_single, isConsumeDone, produced, consumed] <;>
      omega
  | postMayProduce d =>
    simp [step, hr, consumerStep, logEv] at hs
    subst hs
    have := hSt (.postMutex d) 1 1 rfl rfl
    refine ⟨?_, ?_, ?_, ?_, ?_, ?_⟩ <;>
      simp [produced_append, consumed_append, swaps_append, swaps_single, isSwap,
        completedProduces_append, completedProduces_single, isProduceDone,
        completedConsumes_append, completedConsumes_single, isConsumeDone, produced, consumed] <;>
      omega
  | postMayConsume d =>
    simp [step, hr, consumerStep, logEv] at hs
    subst hs
    have := hSt (.postMutex d) 1 1 rfl rfl
    refine ⟨?_, ?_, ?_, ?_, ?_, ?_⟩ <;>
      simp [produced_append, consumed_append, swaps_append, swaps_single, isSwap,
        completedProduces_append, completedProduces_single, isProduceDone,
        completedConsumes_append, completedConsumes_single, isConsumeDone, produced, consumed] <;>
      omega
  | postMutex d =>
    simp [step, hr, consumerStep, logEv] at hs
    subst hs
    have := hSt .idle 1 0 rfl rfl
    refine ⟨?_, ?_, ?_, ?_, ?_, ?_⟩ <;>
      simp [produced_append, consumed_append, swaps_append, swaps_single, isSwap,
        completedProduces_append, completedProduces_single, isProduceDone,
        completedConsumes_append, completedConsumes_single, isConsumeDone, produced, consumed] <;>
      omega

theorem counts_step (C : Nat) (s s1 : State) (a : Action) (h : Inv C s) (hc : Counts C s)
    (hs : step C s a = some s1) : Counts C s1 := by
  cases a with
  | producer t rand => exact counts_producer C s s1 t rand h hc hs
  | consumer t => exact counts_consumer C s s1 t h hc hs

theorem counts_run (C : Nat) (hC : 0 < C) (sched : List Action) :
    ∀ s s1 : State, Inv C s → Counts C s → run C s sched = some s1 → Counts C s1 := by
  induction sched with
  | nil =>
    intro s s1 _ hc hr
    simp [run] at hr
    subst hr
    exact hc
  | cons a as ih =>
    intro s s1 h1 hc hr
    simp only [run] at hr
    cases hst : step C s a with
    | none => simp [hst] at hr
    | some s2 =>
      simp [hst] at hr
      exact ih s2 s1 (swap_inv_step C hC s s2 a h1 hst) (counts_step C s s2 a h1 hc hst) hr

theorem counts_reachable (C np nc : Nat) (hC : 0 < C) (s : State) (h : Reachable C np nc s) :
    Counts C s := by
  obtain ⟨sched, hs⟩ := h
  exact counts_run C hC sched _ s (swap_inv_init C np nc hC) (counts_init C np nc) hs

/-- Outstanding permits never exceed one of each kind, the mutex count never exceeds one. -/
theorem permits_le_one (C : Nat) (s : State) (h : Inv C s) :
    nP s ≤ 1 ∧ nC s ≤ 1 ∧ s.sh.sharedSemMutex ≤ 1 := by
  have hM := h.mutex
  refine ⟨?_, ?_, by omega⟩
  · by_cases hp : ∀ p ∈ s.producers, p.mid = false
    · by_cases hc : ∀ c ∈ s.consumers, c.mid = false
      · have := (h.quiet hp hc).1
        split at this <;> omega
      · simp only [not_forall] at hc
        obtain ⟨c, hc1, hc2⟩ := hc
        have := h.cfacts c hc1
        revert this hc2
        cases c <;> simp [CPc.mid, CFacts] <;> intros <;> first | omega | (split_ifs at * <;> omega)
    · simp only [not_forall] at hp
      obtain ⟨p, hp1, hp2⟩ := hp
      have := h.pfacts p hp1
      revert this hp2
      cases p <;> simp [PPc.mid, PFacts] <;> intros <;> omega
  · by_cases hp : ∀ p ∈ s.producers, p.mid = false
    · by_cases hc : ∀ c ∈ s.consumers, c.mid = false
      · have := (h.quiet hp hc).2.1
        split at this <;> omega
      · simp only [not_forall] at hc
        obtain ⟨c, hc1, hc2⟩ := hc
        have := h.cfacts c hc1
        revert this hc2
        cases c <;> simp [CPc.mid, CFacts] <;> intros <;> omega
    · simp only [not_forall] at hp
      obtain ⟨p, hp1, hp2⟩ := hp
      have := h.pfacts p hp1
      revert this hp2
      cases p <;> simp [PPc.mid, PFacts] <;> intros <;> first | omega | (split_ifs at * <;> omega)

/-- C19: permits and cursors agree.  In every reachable state in which no thread is in the
middle of its critical section (between its buffer operation and its last permit post), the
outstanding `sharedSemMayProduce` permits, that is the semaphore count plus the producers
that have taken a permit and not yet stored their value, are 1 if the produce cursor is
below `BUFFER_SIZE` and 0 otherwise; likewise for `sharedSemMayConsume` and the consume
cursor.  In every reachable state neither count exceeds 1, the mutex count is 0 or 1, and
it is 0 exactly while one thread is inside its critical section. -/
theorem permits_match_cursors (C np nc : Nat) (hC : 0 < C) (s : State)
    (h : Reachable C np nc s) :
    ((∀ p ∈ s.producers, p.mid = false) → (∀ c ∈ s.consumers, c.mid = false) →
      s.sh.sharedSemMayProduce + s.producers.countP PPc.permit =
        (if s.sh.buf.sharedBufferPos.getD s.sh.buf.sharedProduceBufferId 0 < C then 1 else 0) ∧
      s.sh.sharedSemMayConsume + s.consumers.countP CPc.permit =
        (if s.sh.buf.sharedBufferPos.getD s.sh.buf.sharedConsumeBufferId 0 < C then 1 else 0)) ∧
    s.sh.sharedSemMayProduce + s.producers.countP PPc.permit ≤ 1 ∧
    s.sh.sharedSemMayConsume + s.consumers.countP CPc.permit ≤ 1 ∧
    s.sh.sharedSemMayProduce ≤ 1 ∧ s.sh.sharedSemMayConsume ≤ 1 ∧
    (s.sh.sharedSemMutex = 0 ∨ s.sh.sharedSemMutex = 1) ∧
    s.sh.sharedSemMutex + s.producers.countP PPc.inCS + s.consumers.countP CPc.inCS = 1 ∧
    s.sh.buf.sharedBufferPos.getD s.sh.buf.sharedProduceBufferId 0 ≤ C ∧
    s.sh.buf.sharedBufferPos.getD s.sh.buf.sharedConsumeBufferId 0 ≤ C := by
  have hinv := swap_inv_reachable C np nc hC s h
  obtain ⟨b1, b2, b3⟩ := permits_le_one C s hinv
  obtain ⟨d1, d2⟩ := cursors_le C s hinv
  simp only [nP, nC] at b1 b2
  refine ⟨?_, b1, b2, by omega, by omega, by omega, hinv.mutex, d1, d2⟩
  intro hp hc
  have hq := hinv.quiet hp hc
  exact ⟨hq.1, hq.2.1⟩

theorem permits_match_cursors_witness :
    0 < 2 ∧ Reachable 2 1 1 demoStateEnd ∧
    demoStateEnd.sh.sharedSemMayProduce + demoStateEnd.producers.countP PPc.permit =
      (if demoStateEnd.sh.buf.sharedBufferPos.getD demoStateEnd.sh.buf.sharedProduceBufferId 0 < 2
        then 1 else 0) ∧
    demoStateEnd.sh.sharedSemMayConsume ≤ 1 :=
  ⟨by decide, demo_reachable_end,
    ((permits_match_cursors 2 1 1 (by decide) demoStateEnd demo_reachable_end).1
      (by decide) (by decide)).1,
    (permits_match_cursors 2 1 1 (by decide) demoStateEnd demo_reachable_end).2.2.2.2.1⟩

theorem logEv_eq_append (tr : List (Tid × Ev)) (who : Tid) (e : Option Ev) :
    logEv tr who e = tr ++ e.toList.map (fun x => (who, x)) := by
  cases e <;> simp [logEv]

/-- A call run alone by `runProducer` is a run of the system in which only that producer
moves. -/
theorem runProducer_run (C : Nat) (fuel : Nat) :
    ∀ (sh : Shared) (pc : PPc) (evs : List Ev) (sh1 : Shared) (evs1 : List Ev),
      runProducer C fuel sh pc evs = some (sh1, evs1) →
      ∀ (ps : List PPc) (cs : List CPc) (tr : List (Tid × Ev)) (t : Nat), ps[t]? = some pc →
        ∃ sched rest, evs1 = evs ++ rest ∧
          run C { sh := sh, producers := ps, consumers := cs, trace := tr } sched =
            some { sh := sh1, producers := ps.set t .idle, consumers := cs,
                   trace := tr ++ rest.map (fun x => (Tid.producer t, x)) } := by
  induction fuel with
  | zero =>
    intro sh pc evs sh1 evs1 h
    simp [runProducer] at h
  | succ fuel ih =>
    intro sh pc evs sh1 evs1 h ps cs tr t hps
    cases hst : producerStep C sh 0 pc with
    | none => simp [runProducer, hst] at h
    | some x =>
      obtain ⟨sh2, pc2, e⟩ := x
      have hstep : step C { sh := sh, producers := ps, consumers := cs, trace := tr }
          (.producer t 0) =
          some { sh := sh2, producers := ps.set t pc2, consumers := cs,
                 trace := tr ++ e.toList.map (fun x => (Tid.producer t, x)) } := by
        simp [step, hps, hst, logEv_eq_append]
      have hrec : pc2 ≠ .idle → runProducer C fuel sh2 pc2 (evs ++ e.toList) = some (sh1, evs1) := by
        intro hne
        cases pc2 <;> simp [runProducer, hst] at h hne ⊢ <;> exact h
      by_cases hidle : pc2 = .idle
      · subst hidle
        simp [runProducer, hst] at h
        obtain ⟨rfl, rfl⟩ := h
        exact ⟨[.producer t 0], e.toList, rfl, by simp [run, hstep]⟩
      · have hlt := (List.getElem?_eq_some_iff.mp hps).1
        obtain ⟨sched, rest, h1, h2⟩ := ih sh2 pc2 (evs ++ e.toList) sh1 evs1 (hrec hidle)
          (ps.set t pc2) cs (tr ++ e.toList.map (fun x => (Tid.producer t, x))) t
          (List.getElem?_set_self hlt)
        refine ⟨.producer t 0 :: sched, e.toList ++ rest, by rw [h1, List.append_assoc], ?_⟩
        simp only [run, hstep, Option.some_bind, h2, List.set_set, List.map_append,
          List.append_assoc]

/-- A call run alone by `runConsumer` is a run of the system in which only that consumer
moves. -/
theorem runConsumer_run (C : Nat) (fuel : Nat) :
    ∀ (sh : Shared) (pc : CPc) (evs : List Ev) (d : Int) (sh1 : Shared) (evs1 : List Ev),
      runConsumer C fuel sh pc evs = some (d, sh1, evs1) →
      ∀ (ps : List PPc) (cs : List CPc) (tr : List (Tid × Ev)) (t : Nat), cs[t]? = some pc →
        ∃ sched rest, evs1 = evs ++ rest ∧
          run C { sh := sh, producers := ps, consumers := cs, trace := tr } sched =
            some { sh := sh1, producers := ps, consumers := cs.set t .idle,
                   trace := tr ++ rest.map (fun x => (Tid.consumer t, x)) } := by
  induction fuel with
  | zero =>
    intro sh pc evs d sh1 evs1 h
    simp [runConsumer] at h
  | succ fuel ih =>
    intro sh pc evs d sh1 evs1 h ps cs tr t hcs
    have hlt := (List.getElem?_eq_some_iff.mp hcs).1
    cases hst : consumerStep C sh pc with
    | none => cases pc <;> simp [runConsumer, hst] at h
    | some x =>
      obtain ⟨sh2, pc2, e⟩ := x
      have hstep : step C { sh := sh, producers := ps, consumers := cs, trace := tr }
          (.consumer t) =
          some { sh := sh2, producers := ps, consumers := cs.set t pc2,
                 trace := tr ++ e.toList.map (fun x => (Tid.consumer t, x)) } := by
        simp [step, hcs, hst, logEv_eq_append]
      by_cases hlast : ∃ d0, pc = .postMutex d0
      · obtain ⟨d0, rfl⟩ := hlast
        simp [runConsumer, hst] at h
        obtain ⟨rfl, rfl, rfl⟩ := h
        have hpc2 : pc2 = .idle := by
          simp [consumerStep] at hst
          exact hst.2.1.symm
        subst hpc2
        exact ⟨[.consumer t], e.toList, rfl, by simp [run, hstep]⟩
      · have hrec : runConsumer C fuel sh2 pc2 (evs ++ e.toList) = some (d, sh1, evs1) := by
          cases pc <;> simp [runConsumer, hst] at h hlast ⊢ <;> exact h
        obtain ⟨sched, rest, h1, h2⟩ := ih sh2 pc2 (evs ++ e.toList) d sh1 evs1 hrec
          ps (cs.set t pc2) (tr ++ e.toList.map (fun x => (Tid.consumer t, x))) t
          (List.getElem?_set_self hlt)
        refine ⟨.consumer t :: sched, e.toList ++ rest, by rw [h1, List.append_assoc], ?_⟩
        simp only [run, hstep, Option.some_bind, h2, List.set_set, List.map_append,
          List.append_assoc]

/-- The three ways a `protocolProduceData` call returns, and when it blocks. -/
theorem protocolProduceData_eq (C : Nat) (sh : Shared) (d : Int) :
    protocolProduceData C sh d =
      if sh.sharedSemMayProduce = 0 ∨ sh.sharedSemMutex = 0 then none
      else if bufferProduceIsExhausted C (bufferProduceData sh.buf d) = true then
        if bufferConsumeIsExhausted C (bufferProduceData sh.buf d) = true then
          some ({ buf := bufferSwap (bufferProduceData sh.buf d), sharedSemMutex := sh.sharedSemMutex,
                  sharedSemMayProduce := sh.sharedSemMayProduce,
                  sharedSemMayConsume := sh.sharedSemMayConsume + 1 },
                [.semWait .mayProduce, .semWait .mutex, .produce d, .swap, .semPost .mayConsume,
                 .semPost .mayProduce, .semPost .mutex])
        else
          some ({ buf := bufferProduceData sh.buf d, sharedSemMutex := sh.sharedSemMutex,
                  sharedSemMayProduce := sh.sharedSemMayProduce - 1,
                  sharedSemMayConsume := sh.sharedSemMayConsume },
                [.semWait .mayProduce, .semWait .mutex, .produce d, .semPost .mutex])
      else
        some ({ buf := bufferProduceData sh.buf d, sharedSemMutex := sh.sharedSemMutex,
                sharedSemMayProduce := sh.sharedSemMayProduce,
                sharedSemMayConsume := sh.sharedSemMayConsume },
              [.semWait .mayProduce, .semWait .mutex, .produce d, .semPost .mayProduce,
               .semPost .mutex]) := by
  obtain ⟨buf, mx, mp, mc⟩ := sh
  cases mp with
  | zero => simp [protocolProduceData, runProducer, producerStep, sem_wait]
  | succ mp =>
  cases mx with
  | zero => simp [protocolProduceData, runProducer, producerStep, sem_wait]
  | succ mx =>
  by_cases h1 : bufferProduceIsExhausted C (bufferProduceData buf d) = true
  · by_cases h2 : bufferConsumeIsExhausted C (bufferProduceData buf d) = true
    · simp [protocolProduceData, runProducer, producerStep, sem_wait, sem_post, h1, h2]
    · simp [protocolProduceData, runProducer, producerStep, sem_wait, sem_post, h1, h2]
  · simp [protocolProduceData, runProducer, producerStep, sem_wait, sem_post, h1]

/-- The three ways a `protocolConsumeData` call returns, and when it blocks. -/
theorem protocolConsumeData_eq (C : Nat) (sh : Shared) :
    protocolConsumeData C sh =
      if sh.sharedSemMayConsume = 0 ∨ sh.sharedSemMutex = 0 then none
      else if bufferConsumeIsExhausted C (bufferConsumeData sh.buf).2 = true then
        if bufferProduceIsExhausted C (bufferConsumeData sh.buf).2 = true then
          some ((bufferConsumeData sh.buf).1,
                { buf := bufferSwap (bufferConsumeData sh.buf).2, sharedSemMutex := sh.sharedSemMutex,
                  sharedSemMayProduce := sh.sharedSemMayProduce + 1,
                  sharedSemMayConsume := sh.sharedSemMayConsume },
                [.semWait .mayConsume, .semWait .mutex, .consume (bufferConsumeData sh.buf).1, .swap,
                 .semPost .mayConsume, .semPost .mayProduce, .semPost .mutex])
        else
          some ((bufferConsumeData sh.buf).1,
                { buf := (bufferConsumeData sh.buf).2, sharedSemMutex := sh.sharedSemMutex,
                  sharedSemMayProduce := sh.sharedSemMayProduce,
                  sharedSemMayConsume := sh.sharedSemMayConsume - 1 },
                [.semWait .mayConsume, .semWait .mutex, .consume (bufferConsumeData sh.buf).1,
                 .semPost .mutex])
      else
        some ((bufferConsumeData sh.buf).1,
              { buf := (bufferConsumeData sh.buf).2, sharedSemMutex := sh.sharedSemMutex,
                sharedSemMayProduce := sh.sharedSemMayProduce,
                sharedSemMayConsume := sh.sharedSemMayConsume },
              [.semWait .mayConsume, .semWait .mutex, .consume (bufferConsumeData sh.buf).1,
               .semPost .mayConsume, .semPost .mutex]) := by
  obtain ⟨buf, mx, mp, mc⟩ := sh
  cases mc with
  | zero => simp [protocolConsumeData, runConsumer, consumerStep, sem_wait]
  | succ mc =>
  cases mx with
  | zero => simp [protocolConsumeData, runConsumer, consumerStep, sem_wait]
  | succ mx =>
  by_cases h1 : bufferConsumeIsExhausted C (bufferConsumeData buf).2 = true
  · by_cases h2 : bufferProduceIsExhausted C (bufferConsumeData buf).2 = true
    · simp [protocolConsumeData, runConsumer, consumerStep, sem_wait, sem_post, h1, h2]
    · simp [protocolConsumeData, runConsumer, consumerStep, sem_wait, sem_post, h1, h2]
  · simp [protocolConsumeData, runConsumer, consumerStep, sem_wait, sem_post, h1]

/-- A call that finds its permit and the mutex returns; it stores its value and posts the
mutex once. -/
theorem protocolProduceData_returns (C : Nat) (sh : Shared) (d : Int)
    (hp : 0 < sh.sharedSemMayProduce) (hm : 0 < sh.sharedSemMutex) :
    ∃ sh1 evs, protocolProduceData C sh d = some (sh1, evs) ∧
      produced (evs.map fun x => (Tid.producer 0, x)) = [d] ∧
      consumed (evs.map fun x => (Tid.producer 0, x)) = [] ∧
      ∀ t, completedProduces (evs.map fun x => (Tid.producer t, x)) = 1 ∧
        completedConsumes (evs.map fun x => (Tid.producer t, x)) = 0 ∧
        produced (evs.map fun x => (Tid.producer t, x)) = [d] ∧
        consumed (evs.map fun x => (Tid.producer t, x)) = [] := by
  have hne : ¬ (sh.sharedSemMayProduce = 0 ∨ sh.sharedSemMutex = 0) := by omega
  rw [protocolProduceData_eq, if_neg hne]
  split_ifs <;> exact ⟨_, _, rfl, rfl, rfl, fun t => ⟨rfl, rfl, rfl, rfl⟩⟩

/-- A call that finds its permit and the mutex returns; it reads one value and posts the
mutex once. -/
theorem protocolConsumeData_returns (C : Nat) (sh : Shared)
    (hp : 0 < sh.sharedSemMayConsume) (hm : 0 < sh.sharedSemMutex) :
    ∃ d sh1 evs, protocolConsumeData C sh = some (d, sh1, evs) ∧
      ∀ t, completedConsumes (evs.map fun x => (Tid.consumer t, x)) = 1 ∧
        completedProduces (evs.map fun x => (Tid.consumer t, x)) = 0 ∧
        consumed (evs.map fun x => (Tid.consumer t, x)) = [d] ∧
        produced (evs.map fun x => (Tid.consumer t, x)) = [] := by
  have hne : ¬ (sh.sharedSemMayConsume = 0 ∨ sh.sharedSemMutex = 0) := by omega
  rw [protocolConsumeData_eq, if_neg hne]
  split_ifs <;> exact ⟨_, _, _, rfl, fun t => ⟨rfl, rfl, rfl, rfl⟩⟩

theorem step_lengths (C : Nat) (s s1 : State) (a : Action) (hs : step C s a = some s1) :
    s1.producers.length = s.producers.length ∧ s1.consumers.length = s.consumers.length := by
  cases a with
  | producer t rand =>
    simp only [step] at hs
    cases hr : s.producers[t]? with
    | none => simp [hr] at hs
    | some pc =>
      cases hp : producerStep C s.sh rand pc with
      | none => simp [hr, hp] at hs
      | some x =>
        simp [hr, hp] at hs
        subst hs
        simp
  | consumer t =>
    simp only [step] at hs
    cases hr : s.consumers[t]? with
    | none => simp [hr] at hs
    | some pc =>
      cases hp : consumerStep C s.sh pc with
      | none => simp [hr, hp] at hs
      | some x =>
        simp [hr, hp] at hs
        subst hs
        simp

theorem run_lengths (C : Nat) (sched : List Action) :
    ∀ s s1 : State, run C s sched = some s1 →
      s1.producers.length = s.producers.length ∧ s1.consumers.length = s.consumers.length := by
  induction sched with
  | nil =>
    intro s s1 hr
    simp [run] at hr
    subst hr
    exact ⟨rfl, rfl⟩
  | cons a as ih =>
    intro s s1 hr
    simp only [run] at hr
    cases hst : step C s a with
    | none => simp [hst] at hr
    | some s2 =>
      simp [hst] at hr
      have h1 := ih s2 s1 hr
      have h2 := step_lengths C s s2 a hst
      exact ⟨h1.1.trans h2.1, h1.2.trans h2.2⟩

theorem reachable_lengths (C np nc : Nat) (s : State) (h : Reachable C np nc s) :
    s.producers.length = np ∧ s.consumers.length = nc := by
  obtain ⟨sched, hs⟩ := h
  have := run_lengths C sched _ s hs
  simpa [init] using this

theorem swap_run_append (C : Nat) (a b : List Action) :
    ∀ s : State, run C s (a ++ b) = (run C s a).bind fun s1 => run C s1 b := by
  induction a with
  | nil =>
    intro s
    simp [run]
  | cons x a ih =>
    intro s
    simp only [List.cons_append, run]
    cases step C s x with
    | none => rfl
    | some s1 => simp [ih]

theorem swap_reachable_run (C np nc : Nat) (s s1 : State) (sched : List Action)
    (h : Reachable C np nc s) (hr : run C s sched = some s1) : Reachable C np nc s1 := by
  obtain ⟨sched0, h0⟩ := h
  exact ⟨sched0 ++ sched, by rw [swap_run_append, h0]; exact hr⟩

theorem set_idle_self {α : Type} (l : List α) (t : Nat) (x : α) (h : l[t]? = some x) :
    l.set t x = l := by
  apply List.ext_getElem?
  intro j
  by_cases hj : t = j
  · subst hj
    rw [List.getElem?_set_self (List.getElem?_eq_some_iff.mp h).1, h]
  · rw [List.getElem?_set_ne hj]

/-- A producer at its loop head that finds a `sharedSemMayProduce` permit and the mutex free
runs a whole `protocolProduceData` call when it is scheduled alone. -/
theorem produce_call_runs (C : Nat) (s : State) (t : Nat) (d : Int)
    (ht : s.producers[t]? = some .idle) (hp : 0 < s.sh.sharedSemMayProduce)
    (hm : 0 < s.sh.sharedSemMutex) :
    ∃ sched s1, run C s sched = some s1 ∧ s1.producers = s.producers ∧
      s1.consumers = s.consumers ∧ produced s1.trace = produced s.trace ++ [d] ∧
      consumed s1.trace = consumed s.trace ∧
      completedProduces s1.trace = completedProduces s.trace + 1 ∧
      completedConsumes s1.trace = completedConsumes s.trace := by
  obtain ⟨sh, ps, cs, tr⟩ := s
  simp only at ht hp hm
  have hlt := (List.getElem?_eq_some_iff.mp ht).1
  obtain ⟨sh1, evs, hrun, _, _, hev⟩ := protocolProduceData_returns C sh d hp hm
  obtain ⟨f1, f2, f3, f4⟩ := hev t
  obtain ⟨sched, rest, h1, h2⟩ := runProducer_run C 9 sh (.waitMayProduce d) [] sh1 evs hrun
    (ps.set t (.waitMayProduce d)) cs tr t (List.getElem?_set_self hlt)
  simp only [List.nil_append] at h1
  subst h1
  have hstep : step C { sh := sh, producers := ps, consumers := cs, trace := tr } (.producer t d) =
      some { sh := sh, producers := ps.set t (.waitMayProduce d), consumers := cs, trace := tr } := by
    simp [step, ht, producerStep, logEv]
  refine ⟨.producer t d :: sched,
    ⟨sh1, (ps.set t (.waitMayProduce d)).set t .idle, cs,
      tr ++ evs.map (fun x => (Tid.producer t, x))⟩,
    by simp only [run, hstep, Option.some_bind]; exact h2, ?_, rfl, ?_, ?_, ?_, ?_⟩
  · simp only [List.set_set]
    exact set_idle_self ps t .idle ht
  · simp only [produced_append, f3]
  · simp only [consumed_append, f4, List.append_nil]
  · simp only [completedProduces_append, f1]
  · simp only [completedConsumes_append, f2, Nat.add_zero]

/-- A consumer at its loop head that finds a `sharedSemMayConsume` permit and the mutex
free runs a whole `protocolConsumeData` call when it is scheduled alone. -/
theorem consume_call_runs (C : Nat) (s : State) (t : Nat)
    (ht : s.consumers[t]? = some .idle) (hp : 0 < s.sh.sharedSemMayConsume)
    (hm : 0 < s.sh.sharedSemMutex) :
    ∃ sched s1 d, run C s sched = some s1 ∧ s1.producers = s.producers ∧
      s1.consumers = s.consumers ∧ consumed s1.trace = consumed s.trace ++ [d] ∧
      produced s1.trace = produced s.trace ∧
      completedConsumes s1.trace = completedConsumes s.trace + 1 ∧
      completedProduces s1.trace = completedProduces s.trace := by
  obtain ⟨sh, ps, cs, tr⟩ := s
  simp only at ht hp hm
  have hlt := (List.getElem?_eq_some_iff.mp ht).1
  obtain ⟨d, sh1, evs, hrun, hev⟩ := protocolConsumeData_returns C sh hp hm
  obtain ⟨f1, f2, f3, f4⟩ := hev t
  obtain ⟨sched, rest, h1, h2⟩ := runConsumer_run C 9 sh .waitMayConsume [] d sh1 evs hrun
    ps (cs.set t .waitMayConsume) tr t (List.getElem?_set_self hlt)
  simp only [List.nil_append] at h1
  subst h1
  have hstep : step C { sh := sh, producers := ps, consumers := cs, trace := tr } (.consumer t) =
      some { sh := sh, producers := ps, consumers := cs.set t .waitMayConsume, trace := tr } := by
    simp [step, ht, consumerStep, logEv]
  refine ⟨.consumer t :: sched,
    ⟨sh1, ps, (cs.set t .waitMayConsume).set t .idle,
      tr ++ evs.map (fun x => (Tid.consumer t, x))⟩, d,
    by simp only [run, hstep, Option.some_bind]; exact h2, rfl, ?_, ?_, ?_, ?_, ?_⟩
  · simp only [List.set_set]
    exact set_idle_self cs t .idle ht
  · simp only [consumed_append, f3]
  · simp only [produced_append, f4, List.append_nil]
  · simp only [completedConsumes_append, f1]
  · simp only [completedProduces_append, f2, Nat.add_zero]

theorem atRest_counts (s : State) (h : AtRest s) :
    s.producers.countP PPc.permit = 0 ∧ s.producers.countP PPc.inCS = 0 ∧
    s.consumers.countP CPc.permit = 0 ∧ s.consumers.countP CPc.inCS = 0 ∧
    (∀ p ∈ s.producers, p.mid = false) ∧ (∀ c ∈ s.consumers, c.mid = false) := by
  refine ⟨?_, ?_, ?_, ?_, ?_, ?_⟩
  · rw [List.countP_eq_zero]
    intro p hp
    rw [h.1 p hp]
    decide
  · rw [List.countP_eq_zero]
    intro p hp
    rw [h.1 p hp]
    decide
  · rw [List.countP_eq_zero]
    intro c hc
    rw [h.2 c hc]
    decide
  · rw [List.countP_eq_zero]
    intro c hc
    rw [h.2 c hc]
    decide
  · intro p hp
    rw [h.1 p hp]
    rfl
  · intro c hc
    rw [h.2 c hc]
    rfl

theorem producer_enabled (C : Nat) (s : State) (t : Nat) (pc : PPc)
    (hr : s.producers[t]? = some pc)
    (h1 : ∀ d, pc = .waitMayProduce d → 0 < s.sh.sharedSemMayProduce)
    (h2 : ∀ d, pc = .waitMutex d → 0 < s.sh.sharedSemMutex) :
    ∃ s1, step C s (.producer t 0) = some s1 := by
  cases pc with
  | idle => exact ⟨_, by simp [step, hr, producerStep]; rfl⟩
  | waitMayProduce d =>
    obtain ⟨k, hk⟩ : ∃ k, s.sh.sharedSemMayProduce = k + 1 :=
      ⟨s.sh.sharedSemMayProduce - 1, by have := h1 d rfl; omega⟩
    exact ⟨_, by simp [step, hr, producerStep, sem_wait, hk]; rfl⟩
  | waitMutex d =>
    obtain ⟨k, hk⟩ : ∃ k, s.sh.sharedSemMutex = k + 1 :=
      ⟨s.sh.sharedSemMutex - 1, by have := h2 d rfl; omega⟩
    exact ⟨_, by simp [step, hr, producerStep, sem_wait, hk]; rfl⟩
  | produce d => exact ⟨_, by simp [step, hr, producerStep]; rfl⟩
  | testProduce =>
    by_cases hx : bufferProduceIsExhausted C s.sh.buf = true
    · exact ⟨_, by simp [step, hr, producerStep, hx]; rfl⟩
    · exact ⟨_, by simp [step, hr, producerStep, hx]; rfl⟩
  | testConsume =>
    by_cases hx : bufferConsumeIsExhausted C s.sh.buf = true
    · exact ⟨_, by simp [step, hr, producerStep, hx]; rfl⟩
    · exact ⟨_, by simp [step, hr, producerStep, hx]; rfl⟩
  | swap => exact ⟨_, by simp [step, hr, producerStep]; rfl⟩
  | postMayConsume => exact ⟨_, by simp [step, hr, producerStep]; rfl⟩
  | postMayProduceSwap => exact ⟨_, by simp [step, hr, producerStep]; rfl⟩
  | postMayProduce => exact ⟨_, by simp [step, hr, producerStep]; rfl⟩
  | postMutex => exact ⟨_, by simp [step, hr, producerStep]; rfl⟩

theorem consumer_enabled (C : Nat) (s : State) (t : Nat) (pc : CPc)
    (hr : s.consumers[t]? = some pc)
    (h1 : pc = .waitMayConsume → 0 < s.sh.sharedSemMayConsume)
    (h2 : pc = .waitMutex → 0 < s.sh.sharedSemMutex) :
    ∃ s1, step C s (.consumer t) = some s1 := by
  cases pc with
  | idle => exact ⟨_, by simp [step, hr, consumerStep]; rfl⟩
  | waitMayConsume =>
    obtain ⟨k, hk⟩ : ∃ k, s.sh.sharedSemMayConsume = k + 1 :=
      ⟨s.sh.sharedSemMayConsume - 1, by have := h1 rfl; omega⟩
    exact ⟨_, by simp [step, hr, consumerStep, sem_wait, hk]; rfl⟩
  | waitMutex =>
    obtain ⟨k, hk⟩ : ∃ k, s.sh.sharedSemMutex = k + 1 :=
      ⟨s.sh.sharedSemMutex - 1, by have := h2 rfl; omega⟩
    exact ⟨_, by simp [step, hr, consumerStep, sem_wait, hk]; rfl⟩
  | consume => exact ⟨_, by simp [step, hr, consumerStep]; rfl⟩
  | testConsume d =>
    by_cases hx : bufferConsumeIsExhausted C s.sh.buf = true
    · exact ⟨_, by simp [step, hr, consumerStep, hx]; rfl⟩
    · exact ⟨_, by simp [step, hr, consumerStep, hx]; rfl⟩
  | testProduce d =>
    by_cases hx : bufferProduceIsExhausted C s.sh.buf = true
    · exact ⟨_, by simp [step, hr, consumerStep, hx]; rfl⟩
    · exact ⟨_, by simp [step, hr, consumerStep, hx]; rfl⟩
  | swap d => exact ⟨_, by simp [step, hr, consumerStep]; rfl⟩
  | postMayConsumeSwap d => exact ⟨_, by simp [step, hr, consumerStep]; rfl⟩
  | postMayProduce d => exact ⟨_, by simp [step, hr, consumerStep]; rfl⟩
  | postMayConsume d => exact ⟨_, by simp [step, hr, consumerStep]; rfl⟩
  | postMutex d => exact ⟨_, by simp [step, hr, consumerStep]; rfl⟩

/-- No reachable state has every thread blocked: if no thread can move without a semaphore,
no thread holds the mutex or a permit, and then a semaphore some thread waits for holds
a permit. -/
theorem some_thread_enabled (C : Nat) (s : State) (h : Inv C s)
    (hnp : 0 < s.producers.length) (hnc : 0 < s.consumers.length) :
    ∃ a s1, step C s a = some s1 := by
  have hM := h.mutex
  by_cases hp : ∃ (t : Nat) (pc : PPc), s.producers[t]? = some pc ∧
      ((∀ d, pc ≠ .waitMayProduce d) ∨ 0 < s.sh.sharedSemMayProduce) ∧
      ((∀ d, pc ≠ .waitMutex d) ∨ 0 < s.sh.sharedSemMutex)
  · obtain ⟨t, pc, hr, h1, h2⟩ := hp
    obtain ⟨s1, hs1⟩ := producer_enabled C s t pc hr
      (fun d e => h1.resolve_left (fun hne => hne d e))
      (fun d e => h2.resolve_left (fun hne => hne d e))
    exact ⟨_, s1, hs1⟩
  by_cases hc : ∃ (t : Nat) (pc : CPc), s.consumers[t]? = some pc ∧
      (pc ≠ .waitMayConsume ∨ 0 < s.sh.sharedSemMayConsume) ∧
      (pc ≠ .waitMutex ∨ 0 < s.sh.sharedSemMutex)
  · obtain ⟨t, pc, hr, h1, h2⟩ := hc
    obtain ⟨s1, hs1⟩ := consumer_enabled C s t pc hr
      (fun e => h1.resolve_left (fun hne => hne e))
      (fun e => h2.resolve_left (fun hne => hne e))
    exact ⟨_, s1, hs1⟩
  exfalso
  -- every thread is blocked on a semaphore whose count is 0
  have hpb : ∀ p ∈ s.producers,
      ((∃ d, p = .waitMayProduce d) ∧ s.sh.sharedSemMayProduce = 0) ∨
      ((∃ d, p = .waitMutex d) ∧ s.sh.sharedSemMutex = 0) := by
    intro p hpm
    obtain ⟨t, ht⟩ := List.getElem?_of_mem hpm
    by_contra hcon
    apply hp
    refine ⟨t, p, ht, ?_, ?_⟩
    · by_cases hz : 0 < s.sh.sharedSemMayProduce
      · exact Or.inr hz
      · left
        intro d e
        exact hcon (Or.inl ⟨⟨d, e⟩, by omega⟩)
    · by_cases hz : 0 < s.sh.sharedSemMutex
      · exact Or.inr hz
      · left
        intro d e
        exact hcon (Or.inr ⟨⟨d, e⟩, by omega⟩)
  have hcb : ∀ c ∈ s.consumers,
      (c = .waitMayConsume ∧ s.sh.sharedSemMayConsume = 0) ∨
      (c = .waitMutex ∧ s.sh.sharedSemMutex = 0) := by
    intro c hcm
    obtain ⟨t, ht⟩ := List.getElem?_of_mem hcm
    by_contra hcon
    apply hc
    refine ⟨t, c, ht, ?_, ?_⟩
    · by_cases hz : 0 < s.sh.sharedSemMayConsume
      · exact Or.inr hz
      · left
        intro e
        exact hcon (Or.inl ⟨e, by omega⟩)
    · by_cases hz : 0 < s.sh.sharedSemMutex
      · exact Or.inr hz
      · left
        intro e
        exact hcon (Or.inr ⟨e, by omega⟩)
  have hpin : s.producers.countP PPc.inCS = 0 := by
    rw [List.countP_eq_zero]
    intro p hpm
    rcases hpb p hpm with ⟨⟨d, e⟩, _⟩ | ⟨⟨d, e⟩, _⟩ <;> rw [e] <;> simp [PPc.inCS]
  have hcin : s.consumers.countP CPc.inCS = 0 := by
    rw [List.countP_eq_zero]
    intro c hcm
    rcases hcb c hcm with ⟨e, _⟩ | ⟨e, _⟩ <;> rw [e] <;> simp [CPc.inCS]
  have hmx : s.sh.sharedSemMutex = 1 := by omega
  have hpw : ∀ p ∈ s.producers, (∃ d, p = .waitMayProduce d) ∧ s.sh.sharedSemMayProduce = 0 := by
    intro p hpm
    rcases hpb p hpm with h1 | ⟨_, h2⟩
    · exact h1
    · omega
  have hcw : ∀ c ∈ s.consumers, c = .waitMayConsume ∧ s.sh.sharedSemMayConsume = 0 := by
    intro c hcm
    rcases hcb c hcm with h1 | ⟨_, h2⟩
    · exact h1
    · omega
  have hq := h.quiet
    (by
      intro p hpm
      obtain ⟨⟨d, e⟩, _⟩ := hpw p hpm
      rw [e]
      rfl)
    (by
      intro c hcm
      rw [(hcw c hcm).1]
      rfl)
  have hpp : s.producers.countP PPc.permit = 0 := by
    rw [List.countP_eq_zero]
    intro p hpm
    obtain ⟨⟨d, e⟩, _⟩ := hpw p hpm
    rw [e]
    simp [PPc.permit]
  have hcp : s.consumers.countP CPc.permit = 0 := by
    rw [List.countP_eq_zero]
    intro c hcm
    rw [(hcw c hcm).1]
    simp [CPc.permit]
  have hmp : s.sh.sharedSemMayProduce = 0 := (hpw _ (List.getElem_mem hnp)).2
  have hmc : s.sh.sharedSemMayConsume = 0 := (hcw _ (List.getElem_mem hnc)).2
  simp only [Quiet, nP, nC, hpp, hcp, hmp, hmc] at hq
  obtain ⟨q1, q2, q3, q4, q5⟩ := hq
  split_ifs at q1 q2 <;> omega

/-- C20: no deadlock.  For `BUFFER_SIZE > 0`, at least one producer and one consumer: in
every reachable state some thread can execute its next statement, and in every reachable
state in which every thread is at its loop head, the two arrays are not both exhausted, the mutex is free,
and `sharedSemMayProduce` holds a permit exactly if the produce array has room, and
`sharedSemMayConsume` exactly if the consume array has items; so one of them holds a
permit.  With at least one producer and one consumer, a producer scheduled alone then
completes a `protocolProduceData` call, or a consumer scheduled alone completes a
`protocolConsumeData` call, and the state is at rest again.  Functions `safeProduce` and
`safeConsume` of `swap_conprod.c` return under the same conditions. -/
theorem no_deadlock_at_rest (C np nc : Nat) (hC : 0 < C) (hnp : 0 < np) (hnc : 0 < nc)
    (s : State) (h : Reachable C np nc s) :
    (∃ a s1, step C s a = some s1) ∧
    (AtRest s →
    ¬ (s.sh.buf.sharedBufferPos.getD s.sh.buf.sharedProduceBufferId 0 = C ∧
       s.sh.buf.sharedBufferPos.getD s.sh.buf.sharedConsumeBufferId 0 = C) ∧
    s.sh.sharedSemMutex = 1 ∧
    (0 < s.sh.sharedSemMayProduce ↔
      s.sh.buf.sharedBufferPos.getD s.sh.buf.sharedProduceBufferId 0 < C) ∧
    (0 < s.sh.sharedSemMayConsume ↔
      s.sh.buf.sharedBufferPos.getD s.sh.buf.sharedConsumeBufferId 0 < C) ∧
    (0 < s.sh.sharedSemMayProduce ∨ 0 < s.sh.sharedSemMayConsume) ∧
    (0 < s.sh.sharedSemMayProduce → ∀ d : Int, ∃ sched s1, run C s sched = some s1 ∧
      AtRest s1 ∧ produced s1.trace = produced s.trace ++ [d] ∧
      completedProduces s1.trace = completedProduces s.trace + 1 ∧
      (Direct.safeProduceLogged C (Direct.ofLayered s.sh) d).isSome = true) ∧
    (0 < s.sh.sharedSemMayConsume → ∃ sched s1 d, run C s sched = some s1 ∧
      AtRest s1 ∧ consumed s1.trace = consumed s.trace ++ [d] ∧
      completedConsumes s1.trace = completedConsumes s.trace + 1 ∧
      (Direct.safeConsume C (Direct.ofLayered s.sh)).isSome = true)) := by
  have hinv := swap_inv_reachable C np nc hC s h
  obtain ⟨hlp, hlc⟩ := reachable_lengths C np nc s h
  refine ⟨some_thread_enabled C s hinv (by omega) (by omega), ?_⟩
  intro hrest
  obtain ⟨a1, a2, a3, a4, a5, a6⟩ := atRest_counts s hrest
  have hq := hinv.quiet a5 a6
  have hM := hinv.mutex
  simp only [Quiet, nP, nC, Buffer.pp, Buffer.cp] at hq
  obtain ⟨q1, q2, q3, q4, q5⟩ := hq
  rw [a1] at q1
  rw [a3] at q2
  have hmx : s.sh.sharedSemMutex = 1 := by omega
  have hp0 : s.producers[0]? = some .idle := by
    have hlt : 0 < s.producers.length := by omega
    rw [List.getElem?_eq_getElem hlt]
    exact congrArg some (hrest.1 _ (List.getElem_mem hlt))
  have hc0 : s.consumers[0]? = some .idle := by
    have hlt : 0 < s.consumers.length := by omega
    rw [List.getElem?_eq_getElem hlt]
    exact congrArg some (hrest.2 _ (List.getElem_mem hlt))
  refine ⟨q5, hmx, ?_, ?_, ?_, ?_, ?_⟩
  · split_ifs at q1 <;> omega
  · split_ifs at q2 <;> omega
  · split_ifs at q1 <;> split_ifs at q2 <;> omega
  · intro hp d
    obtain ⟨sched, s1, h1, h2, h3, h4, _, h6, _⟩ := produce_call_runs C s 0 d hp0 hp (by omega)
    refine ⟨sched, s1, h1, ⟨by rw [h2]; exact hrest.1, by rw [h3]; exact hrest.2⟩, h4, h6, ?_⟩
    obtain ⟨k, hk⟩ : ∃ k, s.sh.sharedSemMayProduce = k + 1 := ⟨s.sh.sharedSemMayProduce - 1, by omega⟩
    simp [Direct.safeProduceLogged, Direct.ofLayered, sem_wait, hk, hmx]
  · intro hc
    obtain ⟨sched, s1, d, h1, h2, h3, h4, _, h6, _⟩ := consume_call_runs C s 0 hc0 hc (by omega)
    refine ⟨sched, s1, d, h1, ⟨by rw [h2]; exact hrest.1, by rw [h3]; exact hrest.2⟩, h4, h6, ?_⟩
    obtain ⟨k, hk⟩ : ∃ k, s.sh.sharedSemMayConsume = k + 1 := ⟨s.sh.sharedSemMayConsume - 1, by omega⟩
    simp [Direct.safeConsume, Direct.ofLayered, sem_wait, hk, hmx]

theorem no_deadlock_at_rest_witness :
    0 < 2 ∧ 0 < 1 ∧ Reachable 2 1 1 demoStateEnd ∧ AtRest demoStateEnd ∧
    demoStateEnd.sh.sharedSemMutex = 1 ∧
    (0 < demoStateEnd.sh.sharedSemMayProduce ∨ 0 < demoStateEnd.sh.sharedSemMayConsume) :=
  ⟨by decide, by decide, demo_reachable_end, ⟨by decide, by decide⟩,
    ((no_deadlock_at_rest 2 1 1 (by decide) (by decide) (by decide) demoStateEnd
      demo_reachable_end).2 ⟨by decide, by decide⟩).2.1,
    ((no_deadlock_at_rest 2 1 1 (by decide) (by decide) (by decide) demoStateEnd
      demo_reachable_end).2 ⟨by decide, by decide⟩).2.2.2.2.1⟩

/-- Which statement emits which event, producers. -/
theorem producerStep_event (C : Nat) (sh sh1 : Shared) (rand : Int) (pc pc1 : PPc) (e : Option Ev)
    (h : producerStep C sh rand pc = some (sh1, pc1, e)) :
    (∀ d, e ≠ some (.consume d)) ∧ (e = some .swap → pc = .swap) ∧
    (∀ d, e = some (.produce d) → pc = .produce d) := by
  cases pc <;> simp only [producerStep] at h <;> (try split at h) <;>
    simp at h <;> obtain ⟨_, _, rfl⟩ := h <;> simp

/-- Which statement emits which event, consumers. -/
theorem consumerStep_event (C : Nat) (sh sh1 : Shared) (pc pc1 : CPc) (e : Option Ev)
    (h : consumerStep C sh pc = some (sh1, pc1, e)) :
    (∀ d, e ≠ some (.produce d)) ∧ (e = some .swap → ∃ d, pc = .swap d) ∧
    (∀ d, e = some (.consume d) → pc = .consume) := by
  cases pc <;> simp only [consumerStep] at h <;> (try split at h) <;>
    simp at h <;> obtain ⟨_, _, rfl⟩ := h <;> simp

/-- The step behind an event of the trace. -/
theorem step_event (C : Nat) (s s1 : State) (a : Action) (x : Tid × Ev)
    (hs : step C s a = some s1) (htr : s1.trace = s.trace ++ [x]) :
    (∀ d, x.2 = .consume d → ∃ t, x.1 = .consumer t ∧ s.consumers[t]? = some .consume) ∧
    (∀ d, x.2 = .produce d → ∃ t, x.1 = .producer t ∧ s.producers[t]? = some (.produce d)) ∧
    (x.2 = .swap → (∃ t, x.1 = .producer t ∧ s.producers[t]? = some .swap) ∨
      (∃ t d, x.1 = .consumer t ∧ s.consumers[t]? = some (.swap d))) := by
  cases a with
  | producer t rand =>
    simp only [step] at hs
    cases hr : s.producers[t]? with
    | none => simp [hr] at hs
    | some pc =>
      cases hp : producerStep C s.sh rand pc with
      | none => simp [hr, hp] at hs
      | some r =>
        obtain ⟨sh1, pc1, e⟩ := r
        simp [hr, hp] at hs
        subst hs
        obtain ⟨e1, e2, e3⟩ := producerStep_event C _ _ _ _ _ _ hp
        cases e with
        | none => simp [logEv] at htr
        | some ev =>
          simp [logEv] at htr
          subst htr
          refine ⟨?_, ?_, ?_⟩
          · intro d hd
            exact absurd (congrArg some hd) (e1 d)
          · intro d hd
            exact ⟨t, rfl, by rw [← e3 d (congrArg some hd)]; exact hr⟩
          · intro hd
            exact Or.inl ⟨t, rfl, by rw [← e2 (congrArg some hd)]; exact hr⟩
  | consumer t =>
    simp only [step] at hs
    cases hr : s.consumers[t]? with
    | none => simp [hr] at hs
    | some pc =>
      cases hp : consumerStep C s.sh pc with
      | none => simp [hr, hp] at hs
      | some r =>
        obtain ⟨sh1, pc1, e⟩ := r
        simp [hr, hp] at hs
        subst hs
        obtain ⟨e1, e2, e3⟩ := consumerStep_event C _ _ _ _ _ hp
        cases e with
        | none => simp [logEv] at htr
        | some ev =>
          simp [logEv] at htr
          subst htr
          refine ⟨?_, ?_, ?_⟩
          · intro d hd
            exact ⟨t, rfl, by rw [← e3 d (congrArg some hd)]; exact hr⟩
          · intro d hd
            exact absurd (congrArg some hd) (e1 d)
          · intro hd
            obtain ⟨d, hd2⟩ := e2 (congrArg some hd)
            exact Or.inr ⟨t, d, rfl, by rw [← hd2]; exact hr⟩

theorem step_trace (C : Nat) (s s1 : State) (a : Action) (hs : step C s a = some s1) :
    s1.trace = s.trace ∨ ∃ x, s1.trace = s.trace ++ [x] := by
  cases a with
  | producer t rand =>
    simp only [step] at hs
    cases hr : s.producers[t]? with
    | none => simp [hr] at hs
    | some pc =>
      cases hp : producerStep C s.sh rand pc with
      | none => simp [hr, hp] at hs
      | some r =>
        obtain ⟨sh1, pc1, e⟩ := r
        simp [hr, hp] at hs
        subst hs
        cases e with
        | none => exact Or.inl rfl
        | some ev => exact Or.inr ⟨_, rfl⟩
  | consumer t =>
    simp only [step] at hs
    cases hr : s.consumers[t]? with
    | none => simp [hr] at hs
    | some pc =>
      cases hp : consumerStep C s.sh pc with
      | none => simp [hr, hp] at hs
      | some r =>
        obtain ⟨sh1, pc1, e⟩ := r
        simp [hr, hp] at hs
        subst hs
        cases e with
        | none => exact Or.inl rfl
        | some ev => exact Or.inr ⟨_, rfl⟩

/-- Every event of the trace of a reachable state was emitted by a step from a reachable
state whose trace is the part before the event. -/
theorem trace_split_reachable (C np nc : Nat) (sched : List Action) :
    ∀ (s : State), run C (init C np nc) sched = some s →
      ∀ (pre post : List (Tid × Ev)) (x : Tid × Ev), s.trace = pre ++ x :: post →
        ∃ s0 a s1, Reachable C np nc s0 ∧ step C s0 a = some s1 ∧ s0.trace = pre ∧
          s1.trace = pre ++ [x] := by
  induction sched using List.reverseRecOn with
  | nil =>
    intro s hs pre post x htr
    simp [run] at hs
    subst hs
    simp [init] at htr
  | append_singleton sched a ih =>
    intro s hs pre post x htr
    rw [swap_run_append] at hs
    cases hm : run C (init C np nc) sched with
    | none => simp [hm] at hs
    | some s2 =>
      simp [hm, run] at hs
      cases hst : step C s2 a with
      | none => simp [hst] at hs
      | some s3 =>
        simp [hst] at hs
        subst hs
        rcases step_trace C s2 s3 a hst with h1 | ⟨e, h1⟩
        · rw [h1] at htr
          exact ih s2 hm pre post x htr
        · rw [h1] at htr
          rcases snoc_eq_append_cons s2.trace pre post e x htr with ⟨_, h3, h4⟩ | ⟨post0, _, h3⟩
          · subst h4
            exact ⟨s2, a, s3, ⟨sched, hm⟩, hst, h3.symm, by rw [h1, h3]⟩
          · exact ih s2 hm pre post0 x h3

theorem stored_le_inCS (ps : List PPc) : ps.countP PPc.stored ≤ ps.countP PPc.inCS := by
  apply List.countP_mono_left
  intro p _ hp
  cases p <;> simp [PPc.stored] at hp <;> rfl

theorem loaded_le_inCS (cs : List CPc) : cs.countP CPc.loaded ≤ cs.countP CPc.inCS := by
  apply List.countP_mono_left
  intro c _ hc
  cases c <;> simp [CPc.loaded] at hc <;> rfl

/-- Until the first swap the consume array stays exhausted and no consumer gets a permit. -/
theorem before_first_swap (C : Nat) (hC : 0 < C) (s : State) (h : Inv C s) (hc : Counts C s)
    (h0 : swaps s.trace = 0) :
    s.sh.buf.sharedConsumeBufferId = 0 ∧ s.sh.buf.sharedProduceBufferId = 1 ∧
    s.sh.buf.cp = C ∧ s.sh.buf.pp = (produced s.trace).length ∧ consumed s.trace = [] ∧
    nC s = 0 ∧ ∀ c ∈ s.consumers, c = .idle ∨ c = .waitMayConsume := by
  obtain ⟨c1, c2, c3, c4, c5, c6⟩ := hc
  rw [h0] at c1 c2 c3 c4
  obtain ⟨hpp, hcp⟩ := cursors_le C s h
  have hcp2 : s.sh.buf.cp = C := by omega
  have hcons : consumed s.trace = [] := List.length_eq_zero.mp (by omega)
  have hnc : nC s = 0 := by
    by_cases hp : ∀ p ∈ s.producers, p.mid = false
    · by_cases hc : ∀ c ∈ s.consumers, c.mid = false
      · have := (h.quiet hp hc).2.1
        rw [hcp2] at this
        simpa using this
      · simp only [not_forall] at hc
        obtain ⟨c, hc1, hc2⟩ := hc
        have := h.cfacts c hc1
        rw [hcp2] at this
        revert this hc2
        cases c <;> simp [CPc.mid, CFacts] <;> intros <;> omega
    · simp only [not_forall] at hp
      obtain ⟨p, hp1, hp2⟩ := hp
      have := h.pfacts p hp1
      rw [hcp2] at this
      revert this hp2
      cases p <;> simp [PPc.mid, PFacts] <;> intros <;> omega
  refine ⟨by simpa using c3, by simpa using c4, hcp2, by omega, hcons, hnc, ?_⟩
  intro c hcm
  have hl : s.consumers.countP CPc.loaded = 0 := by
    rw [hcons] at c6
    simp only [List.length_nil] at c6
    omega
  have hpm : s.consumers.countP CPc.permit = 0 := by
    simp only [nC] at hnc
    omega
  rw [List.countP_eq_zero] at hl hpm
  have h1 := hl c hcm
  have h2 := hpm c hcm
  revert h1 h2
  cases c <;> simp [CPc.loaded, CPc.permit]

theorem demo_reachable_swapped : Reachable 2 1 1 demoStateSwapped :=
  ⟨demoSchedule.take 17, by decide⟩

/-- C11: start-up of the swap protocol, for `BUFFER_SIZE > 0`, any number of threads and
any interleaving.  The initial state has consume id 0 with cursor `BUFFER_SIZE`, produce
id 1 with cursor 0, mutex 1, `sharedSemMayProduce` 1, `sharedSemMayConsume` 0.  Until the
first swap the consume array stays exhausted, nothing is consumed and every consumer is at
its loop head or blocked on `sharedSemMayConsume`.  Every `bufferConsumeData` call in the
trace comes after a swap and after at least `BUFFER_SIZE` completed `protocolProduceData`
calls.  The first swap is executed by a producer, inside the call that stored value number
`BUFFER_SIZE`; a producer that has stored that value goes on to the swap.  Right after the
first swap array 1 is the consume array, array 0 the produce array and both cursors are 0;
the outstanding permits are one of each kind once the swapping thread has posted, and at
rest both semaphores and the mutex hold one permit each.  In particular a state at rest
in which exactly `BUFFER_SIZE` values are stored and none is read is a state after exactly
one swap, with these ids, cursors and counts. -/
theorem startup_first_swap (C np nc : Nat) (hC : 0 < C) (s : State) (h : Reachable C np nc s) :
    ((init C np nc).sh.buf.sharedConsumeBufferId = 0 ∧
      (init C np nc).sh.buf.sharedProduceBufferId = 1 ∧
      (init C np nc).sh.buf.sharedBufferPos = [C, 0] ∧
      (init C np nc).sh.sharedSemMutex = 1 ∧ (init C np nc).sh.sharedSemMayProduce = 1 ∧
      (init C np nc).sh.sharedSemMayConsume = 0) ∧
    (swaps s.trace = 0 →
      s.sh.buf.sharedConsumeBufferId = 0 ∧ s.sh.buf.sharedProduceBufferId = 1 ∧
      s.sh.buf.sharedBufferPos.getD 0 0 = C ∧
      s.sh.buf.sharedBufferPos.getD 1 0 = (produced s.trace).length ∧
      consumed s.trace = [] ∧ s.sh.sharedSemMayConsume = 0 ∧
      ∀ c ∈ s.consumers, c = .idle ∨ c = .waitMayConsume) ∧
    (∀ pre post who d, s.trace = pre ++ (who, .consume d) :: post →
      1 ≤ swaps pre ∧ C ≤ completedProduces pre) ∧
    (∀ pre post who, s.trace = pre ++ (who, .swap) :: post → swaps pre = 0 →
      (∃ t, who = .producer t) ∧ (produced pre).length = C ∧ completedProduces pre + 1 = C ∧
      consumed pre = []) ∧
    (swaps s.trace = 0 → (produced s.trace).length = C →
      ∀ t, s.producers[t]? = some .testProduce →
        ∃ s2, run C s [.producer t 0, .producer t 0] = some s2 ∧
          s2.producers[t]? = some .swap) ∧
    (swaps s.trace = 1 → (produced s.trace).length = C → consumed s.trace = [] →
      s.sh.buf.sharedConsumeBufferId = 1 ∧ s.sh.buf.sharedProduceBufferId = 0 ∧
      s.sh.buf.sharedBufferPos.getD 0 0 = 0 ∧ s.sh.buf.sharedBufferPos.getD 1 0 = 0 ∧
      ((∀ p ∈ s.producers, p.mid = false) → (∀ c ∈ s.consumers, c.mid = false) →
        s.sh.sharedSemMayProduce + s.producers.countP PPc.permit = 1 ∧
        s.sh.sharedSemMayConsume + s.consumers.countP CPc.permit = 1) ∧
      (AtRest s → s.sh.sharedSemMayProduce = 1 ∧ s.sh.sharedSemMayConsume = 1 ∧
        s.sh.sharedSemMutex = 1)) ∧
    (AtRest s → (produced s.trace).length = C → consumed s.trace = [] →
      swaps s.trace = 1 ∧
      s.sh.buf.sharedConsumeBufferId = 1 ∧ s.sh.buf.sharedProduceBufferId = 0 ∧
      s.sh.buf.sharedBufferPos.getD 0 0 = 0 ∧ s.sh.buf.sharedBufferPos.getD 1 0 = 0 ∧
      s.sh.sharedSemMayProduce = 1 ∧ s.sh.sharedSemMayConsume = 1 ∧
      s.sh.sharedSemMutex = 1) := by
  have hinv := swap_inv_reachable C np nc hC s h
  have hcnt := counts_reachable C np nc hC s h
  have hafter : swaps s.trace = 1 → (produced s.trace).length = C → consumed s.trace = [] →
      s.sh.buf.sharedConsumeBufferId = 1 ∧ s.sh.buf.sharedProduceBufferId = 0 ∧
      s.sh.buf.sharedBufferPos.getD 0 0 = 0 ∧ s.sh.buf.sharedBufferPos.getD 1 0 = 0 ∧
      ((∀ p ∈ s.producers, p.mid = false) → (∀ c ∈ s.consumers, c.mid = false) →
        s.sh.sharedSemMayProduce + s.producers.countP PPc.permit = 1 ∧
        s.sh.sharedSemMayConsume + s.consumers.countP CPc.permit = 1) ∧
      (AtRest s → s.sh.sharedSemMayProduce = 1 ∧ s.sh.sharedSemMayConsume = 1 ∧
        s.sh.sharedSemMutex = 1) := by
    intro h1 hlen hcons
    obtain ⟨c1, c2, c3, c4, c5, c6⟩ := hcnt
    rw [h1] at c1 c2 c3 c4
    rw [hcons] at c2
    simp only [List.length_nil, Nat.one_mul] at c1 c2
    have hpp : s.sh.buf.pp = 0 := by omega
    have hcp : s.sh.buf.cp = 0 := by omega
    have e3 : s.sh.buf.sharedConsumeBufferId = 1 := by simpa using c3
    have e4 : s.sh.buf.sharedProduceBufferId = 0 := by simpa using c4
    have hpp0 := hpp
    have hcp0 := hcp
    simp only [Buffer.pp, Buffer.cp, e3, e4] at hpp0 hcp0
    have hq : (∀ p ∈ s.producers, p.mid = false) → (∀ c ∈ s.consumers, c.mid = false) →
        s.sh.sharedSemMayProduce + s.producers.countP PPc.permit = 1 ∧
        s.sh.sharedSemMayConsume + s.consumers.countP CPc.permit = 1 := by
      intro hp hc
      have := hinv.quiet hp hc
      simp only [Quiet, nP, nC, hpp, hcp, hC, if_true] at this
      exact ⟨this.1, this.2.1⟩
    refine ⟨e3, e4, hpp0, hcp0, hq, ?_⟩
    intro hrest
    obtain ⟨a1, a2, a3, a4, a5, a6⟩ := atRest_counts s hrest
    have := hq a5 a6
    have hM := hinv.mutex
    omega
  refine ⟨?_, ?_, ?_, ?_, ?_, hafter, ?_⟩
  · simp [init, protocolInit, bufferInit]
  · intro h0
    obtain ⟨b1, b2, b3, b4, b5, b6, b7⟩ := before_first_swap C hC s hinv hcnt h0
    simp only [Buffer.cp, Buffer.pp, b1, b2] at b3 b4
    simp only [nC] at b6
    exact ⟨b1, b2, b3, b4, b5, by omega, b7⟩
  · intro pre post who d htr
    obtain ⟨sched, hs⟩ := h
    obtain ⟨s0, a, s1, hr0, hst, ht0, ht1⟩ :=
      trace_split_reachable C np nc sched s hs pre post (who, .consume d) htr
    have hinv0 := swap_inv_reachable C np nc hC s0 hr0
    have hcnt0 := counts_reachable C np nc hC s0 hr0
    obtain ⟨t, _, hpc⟩ := (step_event C s0 s1 a (who, .consume d) hst (by rw [ht1, ht0])).1 d rfl
    have hmem := List.getElem?_mem hpc
    have hsw : 1 ≤ swaps pre := by
      by_contra hlt
      have h0 : swaps s0.trace = 0 := by rw [ht0]; omega
      have := (before_first_swap C hC s0 hinv0 hcnt0 h0).2.2.2.2.2.2 _ hmem
      simp at this
    refine ⟨hsw, ?_⟩
    have hM := hinv0.mutex
    have h1 : 1 ≤ s0.consumers.countP CPc.inCS := List.countP_pos_iff.mpr ⟨_, hmem, rfl⟩
    have h2 := stored_le_inCS s0.producers
    have h3 := hcnt0.stored
    have h4 := hcnt0.producesDone
    rw [ht0] at h3 h4
    have h5 : C ≤ swaps pre * C := Nat.le_mul_of_pos_left C hsw
    omega
  · intro pre post who htr h0
    obtain ⟨sched, hs⟩ := h
    obtain ⟨s0, a, s1, hr0, hst, ht0, ht1⟩ :=
      trace_split_reachable C np nc sched s hs pre post (who, .swap) htr
    have hinv0 := swap_inv_reachable C np nc hC s0 hr0
    have hcnt0 := counts_reachable C np nc hC s0 hr0
    have h00 : swaps s0.trace = 0 := by rw [ht0]; exact h0
    obtain ⟨b1, b2, b3, b4, b5, b6, b7⟩ := before_first_swap C hC s0 hinv0 hcnt0 h00
    rcases (step_event C s0 s1 a (who, .swap) hst (by rw [ht1, ht0])).2.2 rfl with
      ⟨t, hw, hpc⟩ | ⟨t, d, _, hpc⟩
    · have hmem := List.getElem?_mem hpc
      have hf := hinv0.pfacts _ hmem
      simp only [PFacts] at hf
      have hM := hinv0.mutex
      have h1 : 1 ≤ s0.producers.countP PPc.stored := List.countP_pos_iff.mpr ⟨_, hmem, rfl⟩
      have h2 := stored_le_inCS s0.producers
      have h4 := hcnt0.producesDone
      rw [ht0] at b4 b5 h4
      exact ⟨⟨t, hw⟩, by omega, by omega, b5⟩
    · have := b7 _ (List.getElem?_mem hpc)
      simp at this
  · intro h0 hlen t ht
    obtain ⟨b1, b2, b3, b4, b5, b6, b7⟩ := before_first_swap C hC s hinv hcnt h0
    obtain ⟨s2, hr2, hiff⟩ := producer_decision C s t ht
    exact ⟨s2, hr2, hiff.mpr ⟨by omega, b3⟩⟩
  · intro hrest hlen hcons
    obtain ⟨a1, a2, a3, a4, a5, a6⟩ := atRest_counts s hrest
    have hq := hinv.quiet a5 a6
    have c1 := hcnt.stored
    have hsw : swaps s.trace = 1 := by
      rcases Nat.lt_or_ge (swaps s.trace) 1 with hlt | hge
      · have h0 : swaps s.trace = 0 := by omega
        obtain ⟨_, _, b3, _⟩ := before_first_swap C hC s hinv hcnt h0
        rw [h0] at c1
        exact absurd ⟨by omega, b3⟩ hq.2.2.2.2
      · rcases Nat.lt_or_ge 1 (swaps s.trace) with hgt | hle
        · have := Nat.mul_le_mul_right C hgt
          omega
        · omega
    obtain ⟨e1, e2, e3, e4, _, e6⟩ := hafter hsw hlen hcons
    obtain ⟨e7, e8, e9⟩ := e6 hrest
    exact ⟨hsw, e1, e2, e3, e4, e7, e8, e9⟩

theorem startup_first_swap_witness :
    0 < 2 ∧ Reachable 2 1 1 demoStateSwapped ∧ swaps demoStateSwapped.trace = 1 ∧
    (produced demoStateSwapped.trace).length = 2 ∧ consumed demoStateSwapped.trace = [] ∧
    AtRest demoStateSwapped ∧
    demoStateSwapped.sh.sharedSemMayProduce = 1 ∧ demoStateSwapped.sh.sharedSemMayConsume = 1 ∧
    demoStateSwapped.sh.sharedSemMutex = 1 :=
  ⟨by decide, demo_reachable_swapped, by decide, by decide, by decide, ⟨by decide, by decide⟩,
    ((startup_first_swap 2 1 1 (by decide) demoStateSwapped demo_reachable_swapped).2.2.2.2.2.1
      (by decide) (by decide) (by decide)).2.2.2.2.2 ⟨by decide, by decide⟩⟩

/-- C13, the claim fails: with `BUFFER_SIZE = 2`, one producer and one consumer, after the
producer has pushed 7 and 3 and the consumer has taken 7 and 3, no swap is triggered and
a third produce is accepted.  The state after the second consume has an exhausted consume
array and an empty produce array, with a permit on `sharedSemMayProduce`; in the trace of
the run that continues with a produce call of 9, the part after the `bufferConsumeData`
call that returned 3 contains the store of 9, a completed produce call and no swap. -/
theorem scenario_third_produce_without_swap :
    ∃ s4 s5,
      run 2 (init 2 1 1)
        (produceCall 0 7 ++ produceSwapCall 0 3 ++ consumeCall 0 ++ consumeCall 0) = some s4 ∧
      consumed s4.trace = [7, 3] ∧ AtRest s4 ∧
      bufferConsumeIsExhausted 2 s4.sh.buf = true ∧
      bufferProduceIsExhausted 2 s4.sh.buf = false ∧
      s4.sh.sharedSemMayProduce = 1 ∧
      run 2 s4 (produceCall 0 9) = some s5 ∧ AtRest s5 ∧
      s5.trace[19]? = some (.consumer 0, .consume 3) ∧
      consumed (s5.trace.take 19) = [7] ∧ produced (s5.trace.take 19) = [7, 3] ∧
      produced (s5.trace.drop 20) = [9] ∧ completedProduces (s5.trace.drop 20) = 1 ∧
      swaps (s5.trace.drop 20) = 0 := by
  refine ⟨_, _, rfl, by decide, ⟨by decide, by decide⟩, by decide, by decide, rfl, rfl,
    ⟨by decide, by decide⟩, by decide, by decide, by decide, by decide, by decide, by decide⟩

/-- C13 as amended: with `BUFFER_SIZE = 2`, one producer and one consumer, from the initial
state.  The produce call of 7 does not swap.  The produce call of 3 fills the produce array
while the consume array is still exhausted from the start, and swaps within the call,
before any consume.  The first consume call returns 7, the second returns 3.  After the
second consume call the consume array is exhausted and the produce array is empty: there
is still one swap in the trace, `sharedSemMayConsume` is 0 and a third consume blocks,
`sharedSemMayProduce` is 1.  A third produce call (9) is accepted without a swap, and the
fourth (4) triggers the second swap. -/
theorem scenario_swap_by_second_produce :
    ∃ s1 s2 s3 s4 s5 s6,
      run 2 (init 2 1 1) (produceCall 0 7) = some s1 ∧ AtRest s1 ∧ swaps s1.trace = 0 ∧
      run 2 s1 (produceSwapCall 0 3) = some s2 ∧ AtRest s2 ∧ swaps s2.trace = 1 ∧
      s2.trace.getLast? = some (.producer 0, .semPost .mutex) ∧
      (.producer 0, .swap) ∈ s2.trace ∧
      produced s2.trace = [7, 3] ∧ consumed s2.trace = [] ∧
      s2.sh = { buf := { sharedConsumeBufferId := 1, sharedProduceBufferId := 0,
                         sharedBufferPos := [0, 0], sharedBuffers := [[0, 0], [7, 3]] },
                sharedSemMutex := 1, sharedSemMayProduce := 1, sharedSemMayConsume := 1 } ∧
      run 2 s2 (consumeCall 0) = some s3 ∧ AtRest s3 ∧ consumed s3.trace = [7] ∧
      run 2 s3 (consumeCall 0) = some s4 ∧ AtRest s4 ∧ consumed s4.trace = [7, 3] ∧
      swaps s4.trace = 1 ∧
      bufferConsumeIsExhausted 2 s4.sh.buf = true ∧
      bufferProduceIsExhausted 2 s4.sh.buf = false ∧
      s4.sh.sharedSemMayProduce = 1 ∧ s4.sh.sharedSemMayConsume = 0 ∧
      run 2 s4 [.consumer 0, .consumer 0] = none ∧
      run 2 s4 (produceCall 0 9) = some s5 ∧ AtRest s5 ∧ swaps s5.trace = 1 ∧
      produced s5.trace = [7, 3, 9] ∧
      run 2 s5 (produceSwapCall 0 4) = some s6 ∧ AtRest s6 ∧ swaps s6.trace = 2 ∧
      produced s6.trace = [7, 3, 9, 4] ∧ consumed s6.trace = [7, 3] ∧
      s6.sh.buf.sharedConsumeBufferId = 0 ∧ s6.sh.buf.sharedProduceBufferId = 1 := by
  refine ⟨_, _, _, _, _, _, rfl, ⟨by decide, by decide⟩, by decide,
    rfl, ⟨by decide, by decide⟩, by decide, by decide, by decide, by decide, by decide, rfl,
    rfl, ⟨by decide, by decide⟩, by decide,
    rfl, ⟨by decide, by decide⟩, by decide, by decide, by decide, by decide, rfl, rfl, rfl,
    rfl, ⟨by decide, by decide⟩, by decide, by decide,
    rfl, ⟨by decide, by decide⟩, by decide, by decide, by decide, rfl, rfl⟩

theorem logEv_after_trace (tr tr0 : List (Tid × Ev)) (who : Tid) (e : Option Ev) :
    logEv (tr ++ tr0) who e = tr ++ logEv tr0 who e := by
  cases e <;> simp [logEv]

/-- A step does not look at the events already logged. -/
theorem step_after_trace (C : Nat) (tr : List (Tid × Ev)) (sh : Shared) (ps : List PPc)
    (cs : List CPc) (tr0 : List (Tid × Ev)) (a : Action) :
    step C { sh := sh, producers := ps, consumers := cs, trace := tr ++ tr0 } a =
      (step C { sh := sh, producers := ps, consumers := cs, trace := tr0 } a).map
        fun s1 => { s1 with trace := tr ++ s1.trace } := by
  cases a with
  | producer t rand =>
    simp only [step]
    cases hr : ps[t]? with
    | none => rfl
    | some pc =>
      cases hp : producerStep C sh rand pc with
      | none => simp [hp]
      | some r => simp [hp, logEv_after_trace]
  | consumer t =>
    simp only [step]
    cases hr : cs[t]? with
    | none => rfl
    | some pc =>
      cases hp : consumerStep C sh pc with
      | none => simp [hp]
      | some r => simp [hp, logEv_after_trace]

/-- A run does not look at the events already logged. -/
theorem run_after_trace (C : Nat) (tr : List (Tid × Ev)) (sched : List Action) :
    ∀ (sh : Shared) (ps : List PPc) (cs : List CPc) (tr0 : List (Tid × Ev)),
      run C { sh := sh, producers := ps, consumers := cs, trace := tr ++ tr0 } sched =
        (run C { sh := sh, producers := ps, consumers := cs, trace := tr0 } sched).map
          fun s1 => { s1 with trace := tr ++ s1.trace } := by
  induction sched with
  | nil =>
    intro sh ps cs tr0
    simp [run]
  | cons a as ih =>
    intro sh ps cs tr0
    simp only [run, step_after_trace]
    cases step C { sh := sh, producers := ps, consumers := cs, trace := tr0 } a with
    | none => rfl
    | some s1 =>
      obtain ⟨sh1, ps1, cs1, tr1⟩ := s1
      simp [ih]

/-- A schedule that leads from a state at rest with an empty trace to a state at rest leads
there after any trace, and appends its events. -/
theorem run_rest_after_trace (C : Nat) (sh sh1 : Shared) (sched : List Action) (T : List (Tid × Ev))
    (h : run C (restState4 sh []) sched = some (restState4 sh1 T)) (tr : List (Tid × Ev)) :
    run C (restState4 sh tr) sched = some (restState4 sh1 (tr ++ T)) := by
  have := run_after_trace C tr sched sh [.idle, .idle] [.idle, .idle] []
  simp only [List.append_nil] at this
  simp only [restState4] at h ⊢
  rw [this, h]
  rfl

theorem run_append_some (C : Nat) (s s1 : State) (a b : List Action)
    (h : run C s a = some s1) : run C s (a ++ b) = run C s1 b := by
  rw [swap_run_append, h]
  rfl

set_option maxRecDepth 100000 in
/-- Two rounds of filling and draining bring the shared variables back. -/
theorem twoRounds4_run :
    ∃ T, run 4 (restState4 swappedShared4 []) twoRounds4 = some (restState4 swappedShared4 T) ∧
      swaps T = 2 ∧ completedProduces T = 8 ∧ completedConsumes T = 8 :=
  ⟨_, rfl, by decide, by decide, by decide⟩

set_option maxRecDepth 100000 in
theorem fillSwap4_run :
    ∃ T, run 4 (init 4 2 2) fillSwap4 = some (restState4 swappedShared4 T) ∧
      swaps T = 1 ∧ completedProduces T = 4 ∧ completedConsumes T = 0 :=
  ⟨_, rfl, by decide, by decide, by decide⟩

set_option maxRecDepth 100000 in
theorem fill4_run :
    ∃ T, run 4 (restState4 swappedShared4 []) fill4 = some (restState4 fullShared4 T) ∧
      swaps T = 0 ∧ completedProduces T = 4 ∧ completedConsumes T = 0 :=
  ⟨_, rfl, by decide, by decide, by decide⟩

theorem repeat_twoRounds4 (k : Nat) :
    ∀ tr, ∃ T, run 4 (restState4 swappedShared4 tr) (repeatSched k twoRounds4) =
        some (restState4 swappedShared4 (tr ++ T)) ∧
      swaps T = 2 * k ∧ completedProduces T = 8 * k ∧ completedConsumes T = 8 * k := by
  induction k with
  | zero =>
    intro tr
    exact ⟨[], by simp [repeatSched, run], rfl, rfl, rfl⟩
  | succ k ih =>
    intro tr
    obtain ⟨T1, h1, a1, a2, a3⟩ := twoRounds4_run
    obtain ⟨T2, h2, b1, b2, b3⟩ := ih (tr ++ T1)
    refine ⟨T1 ++ T2, ?_, ?_, ?_, ?_⟩
    · have e : repeatSched (k + 1) twoRounds4 = twoRounds4 ++ repeatSched k twoRounds4 := rfl
      rw [e, run_append_some 4 _ _ _ _ (run_rest_after_trace 4 _ _ _ T1 h1 tr), h2, List.append_assoc]
    · rw [swaps_append, a1, b1]
      ring
    · rw [completedProduces_append, a2, b2]
      ring
    · rw [completedConsumes_append, a3, b3]
      ring

/-- C14, the claim fails: with two producers, two consumers and `BUFFER_SIZE = 4` the
schedule `thousandOps` is a run of 1000 completed operations, 504 produce calls and 496
consume calls, that ends at rest with 125 swaps, whereas 504 / 4 = 126: the produce array
has been filled again and waits for the consumers to drain the consume array. -/
theorem thousand_operations_swap_count :
    ∃ s, run 4 (init 4 2 2) thousandOps = some s ∧ AtRest s ∧
      completedProduces s.trace + completedConsumes s.trace = 1000 ∧
      completedProduces s.trace = 504 ∧ swaps s.trace = 125 ∧
      swaps s.trace ≠ completedProduces s.trace / 4 ∧
      s.sh.buf.sharedBufferPos.getD s.sh.buf.sharedProduceBufferId 0 = 4 ∧
      s.sh.buf.sharedBufferPos.getD s.sh.buf.sharedConsumeBufferId 0 = 0 := by
  obtain ⟨T0, h0, a1, a2, a3⟩ := fillSwap4_run
  obtain ⟨T1, h1, b1, b2, b3⟩ := repeat_twoRounds4 62 T0
  obtain ⟨T2, h2, c1, c2, c3⟩ := fill4_run
  have h3 := run_rest_after_trace 4 _ _ _ T2 h2 (T0 ++ T1)
  have hrun : run 4 (init 4 2 2) thousandOps =
      some (restState4 fullShared4 (T0 ++ T1 ++ T2)) := by
    have e : thousandOps = fillSwap4 ++ repeatSched 62 twoRounds4 ++ fill4 := rfl
    rw [e, run_append_some 4 _ _ _ _ ((run_append_some 4 _ _ _ _ h0).trans h1)]
    exact h3
  have e1 : completedProduces (T0 ++ T1 ++ T2) = 504 := by
    rw [completedProduces_append, completedProduces_append, a2, b2, c2]
  have e2 : completedConsumes (T0 ++ T1 ++ T2) = 496 := by
    rw [completedConsumes_append, completedConsumes_append, a3, b3, c3]
  have e3 : swaps (T0 ++ T1 ++ T2) = 125 := by
    rw [swaps_append, swaps_append, a1, b1, c1]
  have hrest : ∀ (sh : Shared) (tr : List (Tid × Ev)), AtRest (restState4 sh tr) := by
    intro sh tr
    constructor <;> simp [restState4]
  refine ⟨_, hrun, hrest _ _, ?_, e1, e3, ?_, rfl, rfl⟩
  · show completedProduces (T0 ++ T1 ++ T2) + completedConsumes (T0 ++ T1 ++ T2) = 1000
    rw [e1, e2]
  · show swaps (T0 ++ T1 ++ T2) ≠ completedProduces (T0 ++ T1 ++ T2) / 4
    rw [e1, e3]
    decide

theorem div_of_cursor (C q r : Nat) (hC : 0 < C) (hr : r ≤ C) :
    (q * C + r) / C = if r < C then q else q + 1 := by
  by_cases h : r < C
  · rw [if_pos h, Nat.add_comm, Nat.add_mul_div_right _ _ hC, Nat.div_eq_of_lt h, Nat.zero_add]
  · have e : r = C := by omega
    subst e
    rw [if_neg h]
    have : q * r + r = (q + 1) * r := by ring
    rw [this, Nat.mul_div_cancel _ hC]

/-- C14 as amended: the swap count in terms of the produce and consume counts, for
`BUFFER_SIZE > 0`, any number of producers and consumers and any interleaving.  The number
of values stored is `swaps * BUFFER_SIZE` plus the produce cursor, the number of values read
plus `BUFFER_SIZE` is `swaps * BUFFER_SIZE` plus the consume cursor, and the completed calls
are the values stored or read minus the at most one call that has not yet released the
mutex.  Hence, while no thread is between its buffer operation and its release of the
mutex: the number of swaps is `totalProduced / BUFFER_SIZE` as long as the produce array is
not full, it is one less while the produce array is full and waits for the consumers, and
it always equals the smaller of `totalProduced / BUFFER_SIZE` and
`totalConsumed / BUFFER_SIZE + 1`. -/
theorem swap_count (C np nc : Nat) (hC : 0 < C) (s : State) (h : Reachable C np nc s) :
    (produced s.trace).length =
      swaps s.trace * C + s.sh.buf.sharedBufferPos.getD s.sh.buf.sharedProduceBufferId 0 ∧
    (consumed s.trace).length + C =
      swaps s.trace * C + s.sh.buf.sharedBufferPos.getD s.sh.buf.sharedConsumeBufferId 0 ∧
    s.sh.buf.sharedBufferPos.getD s.sh.buf.sharedProduceBufferId 0 ≤ C ∧
    s.sh.buf.sharedBufferPos.getD s.sh.buf.sharedConsumeBufferId 0 ≤ C ∧
    (produced s.trace).length = completedProduces s.trace + s.producers.countP PPc.stored ∧
    (consumed s.trace).length = completedConsumes s.trace + s.consumers.countP CPc.loaded ∧
    s.producers.countP PPc.stored + s.consumers.countP CPc.loaded ≤ 1 ∧
    (s.producers.countP PPc.stored = 0 →
      (s.sh.buf.sharedBufferPos.getD s.sh.buf.sharedProduceBufferId 0 < C →
        swaps s.trace = completedProduces s.trace / C) ∧
      (s.sh.buf.sharedBufferPos.getD s.sh.buf.sharedProduceBufferId 0 = C →
        swaps s.trace + 1 = completedProduces s.trace / C)) ∧
    (s.producers.countP PPc.stored = 0 → s.consumers.countP CPc.loaded = 0 →
      swaps s.trace = min (completedProduces s.trace / C) (completedConsumes s.trace / C + 1)) := by
  have hinv := swap_inv_reachable C np nc hC s h
  obtain ⟨c1, c2, c3, c4, c5, c6⟩ := counts_reachable C np nc hC s h
  obtain ⟨hpp, hcp⟩ := cursors_le C s hinv
  have hM := hinv.mutex
  have h1 := stored_le_inCS s.producers
  have h2 := loaded_le_inCS s.consumers
  simp only [Buffer.pp, Buffer.cp] at c1 c2 hpp hcp
  refine ⟨c1, c2, hpp, hcp, c5, c6, by omega, ?_, ?_⟩
  · intro h0
    have e : completedProduces s.trace =
        swaps s.trace * C + s.sh.buf.sharedBufferPos.getD s.sh.buf.sharedProduceBufferId 0 := by
      omega
    rw [e, div_of_cursor C _ _ hC hpp]
    constructor
    · intro hlt
      rw [if_pos hlt]
    · intro heq
      rw [if_neg (by omega)]
  · intro h0 h3
    have e : completedProduces s.trace =
        swaps s.trace * C + s.sh.buf.sharedBufferPos.getD s.sh.buf.sharedProduceBufferId 0 := by
      omega
    have e2 : completedConsumes s.trace + C =
        swaps s.trace * C + s.sh.buf.sharedBufferPos.getD s.sh.buf.sharedConsumeBufferId 0 := by
      omega
    have e3 : completedConsumes s.trace / C + 1 = (completedConsumes s.trace + C) / C := by
      rw [Nat.add_div_right _ hC]
    have hq : ¬ (s.sh.buf.pp = C ∧ s.sh.buf.cp = C) := by
      have hp : ∀ p ∈ s.producers, p.mid = false := by
        rw [List.countP_eq_zero] at h0
        intro p hp
        have := h0 p hp
        revert this
        cases p <;> simp [PPc.stored, PPc.mid]
      have hc : ∀ c ∈ s.consumers, c.mid = false := by
        rw [List.countP_eq_zero] at h3
        intro c hc
        have := h3 c hc
        revert this
        cases c <;> simp [CPc.loaded, CPc.mid]
      exact (hinv.quiet hp hc).2.2.2.2
    simp only [Buffer.pp, Buffer.cp] at hq
    rw [e3, e, e2, div_of_cursor C _ _ hC hpp, div_of_cursor C _ _ hC hcp]
    split_ifs <;> omega

theorem swap_count_witness :
    0 < 2 ∧ Reachable 2 1 1 demoStateEnd ∧
    (produced demoStateEnd.trace).length = swaps demoStateEnd.trace * 2 +
      demoStateEnd.sh.buf.sharedBufferPos.getD demoStateEnd.sh.buf.sharedProduceBufferId 0 ∧
    swaps demoStateEnd.trace =
      min (completedProduces demoStateEnd.trace / 2) (completedConsumes demoStateEnd.trace / 2 + 1) :=
  ⟨by decide, demo_reachable_end,
    (swap_count 2 1 1 (by decide) demoStateEnd demo_reachable_end).1,
    (swap_count 2 1 1 (by decide) demoStateEnd demo_reachable_end).2.2.2.2.2.2.2.2
      (by decide) (by decide)⟩

set_option maxHeartbeats 1600000 in
/-- One operation keeps the two versions in corresponding states, with the same outcome. -/
theorem applyOp_corresponds (C : Nat) (sh : Shared) (h : sh.buf.WF C) (op : Op) :
    (applyOp C sh op).map (fun r => (Direct.ofLayered r.1, r.2)) =
      Direct.applyOp C (Direct.ofLayered sh) op ∧
    ∀ sh1 o, applyOp C sh op = some (sh1, o) → sh1.buf.WF C := by
  obtain ⟨buf, mx, mp, mc⟩ := sh
  simp only at h
  cases op with
  | produce d =>
    obtain ⟨f1, f2, f3, _⟩ := produce_facts C buf d h
    obtain ⟨g1, _, _, _⟩ := swap_facts C (bufferProduceData buf d) f1
    constructor
    · obtain ⟨a, c, r0, r1, hp, hb, hr0, hr1⟩ := wf_shape C buf h
      obtain ⟨cid, pid, pos, bufs⟩ := buf
      simp only at hp hb
      subst hp hb
      cases mp with
      | zero =>
        simp [applyOp, protocolProduceData, runProducer, producerStep, sem_wait,
          Direct.applyOp, Direct.safeProduceLogged, Direct.ofLayered]
      | succ mp =>
      cases mx with
      | zero =>
        simp [applyOp, protocolProduceData, runProducer, producerStep, sem_wait,
          Direct.applyOp, Direct.safeProduceLogged, Direct.ofLayered]
      | succ mx =>
      rcases h.2.2.2 with ⟨e1, e2⟩ | ⟨e1, e2⟩ <;> simp only at e1 e2 <;> subst e1 e2
      · by_cases h1 : a + 1 = C
        · by_cases h2 : c = C
          · simp [applyOp, protocolProduceData, runProducer, producerStep, sem_wait, sem_post,
              bufferProduceIsExhausted, bufferConsumeIsExhausted, bufferProduceData, bufferSwap,
              Direct.applyOp, Direct.safeProduceLogged, Direct.safeSwapBuffers,
              Direct.ofLayered, h1, h2]
          · simp [applyOp, protocolProduceData, runProducer, producerStep, sem_wait, sem_post,
              bufferProduceIsExhausted, bufferConsumeIsExhausted, bufferProduceData, bufferSwap,
              Direct.applyOp, Direct.safeProduceLogged, Direct.safeSwapBuffers,
              Direct.ofLayered, h1, h2]
        · simp [applyOp, protocolProduceData, runProducer, producerStep, sem_wait, sem_post,
            bufferProduceIsExhausted, bufferConsumeIsExhausted, bufferProduceData, bufferSwap,
            Direct.applyOp, Direct.safeProduceLogged, Direct.safeSwapBuffers,
            Direct.ofLayered, h1]
      · by_cases h1 : c + 1 = C
        · by_cases h2 : a = C
          · simp [applyOp, protocolProduceData, runProducer, producerStep, sem_wait, sem_post,
              bufferProduceIsExhausted, bufferConsumeIsExhausted, bufferProduceData, bufferSwap,
              Direct.applyOp, Direct.safeProduceLogged, Direct.safeSwapBuffers,
              Direct.ofLayered, h1, h2]
          · simp [applyOp, protocolProduceData, runProducer, producerStep, sem_wait, sem_post,
              bufferProduceIsExhausted, bufferConsumeIsExhausted, bufferProduceData, bufferSwap,
              Direct.applyOp, Direct.safeProduceLogged, Direct.safeSwapBuffers,
              Direct.ofLayered, h1, h2]
        · simp [applyOp, protocolProduceData, runProducer, producerStep, sem_wait, sem_post,
            bufferProduceIsExhausted, bufferConsumeIsExhausted, bufferProduceData, bufferSwap,
            Direct.applyOp, Direct.safeProduceLogged, Direct.safeSwapBuffers,
            Direct.ofLayered, h1]
    · intro sh1 o hs
      simp only [applyOp, protocolProduceData_eq] at hs
      split_ifs at hs <;> simp at hs <;> obtain ⟨rfl, _⟩ := hs <;> assumption
  | consume =>
    obtain ⟨f1, f2, f3, _⟩ := consume_facts C buf h
    obtain ⟨g1, _, _, _⟩ := swap_facts C (bufferConsumeData buf).2 f1
    constructor
    · obtain ⟨a, c, r0, r1, hp, hb, hr0, hr1⟩ := wf_shape C buf h
      obtain ⟨cid, pid, pos, bufs⟩ := buf
      simp only at hp hb
      subst hp hb
      cases mc with
      | zero =>
        simp [applyOp, protocolConsumeData, runConsumer, consumerStep, sem_wait,
          Direct.applyOp, Direct.safeConsume, Direct.ofLayered]
      | succ mc =>
      cases mx with
      | zero =>
        simp [applyOp, protocolConsumeData, runConsumer, consumerStep, sem_wait,
          Direct.applyOp, Direct.safeConsume, Direct.ofLayered]
      | succ mx =>
      rcases h.2.2.2 with ⟨e1, e2⟩ | ⟨e1, e2⟩ <;> simp only at e1 e2 <;> subst e1 e2
      · by_cases h1 : c + 1 = C
        · by_cases h2 : a = C
          · simp [applyOp, protocolConsumeData, runConsumer, consumerStep, sem_wait, sem_post,
              bufferProduceIsExhausted, bufferConsumeIsExhausted, bufferConsumeData, bufferSwap,
              Direct.applyOp, Direct.safeConsume, Direct.safeSwapBuffers,
              Direct.ofLayered, h1, h2]
          · simp [applyOp, protocolConsumeData, runConsumer, consumerStep, sem_wait, sem_post,
              bufferProduceIsExhausted, bufferConsumeIsExhausted, bufferConsumeData, bufferSwap,
              Direct.applyOp, Direct.safeConsume, Direct.safeSwapBuffers,
              Direct.ofLayered, h1, h2]
        · simp [applyOp, protocolConsumeData, runConsumer, consumerStep, sem_wait, sem_post,
            bufferProduceIsExhausted, bufferConsumeIsExhausted, bufferConsumeData, bufferSwap,
            Direct.applyOp, Direct.safeConsume, Direct.safeSwapBuffers,
            Direct.ofLayered, h1]
      · by_cases h1 : a + 1 = C
        · by_cases h2 : c = C
          · simp [applyOp, protocolConsumeData, runConsumer, consumerStep, sem_wait, sem_post,
              bufferProduceIsExhausted, bufferConsumeIsExhausted, bufferConsumeData, bufferSwap,
              Direct.applyOp, Direct.safeConsume, Direct.safeSwapBuffers,
              Direct.ofLayered, h1, h2]
          · simp [applyOp, protocolConsumeData, runConsumer, consumerStep, sem_wait, sem_post,
              bufferProduceIsExhausted, bufferConsumeIsExhausted, bufferConsumeData, bufferSwap,
              Direct.applyOp, Direct.safeConsume, Direct.safeSwapBuffers,
              Direct.ofLayered, h1, h2]
        · simp [applyOp, protocolConsumeData, runConsumer, consumerStep, sem_wait, sem_post,
            bufferProduceIsExhausted, bufferConsumeIsExhausted, bufferConsumeData, bufferSwap,
            Direct.applyOp, Direct.safeConsume, Direct.safeSwapBuffers,
            Direct.ofLayered, h1]
    · intro sh1 o hs
      simp only [applyOp, protocolConsumeData_eq] at hs
      split_ifs at hs <;> simp at hs <;> obtain ⟨rfl, _⟩ := hs <;> assumption

theorem runOps_corresponds (C : Nat) (ops : List Op) :
    ∀ sh : Shared, sh.buf.WF C →
      (runOps C sh ops).map (List.map fun r => (Direct.ofLayered r.1, r.2)) =
        Direct.runOps C (Direct.ofLayered sh) ops := by
  induction ops with
  | nil =>
    intro sh _
    rfl
  | cons op ops ih =>
    intro sh h
    obtain ⟨h1, h2⟩ := applyOp_corresponds C sh h op
    cases ha : applyOp C sh op with
    | none =>
      rw [ha] at h1
      simp only [Option.map_none'] at h1
      simp [runOps, Direct.runOps, ha, ← h1]
    | some r =>
      obtain ⟨sh1, o⟩ := r
      rw [ha] at h1
      simp only [Option.map_some'] at h1
      have hi := ih sh1 (h2 sh1 o ha)
      simp only [runOps, Direct.runOps, ha, ← h1, ← hi]
      cases runOps C sh1 ops with
      | none => rfl
      | some rest => rfl

theorem safeProduceLogged_fst (C : Nat) (s : Direct.State) (d : Int) :
    (Direct.safeProduceLogged C s d).map Prod.fst = Direct.safeProduce C s d := by
  obtain ⟨cid, pid, cpos, ppos, bufs, smx, smp, smc⟩ := s
  cases smp with
  | zero => simp [Direct.safeProduceLogged, Direct.safeProduce, sem_wait]
  | succ smp =>
  cases smx with
  | zero => simp [Direct.safeProduceLogged, Direct.safeProduce, sem_wait]
  | succ smx =>
  by_cases h1 : ppos + 1 = C
  · by_cases h2 : cpos = C
    · simp [Direct.safeProduceLogged, Direct.safeProduce, sem_wait, h1, h2]
    · simp [Direct.safeProduceLogged, Direct.safeProduce, sem_wait, h1, h2]
  · simp [Direct.safeProduceLogged, Direct.safeProduce, sem_wait, h1]

/-- C12: the version of `swap_conprod.c` and the layered version of `three_sem.c` over
`buffer.c` behave alike.  Their initial states correspond, and for every sequence of
produce(value) and consume operations, each run to its return before the next starts, the
two versions block at the same operation or both complete the sequence; after every
operation the states correspond (same role ids, same produce and consume cursor, same
arrays, same counts of the mutex and of the two semaphores), the operation has swapped the
buffers in both versions or in neither, and a consume operation has returned the same
value. -/
theorem direct_and_layered_agree (C : Nat) (ops : List Op) :
    Direct.ofLayered (protocolInit C) = Direct.init C ∧
    (runOps C (protocolInit C) ops).map (List.map fun r => (Direct.ofLayered r.1, r.2)) =
      Direct.runOps C (Direct.init C) ops ∧
    (∀ (s : Direct.State) (d : Int),
      (Direct.safeProduceLogged C s d).map Prod.fst = Direct.safeProduce C s d) := by
  have h0 : Direct.ofLayered (protocolInit C) = Direct.init C := by
    simp [Direct.ofLayered, Direct.init, protocolInit, bufferInit]
  refine ⟨h0, ?_, safeProduceLogged_fst C⟩
  rw [← h0]
  exact runOps_corresponds C ops (protocolInit C) (init_wf C)

theorem direct_and_layered_agree_witness :
    (runOps 2 (protocolInit 2) [.produce 7, .produce 3, .consume, .consume, .produce 9]).map
        (List.map fun r => (Direct.ofLayered r.1, r.2)) =
      Direct.runOps 2 (Direct.init 2) [.produce 7, .produce 3, .consume, .consume, .produce 9] ∧
    (Direct.runOps 2 (Direct.init 2) [.produce 7, .produce 3, .consume, .consume, .produce 9]).map
        (List.map fun r => r.2) =
      some [⟨none, false⟩, ⟨none, true⟩, ⟨some 7, false⟩, ⟨some 3, false⟩, ⟨none, false⟩] ∧
    runOps 2 (protocolInit 2) [.consume] = none ∧
    Direct.runOps 2 (Direct.init 2) [.consume] = none :=
  ⟨(direct_and_layered_agree 2 [.produce 7, .produce 3, .consume, .consume, .produce 9]).2.1,
    by decide, by decide, by decide⟩

end SwapBuf
